import Mathlib

/-! # bgpview: a verification development of the BGPView API client

The client (`src/client.go`) builds an endpoint URL with `path.Join` and
`(*url.URL).Parse`, issues one GET and decodes the JSON body.  This file embeds

* the Go standard-library functions the accessors call (`strconv.Itoa`,
  `path.Clean`, `path.Join`, `net/url` parsing, escaping and reference
  resolution, `url.Values`), transcribed from the Go sources;
* the data model of `src/types.go`;
* `Client.do` and the ten accessors of `src/client.go`;
* `encoding/json` as the data model uses it: the scanner, `Decoder.Decode`
  into the types of `src/types.go` by their field tags, and `Marshal`.

A Go `string` is a sequence of bytes, modelled as `List (Fin 256)`;
`utf8 "..."` is the byte sequence of a literal.  Loops of the Go sources are
written with an explicit fuel argument that bounds the number of iterations.
Go `int` is modelled as `Int`.  The transport (`http.Client.Do`) and the JSON
decoder (`json.Decoder.Decode`) are parameters: the statements hold for every
transport and every decoder.

The statements about decoded values are about the model of `encoding/json`
applied to the reflection data of the types (`ASNInfo.goType` and the like).
A number held in an `interface{}` is a finite `float64`, given by its sign,
mantissa and exponent.  `strconv.ParseFloat` and the shortest digits of
`strconv.FormatFloat` are embedded by what they compute, not by the
algorithms that compute it (Eisel-Lemire, Ryu): the `float64` nearest to the
decimal, ties to even, and the shortest digits that are read back as the
number, the nearest of them.  The reading of the text (`readFloat`) and the
writing of the digits (`fmtE`, `fmtF`, the clean-up of the exponent in
`floatEncoder.encode`) follow the sources.

The statements about the URL an accessor requests are about the endpoint URL
it builds and hands to `do` (`Client.endpointGetASN` and the like); the
accessors themselves are `Client.GetASN` and the like.

The statements about what a call leaves behind are about a second embedding
of the client (namespace `heap`), in which the two pointers of a `Client` are
addresses into a store of objects, a Go assignment through a pointer is a
write to the store, and the dereference of a nil pointer gives `none`.  The
transport is a function of the request: it has no access to the store.
-/

set_option maxRecDepth 100000
set_option maxHeartbeats 1000000

/-! ## Bytes and strings -/

/-- One byte of a Go string. -/
abbrev Byte := Fin 256

/-- Go `string`: an immutable sequence of bytes. -/
abbrev GoString := List Byte

/-- The byte of an ASCII character literal such as `'/'`. -/
def ch (c : Char) : Byte := Fin.ofNat c.toNat

/-- The bytes (UTF-8) of a string literal. -/
def utf8 (s : String) : GoString :=
  s.toList.flatMap (fun c => (String.utf8EncodeChar c).map (fun b => Fin.ofNat b.toNat))

namespace strings

/-- Go `strings.IndexByte(s, c) >= 0`, also `strings.Contains(s, string(c))`. -/
def Contains (s : GoString) (c : Byte) : Bool := s.contains c

/-- Go `strings.Cut(s, sep)` for a one-byte separator: the text before the
first `sep`, the text after it, and whether `sep` was found. -/
def Cut : GoString → Byte → GoString × GoString × Bool
  | [], _ => ([], [], false)
  | c :: s, sep =>
    if c = sep then ([], s, true)
    else
      let r := Cut s sep
      (c :: r.1, r.2.1, r.2.2)

/-- Go `strings.Count(s, string(c))`. -/
def Count (s : GoString) (c : Byte) : Nat := s.count c

/-- Go `strings.HasPrefix`. -/
def HasPrefix (s pre : GoString) : Bool := pre.isPrefixOf s

/-- Go `strings.HasSuffix`. -/
def HasSuffix (s suf : GoString) : Bool := suf.isSuffixOf s

/-- Go `strings.LastIndex(s, string(c))`, with `-1` when `c` does not occur. -/
def LastIndex : GoString → Byte → Int
  | [], _ => -1
  | c :: s, sep =>
    let r := LastIndex s sep
    if 0 ≤ r then r + 1 else if c = sep then 0 else -1

/-- Go `strings.ToLower` on ASCII letters (the bytes a URL scheme can hold). -/
def ToLower (s : GoString) : GoString :=
  s.map (fun c => if ch 'A' ≤ c ∧ c ≤ ch 'Z' then c + 32 else c)

end strings

/-! ## strconv.Itoa -/

namespace strconv

/-- The decimal digit `'0' + d`. -/
def digit (d : Nat) : Byte := Fin.ofNat (48 + d)

/-- The base-10 loop of `formatBits`: two digits per iteration while
`us >= 100` (the bytes `smallsString[is]`, `smallsString[is+1]` for
`is = us % 100 * 2`), then the last one or two digits.  `acc` is the part of
the buffer already written (the text to the right). -/
def formatBits10 : Nat → Nat → GoString → GoString
  | 0, _, acc => acc
  | fuel + 1, us, acc =>
    if us ≥ 100 then
      formatBits10 fuel (us / 100) (digit (us % 100 / 10) :: digit (us % 100 % 10) :: acc)
    else if us ≥ 10 then digit (us / 10) :: digit (us % 10) :: acc
    else digit us :: acc

/-- Go `small`: the string of an integer `0 <= i < 100`, one byte of
`digits` or two bytes of `smallsString`. -/
def small (i : Nat) : GoString :=
  if i < 10 then [digit i] else [digit (i / 10), digit (i % 10)]

/-- Go `strconv.FormatInt(i, 10)`: the fast path for small integers, else the
digits of `|i|` written by `formatBits`, with a leading `-` when `i` is
negative. -/
def FormatInt (i : Int) : GoString :=
  if 0 ≤ i ∧ i < 100 then small i.toNat
  else
    let u := i.natAbs
    let s := formatBits10 (u + 1) u []
    if i < 0 then ch '-' :: s else s

/-- Go `strconv.Itoa`. -/
def Itoa (i : Int) : GoString := FormatInt i

end strconv

/-! ## strconv: `float64`, `ParseFloat` and `FormatFloat` -/

namespace strconv

/-- A finite Go `float64`: the number `(-1)^neg * mant * 2^(exp - 1074)`.
With the fields of the IEEE 754 format, `exp` is the biased exponent less one
and `mant` has the implicit bit added for a normal number; `exp` is zero and
`mant` is the fraction for zero and for a denormal one.  Infinities and NaN,
which the decoder never stores, are left out. -/
structure Float64 where
  neg : Bool
  mant : Nat
  exp : Nat
  deriving DecidableEq, Repr

instance : Inhabited Float64 := ⟨⟨false, 0, 0⟩⟩

/-- The `float64` values: the mantissa has 53 bits, the exponent is within
the range of the format, and the mantissa of a number above the denormal
range has its top bit set. -/
def Float64.valid (x : Float64) : Prop :=
  x.mant < 2 ^ 53 ∧ x.exp ≤ 2045 ∧ (x.exp = 0 ∨ 2 ^ 52 ≤ x.mant)

instance (x : Float64) : Decidable x.valid := by
  unfold Float64.valid
  exact inferInstance

/-- Go `==` on two `float64` values: the zeros of both signs are equal. -/
def Float64.eq (x y : Float64) : Bool :=
  decide (x = y) || (decide (x.mant = 0) && decide (y.mant = 0))

/-- Go `bits.Len`: the number of bits of `n`, by halving (`fuel` bounds the
number of steps). -/
def bitsLen : Nat → Nat → Nat
  | 0, _ => 0
  | fuel + 1, n => if n = 0 then 0 else bitsLen fuel (n / 2) + 1

/-- The number of decimal digits of `n`, zero for zero (`fuel` bounds the
number of steps). -/
def decimalLen : Nat → Nat → Nat
  | 0, _ => 0
  | fuel + 1, n => if n = 0 then 0 else decimalLen fuel (n / 10) + 1

/-- The integer nearest to `a / b`, the even one of the two when `a / b` lies
half way between them (IEEE 754 round to nearest even). -/
def roundHalfEven (a b : Nat) : Nat :=
  if 2 * (a % b) < b then a / b
  else if b < 2 * (a % b) then a / b + 1
  else if a / b % 2 = 0 then a / b
  else a / b + 1

/-- The `float64` nearest to the fraction `(-1)^neg * num / den`, rounded to
nearest even, or `none` when the rounded number is out of range.  The
fraction is scaled by `2^1074`, so that the unit is the least denormal
number; `ex` is the exponent of the result and `m0` the mantissa, which is
`2^53` when the rounding carries into the next exponent. -/
@[irreducible] def roundRatio (neg : Bool) (num den : Nat) : Option Float64 :=
  let n := num * 2 ^ 1074
  let ex := bitsLen (n / den) (n / den) - 53
  let m0 := roundHalfEven n (den * 2 ^ ex)
  let m := if m0 = 2 ^ 53 then 2 ^ 52 else m0
  let ex1 := if m0 = 2 ^ 53 then ex + 1 else ex
  if 2045 < ex1 then none else some { neg := neg, mant := m, exp := ex1 }

/-- The `float64` nearest to the decimal `(-1)^neg * d * 10^e10`, rounded to
nearest even: what `atof64` computes, by its exact, Eisel-Lemire or `decimal`
path.  The result is `none` when the rounded number is out of range
(`ErrRange`, with an infinity that the callers here drop). -/
@[irreducible] def roundFloat (neg : Bool) (d : Nat) (e10 : Int) : Option Float64 :=
  if 0 ≤ e10 then roundRatio neg (d * 10 ^ e10.toNat) 1
  else roundRatio neg d (10 ^ (-e10).toNat)

/-- A decimal digit. -/
def isDecimal (c : Byte) : Bool := decide (ch '0' ≤ c) && decide (c ≤ ch '9')

/-- The number written by decimal digits. -/
def decimalValue (ds : GoString) : Nat := ds.foldl (fun a c => a * 10 + (c.val - 48)) 0

/-- The exponent loop of `readFloat`: the digits are added as long as the
exponent is below 10000. -/
def readExponent (ds : GoString) : Nat :=
  ds.foldl (fun e c => if e < 10000 then e * 10 + (c.val - 48) else e) 0

/-- Go `readFloat` on a JSON number (an optional minus sign, digits, an
optional fraction, an optional exponent): the sign, the number written by the
digits of the mantissa, and the decimal exponent of its last digit. -/
def readFloat (s : GoString) : Bool × Nat × Int :=
  let neg : Bool := s.head? = some (ch '-')
  let s1 := if neg then s.tail else s
  let int := s1.takeWhile isDecimal
  let s2 := s1.dropWhile isDecimal
  let dot : Bool := s2.head? = some (ch '.')
  let frac := if dot then s2.tail.takeWhile isDecimal else []
  let s3 := if dot then s2.tail.dropWhile isDecimal else s2
  let exponent : Int :=
    match s3 with
    | c :: s4 =>
      if c = ch 'e' ∨ c = ch 'E' then
        match s4 with
        | g :: s5 =>
          if g = ch '-' then -(readExponent (s5.takeWhile isDecimal) : Int)
          else if g = ch '+' then (readExponent (s5.takeWhile isDecimal) : Int)
          else (readExponent (s4.takeWhile isDecimal) : Int)
        | [] => 0
      else 0
    | [] => 0
  (neg, decimalValue (int ++ frac), exponent - (frac.length : Int))

/-- Go `strconv.ParseFloat(s, 64)` on a JSON number: the nearest `float64`,
or `none` for the error `ErrRange`. -/
def ParseFloat (s : GoString) : Option Float64 :=
  roundFloat (readFloat s).1 (readFloat s).2.1 (readFloat s).2.2

/-- The decimal digits of a number, the most significant first (the digits
`formatBits` writes). -/
def decimalDigits (d : Nat) : GoString := formatBits10 (d + 1) d []

/-- The trailing zeros of the digits `d` moved into the decimal exponent `k`
(the step "trim zeros" of `ryuDigits`). -/
def trimZeros : Nat → Nat → Int → Nat × Int
  | 0, d, k => (d, k)
  | fuel + 1, d, k =>
    if d ≠ 0 ∧ d % 10 = 0 then trimZeros fuel (d / 10) (k + 1) else (d, k)

/-- The search of the shortest decimal that is read back as `x`.  The number
`t` is `|x| * 10^1074`, an integer, and `len` is the number of its digits, so
that the decimals of `n` digits next to `|x|` are `lo * 10^k` and
`(lo + 1) * 10^k` for `lo` the first `n` digits of `t`.  With `n` digits, the
one of the two nearer to `|x|` is tried first (the even one when they are as
near); with all the digits of `t` the decimal is `|x|` itself. -/
def shortestLoop (x : Float64) (t len : Nat) : Nat → Nat → Nat × Int
  | 0, _ => (t, -1074)
  | fuel + 1, n =>
    if len ≤ n then (t, -1074)
    else
      let p := 10 ^ (len - n)
      let lo := t / p
      let k : Int := ((len - n : Nat) : Int) - 1074
      let first := roundHalfEven t p
      let second := if first = lo then lo + 1 else lo
      if roundFloat x.neg first k = some x then (first, k)
      else if roundFloat x.neg second k = some x then (second, k)
      else shortestLoop x t len fuel (n + 1)

/-- The digits and the decimal exponent that `ryuFtoaShortest` gives for a
`float64` that is not zero: the decimal `d * 10^k` of the fewest digits that
`ParseFloat` reads back as `x`, the nearest to `x` of those, without trailing
zeros. -/
@[irreducible] def shortest (x : Float64) : Nat × Int :=
  let t := x.mant * 2 ^ x.exp * 5 ^ 1074
  let len := decimalLen t t
  let r := shortestLoop x t len len 1
  trimZeros r.1 r.1 r.2

/-- The exponent of `%e` as `fmtE` writes it: a sign and two or three digits. -/
def fmtExponent (e : Int) : GoString :=
  let a := e.natAbs
  (if e < 0 then ch '-' else ch '+') ::
    (if a < 10 then [ch '0', digit a]
     else if a < 100 then [digit (a / 10), digit (a % 10)]
     else [digit (a / 100), digit (a / 10 % 10), digit (a % 10)])

/-- Go `fmtE` with the precision of the shortest digits `ds`, the decimal
point standing `dp` places after the start of them: `d.ddde±dd`. -/
def fmtE (neg : Bool) (ds : GoString) (dp : Int) : GoString :=
  (if neg then [ch '-'] else []) ++ ds.head?.getD (ch '0') ::
    ((if 1 < ds.length then ch '.' :: ds.drop 1 else []) ++
      ch 'e' :: fmtExponent (if ds = [] then 0 else dp - 1))

/-- Go `fmtF` with the precision of the shortest digits `ds`, the decimal
point standing `dp` places after the start of them: the integer part, padded
with zeros, then the fraction if there is one. -/
def fmtF (neg : Bool) (ds : GoString) (dp : Int) : GoString :=
  (if neg then [ch '-'] else []) ++
    (if 0 < dp then ds.take dp.toNat ++ List.replicate (dp.toNat - ds.length) (ch '0')
     else [ch '0']) ++
    (if dp < (ds.length : Int) then
      ch '.' :: (List.replicate (-dp).toNat (ch '0') ++ ds.drop dp.toNat)
     else [])

/-- The digits of `%e` and `%f` with precision -1 and the place of the
decimal point after the start of them: no digit for zero, else the shortest
digits. -/
def shortestDigits (x : Float64) : GoString × Int :=
  if x.mant = 0 then ([], 0)
  else (decimalDigits (shortest x).1,
    (shortest x).2 + ((decimalDigits (shortest x).1).length : Int))

/-- Go `strconv.AppendFloat(nil, x, fmt, -1, 64)` for the formats `e` and
`f`. -/
def FormatFloat (x : Float64) (fmt : Byte) : GoString :=
  if fmt = ch 'e' then fmtE x.neg (shortestDigits x).1 (shortestDigits x).2
  else fmtF x.neg (shortestDigits x).1 (shortestDigits x).2

/-- The `float64` of the constant `1e-6`. -/
def float1e_6 : Float64 := { neg := false, mant := 4722366482869645, exp := 1002 }

/-- The `float64` of the constant `1e21`. -/
def float1e21 : Float64 := { neg := false, mant := 7629394531250000, exp := 1091 }

/-- Go `<` on the absolute values of two `float64` values. -/
def Float64.absLess (x y : Float64) : Bool := decide (x.mant * 2 ^ x.exp < y.mant * 2 ^ y.exp)

end strconv

/-! ## path.Clean and path.Join -/

namespace path

/-- The backtracking loop of `Clean` at a `..` element: starting from write
index `w`, step back while `w > dotdot` and the byte at `w` is not `/`. -/
def backtrack (out : GoString) (dotdot : Nat) : Nat → Nat
  | 0 => 0
  | w + 1 =>
    if w + 1 > dotdot ∧ out.get? (w + 1) ≠ some (ch '/') then backtrack out dotdot w
    else w + 1

/-- The main loop of `Clean`.  `rest` is the unread input `path[r:]`, `out`
the bytes written so far (`out.w = out.length`), `dotdot` the index in `out`
where `..` must stop. -/
def cleanLoop (rooted : Bool) : Nat → GoString → GoString → Nat → GoString
  | 0, _, out, _ => out
  | fuel + 1, rest, out, dotdot =>
    match rest with
    | [] => out
    | c :: rest1 =>
      if c = ch '/' then
        -- empty path element
        cleanLoop rooted fuel rest1 out dotdot
      else if c = ch '.' ∧ (rest1 = [] ∨ rest1.head? = some (ch '/')) then
        -- . element
        cleanLoop rooted fuel rest1 out dotdot
      else if c = ch '.' ∧ rest1.head? = some (ch '.') ∧
          (rest1.tail = [] ∨ rest1.tail.head? = some (ch '/')) then
        -- .. element: remove to last /
        let rest2 := rest1.tail
        if out.length > dotdot then
          -- can backtrack
          cleanLoop rooted fuel rest2 (out.take (backtrack out dotdot (out.length - 1))) dotdot
        else if !rooted then
          -- cannot backtrack, but not rooted, so append .. element
          let out1 := if out.length > 0 then out ++ [ch '/'] else out
          let out2 := out1 ++ [ch '.', ch '.']
          cleanLoop rooted fuel rest2 out2 out2.length
        else
          cleanLoop rooted fuel rest2 out dotdot
      else
        -- real path element: add slash if needed, then copy the element
        let out1 :=
          if (rooted ∧ out.length ≠ 1) ∨ (!rooted ∧ out.length ≠ 0) then out ++ [ch '/'] else out
        cleanLoop rooted fuel (rest.dropWhile (fun b => b ≠ ch '/'))
          (out1 ++ rest.takeWhile (fun b => b ≠ ch '/')) dotdot

/-- Go `path.Clean`: the shortest path name equivalent to `path` by purely
lexical processing. -/
def Clean (path : GoString) : GoString :=
  if path = [] then [ch '.']
  else
    let rooted := path.head? = some (ch '/')
    let out :=
      if rooted then cleanLoop rooted (path.length + 1) path.tail [ch '/'] 1
      else cleanLoop rooted (path.length + 1) path [] 0
    -- Turn empty string into "."
    if out.length = 0 then [ch '.'] else out

/-- The buffer loop of `Join`: non-empty elements separated by `/`. -/
def joinBuf : List GoString → GoString → GoString
  | [], buf => buf
  | e :: elem, buf =>
    if buf.length > 0 ∨ e ≠ [] then
      joinBuf elem ((if buf.length > 0 then buf ++ [ch '/'] else buf) ++ e)
    else joinBuf elem buf

/-- Go `path.Join`: joins the elements with `/`, ignoring empty ones, and
cleans the result; all-empty input gives the empty string. -/
def Join (elem : List GoString) : GoString :=
  let size := (elem.map List.length).sum
  if size = 0 then [] else Clean (joinBuf elem [])

end path

/-! ## Errors -/

/-- Go `error` values the client can return. -/
inductive GoError where
  /-- `errors.New(msg)` or `fmt.Errorf` with the formatted message `msg`. -/
  | errorString (msg : GoString)
  /-- `url.EscapeError(s)`: an invalid percent escape. -/
  | EscapeError (s : GoString)
  /-- `url.InvalidHostError(s)`: an invalid byte in a host name. -/
  | InvalidHostError (s : GoString)
  /-- `&url.Error{Op, URL, Err}`. -/
  | urlError (Op : GoString) (URL : GoString) (Err : GoError)
  /-- An error produced outside the modelled code (transport, JSON decoder,
  body reader), identified by a tag. -/
  | external (tag : Nat)
  /-- `*json.SyntaxError`; its message and offset are not modelled. -/
  | jsonSyntaxError
  /-- `&json.UnmarshalTypeError{Value, Type}`: a JSON value that does not fit
  the Go type named `TypeName`; struct, field and offset are not modelled. -/
  | jsonUnmarshalTypeError (Value : GoString) (TypeName : GoString)
  /-- `&json.MarshalerError{Type, Err}` of a `json.RawMessage` that is not
  valid JSON, for the type named `TypeName`. -/
  | jsonMarshalerError (TypeName : GoString) (Err : GoError)
  deriving DecidableEq, Repr

deriving instance DecidableEq for Except

/-! ## net/url: escaping -/

namespace url

/-- The escaping modes of `net/url`. -/
inductive encoding where
  | encodePath
  | encodePathSegment
  | encodeHost
  | encodeZone
  | encodeUserPassword
  | encodeQueryComponent
  | encodeFragment
  deriving DecidableEq, Repr

open encoding

/-- Go `ishex`. -/
def ishex (c : Byte) : Bool :=
  (ch '0' ≤ c ∧ c ≤ ch '9') ∨ (ch 'a' ≤ c ∧ c ≤ ch 'f') ∨ (ch 'A' ≤ c ∧ c ≤ ch 'F')

/-- Go `unhex` (byte arithmetic wraps modulo 256). -/
def unhex (c : Byte) : Byte :=
  if ch '0' ≤ c ∧ c ≤ ch '9' then c - ch '0'
  else if ch 'a' ≤ c ∧ c ≤ ch 'f' then c - ch 'a' + 10
  else if ch 'A' ≤ c ∧ c ≤ ch 'F' then c - ch 'A' + 10
  else 0

/-- Go `upperhex[i]`, the table `"0123456789ABCDEF"`. -/
def upperhex (i : Nat) : Byte := (utf8 "0123456789ABCDEF").getD i 0

/-- Go `shouldEscape`: whether byte `c` must be percent-escaped in `mode`. -/
def shouldEscape (c : Byte) (mode : encoding) : Bool :=
  -- §2.3 Unreserved characters (alphanum)
  if (ch 'a' ≤ c ∧ c ≤ ch 'z') ∨ (ch 'A' ≤ c ∧ c ≤ ch 'Z') ∨ (ch '0' ≤ c ∧ c ≤ ch '9') then false
  else if (mode = encodeHost ∨ mode = encodeZone) ∧
      c ∈ [ch '!', ch '$', ch '&', ch '\'', ch '(', ch ')', ch '*', ch '+', ch ',', ch ';',
           ch '=', ch ':', ch '[', ch ']', ch '<', ch '>', ch '"'] then false
  -- §2.3 Unreserved characters (mark)
  else if c ∈ [ch '-', ch '_', ch '.', ch '~'] then false
  -- §2.2 Reserved characters (reserved)
  else if c ∈ [ch '$', ch '&', ch '+', ch ',', ch '/', ch ':', ch ';', ch '=', ch '?', ch '@'] ∧
      mode ∈ [encodePath, encodePathSegment, encodeUserPassword, encodeQueryComponent,
              encodeFragment] then
    match mode with
    | encodePath => c = ch '?'
    | encodePathSegment => c = ch '/' ∨ c = ch ';' ∨ c = ch ',' ∨ c = ch '?'
    | encodeUserPassword => c = ch '@' ∨ c = ch '/' ∨ c = ch '?' ∨ c = ch ':'
    | encodeQueryComponent => true
    | _ => false
  else if mode = encodeFragment ∧ c ∈ [ch '!', ch '(', ch ')', ch '*'] then false
  -- Everything else must be escaped.
  else true

/-- The bytes `escape` writes for one input byte. -/
def escapeByte (mode : encoding) (c : Byte) : GoString :=
  if c = ch ' ' ∧ mode = encodeQueryComponent then [ch '+']
  else if shouldEscape c mode then [ch '%', upperhex (c.val / 16), upperhex (c.val % 16)]
  else [c]

/-- Go `escape`: the input itself when no byte needs escaping, otherwise each
byte written as itself, as `+` (a space in a query component) or as `%XX`. -/
def escape (s : GoString) (mode : encoding) : GoString :=
  if s.all (fun c => !shouldEscape c mode) then s
  else s.flatMap (escapeByte mode)

/-- First loop of `unescape`: counts the `%` escapes, checks that they are
well formed and records whether a `+` must be turned into a space. -/
def unescapeScan (mode : encoding) : GoString → Nat → Bool → Except GoError (Nat × Bool)
  | [], n, hasPlus => .ok (n, hasPlus)
  | c :: s, n, hasPlus =>
    if c = ch '%' then
      match s with
      | a :: b :: s2 =>
        if !ishex a ∨ !ishex b then .error (.EscapeError ((c :: s).take 3))
        else if mode = encodeHost ∧ unhex a < 8 ∧ [c, a, b] ≠ utf8 "%25" then
          .error (.EscapeError [c, a, b])
        else if mode = encodeZone ∧ [c, a, b] ≠ utf8 "%25" ∧ unhex a * 16 + unhex b ≠ ch ' ' ∧
            shouldEscape (unhex a * 16 + unhex b) encodeHost then
          .error (.EscapeError [c, a, b])
        else unescapeScan mode s2 (n + 1) hasPlus
      | _ => .error (.EscapeError ((c :: s).take 3))
    else if c = ch '+' then unescapeScan mode s n (mode = encodeQueryComponent)
    else if (mode = encodeHost ∨ mode = encodeZone) ∧ c < 0x80 ∧ shouldEscape c encodeHost then
      .error (.InvalidHostError [c])
    else unescapeScan mode s n hasPlus

/-- Second loop of `unescape`: `%XX` becomes the byte `unhex(X)<<4 | unhex(X)`,
`+` becomes a space in a query component. -/
def unescapeBuild (mode : encoding) : GoString → GoString
  | [] => []
  | c :: s =>
    if c = ch '%' then
      match s with
      | a :: b :: s2 => (unhex a * 16 + unhex b) :: unescapeBuild mode s2
      | _ => []
    else if c = ch '+' then
      (if mode = encodeQueryComponent then ch ' ' else ch '+') :: unescapeBuild mode s
    else c :: unescapeBuild mode s

/-- Go `unescape`. -/
def unescape (s : GoString) (mode : encoding) : Except GoError GoString :=
  match unescapeScan mode s 0 false with
  | .error e => .error e
  | .ok (n, hasPlus) =>
    if n = 0 ∧ !hasPlus then .ok s else .ok (unescapeBuild mode s)

/-- Go `url.QueryEscape`. -/
def QueryEscape (s : GoString) : GoString := escape s encodeQueryComponent

/-- Go `url.QueryUnescape`. -/
def QueryUnescape (s : GoString) : Except GoError GoString := unescape s encodeQueryComponent

/-- Go `validEncoded`: whether `s` is a valid encoded path or fragment. -/
def validEncoded (s : GoString) (mode : encoding) : Bool :=
  s.all (fun c =>
    if c ∈ [ch '!', ch '$', ch '&', ch '\'', ch '(', ch ')', ch '*', ch '+', ch ',', ch ';',
            ch '=', ch ':', ch '@'] then true
    else if c ∈ [ch '[', ch ']'] then true
    else if c = ch '%' then true
    else !shouldEscape c mode)

end url

/-! ## net/url: the URL type and parsing -/

namespace strings

/-- Go `strings.Index(s, sub)` as an optional index. -/
def Index : GoString → GoString → Option Nat
  | [], sub => if sub = [] then some 0 else none
  | c :: s, sub =>
    if sub.isPrefixOf (c :: s) then some 0
    else (Index s sub).map (fun i => i + 1)

end strings

namespace url

open encoding

/-- Go `url.Userinfo`. -/
structure Userinfo where
  username : GoString
  password : GoString
  passwordSet : Bool
  deriving DecidableEq, Repr

/-- Go `url.URL`. -/
structure URL where
  Scheme : GoString
  Opaque : GoString
  User : Option Userinfo
  Host : GoString
  Path : GoString
  RawPath : GoString
  OmitHost : Bool
  ForceQuery : Bool
  RawQuery : GoString
  Fragment : GoString
  RawFragment : GoString
  deriving DecidableEq, Repr

/-- The zero value `new(URL)`. -/
def URL.zero : URL :=
  { Scheme := [], Opaque := [], User := none, Host := [], Path := [], RawPath := [],
    OmitHost := false, ForceQuery := false, RawQuery := [], Fragment := [], RawFragment := [] }

/-- Go `stringContainsCTLByte`: an ASCII control byte occurs in `s`. -/
def stringContainsCTLByte (s : GoString) : Bool :=
  s.any (fun b => b < ch ' ' ∨ b = 0x7f)

/-- Scanning loop of `getScheme`; `i` is the index of the byte `c` read and
`rawURL` the whole input. -/
def getSchemeLoop (rawURL : GoString) : GoString → Nat → Except GoError (GoString × GoString)
  | [], _ => .ok ([], rawURL)
  | c :: s, i =>
    if (ch 'a' ≤ c ∧ c ≤ ch 'z') ∨ (ch 'A' ≤ c ∧ c ≤ ch 'Z') then getSchemeLoop rawURL s (i + 1)
    else if (ch '0' ≤ c ∧ c ≤ ch '9') ∨ c = ch '+' ∨ c = ch '-' ∨ c = ch '.' then
      if i = 0 then .ok ([], rawURL) else getSchemeLoop rawURL s (i + 1)
    else if c = ch ':' then
      if i = 0 then .error (.errorString (utf8 "missing protocol scheme"))
      else .ok (rawURL.take i, s)
    else
      -- an invalid character: there is no valid scheme
      .ok ([], rawURL)

/-- Go `getScheme`: `(scheme, rest)` of `scheme:rest`, or `("", rawURL)`. -/
def getScheme (rawURL : GoString) : Except GoError (GoString × GoString) :=
  getSchemeLoop rawURL rawURL 0

/-- Go `validOptionalPort`: empty, or `:` followed by digits. -/
def validOptionalPort (port : GoString) : Bool :=
  match port with
  | [] => true
  | c :: p => c = ch ':' ∧ p.all (fun b => ch '0' ≤ b ∧ b ≤ ch '9')

/-- Go `validUserinfo`. -/
def validUserinfo (s : GoString) : Bool :=
  s.all (fun r =>
    (ch 'A' ≤ r ∧ r ≤ ch 'Z') ∨ (ch 'a' ≤ r ∧ r ≤ ch 'z') ∨ (ch '0' ≤ r ∧ r ≤ ch '9') ∨
    r ∈ [ch '-', ch '.', ch '_', ch ':', ch '~', ch '!', ch '$', ch '&', ch '\'', ch '(',
         ch ')', ch '*', ch '+', ch ',', ch ';', ch '=', ch '%', ch '@'])

/-- The error `fmt.Errorf("invalid port %q after host", colonPort)`; the
quoted text is kept unrendered after the message. -/
def invalidPort (colonPort : GoString) : GoError :=
  .urlError (utf8 "invalid port after host") colonPort (.errorString [])

/-- Go `parseHost`. -/
def parseHost (host : GoString) : Except GoError GoString :=
  if strings.HasPrefix host (utf8 "[") then
    -- an IP-Literal, as in "[fe80::1]", "[fe80::1%25en0]", "[fe80::1]:80"
    let i := strings.LastIndex host (ch ']')
    if i < 0 then .error (.errorString (utf8 "missing ']' in host"))
    else
      let colonPort := host.drop (i.toNat + 1)
      if !validOptionalPort colonPort then .error (invalidPort colonPort)
      else
        match strings.Index (host.take i.toNat) (utf8 "%25") with
        | some zone =>
          match unescape (host.take zone) encodeHost with
          | .error e => .error e
          | .ok host1 =>
            match unescape ((host.take i.toNat).drop zone) encodeZone with
            | .error e => .error e
            | .ok host2 =>
              match unescape (host.drop i.toNat) encodeHost with
              | .error e => .error e
              | .ok host3 => .ok (host1 ++ host2 ++ host3)
        | none => unescape host encodeHost
  else
    let i := strings.LastIndex host (ch ':')
    if i ≠ -1 ∧ !validOptionalPort (host.drop i.toNat) then
      .error (invalidPort (host.drop i.toNat))
    else unescape host encodeHost

/-- Go `parseAuthority`: `[userinfo@]host`. -/
def parseAuthority (authority : GoString) : Except GoError (Option Userinfo × GoString) :=
  let i := strings.LastIndex authority (ch '@')
  match (if i < 0 then parseHost authority else parseHost (authority.drop (i.toNat + 1))) with
  | .error e => .error e
  | .ok host =>
    if i < 0 then .ok (none, host)
    else
      let userinfo := authority.take i.toNat
      if !validUserinfo userinfo then .error (.errorString (utf8 "net/url: invalid userinfo"))
      else if !strings.Contains userinfo (ch ':') then
        match unescape userinfo encodeUserPassword with
        | .error e => .error e
        | .ok u => .ok (some { username := u, password := [], passwordSet := false }, host)
      else
        let c := strings.Cut userinfo (ch ':')
        match unescape c.1 encodeUserPassword with
        | .error e => .error e
        | .ok username =>
          match unescape c.2.1 encodeUserPassword with
          | .error e => .error e
          | .ok password =>
            .ok (some { username := username, password := password, passwordSet := true }, host)

/-- Go `(*URL).setPath`: sets `Path` and, when the default escaping of `Path`
differs from `p`, `RawPath`. -/
def URL.setPath (u : URL) (p : GoString) : Except GoError URL :=
  match unescape p encodePath with
  | .error e => .error e
  | .ok path =>
    if p = escape path encodePath then .ok { u with Path := path, RawPath := [] }
    else .ok { u with Path := path, RawPath := p }

/-- Go `(*URL).setFragment`. -/
def URL.setFragment (u : URL) (f : GoString) : Except GoError URL :=
  match unescape f encodeFragment with
  | .error e => .error e
  | .ok frag =>
    if f = escape frag encodeFragment then .ok { u with Fragment := frag, RawFragment := [] }
    else .ok { u with Fragment := frag, RawFragment := f }

/-- The test `p, err := unescape(raw, mode); err == nil && p == want`. -/
def unescapesTo (raw : GoString) (mode : encoding) (want : GoString) : Bool :=
  match unescape raw mode with
  | .ok p => decide (p = want)
  | .error _ => false

/-- Go `(*URL).EscapedPath`. -/
def URL.EscapedPath (u : URL) : GoString :=
  if u.RawPath ≠ [] ∧ validEncoded u.RawPath encodePath ∧
      unescapesTo u.RawPath encodePath u.Path then u.RawPath
  else if u.Path = utf8 "*" then utf8 "*"
  else escape u.Path encodePath

/-- Go `(*URL).EscapedFragment`. -/
def URL.EscapedFragment (u : URL) : GoString :=
  if u.RawFragment ≠ [] ∧ validEncoded u.RawFragment encodeFragment ∧
      unescapesTo u.RawFragment encodeFragment u.Fragment then u.RawFragment
  else escape u.Fragment encodeFragment

/-- Go `parse(rawURL, viaRequest)` with `viaRequest = false`: parses a URL
from which the fragment has been cut. -/
def parse (rawURL : GoString) : Except GoError URL :=
  if stringContainsCTLByte rawURL then
    .error (.errorString (utf8 "net/url: invalid control character in URL"))
  else if rawURL = utf8 "*" then .ok { URL.zero with Path := utf8 "*" }
  else
    -- Split off possible leading "http:", "mailto:", etc.
    match getScheme rawURL with
    | .error e => .error e
    | .ok (scheme, rest0) =>
      let url0 : URL := { URL.zero with Scheme := strings.ToLower scheme }
      let forceQuery := strings.HasSuffix rest0 (utf8 "?") ∧ strings.Count rest0 (ch '?') = 1
      let rest1 := if forceQuery then rest0.take (rest0.length - 1) else (strings.Cut rest0 (ch '?')).1
      let url1 : URL :=
        if forceQuery then { url0 with ForceQuery := true }
        else { url0 with RawQuery := (strings.Cut rest0 (ch '?')).2.1 }
      if !strings.HasPrefix rest1 (utf8 "/") ∧ url1.Scheme ≠ [] then
        -- rootless paths are opaque
        .ok { url1 with Opaque := rest1 }
      else if !strings.HasPrefix rest1 (utf8 "/") ∧
          strings.Contains (strings.Cut rest1 (ch '/')).1 (ch ':') then
        -- first path segment has a colon: not allowed in a relative URL
        .error (.errorString (utf8 "first path segment in URL cannot contain colon"))
      else if (url1.Scheme ≠ [] ∨ !strings.HasPrefix rest1 (utf8 "///")) ∧
          strings.HasPrefix rest1 (utf8 "//") then
        let authority0 := rest1.drop 2
        let found := strings.Contains authority0 (ch '/')
        let authority := if found then (strings.Cut authority0 (ch '/')).1 else authority0
        let rest2 := if found then ch '/' :: (strings.Cut authority0 (ch '/')).2.1 else []
        match parseAuthority authority with
        | .error e => .error e
        | .ok (user, host) => URL.setPath { url1 with User := user, Host := host } rest2
      else if url1.Scheme ≠ [] ∧ strings.HasPrefix rest1 (utf8 "/") then
        -- an empty host (authority) is omitted
        URL.setPath { url1 with OmitHost := true } rest1
      else URL.setPath url1 rest1

/-- Go `url.Parse`: cuts off `#frag`, parses the rest, then sets the fragment;
errors are wrapped in `&url.Error{"parse", ...}`. -/
def Parse (rawURL : GoString) : Except GoError URL :=
  let c := strings.Cut rawURL (ch '#')
  match parse c.1 with
  | .error e => .error (.urlError (utf8 "parse") c.1 e)
  | .ok url =>
    if c.2.1 = [] then .ok url
    else
      match url.setFragment c.2.1 with
      | .error e => .error (.urlError (utf8 "parse") rawURL e)
      | .ok url => .ok url

end url

/-! ## net/url: reference resolution, string form and query values -/

namespace url

open encoding

/-- The element loop of `resolvePath`: `remaining` is the unread part of the
full path, `dst` the builder's content, `first` whether no element has been
written since the last reset.  Returns the builder and the last element. -/
def resolveLoop : Nat → GoString → GoString → Bool → GoString × GoString
  | 0, _, dst, _ => (dst, [])
  | fuel + 1, remaining, dst, first =>
    let c := strings.Cut remaining (ch '/')
    let elem := c.1
    let next : GoString × Bool :=
      if elem = utf8 "." then (dst, false)
      else if elem = utf8 ".." then
        -- ignore the leading '/' already written
        let str := dst.drop 1
        let index := strings.LastIndex str (ch '/')
        if index = -1 then ([ch '/'], true)
        else ([ch '/'] ++ str.take index.toNat, first)
      else ((if !first then dst ++ [ch '/'] else dst) ++ elem, false)
    if c.2.2 then resolveLoop fuel c.2.1 next.1 next.2 else (next.1, elem)

/-- Go `resolvePath`: applies the special path segments of `ref` to `base`,
per RFC 3986. -/
def resolvePath (base ref : GoString) : GoString :=
  let full :=
    if ref = [] then base
    else if ref.head? ≠ some (ch '/') then
      base.take (strings.LastIndex base (ch '/') + 1).toNat ++ ref
    else ref
  if full = [] then []
  else
    let r := resolveLoop (full.length + 1) full [ch '/'] true
    let dst := if r.2 = utf8 "." ∨ r.2 = utf8 ".." then r.1 ++ [ch '/'] else r.1
    -- an initial '/' was written, but two are not wanted
    if dst.length > 1 ∧ dst.get? 1 = some (ch '/') then dst.drop 1 else dst

/-- The value left by `url.setPath(p)` when its error is ignored: on failure
the URL is unchanged. -/
def URL.setPathIgnoringError (u : URL) (p : GoString) : URL :=
  match u.setPath p with
  | .ok v => v
  | .error _ => u

/-- Go `(*URL).ResolveReference`: resolves the reference `ref` against the
base `u`. -/
def URL.ResolveReference (u ref : URL) : URL :=
  let url0 : URL := if ref.Scheme = [] then { ref with Scheme := u.Scheme } else ref
  if ref.Scheme ≠ [] ∨ ref.Host ≠ [] ∨ ref.User ≠ none then
    -- the "absoluteURI" or "net_path" cases
    url0.setPathIgnoringError (resolvePath ref.EscapedPath [])
  else if ref.Opaque ≠ [] then
    { url0 with User := none, Host := [], Path := [] }
  else
    let url1 : URL :=
      if ref.Path = [] ∧ !ref.ForceQuery ∧ ref.RawQuery = [] then
        if ref.Fragment = [] then
          { url0 with RawQuery := u.RawQuery, Fragment := u.Fragment, RawFragment := u.RawFragment }
        else { url0 with RawQuery := u.RawQuery }
      else url0
    if ref.Path = [] ∧ u.Opaque ≠ [] then
      { url1 with Opaque := u.Opaque, User := none, Host := [], Path := [] }
    else
      -- the "abs_path" or "rel_path" cases
      URL.setPathIgnoringError { url1 with Host := u.Host, User := u.User }
        (resolvePath u.EscapedPath ref.EscapedPath)

/-- Go `(*URL).Parse`: parses `ref` in the context of the receiver. -/
def URL.Parse (u : URL) (ref : GoString) : Except GoError URL :=
  match url.Parse ref with
  | .error e => .error e
  | .ok refURL => .ok (u.ResolveReference refURL)

/-- Go `(*Userinfo).String`. -/
def Userinfo.String (u : Userinfo) : GoString :=
  let s := escape u.username encodeUserPassword
  if u.passwordSet then s ++ [ch ':'] ++ escape u.password encodeUserPassword else s

/-- Go `(*URL).String`: reassembles the URL into a URL string. -/
def URL.String (u : URL) : GoString :=
  let buf0 : GoString := if u.Scheme ≠ [] then u.Scheme ++ [ch ':'] else []
  let buf1 : GoString :=
    if u.Opaque ≠ [] then buf0 ++ u.Opaque
    else
      let buf2 : GoString :=
        if u.Scheme ≠ [] ∨ u.Host ≠ [] ∨ u.User ≠ none then
          if u.OmitHost ∧ u.Host = [] ∧ u.User = none then buf0
          else
            let b0 := if u.Host ≠ [] ∨ u.Path ≠ [] ∨ u.User ≠ none then buf0 ++ utf8 "//" else buf0
            let b1 := match u.User with
              | some ui => b0 ++ ui.String ++ [ch '@']
              | none => b0
            if u.Host ≠ [] then b1 ++ escape u.Host encodeHost else b1
        else buf0
      let path := u.EscapedPath
      let buf3 :=
        if path ≠ [] ∧ path.head? ≠ some (ch '/') ∧ u.Host ≠ [] then buf2 ++ [ch '/'] else buf2
      let buf4 :=
        if buf3.length = 0 ∧ strings.Contains (strings.Cut path (ch '/')).1 (ch ':') then
          buf3 ++ utf8 "./"
        else buf3
      buf4 ++ path
  let buf5 := if u.ForceQuery ∨ u.RawQuery ≠ [] then buf1 ++ [ch '?'] ++ u.RawQuery else buf1
  if u.Fragment ≠ [] then buf5 ++ [ch '#'] ++ u.EscapedFragment else buf5

/-- Go `url.Values`, a `map[string][]string`: a list of keys, each with its
values, no key occurring twice. -/
abbrev Values := List (GoString × List GoString)

/-- The map read `v[key]` (`nil` when the key is absent). -/
def Values.lookup (v : Values) (key : GoString) : List GoString :=
  match v with
  | [] => []
  | (k, vs) :: rest => if k = key then vs else Values.lookup rest key

/-- The map write `v[key] = vs`. -/
def Values.store (v : Values) (key : GoString) (vs : List GoString) : Values :=
  match v with
  | [] => [(key, vs)]
  | (k, old) :: rest => if k = key then (k, vs) :: rest else (k, old) :: Values.store rest key vs

/-- Go `Values.Set`: sets the key to a single value, replacing existing ones. -/
def Values.Set (v : Values) (key value : GoString) : Values := v.store key [value]

/-- Byte-wise string order `a < b` (Go's `<` on strings). -/
def strLess : GoString → GoString → Bool
  | _, [] => false
  | [], _ :: _ => true
  | a :: as, b :: bs => a < b ∨ (a = b ∧ strLess as bs)

/-- Inserts a key into a sorted list of keys. -/
def insertKey (k : GoString) : List GoString → List GoString
  | [] => [k]
  | x :: xs => if strLess x k then x :: insertKey k xs else k :: x :: xs

/-- The keys of the map in sorted order (`slices.Sort(keys)`). -/
def Values.sortedKeys (v : Values) : List GoString :=
  (v.map Prod.fst).foldr insertKey []

/-- The writes of `Encode` for one key: `key=value` per value, with `&`
before each pair that is not the first in the buffer. -/
def encodeKey (keyEscaped : GoString) : List GoString → GoString → GoString
  | [], buf => buf
  | v :: vs, buf =>
    encodeKey keyEscaped vs
      ((if buf.length > 0 then buf ++ [ch '&'] else buf) ++ keyEscaped ++ [ch '='] ++ QueryEscape v)

/-- Go `Values.Encode`: the values in "URL encoded" form
(`bar=baz&foo=quux`), sorted by key. -/
def Values.Encode (v : Values) : GoString :=
  if v.length = 0 then []
  else (Values.sortedKeys v).foldl (fun buf k => encodeKey (QueryEscape k) (v.lookup k) buf) []

/-- The loop of `parseQuery`: `m` is the map being filled, `err` the first
error met. -/
def parseQueryLoop : Nat → GoString → Values → Option GoError → Values × Option GoError
  | 0, _, m, err => (m, err)
  | fuel + 1, query, m, err =>
    if query = [] then (m, err)
    else
      let c := strings.Cut query (ch '&')
      let key0 := c.1
      let query1 := c.2.1
      if strings.Contains key0 (ch ';') then
        parseQueryLoop fuel query1 m
          (some (.errorString (utf8 "invalid semicolon separator in query")))
      else if key0 = [] then parseQueryLoop fuel query1 m err
      else
        let kv := strings.Cut key0 (ch '=')
        match QueryUnescape kv.1 with
        | .error err1 => parseQueryLoop fuel query1 m (if err = none then some err1 else err)
        | .ok key =>
          match QueryUnescape kv.2.1 with
          | .error err1 => parseQueryLoop fuel query1 m (if err = none then some err1 else err)
          | .ok value => parseQueryLoop fuel query1 (m.store key (m.lookup key ++ [value])) err

/-- Go `url.ParseQuery`: the map of the URL-encoded query string, with the
first decoding error found. -/
def ParseQuery (query : GoString) : Values × Option GoError :=
  parseQueryLoop (query.length + 1) query [] none

/-- Go `(*URL).Query`: parses `RawQuery`, silently discarding malformed pairs. -/
def URL.Query (u : URL) : Values := (ParseQuery u.RawQuery).1

end url

/-! ## The data model (`src/types.go`) -/

namespace bgpview

/-- Go slice `[]T`: `none` is the nil slice, `some []` the empty non-nil one. -/
abbrev Slice (α : Type) := Option (List α)

/-- Go `interface{}` as filled by the JSON decoder: nil, a bool, a number
(a `float64`), a string, an array or an object. -/
inductive GoAny where
  | nil
  | bool (b : Bool)
  | number (f : strconv.Float64)
  | string (s : GoString)
  | array (elems : List GoAny)
  | object (fields : List (GoString × GoAny))

instance : Inhabited GoAny := ⟨GoAny.nil⟩

/-- Go `Meta` of `types.go`. -/
structure Meta where
  /-- JSON key `time_zone`, `omitempty`. -/
  TimeZone : GoString
  /-- JSON key `api_version`, `omitempty`. -/
  APIVersion : Int
  /-- JSON key `execution_time`, `omitempty`. -/
  ExecutionTime : GoString
  deriving Inhabited

/-- Go `ASNPrefixesParent` of `types.go`. -/
structure ASNPrefixesParent where
  /-- JSON key `prefix`, `omitempty`. -/
  Prefix : GoString
  /-- JSON key `ip`, `omitempty`. -/
  IP : GoString
  /-- JSON key `cidr`, `omitempty`. -/
  CIDR : Int
  /-- JSON key `rir_name`, `omitempty`. -/
  RIRName : GoString
  deriving Inhabited

/-- Go `ASNIPPrefixesData` of `types.go`. -/
structure ASNIPPrefixesData where
  /-- JSON key `prefix`, `omitempty`. -/
  Prefix : GoString
  /-- JSON key `ip`, `omitempty`. -/
  IP : GoString
  /-- JSON key `cidr`, `omitempty`. -/
  CIDR : Int
  /-- JSON key `roa_status`, `omitempty`. -/
  RoaStatus : GoString
  /-- JSON key `name`, `omitempty`. -/
  Name : GoString
  /-- JSON key `description`, `omitempty`. -/
  Description : GoString
  /-- JSON key `country_code`, `omitempty`. -/
  CountryCode : GoString
  /-- JSON key `parent`, `omitempty`. -/
  Parent : ASNPrefixesParent
  deriving Inhabited

/-- Go `ASNPrefixesData` of `types.go`. -/
structure ASNPrefixesData where
  /-- JSON key `ipv4_prefixes`, `omitempty`. -/
  IPv4Prefixes : Slice ASNIPPrefixesData
  /-- JSON key `ipv6_prefixes`, `omitempty`. -/
  IPv6Prefixes : Slice ASNIPPrefixesData
  deriving Inhabited

/-- Go `ASNPrefixesInfo` of `types.go`. -/
structure ASNPrefixesInfo where
  /-- JSON key `status`, `omitempty`. -/
  Status : GoString
  /-- JSON key `status_message`, `omitempty`. -/
  StatusMessage : GoString
  /-- JSON key `data`, `omitempty`. -/
  Data : ASNPrefixesData
  /-- JSON key `@meta`, `omitempty`. -/
  Meta : Meta
  deriving Inhabited

/-- Go `ASNIPPeersData` of `types.go`. -/
structure ASNIPPeersData where
  /-- JSON key `asn`, `omitempty`. -/
  ASN : Int
  /-- JSON key `name`, `omitempty`. -/
  Name : GoString
  /-- JSON key `description`, `omitempty`. -/
  Description : GoString
  /-- JSON key `country_code`, `omitempty`. -/
  CountryCode : GoString
  deriving Inhabited

/-- Go `ASNPeersData` of `types.go`. -/
structure ASNPeersData where
  /-- JSON key `ipv4_peers`, `omitempty`. -/
  IPv4Peers : Slice ASNIPPeersData
  /-- JSON key `ipv6_peers`, `omitempty`. -/
  IPv6Peers : Slice ASNIPPeersData
  deriving Inhabited

/-- Go `ASNPeersInfo` of `types.go`. -/
structure ASNPeersInfo where
  /-- JSON key `status`, `omitempty`. -/
  Status : GoString
  /-- JSON key `status_message`, `omitempty`. -/
  StatusMessage : GoString
  /-- JSON key `data`, `omitempty`. -/
  Data : ASNPeersData
  /-- JSON key `@meta`, `omitempty`. -/
  Meta : Meta
  deriving Inhabited

/-- Go `ASNIPUpstreamsData` of `types.go`. -/
structure ASNIPUpstreamsData where
  /-- JSON key `asn`, `omitempty`. -/
  ASN : Int
  /-- JSON key `name`, `omitempty`. -/
  Name : GoString
  /-- JSON key `description`, `omitempty`. -/
  Description : GoString
  /-- JSON key `country_code`, `omitempty`. -/
  CountryCode : GoString
  /-- JSON key `bgp_paths`, `omitempty`. -/
  BgpPaths : Slice GoString
  deriving Inhabited

/-- Go `ASNUpstreamsData` of `types.go`. -/
structure ASNUpstreamsData where
  /-- JSON key `ipv4_upstreams`, `omitempty`. -/
  IPv4Upstreams : Slice ASNIPUpstreamsData
  /-- JSON key `ipv6_upstreams`, `omitempty`. -/
  IPv6Upstreams : Slice ASNIPUpstreamsData
  deriving Inhabited

/-- Go `ASNUpstreamsInfo` of `types.go`. -/
structure ASNUpstreamsInfo where
  /-- JSON key `status`, `omitempty`. -/
  Status : GoString
  /-- JSON key `status_message`, `omitempty`. -/
  StatusMessage : GoString
  /-- JSON key `data`, `omitempty`. -/
  Data : ASNUpstreamsData
  /-- JSON key `@meta`, `omitempty`. -/
  Meta : Meta
  deriving Inhabited

/-- Go `ASNIPDownstreamsData` of `types.go`. -/
structure ASNIPDownstreamsData where
  /-- JSON key `asn`, `omitempty`. -/
  ASN : Int
  /-- JSON key `name`, `omitempty`. -/
  Name : GoString
  /-- JSON key `description`, `omitempty`. -/
  Description : GoString
  /-- JSON key `country_code`, `omitempty`. -/
  CountryCode : GoString
  /-- JSON key `bgp_paths`, `omitempty`. -/
  BgpPaths : Slice GoString
  deriving Inhabited

/-- Go `ASNDownstreamsData` of `types.go`. -/
structure ASNDownstreamsData where
  /-- JSON key `ipv4_downstreams`, `omitempty`. -/
  IPv4Downstreams : Slice ASNIPDownstreamsData
  /-- JSON key `ipv6_downstreams`, `omitempty`. -/
  IPv6Downstreams : Slice ASNIPDownstreamsData
  deriving Inhabited

/-- Go `ASNDownstreamsInfo` of `types.go`. -/
structure ASNDownstreamsInfo where
  /-- JSON key `status`, `omitempty`. -/
  Status : GoString
  /-- JSON key `status_message`, `omitempty`. -/
  StatusMessage : GoString
  /-- JSON key `data`, `omitempty`. -/
  Data : ASNDownstreamsData
  /-- JSON key `@meta`, `omitempty`. -/
  Meta : Meta
  deriving Inhabited

/-- Go `ASNIxsData` of `types.go`. -/
structure ASNIxsData where
  /-- JSON key `ix_id`, `omitempty`. -/
  IxID : Int
  /-- JSON key `name`, `omitempty`. -/
  Name : GoString
  /-- JSON key `name_full`, `omitempty`. -/
  NameFull : GoString
  /-- JSON key `country_code`, `omitempty`. -/
  CountryCode : GoString
  /-- JSON key `ipv4_address`, `omitempty`. -/
  IPv4Address : GoString
  /-- JSON key `ipv6_address`, `omitempty`. -/
  IPv6Address : GoString
  /-- JSON key `speed`, `omitempty`. -/
  Speed : Int
  deriving Inhabited

/-- Go `ASNIxsInfo` of `types.go`. -/
structure ASNIxsInfo where
  /-- JSON key `status`, `omitempty`. -/
  Status : GoString
  /-- JSON key `status_message`, `omitempty`. -/
  StatusMessage : GoString
  /-- JSON key `data`, `omitempty`. -/
  Data : Slice ASNIxsData
  /-- JSON key `@meta`, `omitempty`. -/
  Meta : Meta
  deriving Inhabited

/-- Go `MaxMindData` of `types.go`. -/
structure MaxMindData where
  /-- JSON key `country_code`, `omitempty`. -/
  CountryCode : GoString
  /-- JSON key `city`, `omitempty`. -/
  City : GoAny
  deriving Inhabited

/-- Go `AllocationData` of `types.go`. -/
structure AllocationData where
  /-- JSON key `rir_name`, `omitempty`. -/
  RIRName : GoString
  /-- JSON key `country_code`, `omitempty`. -/
  CountryCode : GoString
  /-- JSON key `ip`, `omitempty`. -/
  IP : GoString
  /-- JSON key `cidr`, `omitempty`. -/
  CIDR : Int
  /-- JSON key `prefix`, `omitempty`. -/
  Prefix : GoString
  /-- JSON key `date_allocated`, `omitempty`. -/
  DateAllocated : GoString
  deriving Inhabited

/-- Go `ASNData` of `types.go`. -/
structure ASNData where
  /-- JSON key `asn`, `omitempty`. -/
  ASN : Int
  /-- JSON key `name`, `omitempty`. -/
  Name : GoString
  /-- JSON key `description_short`, `omitempty`. -/
  DescriptionShort : GoString
  /-- JSON key `description_full`, `omitempty`. -/
  DescriptionFull : Slice GoString
  /-- JSON key `country_code`, `omitempty`. -/
  CountryCode : GoString
  /-- JSON key `website`, `omitempty`. -/
  Website : GoString
  /-- JSON key `email_contacts`, `omitempty`. -/
  EmailContacts : Slice GoString
  /-- JSON key `abuse_contacts`, `omitempty`. -/
  AbuseContacts : Slice GoString
  /-- JSON key `looking_glass`, `omitempty`. -/
  LookingGlass : GoString
  /-- JSON key `traffic_estimation`, `omitempty`. -/
  TrafficEstimation : GoString
  /-- JSON key `traffic_ratio`, `omitempty`. -/
  TrafficRatio : GoString
  /-- JSON key `owner_address`, `omitempty`. -/
  OwnerAddress : Slice GoString
  /-- JSON key `rir_allocation`, `omitempty`. -/
  RIRAllocation : AllocationData
  /-- JSON key `date_updated`, `omitempty`. -/
  DateUpdated : GoString
  deriving Inhabited

/-- Go `ASNInfo` of `types.go`. -/
structure ASNInfo where
  /-- JSON key `status`, `omitempty`. -/
  Status : GoString
  /-- JSON key `status_message`, `omitempty`. -/
  StatusMessage : GoString
  /-- JSON key `data`, `omitempty`. -/
  Data : ASNData
  /-- JSON key `@meta`, `omitempty`. -/
  Meta : Meta
  deriving Inhabited

/-- Go `CountryCodeData` of `types.go`. -/
structure CountryCodeData where
  /-- JSON key `whois_country_code`, `omitempty`. -/
  WhoisCountryCode : GoString
  /-- JSON key `rir_allocation_country_code`, `omitempty`. -/
  RIRAllocationCountryCode : GoString
  /-- JSON key `maxmind_country_code`, `omitempty`. -/
  MaxmindCountryCode : GoString
  deriving Inhabited

/-- Go `ASN` of `types.go`. -/
structure ASN where
  /-- JSON key `asn`, `omitempty`. -/
  ASN : Int
  /-- JSON key `name`, `omitempty`. -/
  Name : GoString
  /-- JSON key `description`, `omitempty`. -/
  Description : GoString
  /-- JSON key `country_code`, `omitempty`. -/
  CountryCode : GoString
  deriving Inhabited

/-- Go `PrefixData` of `types.go`. -/
structure PrefixData where
  /-- JSON key `prefix`, `omitempty`. -/
  Prefix : GoString
  /-- JSON key `ip`, `omitempty`. -/
  IP : GoString
  /-- JSON key `cidr`, `omitempty`. -/
  CIDR : Int
  /-- JSON key `asns`, `omitempty`. -/
  ASNs : Slice ASN
  /-- JSON key `name`, `omitempty`. -/
  Name : GoString
  /-- JSON key `description_short`, `omitempty`. -/
  DescriptionShort : GoString
  /-- JSON key `description_full`, `omitempty`. -/
  DescriptionFull : Slice GoString
  /-- JSON key `email_contacts`, `omitempty`. -/
  EmailContacts : Slice GoString
  /-- JSON key `abuse_contacts`, `omitempty`. -/
  AbuseContacts : Slice GoString
  /-- JSON key `owner_address`, `omitempty`. -/
  OwnerAddress : Slice GoString
  /-- JSON key `country_codes`, `omitempty`. -/
  CountryCodes : CountryCodeData
  /-- JSON key `rir_allocation`, `omitempty`. -/
  RIRAllocation : AllocationData
  /-- JSON key `maxmind`, `omitempty`. -/
  MaxMind : MaxMindData
  /-- JSON key `date_updated`, `omitempty`. -/
  DateUpdated : GoString
  deriving Inhabited

/-- Go `PrefixInfo` of `types.go`. -/
structure PrefixInfo where
  /-- JSON key `status`, `omitempty`. -/
  Status : GoString
  /-- JSON key `status_message`, `omitempty`. -/
  StatusMessage : GoString
  /-- JSON key `data`, `omitempty`. -/
  Data : PrefixData
  /-- JSON key `@meta`, `omitempty`. -/
  Meta : Meta
  deriving Inhabited

/-- Go `IPAllocationData` of `types.go`. -/
structure IPAllocationData where
  /-- JSON key `rir_name`, `omitempty`. -/
  RIRName : GoString
  /-- JSON key `country_code`, `omitempty`. -/
  CountryCode : GoString
  /-- JSON key `ip`, `omitempty`. -/
  IP : GoString
  /-- JSON key `cidr`, `omitempty`. -/
  CIDR : GoString
  /-- JSON key `prefix`, `omitempty`. -/
  Prefix : GoString
  /-- JSON key `date_allocated`, `omitempty`. -/
  DateAllocated : GoString
  deriving Inhabited

/-- Go `IPData` of `types.go`. -/
structure IPData where
  /-- JSON key `prefixes`, `omitempty`. -/
  Prefixes : Slice PrefixData
  /-- JSON key `rir_allocation`, `omitempty`. -/
  RIRAllocation : IPAllocationData
  /-- JSON key `maxmind`, `omitempty`. -/
  MaxMind : MaxMindData
  /-- JSON key `related_prefixes`, `omitempty`. -/
  RelatedPrefixes : Slice PrefixData
  deriving Inhabited

/-- Go `IPInfo` of `types.go`. -/
structure IPInfo where
  /-- JSON key `status`, `omitempty`. -/
  Status : GoString
  /-- JSON key `status_message`, `omitempty`. -/
  StatusMessage : GoString
  /-- JSON key `data`, `omitempty`. -/
  Data : IPData
  /-- JSON key `@meta`, `omitempty`. -/
  Meta : Meta
  deriving Inhabited

/-- Go `MemberData` of `types.go`. -/
structure MemberData where
  /-- JSON key `asn`, `omitempty`. -/
  ASN : Int
  /-- JSON key `name`, `omitempty`. -/
  Name : GoString
  /-- JSON key `description`, `omitempty`. -/
  Description : GoString
  /-- JSON key `country_code`, `omitempty`. -/
  CountryCode : GoString
  /-- JSON key `ipv4_address`, `omitempty`. -/
  IPv4Address : GoString
  /-- JSON key `ipv6_address`, `omitempty`. -/
  IPv6Address : GoString
  /-- JSON key `speed`, `omitempty`. -/
  Speed : Int
  deriving Inhabited

/-- Go `IXData` of `types.go`. -/
structure IXData where
  /-- JSON key `name`, `omitempty`. -/
  Name : GoString
  /-- JSON key `name_full`, `omitempty`. -/
  NameFull : GoString
  /-- JSON key `website`, `omitempty`. -/
  Website : GoString
  /-- JSON key `tech_email`, `omitempty`. -/
  TechEmail : GoString
  /-- JSON key `tech_phone`, `omitempty`. -/
  TechPhone : GoString
  /-- JSON key `policy_email`, `omitempty`. -/
  PolicyEmail : GoString
  /-- JSON key `policy_phone`, `omitempty`. -/
  PolicyPhone : GoString
  /-- JSON key `city`, `omitempty`. -/
  City : GoString
  /-- JSON key `country_code`, `omitempty`. -/
  CountryCode : GoString
  /-- JSON key `url_stats`, `omitempty`. -/
  URLStats : Slice Byte
  /-- JSON key `members_count`, `omitempty`. -/
  MembersCount : Int
  /-- JSON key `members`, `omitempty`. -/
  Members : Slice MemberData
  deriving Inhabited

/-- Go `IXInfo` of `types.go`. -/
structure IXInfo where
  /-- JSON key `status`, `omitempty`. -/
  Status : GoString
  /-- JSON key `status_message`, `omitempty`. -/
  StatusMessage : GoString
  /-- JSON key `data`, `omitempty`. -/
  Data : IXData
  /-- JSON key `@meta`, `omitempty`. -/
  Meta : Meta
  deriving Inhabited

/-- Go `SearchASNData` of `types.go`. -/
structure SearchASNData where
  /-- JSON key `asn`, `omitempty`. -/
  ASN : Int
  /-- JSON key `name`, `omitempty`. -/
  Name : GoString
  /-- JSON key `description`, `omitempty`. -/
  Description : GoString
  /-- JSON key `country_code`, `omitempty`. -/
  CountryCode : GoString
  /-- JSON key `email_contacts`, `omitempty`. -/
  EmailContacts : Slice GoString
  /-- JSON key `abuse_contacts`, `omitempty`. -/
  AbuseContacts : Slice GoString
  /-- JSON key `rir_name`, `omitempty`. -/
  RIRName : GoString
  deriving Inhabited

/-- Go `SearchIPPrefixesData` of `types.go`. -/
structure SearchIPPrefixesData where
  /-- JSON key `prefix`, `omitempty`. -/
  Prefix : GoString
  /-- JSON key `ip`, `omitempty`. -/
  IP : GoString
  /-- JSON key `cidr`, `omitempty`. -/
  CIDR : Int
  /-- JSON key `name`, `omitempty`. -/
  Name : GoString
  /-- JSON key `country_code`, `omitempty`. -/
  CountryCode : GoString
  /-- JSON key `description`, `omitempty`. -/
  Description : GoString
  /-- JSON key `email_contacts`, `omitempty`. -/
  EmailContacts : Slice GoString
  /-- JSON key `abuse_contacts`, `omitempty`. -/
  AbuseContacts : Slice GoString
  /-- JSON key `rir_name`, `omitempty`. -/
  RIRName : GoString
  /-- JSON key `parent_prefix`, `omitempty`. -/
  ParentPrefix : GoString
  /-- JSON key `parent_ip`, `omitempty`. -/
  ParentIP : GoString
  /-- JSON key `parent_cidr`, `omitempty`. -/
  ParentCIDR : Int
  deriving Inhabited

/-- Go `SearchData` of `types.go`. -/
structure SearchData where
  /-- JSON key `asns`, `omitempty`. -/
  ASNs : Slice SearchASNData
  /-- JSON key `ipv4_prefixes`, `omitempty`. -/
  IPv4Prefixes : Slice SearchIPPrefixesData
  /-- JSON key `ipv6_prefixes`, `omitempty`. -/
  IPv6Prefixes : Slice SearchIPPrefixesData
  deriving Inhabited

/-- Go `SearchInfo` of `types.go`. -/
structure SearchInfo where
  /-- JSON key `status`, `omitempty`. -/
  Status : GoString
  /-- JSON key `status_message`, `omitempty`. -/
  StatusMessage : GoString
  /-- JSON key `data`, `omitempty`. -/
  Data : SearchData
  /-- JSON key `@meta`, `omitempty`. -/
  Meta : Meta
  deriving Inhabited

end bgpview

/-! ## net/http: requests and responses -/

namespace http

/-- Go `context.Context` as the client sees it: the nil interface value or a
live context. -/
inductive Context where
  | nilContext
  | live (id : Nat)
  deriving DecidableEq, Repr

/-- Go `validHeaderFieldByte`: the token bytes of RFC 7230. -/
def validHeaderFieldByte (c : Byte) : Bool :=
  (ch 'a' ≤ c ∧ c ≤ ch 'z') ∨ (ch 'A' ≤ c ∧ c ≤ ch 'Z') ∨ (ch '0' ≤ c ∧ c ≤ ch '9') ∨
  c ∈ [ch '!', ch '#', ch '$', ch '%', ch '&', ch '\'', ch '*', ch '+', ch '-', ch '.',
       ch '^', ch '_', 0x60, ch '|', ch '~']

/-- Canonicalizing loop of `canonicalMIMEHeaderKey`: upper case for the first
letter and after each dash, lower case elsewhere. -/
def canonLoop : GoString → Bool → GoString
  | [], _ => []
  | c :: a, upper =>
    let c1 :=
      if upper ∧ ch 'a' ≤ c ∧ c ≤ ch 'z' then c - 32
      else if !upper ∧ ch 'A' ≤ c ∧ c ≤ ch 'Z' then c + 32
      else c
    c1 :: canonLoop a (c1 = ch '-')

/-- Go `textproto.CanonicalMIMEHeaderKey`: a key with a space or an invalid
header byte is returned unchanged. -/
def CanonicalMIMEHeaderKey (s : GoString) : GoString :=
  if s.all validHeaderFieldByte then canonLoop s true else s

/-- Go `http.Header`, a `map[string][]string`. -/
abbrev Header := List (GoString × List GoString)

/-- Go `Header.Set`: sets the canonical form of `key` to the single `value`. -/
def Header.Set (h : Header) (key value : GoString) : Header :=
  url.Values.store h (CanonicalMIMEHeaderKey key) [value]

/-- A response body as a reader: the bytes it yields and the error that ends
the stream (`none` for `io.EOF`). -/
structure Body where
  data : GoString
  err : Option GoError
  deriving DecidableEq, Repr

/-- Go `http.NoBody`. -/
def NoBody : Body := { data := [], err := none }

/-- Go `io.ReadAll`: everything read until the stream ends, with the error
that ended it unless it is `io.EOF`. -/
def ReadAll (b : Body) : GoString × Option GoError := (b.data, b.err)

/-- Go `http.Request`, the fields the client sets. -/
structure Request where
  ctx : Context
  Method : GoString
  URL : url.URL
  Header : Header
  Body : Body
  Host : GoString
  deriving DecidableEq, Repr

/-- Go `http.Response`, the fields the client reads. -/
structure Response where
  StatusCode : Int
  Body : Body
  deriving DecidableEq, Repr

/-- Go `http.StatusOK`. -/
def StatusOK : Int := 200

/-- Go `http.MethodGet`. -/
def MethodGet : GoString := utf8 "GET"

/-- Go `validMethod`: a non-empty token. -/
def validMethod (method : GoString) : Bool :=
  method.length > 0 ∧ method.all validHeaderFieldByte

/-- Go `removeEmptyPort`: strips the empty port in ":port". -/
def removeEmptyPort (host : GoString) : GoString :=
  if strings.LastIndex host (ch ':') > strings.LastIndex host (ch ']') ∧
      strings.HasSuffix host (utf8 ":") then host.take (host.length - 1)
  else host

/-- Go `http.NewRequestWithContext`. -/
def NewRequestWithContext (ctx : Context) (method rawURL : GoString) (body : Body) :
    Except GoError Request :=
  let method := if method = [] then utf8 "GET" else method
  if !validMethod method then
    .error (.urlError (utf8 "net/http: invalid method") method (.errorString []))
  else if ctx = Context.nilContext then .error (.errorString (utf8 "net/http: nil Context"))
  else
    match url.Parse rawURL with
    | .error e => .error e
    | .ok u =>
      let host := removeEmptyPort u.Host
      .ok { ctx := ctx, Method := method, URL := { u with Host := host }, Header := [],
            Body := body, Host := host }

/-- Go `http.Client`: the transport is a parameter, one call of it a function
from the request to a response or an error. -/
structure Client where
  Do : Request → Except GoError Response

end http

/-! ## The client (`src/client.go`) -/

namespace bgpview

/-- Go `fmt.Errorf("%d: %s", code, body)`. -/
def errorf_d_s (code : Int) (body : GoString) : GoError :=
  .errorString (strconv.Itoa code ++ utf8 ": " ++ body)

/-- The call `json.NewDecoder(body).Decode(data)` for a destination of type
`D`: the destination after the call and the error returned. -/
abbrev Decoder (D : Type) := http.Body → D → D × Option GoError

/-- Go `Client`: a BGPView API client. -/
structure Client where
  baseURL : url.URL
  HTTPClient : http.Client

/-- Go `defaultBaseURL`. -/
def defaultBaseURL : GoString := utf8 "https://api.bgpview.io"

/-- Go `NewClient`: the client of the default base URL (a parse error of the
constant is ignored, as in the source).  The HTTP client, whose 5 second
timeout is not modelled, is the parameter `httpClient`. -/
def NewClient (httpClient : http.Client) : Client :=
  { baseURL := match url.Parse defaultBaseURL with
      | .ok baseURL => baseURL
      | .error _ => url.URL.zero,
    HTTPClient := httpClient }

/-- Go `Client.do`: performs the GET request and decodes the body of a 200
response into `data`; returns the destination and the error. -/
def Client.do_ {D : Type} (c : Client) (ctx : http.Context) (endpoint : url.URL)
    (decode : Decoder D) (data : D) : D × Option GoError :=
  match http.NewRequestWithContext ctx http.MethodGet endpoint.String http.NoBody with
  | .error err => (data, some err)
  | .ok req =>
    let req := { req with Header := req.Header.Set (utf8 "accept") (utf8 "application/json") }
    match c.HTTPClient.Do req with
    | .error err => (data, some err)
    | .ok resp =>
      if resp.StatusCode ≠ http.StatusOK then
        let data1 := (http.ReadAll resp.Body).1
        (data, some (errorf_d_s resp.StatusCode data1))
      else decode resp.Body data

/-- The endpoint URL built by the first statement of `GetASN`. -/
def Client.endpointGetASN (c : Client) (asNumber : Int) : Except GoError url.URL :=
  c.baseURL.Parse (path.Join [c.baseURL.Path, utf8 "asn", strconv.Itoa asNumber])

/-- Go `Client.GetASN`: gets ASN.  The result is the pair `(value, error)`. -/
def Client.GetASN (c : Client) (ctx : http.Context) (asNumber : Int)
    (decode : Decoder ASNInfo) : Option ASNInfo × Option GoError :=
  match c.endpointGetASN asNumber with
  | .error err => (none, some err)
  | .ok endpoint =>
    let apiResp : ASNInfo := default
    match c.do_ ctx endpoint decode apiResp with
    | (_, some err) => (none, some err)
    | (apiResp, none) => (some apiResp, none)

/-- The endpoint URL built by the first statement of `GetASNPrefixes`. -/
def Client.endpointGetASNPrefixes (c : Client) (asNumber : Int) : Except GoError url.URL :=
  c.baseURL.Parse (path.Join [c.baseURL.Path, utf8 "asn", strconv.Itoa asNumber, utf8 "prefixes"])

/-- Go `Client.GetASNPrefixes`: gets ASN prefixes.  The result is the pair `(value, error)`. -/
def Client.GetASNPrefixes (c : Client) (ctx : http.Context) (asNumber : Int)
    (decode : Decoder ASNPrefixesInfo) : Option ASNPrefixesInfo × Option GoError :=
  match c.endpointGetASNPrefixes asNumber with
  | .error err => (none, some err)
  | .ok endpoint =>
    let apiResp : ASNPrefixesInfo := default
    match c.do_ ctx endpoint decode apiResp with
    | (_, some err) => (none, some err)
    | (apiResp, none) => (some apiResp, none)

/-- The endpoint URL built by the first statement of `GetASNPeers`. -/
def Client.endpointGetASNPeers (c : Client) (asNumber : Int) : Except GoError url.URL :=
  c.baseURL.Parse (path.Join [c.baseURL.Path, utf8 "asn", strconv.Itoa asNumber, utf8 "peers"])

/-- Go `Client.GetASNPeers`: gets ASN peers.  The result is the pair `(value, error)`. -/
def Client.GetASNPeers (c : Client) (ctx : http.Context) (asNumber : Int)
    (decode : Decoder ASNPeersInfo) : Option ASNPeersInfo × Option GoError :=
  match c.endpointGetASNPeers asNumber with
  | .error err => (none, some err)
  | .ok endpoint =>
    let apiResp : ASNPeersInfo := default
    match c.do_ ctx endpoint decode apiResp with
    | (_, some err) => (none, some err)
    | (apiResp, none) => (some apiResp, none)

/-- The endpoint URL built by the first statement of `GetASNUpstreams`. -/
def Client.endpointGetASNUpstreams (c : Client) (asNumber : Int) : Except GoError url.URL :=
  c.baseURL.Parse (path.Join [c.baseURL.Path, utf8 "asn", strconv.Itoa asNumber, utf8 "upstreams"])

/-- Go `Client.GetASNUpstreams`: gets ASN upstreams.  The result is the pair `(value, error)`. -/
def Client.GetASNUpstreams (c : Client) (ctx : http.Context) (asNumber : Int)
    (decode : Decoder ASNUpstreamsInfo) : Option ASNUpstreamsInfo × Option GoError :=
  match c.endpointGetASNUpstreams asNumber with
  | .error err => (none, some err)
  | .ok endpoint =>
    let apiResp : ASNUpstreamsInfo := default
    match c.do_ ctx endpoint decode apiResp with
    | (_, some err) => (none, some err)
    | (apiResp, none) => (some apiResp, none)

/-- The endpoint URL built by the first statement of `GetASNDownstreams`. -/
def Client.endpointGetASNDownstreams (c : Client) (asNumber : Int) : Except GoError url.URL :=
  c.baseURL.Parse (path.Join [c.baseURL.Path, utf8 "asn", strconv.Itoa asNumber, utf8 "downstreams"])

/-- Go `Client.GetASNDownstreams`: gets ASN downstreams.  The result is the pair `(value, error)`. -/
def Client.GetASNDownstreams (c : Client) (ctx : http.Context) (asNumber : Int)
    (decode : Decoder ASNDownstreamsInfo) : Option ASNDownstreamsInfo × Option GoError :=
  match c.endpointGetASNDownstreams asNumber with
  | .error err => (none, some err)
  | .ok endpoint =>
    let apiResp : ASNDownstreamsInfo := default
    match c.do_ ctx endpoint decode apiResp with
    | (_, some err) => (none, some err)
    | (apiResp, none) => (some apiResp, none)

/-- The endpoint URL built by the first statement of `GetASNIxs`. -/
def Client.endpointGetASNIxs (c : Client) (asNumber : Int) : Except GoError url.URL :=
  c.baseURL.Parse (path.Join [c.baseURL.Path, utf8 "asn", strconv.Itoa asNumber, utf8 "ixs"])

/-- Go `Client.GetASNIxs`: gets ASN IXs.  The result is the pair `(value, error)`. -/
def Client.GetASNIxs (c : Client) (ctx : http.Context) (asNumber : Int)
    (decode : Decoder ASNIxsInfo) : Option ASNIxsInfo × Option GoError :=
  match c.endpointGetASNIxs asNumber with
  | .error err => (none, some err)
  | .ok endpoint =>
    let apiResp : ASNIxsInfo := default
    match c.do_ ctx endpoint decode apiResp with
    | (_, some err) => (none, some err)
    | (apiResp, none) => (some apiResp, none)

/-- The endpoint URL built by the first statement of `GetPrefix`. -/
def Client.endpointGetPrefix (c : Client) (ipAddress : GoString) (cidr : Int) : Except GoError url.URL :=
  c.baseURL.Parse (path.Join [c.baseURL.Path, utf8 "prefix", ipAddress, strconv.Itoa cidr])

/-- Go `Client.GetPrefix`: gets Prefix.  The result is the pair `(value, error)`. -/
def Client.GetPrefix (c : Client) (ctx : http.Context) (ipAddress : GoString) (cidr : Int)
    (decode : Decoder PrefixInfo) : Option PrefixInfo × Option GoError :=
  match c.endpointGetPrefix ipAddress cidr with
  | .error err => (none, some err)
  | .ok endpoint =>
    let apiResp : PrefixInfo := default
    match c.do_ ctx endpoint decode apiResp with
    | (_, some err) => (none, some err)
    | (apiResp, none) => (some apiResp, none)

/-- The endpoint URL built by the first statement of `GetIP`. -/
def Client.endpointGetIP (c : Client) (ipAddress : GoString) : Except GoError url.URL :=
  c.baseURL.Parse (path.Join [c.baseURL.Path, utf8 "ip", ipAddress])

/-- Go `Client.GetIP`: gets IP.  The result is the pair `(value, error)`. -/
def Client.GetIP (c : Client) (ctx : http.Context) (ipAddress : GoString)
    (decode : Decoder IPInfo) : Option IPInfo × Option GoError :=
  match c.endpointGetIP ipAddress with
  | .error err => (none, some err)
  | .ok endpoint =>
    let apiResp : IPInfo := default
    match c.do_ ctx endpoint decode apiResp with
    | (_, some err) => (none, some err)
    | (apiResp, none) => (some apiResp, none)

/-- The endpoint URL built by the first statement of `GetIX`. -/
def Client.endpointGetIX (c : Client) (ixID : Int) : Except GoError url.URL :=
  c.baseURL.Parse (path.Join [c.baseURL.Path, utf8 "ix", strconv.Itoa ixID])

/-- Go `Client.GetIX`: gets IX.  The result is the pair `(value, error)`. -/
def Client.GetIX (c : Client) (ctx : http.Context) (ixID : Int)
    (decode : Decoder IXInfo) : Option IXInfo × Option GoError :=
  match c.endpointGetIX ixID with
  | .error err => (none, some err)
  | .ok endpoint =>
    let apiResp : IXInfo := default
    match c.do_ ctx endpoint decode apiResp with
    | (_, some err) => (none, some err)
    | (apiResp, none) => (some apiResp, none)

/-- The endpoint URL built by `GetSearch`: the joined path resolved against
the base, then `query_term` set in its query values and the values encoded
into `RawQuery`. -/
def Client.endpointGetSearch (c : Client) (term : GoString) : Except GoError url.URL :=
  match c.baseURL.Parse (path.Join [c.baseURL.Path, utf8 "search"]) with
  | .error err => .error err
  | .ok endpoint =>
    let query := endpoint.Query
    let query := query.Set (utf8 "query_term") term
    .ok { endpoint with RawQuery := query.Encode }

/-- Go `Client.GetSearch`: searches resources by ASN, IP, Prefix, Name,
Description.  The result is the pair `(value, error)`. -/
def Client.GetSearch (c : Client) (ctx : http.Context) (term : GoString)
    (decode : Decoder SearchInfo) : Option SearchInfo × Option GoError :=
  match c.endpointGetSearch term with
  | .error err => (none, some err)
  | .ok endpoint =>
    let apiResp : SearchInfo := default
    match c.do_ ctx endpoint decode apiResp with
    | (_, some err) => (none, some err)
    | (apiResp, none) => (some apiResp, none)

end bgpview

/-! ## The client with the calls of the transport recorded -/

namespace bgpview

/-- Go `Client.do` with the calls of the transport recorded: the result of
`do_`, paired with the requests handed to `c.HTTPClient.Do`, in call order. -/
def Client.do_traced {D : Type} (c : Client) (ctx : http.Context) (endpoint : url.URL)
    (decode : Decoder D) (data : D) : (D × Option GoError) × List http.Request :=
  match http.NewRequestWithContext ctx http.MethodGet endpoint.String http.NoBody with
  | .error err => ((data, some err), [])
  | .ok req =>
    let req := { req with Header := req.Header.Set (utf8 "accept") (utf8 "application/json") }
    match c.HTTPClient.Do req with
    | .error err => ((data, some err), [req])
    | .ok resp =>
      if resp.StatusCode ≠ http.StatusOK then
        let data1 := (http.ReadAll resp.Body).1
        ((data, some (errorf_d_s resp.StatusCode data1)), [req])
      else (decode resp.Body data, [req])

/-- Go `Client.GetASN` with the calls of the transport recorded. -/
def Client.GetASN_traced (c : Client) (ctx : http.Context) (asNumber : Int)
    (decode : Decoder ASNInfo) : (Option ASNInfo × Option GoError) × List http.Request :=
  match c.endpointGetASN asNumber with
  | .error err => ((none, some err), [])
  | .ok endpoint =>
    let apiResp : ASNInfo := default
    match c.do_traced ctx endpoint decode apiResp with
    | ((_, some err), calls) => ((none, some err), calls)
    | ((apiResp, none), calls) => ((some apiResp, none), calls)

/-- Go `Client.GetASNPrefixes` with the calls of the transport recorded. -/
def Client.GetASNPrefixes_traced (c : Client) (ctx : http.Context) (asNumber : Int)
    (decode : Decoder ASNPrefixesInfo) : (Option ASNPrefixesInfo × Option GoError) × List http.Request :=
  match c.endpointGetASNPrefixes asNumber with
  | .error err => ((none, some err), [])
  | .ok endpoint =>
    let apiResp : ASNPrefixesInfo := default
    match c.do_traced ctx endpoint decode apiResp with
    | ((_, some err), calls) => ((none, some err), calls)
    | ((apiResp, none), calls) => ((some apiResp, none), calls)

/-- Go `Client.GetASNPeers` with the calls of the transport recorded. -/
def Client.GetASNPeers_traced (c : Client) (ctx : http.Context) (asNumber : Int)
    (decode : Decoder ASNPeersInfo) : (Option ASNPeersInfo × Option GoError) × List http.Request :=
  match c.endpointGetASNPeers asNumber with
  | .error err => ((none, some err), [])
  | .ok endpoint =>
    let apiResp : ASNPeersInfo := default
    match c.do_traced ctx endpoint decode apiResp with
    | ((_, some err), calls) => ((none, some err), calls)
    | ((apiResp, none), calls) => ((some apiResp, none), calls)

/-- Go `Client.GetASNUpstreams` with the calls of the transport recorded. -/
def Client.GetASNUpstreams_traced (c : Client) (ctx : http.Context) (asNumber : Int)
    (decode : Decoder ASNUpstreamsInfo) : (Option ASNUpstreamsInfo × Option GoError) × List http.Request :=
  match c.endpointGetASNUpstreams asNumber with
  | .error err => ((none, some err), [])
  | .ok endpoint =>
    let apiResp : ASNUpstreamsInfo := default
    match c.do_traced ctx endpoint decode apiResp with
    | ((_, some err), calls) => ((none, some err), calls)
    | ((apiResp, none), calls) => ((some apiResp, none), calls)

/-- Go `Client.GetASNDownstreams` with the calls of the transport recorded. -/
def Client.GetASNDownstreams_traced (c : Client) (ctx : http.Context) (asNumber : Int)
    (decode : Decoder ASNDownstreamsInfo) : (Option ASNDownstreamsInfo × Option GoError) × List http.Request :=
  match c.endpointGetASNDownstreams asNumber with
  | .error err => ((none, some err), [])
  | .ok endpoint =>
    let apiResp : ASNDownstreamsInfo := default
    match c.do_traced ctx endpoint decode apiResp with
    | ((_, some err), calls) => ((none, some err), calls)
    | ((apiResp, none), calls) => ((some apiResp, none), calls)

/-- Go `Client.GetASNIxs` with the calls of the transport recorded. -/
def Client.GetASNIxs_traced (c : Client) (ctx : http.Context) (asNumber : Int)
    (decode : Decoder ASNIxsInfo) : (Option ASNIxsInfo × Option GoError) × List http.Request :=
  match c.endpointGetASNIxs asNumber with
  | .error err => ((none, some err), [])
  | .ok endpoint =>
    let apiResp : ASNIxsInfo := default
    match c.do_traced ctx endpoint decode apiResp with
    | ((_, some err), calls) => ((none, some err), calls)
    | ((apiResp, none), calls) => ((some apiResp, none), calls)

/-- Go `Client.GetPrefix` with the calls of the transport recorded. -/
def Client.GetPrefix_traced (c : Client) (ctx : http.Context) (ipAddress : GoString) (cidr : Int)
    (decode : Decoder PrefixInfo) : (Option PrefixInfo × Option GoError) × List http.Request :=
  match c.endpointGetPrefix ipAddress cidr with
  | .error err => ((none, some err), [])
  | .ok endpoint =>
    let apiResp : PrefixInfo := default
    match c.do_traced ctx endpoint decode apiResp with
    | ((_, some err), calls) => ((none, some err), calls)
    | ((apiResp, none), calls) => ((some apiResp, none), calls)

/-- Go `Client.GetIP` with the calls of the transport recorded. -/
def Client.GetIP_traced (c : Client) (ctx : http.Context) (ipAddress : GoString)
    (decode : Decoder IPInfo) : (Option IPInfo × Option GoError) × List http.Request :=
  match c.endpointGetIP ipAddress with
  | .error err => ((none, some err), [])
  | .ok endpoint =>
    let apiResp : IPInfo := default
    match c.do_traced ctx endpoint decode apiResp with
    | ((_, some err), calls) => ((none, some err), calls)
    | ((apiResp, none), calls) => ((some apiResp, none), calls)

/-- Go `Client.GetIX` with the calls of the transport recorded. -/
def Client.GetIX_traced (c : Client) (ctx : http.Context) (ixID : Int)
    (decode : Decoder IXInfo) : (Option IXInfo × Option GoError) × List http.Request :=
  match c.endpointGetIX ixID with
  | .error err => ((none, some err), [])
  | .ok endpoint =>
    let apiResp : IXInfo := default
    match c.do_traced ctx endpoint decode apiResp with
    | ((_, some err), calls) => ((none, some err), calls)
    | ((apiResp, none), calls) => ((some apiResp, none), calls)

/-- Go `Client.GetSearch` with the calls of the transport recorded. -/
def Client.GetSearch_traced (c : Client) (ctx : http.Context) (term : GoString)
    (decode : Decoder SearchInfo) : (Option SearchInfo × Option GoError) × List http.Request :=
  match c.endpointGetSearch term with
  | .error err => ((none, some err), [])
  | .ok endpoint =>
    let apiResp : SearchInfo := default
    match c.do_traced ctx endpoint decode apiResp with
    | ((_, some err), calls) => ((none, some err), calls)
    | ((apiResp, none), calls) => ((some apiResp, none), calls)

end bgpview

/-! ## The client with the objects behind its pointers in a store -/

namespace heap

/-- A Go pointer: the address of an object of the store, or nil. -/
abbrev Ptr := Option Nat

/-- The objects the code of `client.go` holds pointers to, by address: the
`url.URL` values and the `http.Client` values.  Objects that the standard
library allocates and does not hand to that code are not kept. -/
structure Store where
  urls : List url.URL
  clients : List http.Client

/-- The `url.URL` a pointer points to; `none` for nil. -/
def Store.url (s : Store) (p : Ptr) : Option url.URL :=
  match p with
  | none => none
  | some a => s.urls.get? a

/-- The `http.Client` a pointer points to; `none` for nil. -/
def Store.client (s : Store) (p : Ptr) : Option http.Client :=
  match p with
  | none => none
  | some a => s.clients.get? a

/-- A new `url.URL` object: its address and the store with it. -/
def Store.newURL (s : Store) (u : url.URL) : Ptr × Store :=
  (some s.urls.length, { s with urls := s.urls ++ [u] })

/-- A new `http.Client` object: its address and the store with it. -/
def Store.newClient (s : Store) (c : http.Client) : Ptr × Store :=
  (some s.clients.length, { s with clients := s.clients ++ [c] })

/-- The assignment `p.RawQuery = q` through the pointer `p`; `none` is the
panic of a nil pointer. -/
def Store.setRawQuery (s : Store) (p : Ptr) (q : GoString) : Option Store :=
  match p with
  | none => none
  | some a =>
    match s.urls.get? a with
    | none => none
    | some u => some { s with urls := s.urls.set a { u with RawQuery := q } }

/-- Go `Client` as it lies in memory: a pointer to the base URL and a pointer
to the HTTP client. -/
structure Client where
  baseURL : Ptr
  HTTPClient : Ptr

/-- Go `NewClient` on the store `s`: the URL parsed from the default base
address and the HTTP client are new objects (the pointer to the URL is nil if
the parse fails, whose error the source ignores). -/
def NewClient (s : Store) (httpClient : http.Client) : Client × Store :=
  let r : Ptr × Store :=
    match url.Parse bgpview.defaultBaseURL with
    | .ok baseURL => s.newURL baseURL
    | .error _ => (none, s)
  let h := r.2.newClient httpClient
  ({ baseURL := r.1, HTTPClient := h.1 }, h.2)

/-- Go `(*URL).Parse` through the pointer `u`: the reference parsed and the
URL resolved against `*u` are new objects, and the pointer to the latter is
returned.  The result `none` is the panic of a nil receiver. -/
def URL.Parse (s : Store) (u : Ptr) (ref : GoString) : Option (Except GoError Ptr × Store) :=
  match url.Parse ref with
  | .error e => some (.error e, s)
  | .ok refURL =>
    let r := s.newURL refURL
    match r.2.url u with
    | none => none
    | some base =>
      let r1 := r.2.newURL (base.ResolveReference refURL)
      some (.ok r1.1, r1.2)

/-- Go `Client.do` on the store: `endpoint.String()` reads the URL behind the
pointer, `c.HTTPClient.Do` calls the HTTP client behind its pointer; nothing
is written.  The result is that of `do`, paired with the requests handed to
the transport; `none` is the panic of a nil pointer. -/
def Client.do_ {D : Type} (c : Client) (s : Store) (ctx : http.Context) (endpoint : Ptr)
    (decode : bgpview.Decoder D) (data : D) : Option ((D × Option GoError) × List http.Request) :=
  match s.url endpoint with
  | none => none
  | some u =>
    match http.NewRequestWithContext ctx http.MethodGet u.String http.NoBody with
    | .error err => some ((data, some err), [])
    | .ok req =>
      let req := { req with Header := req.Header.Set (utf8 "accept") (utf8 "application/json") }
      match s.client c.HTTPClient with
      | none => none
      | some httpClient =>
        match httpClient.Do req with
        | .error err => some ((data, some err), [req])
        | .ok resp =>
          if resp.StatusCode ≠ http.StatusOK then
            let data1 := (http.ReadAll resp.Body).1
            some ((data, some (bgpview.errorf_d_s resp.StatusCode data1)), [req])
          else some (decode resp.Body data, [req])

/-- Go `Client.GetASN` on the store: gets ASN.  The result is the pair
`(value, error)` with the requests handed to the transport, and the store
after the call; `none` is the panic of a nil pointer. -/
def Client.GetASN (c : Client) (s : Store) (ctx : http.Context) (asNumber : Int)
    (decode : bgpview.Decoder bgpview.ASNInfo) :
    Option (((Option bgpview.ASNInfo × Option GoError) × List http.Request) × Store) :=
  match s.url c.baseURL with
  | none => none
  | some base =>
    match URL.Parse s c.baseURL (path.Join [base.Path, utf8 "asn", strconv.Itoa asNumber]) with
    | none => none
    | some (.error err, s1) => some (((none, some err), []), s1)
    | some (.ok endpoint, s1) =>
      let apiResp : bgpview.ASNInfo := default
      match c.do_ s1 ctx endpoint decode apiResp with
      | none => none
      | some ((_, some err), calls) => some (((none, some err), calls), s1)
      | some ((apiResp, none), calls) => some (((some apiResp, none), calls), s1)

/-- Go `Client.GetASNPrefixes` on the store: gets ASN prefixes.  The result is the pair
`(value, error)` with the requests handed to the transport, and the store
after the call; `none` is the panic of a nil pointer. -/
def Client.GetASNPrefixes (c : Client) (s : Store) (ctx : http.Context) (asNumber : Int)
    (decode : bgpview.Decoder bgpview.ASNPrefixesInfo) :
    Option (((Option bgpview.ASNPrefixesInfo × Option GoError) × List http.Request) × Store) :=
  match s.url c.baseURL with
  | none => none
  | some base =>
    match URL.Parse s c.baseURL (path.Join [base.Path, utf8 "asn", strconv.Itoa asNumber, utf8 "prefixes"]) with
    | none => none
    | some (.error err, s1) => some (((none, some err), []), s1)
    | some (.ok endpoint, s1) =>
      let apiResp : bgpview.ASNPrefixesInfo := default
      match c.do_ s1 ctx endpoint decode apiResp with
      | none => none
      | some ((_, some err), calls) => some (((none, some err), calls), s1)
      | some ((apiResp, none), calls) => some (((some apiResp, none), calls), s1)

/-- Go `Client.GetASNPeers` on the store: gets ASN peers.  The result is the pair
`(value, error)` with the requests handed to the transport, and the store
after the call; `none` is the panic of a nil pointer. -/
def Client.GetASNPeers (c : Client) (s : Store) (ctx : http.Context) (asNumber : Int)
    (decode : bgpview.Decoder bgpview.ASNPeersInfo) :
    Option (((Option bgpview.ASNPeersInfo × Option GoError) × List http.Request) × Store) :=
  match s.url c.baseURL with
  | none => none
  | some base =>
    match URL.Parse s c.baseURL (path.Join [base.Path, utf8 "asn", strconv.Itoa asNumber, utf8 "peers"]) with
    | none => none
    | some (.error err, s1) => some (((none, some err), []), s1)
    | some (.ok endpoint, s1) =>
      let apiResp : bgpview.ASNPeersInfo := default
      match c.do_ s1 ctx endpoint decode apiResp with
      | none => none
      | some ((_, some err), calls) => some (((none, some err), calls), s1)
      | some ((apiResp, none), calls) => some (((some apiResp, none), calls), s1)

/-- Go `Client.GetASNUpstreams` on the store: gets ASN upstreams.  The result is the pair
`(value, error)` with the requests handed to the transport, and the store
after the call; `none` is the panic of a nil pointer. -/
def Client.GetASNUpstreams (c : Client) (s : Store) (ctx : http.Context) (asNumber : Int)
    (decode : bgpview.Decoder bgpview.ASNUpstreamsInfo) :
    Option (((Option bgpview.ASNUpstreamsInfo × Option GoError) × List http.Request) × Store) :=
  match s.url c.baseURL with
  | none => none
  | some base =>
    match URL.Parse s c.baseURL (path.Join [base.Path, utf8 "asn", strconv.Itoa asNumber, utf8 "upstreams"]) with
    | none => none
    | some (.error err, s1) => some (((none, some err), []), s1)
    | some (.ok endpoint, s1) =>
      let apiResp : bgpview.ASNUpstreamsInfo := default
      match c.do_ s1 ctx endpoint decode apiResp with
      | none => none
      | some ((_, some err), calls) => some (((none, some err), calls), s1)
      | some ((apiResp, none), calls) => some (((some apiResp, none), calls), s1)

/-- Go `Client.GetASNDownstreams` on the store: gets ASN downstreams.  The result is the pair
`(value, error)` with the requests handed to the transport, and the store
after the call; `none` is the panic of a nil pointer. -/
def Client.GetASNDownstreams (c : Client) (s : Store) (ctx : http.Context) (asNumber : Int)
    (decode : bgpview.Decoder bgpview.ASNDownstreamsInfo) :
    Option (((Option bgpview.ASNDownstreamsInfo × Option GoError) × List http.Request) × Store) :=
  match s.url c.baseURL with
  | none => none
  | some base =>
    match URL.Parse s c.baseURL (path.Join [base.Path, utf8 "asn", strconv.Itoa asNumber, utf8 "downstreams"]) with
    | none => none
    | some (.error err, s1) => some (((none, some err), []), s1)
    | some (.ok endpoint, s1) =>
      let apiResp : bgpview.ASNDownstreamsInfo := default
      match c.do_ s1 ctx endpoint decode apiResp with
      | none => none
      | some ((_, some err), calls) => some (((none, some err), calls), s1)
      | some ((apiResp, none), calls) => some (((some apiResp, none), calls), s1)

/-- Go `Client.GetASNIxs` on the store: gets ASN IXs.  The result is the pair
`(value, error)` with the requests handed to the transport, and the store
after the call; `none` is the panic of a nil pointer. -/
def Client.GetASNIxs (c : Client) (s : Store) (ctx : http.Context) (asNumber : Int)
    (decode : bgpview.Decoder bgpview.ASNIxsInfo) :
    Option (((Option bgpview.ASNIxsInfo × Option GoError) × List http.Request) × Store) :=
  match s.url c.baseURL with
  | none => none
  | some base =>
    match URL.Parse s c.baseURL (path.Join [base.Path, utf8 "asn", strconv.Itoa asNumber, utf8 "ixs"]) with
    | none => none
    | some (.error err, s1) => some (((none, some err), []), s1)
    | some (.ok endpoint, s1) =>
      let apiResp : bgpview.ASNIxsInfo := default
      match c.do_ s1 ctx endpoint decode apiResp with
      | none => none
      | some ((_, some err), calls) => some (((none, some err), calls), s1)
      | some ((apiResp, none), calls) => some (((some apiResp, none), calls), s1)

/-- Go `Client.GetPrefix` on the store: gets Prefix.  The result is the pair
`(value, error)` with the requests handed to the transport, and the store
after the call; `none` is the panic of a nil pointer. -/
def Client.GetPrefix (c : Client) (s : Store) (ctx : http.Context) (ipAddress : GoString) (cidr : Int)
    (decode : bgpview.Decoder bgpview.PrefixInfo) :
    Option (((Option bgpview.PrefixInfo × Option GoError) × List http.Request) × Store) :=
  match s.url c.baseURL with
  | none => none
  | some base =>
    match URL.Parse s c.baseURL (path.Join [base.Path, utf8 "prefix", ipAddress, strconv.Itoa cidr]) with
    | none => none
    | some (.error err, s1) => some (((none, some err), []), s1)
    | some (.ok endpoint, s1) =>
      let apiResp : bgpview.PrefixInfo := default
      match c.do_ s1 ctx endpoint decode apiResp with
      | none => none
      | some ((_, some err), calls) => some (((none, some err), calls), s1)
      | some ((apiResp, none), calls) => some (((some apiResp, none), calls), s1)

/-- Go `Client.GetIP` on the store: gets IP.  The result is the pair
`(value, error)` with the requests handed to the transport, and the store
after the call; `none` is the panic of a nil pointer. -/
def Client.GetIP (c : Client) (s : Store) (ctx : http.Context) (ipAddress : GoString)
    (decode : bgpview.Decoder bgpview.IPInfo) :
    Option (((Option bgpview.IPInfo × Option GoError) × List http.Request) × Store) :=
  match s.url c.baseURL with
  | none => none
  | some base =>
    match URL.Parse s c.baseURL (path.Join [base.Path, utf8 "ip", ipAddress]) with
    | none => none
    | some (.error err, s1) => some (((none, some err), []), s1)
    | some (.ok endpoint, s1) =>
      let apiResp : bgpview.IPInfo := default
      match c.do_ s1 ctx endpoint decode apiResp with
      | none => none
      | some ((_, some err), calls) => some (((none, some err), calls), s1)
      | some ((apiResp, none), calls) => some (((some apiResp, none), calls), s1)

/-- Go `Client.GetIX` on the store: gets IX.  The result is the pair
`(value, error)` with the requests handed to the transport, and the store
after the call; `none` is the panic of a nil pointer. -/
def Client.GetIX (c : Client) (s : Store) (ctx : http.Context) (ixID : Int)
    (decode : bgpview.Decoder bgpview.IXInfo) :
    Option (((Option bgpview.IXInfo × Option GoError) × List http.Request) × Store) :=
  match s.url c.baseURL with
  | none => none
  | some base =>
    match URL.Parse s c.baseURL (path.Join [base.Path, utf8 "ix", strconv.Itoa ixID]) with
    | none => none
    | some (.error err, s1) => some (((none, some err), []), s1)
    | some (.ok endpoint, s1) =>
      let apiResp : bgpview.IXInfo := default
      match c.do_ s1 ctx endpoint decode apiResp with
      | none => none
      | some ((_, some err), calls) => some (((none, some err), calls), s1)
      | some ((apiResp, none), calls) => some (((some apiResp, none), calls), s1)

/-- Go `Client.GetSearch` on the store: searches resources by ASN, IP, Prefix,
Name, Description.  The query string is written into the URL object behind
`endpoint`.  The result is the pair `(value, error)` with the requests handed
to the transport, and the store after the call; `none` is the panic of a nil
pointer. -/
def Client.GetSearch (c : Client) (s : Store) (ctx : http.Context) (term : GoString)
    (decode : bgpview.Decoder bgpview.SearchInfo) :
    Option (((Option bgpview.SearchInfo × Option GoError) × List http.Request) × Store) :=
  match s.url c.baseURL with
  | none => none
  | some base =>
    match URL.Parse s c.baseURL (path.Join [base.Path, utf8 "search"]) with
    | none => none
    | some (.error err, s1) => some (((none, some err), []), s1)
    | some (.ok endpoint, s1) =>
      match s1.url endpoint with
      | none => none
      | some e =>
        let query := e.Query
        let query := query.Set (utf8 "query_term") term
        match s1.setRawQuery endpoint query.Encode with
        | none => none
        | some s2 =>
          let apiResp : bgpview.SearchInfo := default
          match c.do_ s2 ctx endpoint decode apiResp with
          | none => none
          | some ((_, some err), calls) => some (((none, some err), calls), s2)
          | some ((apiResp, none), calls) => some (((some apiResp, none), calls), s2)

end heap

/-! ## encoding/json: the scanner -/

namespace json

/-- A JSON value as the decoder scans it.  A string holds its unquoted text,
a number its literal; every array element and every object member is kept
with the bytes it was written with (what a `json.RawMessage` receives), and
an object member with its unquoted key. -/
inductive Value where
  | null
  | bool (b : Bool)
  | number (literal : GoString)
  | string (s : GoString)
  | array (elems : List (GoString × Value))
  | object (members : List (GoString × GoString × Value))

instance : Inhabited Value := ⟨Value.null⟩

/-- Why the scanner stopped before the end of a value: the input ended
(`io.ErrUnexpectedEOF` once the reader reports `io.EOF`) or a byte is not
allowed where it stands (`*json.SyntaxError`). -/
inductive ScanError where
  | eof
  | syntaxError
  deriving DecidableEq, Repr

/-- Go `isSpace` of the scanner. -/
def isSpace (c : Byte) : Bool := c = ch ' ' ∨ c = ch '\t' ∨ c = ch '\r' ∨ c = ch '\n'

/-- The input after the white space the scanner skips. -/
def skipSpace (s : GoString) : GoString := s.dropWhile isSpace

/-- Go `maxNestingDepth`. -/
def maxNestingDepth : Nat := 10000

/-- A decimal digit. -/
def isDigit (c : Byte) : Bool := decide (ch '0' ≤ c) && decide (c ≤ ch '9')

/-- A hexadecimal digit, as `stateInStringEscU` accepts it. -/
def isHex (c : Byte) : Bool :=
  isDigit c || (decide (ch 'a' ≤ c) && decide (c ≤ ch 'f')) ||
    (decide (ch 'A' ≤ c) && decide (c ≤ ch 'F'))

/-- The states of the scanner inside a string literal: `stateInString`,
`stateInStringEsc`, and `stateInStringEscU` to `stateInStringEscU123`. -/
inductive StringState where
  | inString
  | esc
  | escU
  | escU1
  | escU12
  | escU123
  deriving DecidableEq, Repr

/-- The result of the scanner on the rest of a string literal, after the
byte `c` that belongs to it. -/
def keepByte (c : Byte) : Except ScanError (GoString × GoString) →
    Except ScanError (GoString × GoString)
  | .error err => .error err
  | .ok (body, rest) => .ok (c :: body, rest)

/-- One step of the scanner inside a string literal, on the byte `c` in the
state `st`: the next state, `none` after the closing quote, or the error. -/
def stringStep : StringState → Byte → Except ScanError (Option StringState)
  | .inString, c =>
    if c = ch '"' then .ok none
    else if c = ch '\\' then .ok (some .esc)
    else if c < 0x20 then .error .syntaxError
    else .ok (some .inString)
  | .esc, c =>
    if c = ch 'b' ∨ c = ch 'f' ∨ c = ch 'n' ∨ c = ch 'r' ∨ c = ch 't' ∨ c = ch '\\' ∨
        c = ch '/' ∨ c = ch '"' then .ok (some .inString)
    else if c = ch 'u' then .ok (some .escU)
    else .error .syntaxError
  | .escU, c => if isHex c then .ok (some .escU1) else .error .syntaxError
  | .escU1, c => if isHex c then .ok (some .escU12) else .error .syntaxError
  | .escU12, c => if isHex c then .ok (some .escU123) else .error .syntaxError
  | .escU123, c => if isHex c then .ok (some .inString) else .error .syntaxError

/-- The scanner inside a string literal, byte by byte from the state `st`:
the bytes up to the closing quote and the input after it. -/
def scanStringFrom : StringState → GoString → Except ScanError (GoString × GoString)
  | _, [] => .error .eof
  | st, c :: s =>
    match stringStep st c with
    | .error err => .error err
    | .ok none => .ok ([], s)
    | .ok (some next) => keepByte c (scanStringFrom next s)

/-- The scanner inside a string literal (`stateInString` and its escape
states): the input after the opening quote gives the bytes up to the closing
quote and the input after it. -/
def scanString (s : GoString) : Except ScanError (GoString × GoString) :=
  scanStringFrom .inString s

/-- The digits at the head of the input (`state1`, `stateDot0`, `stateE0`). -/
def scanDigits (s : GoString) : GoString × GoString := (s.takeWhile isDigit, s.dropWhile isDigit)

/-- The scanner on the integer part of a number (`stateBeginValue` or
`stateNeg`, then `state0` or `state1`): a single `0`, or a digit from `1` to
`9` and the digits after it. -/
def scanInt (s : GoString) : Except ScanError (GoString × GoString) :=
  match s with
  | [] => .error .eof
  | d :: s2 =>
    if d = ch '0' then .ok ([d], s2)
    else if isDigit d then .ok (d :: (scanDigits s2).1, (scanDigits s2).2)
    else .error .syntaxError

/-- The scanner after the integer part of a number (`state0`, `state1`,
`stateDot`, `stateDot0`): an optional fraction. -/
def scanFraction (s : GoString) : Except ScanError (GoString × GoString) :=
  match s with
  | c :: s1 =>
    if c = ch '.' then
      match s1 with
      | [] => .error .eof
      | d :: _ =>
        if isDigit d then .ok (c :: (scanDigits s1).1, (scanDigits s1).2)
        else .error .syntaxError
    else .ok ([], s)
  | [] => .ok ([], s)

/-- The scanner after the fraction of a number (`stateE`, `stateESign`,
`stateE0`): an optional exponent. -/
def scanExponent (s : GoString) : Except ScanError (GoString × GoString) :=
  match s with
  | c :: s3 =>
    if c = ch 'e' ∨ c = ch 'E' then
      let sign : GoString × GoString :=
        match s3 with
        | g :: s4 => if g = ch '+' ∨ g = ch '-' then ([g], s4) else ([], s3)
        | [] => ([], s3)
      match sign.2 with
      | [] => .error .eof
      | d :: _ =>
        if isDigit d then .ok (c :: sign.1 ++ (scanDigits sign.2).1, (scanDigits sign.2).2)
        else .error .syntaxError
    else .ok ([], s)
  | [] => .ok ([], s)

/-- The scanner on a number: an optional minus sign, the integer part, an
optional fraction and an optional exponent give the literal; the input after
it is returned with it. -/
def scanNumber (s : GoString) : Except ScanError (GoString × GoString) :=
  let neg : GoString × GoString :=
    match s with
    | c :: s1 => if c = ch '-' then ([c], s1) else ([], s)
    | [] => ([], s)
  match scanInt neg.2 with
  | .error err => .error err
  | .ok (int, s2) =>
    match scanFraction s2 with
    | .error err => .error err
    | .ok (frac, s3) =>
      match scanExponent s3 with
      | .error err => .error err
      | .ok (exp, rest) => .ok (neg.1 ++ int ++ frac ++ exp, rest)

/-- The scanner on one of the literals `true`, `false`, `null`, whose text
`lit` is expected at the head of the input. -/
def scanLiteral : GoString → GoString → Except ScanError GoString
  | [], s => .ok s
  | _ :: _, [] => .error .eof
  | l :: lit, c :: s => if c = l then scanLiteral lit s else .error .syntaxError

/-- Go `getu4`: the value of four hexadecimal digits. -/
def hexVal (c : Byte) : Nat :=
  if isDigit c then c.val - 48
  else if decide (ch 'a' ≤ c) && decide (c ≤ ch 'f') then c.val - 97 + 10
  else c.val - 65 + 10

/-- Go `utf8.EncodeRune` for a rune that is not a surrogate half (those, and
runes above U+10FFFF, are written as U+FFFD). -/
def encodeRune (r : Nat) : GoString :=
  if r < 0x80 then [Fin.ofNat r]
  else if r < 0x800 then [Fin.ofNat (0xC0 + r / 64), Fin.ofNat (0x80 + r % 64)]
  else if (0xD800 ≤ r ∧ r < 0xE000) ∨ 0x10FFFF < r then [0xEF, 0xBF, 0xBD]
  else if r < 0x10000 then
    [Fin.ofNat (0xE0 + r / 4096), Fin.ofNat (0x80 + r / 64 % 64), Fin.ofNat (0x80 + r % 64)]
  else
    [Fin.ofNat (0xF0 + r / 262144), Fin.ofNat (0x80 + r / 4096 % 64),
     Fin.ofNat (0x80 + r / 64 % 64), Fin.ofNat (0x80 + r % 64)]

/-- The length of the valid UTF-8 sequence at the head of the input, as
`utf8.DecodeRune` finds it; `0` when the first byte starts no valid sequence
(`RuneError` with size 1). -/
def runeLen (s : GoString) : Nat :=
  let cont (b : Byte) : Bool := decide (0x80 ≤ b) && decide (b ≤ 0xBF)
  match s with
  | [] => 0
  | b0 :: s1 =>
    if b0 < 0x80 then 1
    else if 0xC2 ≤ b0 ∧ b0 ≤ 0xDF then
      match s1 with
      | b1 :: _ => if cont b1 then 2 else 0
      | _ => 0
    else if 0xE0 ≤ b0 ∧ b0 ≤ 0xEF then
      match s1 with
      | b1 :: b2 :: _ =>
        let lo : Byte := if b0 = 0xE0 then 0xA0 else 0x80
        let hi : Byte := if b0 = 0xED then 0x9F else 0xBF
        if lo ≤ b1 ∧ b1 ≤ hi ∧ cont b2 then 3 else 0
      | _ => 0
    else if 0xF0 ≤ b0 ∧ b0 ≤ 0xF4 then
      match s1 with
      | b1 :: b2 :: b3 :: _ =>
        let lo : Byte := if b0 = 0xF0 then 0x90 else 0x80
        let hi : Byte := if b0 = 0xF4 then 0x8F else 0xBF
        if lo ≤ b1 ∧ b1 ≤ hi ∧ cont b2 ∧ cont b3 then 4 else 0
      | _ => 0
    else 0

/-- The loop of Go `unquoteBytes` over the bytes between the quotes of a
string literal the scanner has accepted: escapes are replaced by the bytes
they stand for, a surrogate pair of `\u` escapes by its rune, a lone
surrogate and every byte that starts no valid UTF-8 sequence by U+FFFD. -/
def unquoteLoop : Nat → GoString → GoString
  | 0, _ => []
  | _ + 1, [] => []
  | fuel + 1, c :: s =>
    if c = ch '\\' then
      match s with
      | [] => []
      | e :: s1 =>
        if e = ch 'u' then
          match s1 with
          | h1 :: h2 :: h3 :: h4 :: s2 =>
            let rr := hexVal h1 * 4096 + hexVal h2 * 256 + hexVal h3 * 16 + hexVal h4
            if 0xD800 ≤ rr ∧ rr < 0xE000 then
              -- a surrogate half: a valid pair is consumed as one rune
              match s2 with
              | b :: u :: k1 :: k2 :: k3 :: k4 :: s3 =>
                let rr1 := hexVal k1 * 4096 + hexVal k2 * 256 + hexVal k3 * 16 + hexVal k4
                if b = ch '\\' ∧ u = ch 'u' ∧ isHex k1 ∧ isHex k2 ∧ isHex k3 ∧ isHex k4 ∧
                    rr < 0xDC00 ∧ 0xDC00 ≤ rr1 ∧ rr1 < 0xE000 then
                  encodeRune ((rr - 0xD800) * 1024 + (rr1 - 0xDC00) + 0x10000) ++
                    unquoteLoop fuel s3
                else [0xEF, 0xBF, 0xBD] ++ unquoteLoop fuel s2
              | _ => [0xEF, 0xBF, 0xBD] ++ unquoteLoop fuel s2
            else encodeRune rr ++ unquoteLoop fuel s2
          | _ => []
        else
          let b : Byte :=
            if e = ch 'b' then 8 else if e = ch 'f' then 12 else if e = ch 'n' then 10
            else if e = ch 'r' then 13 else if e = ch 't' then 9 else e
          b :: unquoteLoop fuel s1
    else if c < 0x80 then c :: unquoteLoop fuel s
    else
      let n := runeLen (c :: s)
      if n = 0 then [0xEF, 0xBF, 0xBD] ++ unquoteLoop fuel s
      else (c :: s).take n ++ unquoteLoop fuel ((c :: s).drop n)

/-- Go `unquote` on the bytes between the quotes of a scanned string literal. -/
def unquote (s : GoString) : GoString := unquoteLoop (s.length + 1) s

/-- The raw text of a value: what the scanner consumed of `input` to leave `rest`. -/
def consumed (input rest : GoString) : GoString := input.take (input.length - rest.length)

mutual

/-- The scanner on one value (`stateBeginValue`), with `depth` containers
open around it: the value and the input after it.  The input has no leading
white space. -/
def scanValue : Nat → Nat → GoString → Except ScanError (Value × GoString)
  | 0, _, _ => .error .syntaxError
  | fuel + 1, depth, input =>
    match input with
    | [] => .error .eof
    | c :: s =>
      if c = ch '{' then
        if depth ≥ maxNestingDepth then .error .syntaxError
        else
          match skipSpace s with
          | [] => .error .eof
          | d :: s1 =>
            if d = ch '}' then .ok (.object [], s1)
            else
              match scanMembers fuel (depth + 1) (d :: s1) with
              | .error err => .error err
              | .ok (ms, rest) => .ok (.object ms, rest)
      else if c = ch '[' then
        if depth ≥ maxNestingDepth then .error .syntaxError
        else
          match skipSpace s with
          | [] => .error .eof
          | d :: s1 =>
            if d = ch ']' then .ok (.array [], s1)
            else
              match scanElems fuel (depth + 1) (d :: s1) with
              | .error err => .error err
              | .ok (es, rest) => .ok (.array es, rest)
      else if c = ch '"' then
        match scanString s with
        | .error err => .error err
        | .ok (body, rest) => .ok (.string (unquote body), rest)
      else if c = ch '-' ∨ isDigit c then
        match scanNumber input with
        | .error err => .error err
        | .ok (lit, rest) => .ok (.number lit, rest)
      else if c = ch 't' then
        match scanLiteral (utf8 "rue") s with
        | .error err => .error err
        | .ok rest => .ok (.bool true, rest)
      else if c = ch 'f' then
        match scanLiteral (utf8 "alse") s with
        | .error err => .error err
        | .ok rest => .ok (.bool false, rest)
      else if c = ch 'n' then
        match scanLiteral (utf8 "ull") s with
        | .error err => .error err
        | .ok rest => .ok (.null, rest)
      else .error .syntaxError

/-- The scanner on the elements of an array, from the first byte of an
element to the closing bracket. -/
def scanElems : Nat → Nat → GoString → Except ScanError (List (GoString × Value) × GoString)
  | 0, _, _ => .error .syntaxError
  | fuel + 1, depth, input =>
    match scanValue fuel depth input with
    | .error err => .error err
    | .ok (v, rest) =>
      match skipSpace rest with
      | [] => .error .eof
      | d :: s1 =>
        if d = ch ']' then .ok ([(consumed input rest, v)], s1)
        else if d = ch ',' then
          match scanElems fuel depth (skipSpace s1) with
          | .error err => .error err
          | .ok (es, rest1) => .ok ((consumed input rest, v) :: es, rest1)
        else .error .syntaxError

/-- The scanner on the members of an object, from the opening quote of a key
to the closing brace. -/
def scanMembers : Nat → Nat → GoString →
    Except ScanError (List (GoString × GoString × Value) × GoString)
  | 0, _, _ => .error .syntaxError
  | fuel + 1, depth, input =>
    match input with
    | [] => .error .eof
    | q :: s =>
      if q ≠ ch '"' then .error .syntaxError
      else
        match scanString s with
        | .error err => .error err
        | .ok (key, rest0) =>
          match skipSpace rest0 with
          | [] => .error .eof
          | colon :: s1 =>
            if colon ≠ ch ':' then .error .syntaxError
            else
              match scanValue fuel depth (skipSpace s1) with
              | .error err => .error err
              | .ok (v, rest) =>
                match skipSpace rest with
                | [] => .error .eof
                | d :: s2 =>
                  if d = ch '}' then .ok ([(unquote key, consumed (skipSpace s1) rest, v)], s2)
                  else if d = ch ',' then
                    match scanMembers fuel depth (skipSpace s2) with
                    | .error err => .error err
                    | .ok (ms, rest1) =>
                      .ok ((unquote key, consumed (skipSpace s1) rest, v) :: ms, rest1)
                  else .error .syntaxError

end

/-- The first JSON value of `data`, as `(*Decoder).readValue` delimits it and
the decoder then scans it: its raw text, the value, and the input after it. -/
def readValue (data : GoString) : Except ScanError (GoString × Value × GoString) :=
  match scanValue (data.length + 1) 0 (skipSpace data) with
  | .error err => .error err
  | .ok (v, rest) => .ok (consumed (skipSpace data) rest, v, rest)

end json

/-! ## encoding/json: Go values and their types -/

namespace json

open bgpview

/-- A Go type of `types.go` as the JSON package sees it by reflection.  A
struct carries its name and, for every field in declaration order, the JSON
key of its tag, whether the tag has `omitempty`, and the type of the field. -/
inductive GoType where
  | string
  | int
  | any
  | rawMessage
  | slice (elem : GoType)
  | struct (name : GoString) (fields : List (GoString × Bool × GoType))

instance : Inhabited GoType := ⟨GoType.string⟩

/-- A Go value of one of these types.  A slice is nil or has elements; its
`spare` part holds what the backing array keeps between the length and the
capacity of the slice, which no comparison sees and which the decoder reuses
when it grows the slice again. -/
inductive GoVal where
  | str (s : GoString)
  | int (n : Int)
  | any (a : GoAny)
  | raw (m : Option GoString)
  | nilSlice
  | slice (elems spare : List GoVal)
  | struct (fields : List GoVal)

instance : Inhabited GoVal := ⟨GoVal.nilSlice⟩

/-- The zero value of a type. -/
def zero : GoType → GoVal
  | .string => .str []
  | .int => .int 0
  | .any => .any .nil
  | .rawMessage => .raw none
  | .slice _ => .nilSlice
  | .struct _ fields => .struct (zeros fields)
where
  /-- The zero values of the fields of a struct. -/
  zeros : List (GoString × Bool × GoType) → List GoVal
    | [] => []
    | (_, _, t) :: fs => zero t :: zeros fs

/-- Go `reflect.Type.String()`. -/
def GoType.name : GoType → GoString
  | .string => utf8 "string"
  | .int => utf8 "int"
  | .any => utf8 "interface {}"
  | .rawMessage => utf8 "json.RawMessage"
  | .slice t => utf8 "[]" ++ t.name
  | .struct n _ => n

/-- ASCII lower case of a byte. -/
def lower (c : Byte) : Byte := if ch 'A' ≤ c ∧ c ≤ ch 'Z' then c + 32 else c

/-- Go `bytes.EqualFold(name, key)` for an ASCII field name: equality under
simple case folding, in which `k` also folds with the Kelvin sign U+212A and
`s` with the long s U+017F. -/
def equalFold : GoString → GoString → Bool
  | [], key => key = []
  | a :: name, key =>
    match key with
    | [] => false
    | b :: t =>
      if lower a = lower b then equalFold name t
      else if lower a = ch 'k' ∧ key.take 3 = [0xE2, 0x84, 0xAA] then equalFold name (key.drop 3)
      else if lower a = ch 's' ∧ key.take 2 = [0xC5, 0xBF] then equalFold name (key.drop 2)
      else false

/-- The index of the first field that satisfies `p`. -/
def indexWhere (p : GoString × Bool × GoType → Bool) : List (GoString × Bool × GoType) → Option Nat
  | [] => none
  | f :: fields => if p f then some 0 else (indexWhere p fields).map (· + 1)

/-- The field an object key is decoded into: the field whose name is the key
exactly, else the first field whose name equals the key under case folding. -/
def fieldIndex (fields : List (GoString × Bool × GoType)) (key : GoString) : Option Nat :=
  match indexWhere (fun f => f.1 = key) fields with
  | some i => some i
  | none => indexWhere (fun f => equalFold f.1 key) fields

/-- Go `strconv.ParseInt(s, 10, 64)` on a JSON number literal: the value of
an integer literal that fits in 64 bits. -/
def parseInt64 (lit : GoString) : Option Int :=
  let neg := lit.head? = some (ch '-')
  let digits := if neg then lit.tail else lit
  if digits = [] ∨ ¬ digits.all isDigit then none
  else
    let n : Int := digits.foldl (fun a d => a * 10 + ((d.val : Int) - 48)) 0
    let v := if neg then -n else n
    if -9223372036854775808 ≤ v ∧ v ≤ 9223372036854775807 then some v else none

/-- Go `map[string]interface{}` assignment `m[key] = v`, on the list of the
entries of the map kept in key order. -/
def setKey : List (GoString × GoAny) → GoString → GoAny → List (GoString × GoAny)
  | [], key, v => [(key, v)]
  | (k, w) :: m, key, v =>
    if k = key then (key, v) :: m
    else if url.strLess key k then (key, v) :: (k, w) :: m
    else (k, w) :: setKey m key v

/-- Go `(*decodeState).saveError`: the first error is kept. -/
def firstError (saved new : Option GoError) : Option GoError :=
  match saved with
  | some e => some e
  | none => new

/-- The error of `(*decodeState).convertNumber` for a number literal that
`strconv.ParseFloat` does not take:
`&json.UnmarshalTypeError{Value: "number " + s, Type: reflect.TypeOf(0.0)}`. -/
def floatError (lit : GoString) : GoError :=
  .jsonUnmarshalTypeError (utf8 "number " ++ lit) (utf8 "float64")

/-- Go `(*decodeState).valueInterface` with `literalInterface`: a JSON value
as an `interface{}`, and the error saved.  A number is converted by
`convertNumber` to a `float64`; one out of range leaves nil and its error. -/
def valueInterface : Value → GoAny × Option GoError
  | .null => (.nil, none)
  | .bool b => (.bool b, none)
  | .number lit =>
    match strconv.ParseFloat lit with
    | some f => (.number f, none)
    | none => (.nil, some (floatError lit))
  | .string s => (.string s, none)
  | .array es => (.array (arrayInterface es).1, (arrayInterface es).2)
  | .object ms => (.object (objectInterface ms []).1, (objectInterface ms []).2)
where
  /-- Go `arrayInterface`. -/
  arrayInterface : List (GoString × Value) → List GoAny × Option GoError
    | [] => ([], none)
    | (_, v) :: es =>
      ((valueInterface v).1 :: (arrayInterface es).1,
        firstError (valueInterface v).2 (arrayInterface es).2)
  /-- Go `objectInterface`: a later member replaces an earlier one of the same key. -/
  objectInterface : List (GoString × GoString × Value) → List (GoString × GoAny) →
      List (GoString × GoAny) × Option GoError
    | [], m => (m, none)
    | (key, _, v) :: ms, m =>
      ((objectInterface ms (setKey m key (valueInterface v).1)).1,
        firstError (valueInterface v).2
          (objectInterface ms (setKey m key (valueInterface v).1)).2)

/-- The error `&json.UnmarshalTypeError{Value: value, Type: ty}`. -/
def typeError (value : GoString) (ty : GoType) : GoError :=
  .jsonUnmarshalTypeError value ty.name

mutual

/-- Go `(*decodeState).value` with its `array`, `object` and `literalStore`:
decodes the JSON value `v`, written as `raw`, into the destination `dest` of
type `ty`.  Returns the destination after the call and the error saved, if
any; after an error the decoding goes on. -/
def decodeValue (ty : GoType) (raw : GoString) : Value → GoVal → GoVal × Option GoError
  | .null, dest =>
    match ty with
    | .rawMessage => (.raw (some raw), none)
    | .any => (.any .nil, none)
    | .slice _ => (.nilSlice, none)
    | _ => (dest, none)
  | .bool b, dest =>
    match ty with
    | .rawMessage => (.raw (some raw), none)
    | .any => (.any (.bool b), none)
    | _ => (dest, some (typeError (utf8 "bool") ty))
  | .number lit, dest =>
    match ty with
    | .rawMessage => (.raw (some raw), none)
    | .any =>
      match strconv.ParseFloat lit with
      | some f => (.any (.number f), none)
      | none => (dest, some (floatError lit))
    | .int =>
      match parseInt64 lit with
      | some n => (.int n, none)
      | none => (dest, some (typeError (utf8 "number " ++ lit) ty))
    | _ => (dest, some (typeError (utf8 "number") ty))
  | .string s, dest =>
    match ty with
    | .rawMessage => (.raw (some raw), none)
    | .any => (.any (.string s), none)
    | .string => (.str s, none)
    | _ => (dest, some (typeError (utf8 "string") ty))
  | .array es, dest =>
    match ty with
    | .rawMessage => (.raw (some raw), none)
    | .any =>
      ((.any (.array (valueInterface.arrayInterface es).1)),
        (valueInterface.arrayInterface es).2)
    | .slice elem =>
      match es with
      | [] => (.slice [] [], none)
      | _ :: _ =>
        let r :=
          match dest with
          | .slice elems spare => decodeElems elem es elems spare
          | _ => decodeElems elem es [] []
        (.slice r.1 r.2.1, r.2.2)
    | _ => (dest, some (typeError (utf8 "array") ty))
  | .object ms, dest =>
    match ty with
    | .rawMessage => (.raw (some raw), none)
    | .any =>
      ((.any (.object (valueInterface.objectInterface ms []).1)),
        (valueInterface.objectInterface ms []).2)
    | .struct _ fields =>
      let vals :=
        match dest with
        | .struct vals => vals
        | _ => []
      let r := decodeMembers fields ms vals
      (.struct r.1, r.2)
    | _ => (dest, some (typeError (utf8 "object") ty))

/-- The element loop of `(*decodeState).array` on a slice: element `i` of the
array is decoded into element `i` of the slice when the slice has one, else
into the element the slice uncovers when its length grows by one (what the
backing array holds there, or a zero value once the array is reallocated).
Returns the elements decoded, what is left of the backing array, and the
error saved. -/
def decodeElems (elem : GoType) :
    List (GoString × Value) → List GoVal → List GoVal → List GoVal × List GoVal × Option GoError
  | [], elems, spare => ([], elems ++ spare, none)
  | (raw, v) :: es, elems, spare =>
    let slot : GoVal × List GoVal × List GoVal :=
      match elems with
      | x :: xs => (x, xs, spare)
      | [] =>
        match spare with
        | y :: ys => (y, [], ys)
        | [] => (zero elem, [], [])
    let r1 := decodeValue elem raw v slot.1
    let r2 := decodeElems elem es slot.2.1 slot.2.2
    (r1.1 :: r2.1, r2.2.1, firstError r1.2 r2.2.2)

/-- The member loop of `(*decodeState).object` on a struct: a member whose
key names a field is decoded into that field, any other member is skipped. -/
def decodeMembers (fields : List (GoString × Bool × GoType)) :
    List (GoString × GoString × Value) → List GoVal → List GoVal × Option GoError
  | [], vals => (vals, none)
  | (key, raw, v) :: ms, vals =>
    match fieldIndex fields key with
    | none => decodeMembers fields ms vals
    | some i =>
      match fields.get? i with
      | some f =>
        let r1 := decodeValue f.2.2 raw v (vals.getD i (zero f.2.2))
        let r2 := decodeMembers fields ms (vals.set i r1.1)
        (r2.1, firstError r1.2 r2.2)
      | none => decodeMembers fields ms vals

end

/-- Go `io.EOF`. -/
def EOF : GoError := .errorString (utf8 "EOF")

/-- Go `io.ErrUnexpectedEOF`. -/
def ErrUnexpectedEOF : GoError := .errorString (utf8 "unexpected EOF")

/-- Whether a value is an array or an object, whose end the decoder sees
without reading a further byte. -/
def Value.isContainer : Value → Bool
  | .array _ => true
  | .object _ => true
  | _ => false

/-- Go `json.NewDecoder(body).Decode(&dest)` for a destination of type `ty`:
reads the first JSON value of the body and decodes it into the destination.
Returns the destination after the call and the error. -/
def Decode (ty : GoType) (body : http.Body) (dest : GoVal) : GoVal × Option GoError :=
  match readValue body.data with
  | .error .syntaxError => (dest, some .jsonSyntaxError)
  | .error .eof =>
    match body.err with
    | some e => (dest, some e)
    | none => (dest, some (if skipSpace body.data = [] then EOF else ErrUnexpectedEOF))
  | .ok (raw, v, rest) =>
    if rest = [] ∧ !v.isContainer ∧ body.err ≠ none then
      -- a literal at the very end of the input needs one more byte or `io.EOF`
      (dest, body.err)
    else decodeValue ty raw v dest

end json

/-! ## The data model as the JSON package sees it -/

namespace bgpview

open json

/-- The reflection data of Go `Meta`: JSON key, `omitempty` and type of each field. -/
def Meta.goType : GoType :=
  .struct (utf8 "bgpview.Meta")
    [(utf8 "time_zone", true, .string),
     (utf8 "api_version", true, .int),
     (utf8 "execution_time", true, .string)]

/-- The reflection data of Go `AllocationData`: JSON key, `omitempty` and type of each field. -/
def AllocationData.goType : GoType :=
  .struct (utf8 "bgpview.AllocationData")
    [(utf8 "rir_name", true, .string),
     (utf8 "country_code", true, .string),
     (utf8 "ip", true, .string),
     (utf8 "cidr", true, .int),
     (utf8 "prefix", true, .string),
     (utf8 "date_allocated", true, .string)]

/-- The reflection data of Go `ASNData`: JSON key, `omitempty` and type of each field. -/
def ASNData.goType : GoType :=
  .struct (utf8 "bgpview.ASNData")
    [(utf8 "asn", true, .int),
     (utf8 "name", true, .string),
     (utf8 "description_short", true, .string),
     (utf8 "description_full", true, (.slice .string)),
     (utf8 "country_code", true, .string),
     (utf8 "website", true, .string),
     (utf8 "email_contacts", true, (.slice .string)),
     (utf8 "abuse_contacts", true, (.slice .string)),
     (utf8 "looking_glass", true, .string),
     (utf8 "traffic_estimation", true, .string),
     (utf8 "traffic_ratio", true, .string),
     (utf8 "owner_address", true, (.slice .string)),
     (utf8 "rir_allocation", true, AllocationData.goType),
     (utf8 "date_updated", true, .string)]

/-- The reflection data of Go `ASNInfo`: JSON key, `omitempty` and type of each field. -/
def ASNInfo.goType : GoType :=
  .struct (utf8 "bgpview.ASNInfo")
    [(utf8 "status", true, .string),
     (utf8 "status_message", true, .string),
     (utf8 "data", true, ASNData.goType),
     (utf8 "@meta", true, Meta.goType)]

/-- The reflection data of Go `ASNPrefixesParent`: JSON key, `omitempty` and type of each field. -/
def ASNPrefixesParent.goType : GoType :=
  .struct (utf8 "bgpview.ASNPrefixesParent")
    [(utf8 "prefix", true, .string),
     (utf8 "ip", true, .string),
     (utf8 "cidr", true, .int),
     (utf8 "rir_name", true, .string)]

/-- The reflection data of Go `ASNIPPrefixesData`: JSON key, `omitempty` and type of each field. -/
def ASNIPPrefixesData.goType : GoType :=
  .struct (utf8 "bgpview.ASNIPPrefixesData")
    [(utf8 "prefix", true, .string),
     (utf8 "ip", true, .string),
     (utf8 "cidr", true, .int),
     (utf8 "roa_status", true, .string),
     (utf8 "name", true, .string),
     (utf8 "description", true, .string),
     (utf8 "country_code", true, .string),
     (utf8 "parent", true, ASNPrefixesParent.goType)]

/-- The reflection data of Go `ASNPrefixesData`: JSON key, `omitempty` and type of each field. -/
def ASNPrefixesData.goType : GoType :=
  .struct (utf8 "bgpview.ASNPrefixesData")
    [(utf8 "ipv4_prefixes", true, (.slice ASNIPPrefixesData.goType)),
     (utf8 "ipv6_prefixes", true, (.slice ASNIPPrefixesData.goType))]

/-- The reflection data of Go `ASNPrefixesInfo`: JSON key, `omitempty` and type of each field. -/
def ASNPrefixesInfo.goType : GoType :=
  .struct (utf8 "bgpview.ASNPrefixesInfo")
    [(utf8 "status", true, .string),
     (utf8 "status_message", true, .string),
     (utf8 "data", true, ASNPrefixesData.goType),
     (utf8 "@meta", true, Meta.goType)]

/-- The reflection data of Go `ASNIPPeersData`: JSON key, `omitempty` and type of each field. -/
def ASNIPPeersData.goType : GoType :=
  .struct (utf8 "bgpview.ASNIPPeersData")
    [(utf8 "asn", true, .int),
     (utf8 "name", true, .string),
     (utf8 "description", true, .string),
     (utf8 "country_code", true, .string)]

/-- The reflection data of Go `ASNPeersData`: JSON key, `omitempty` and type of each field. -/
def ASNPeersData.goType : GoType :=
  .struct (utf8 "bgpview.ASNPeersData")
    [(utf8 "ipv4_peers", true, (.slice ASNIPPeersData.goType)),
     (utf8 "ipv6_peers", true, (.slice ASNIPPeersData.goType))]

/-- The reflection data of Go `ASNPeersInfo`: JSON key, `omitempty` and type of each field. -/
def ASNPeersInfo.goType : GoType :=
  .struct (utf8 "bgpview.ASNPeersInfo")
    [(utf8 "status", true, .string),
     (utf8 "status_message", true, .string),
     (utf8 "data", true, ASNPeersData.goType),
     (utf8 "@meta", true, Meta.goType)]

/-- The reflection data of Go `ASNIPUpstreamsData`: JSON key, `omitempty` and type of each field. -/
def ASNIPUpstreamsData.goType : GoType :=
  .struct (utf8 "bgpview.ASNIPUpstreamsData")
    [(utf8 "asn", true, .int),
     (utf8 "name", true, .string),
     (utf8 "description", true, .string),
     (utf8 "country_code", true, .string),
     (utf8 "bgp_paths", true, (.slice .string))]

/-- The reflection data of Go `ASNUpstreamsData`: JSON key, `omitempty` and type of each field. -/
def ASNUpstreamsData.goType : GoType :=
  .struct (utf8 "bgpview.ASNUpstreamsData")
    [(utf8 "ipv4_upstreams", true, (.slice ASNIPUpstreamsData.goType)),
     (utf8 "ipv6_upstreams", true, (.slice ASNIPUpstreamsData.goType))]

/-- The reflection data of Go `ASNUpstreamsInfo`: JSON key, `omitempty` and type of each field. -/
def ASNUpstreamsInfo.goType : GoType :=
  .struct (utf8 "bgpview.ASNUpstreamsInfo")
    [(utf8 "status", true, .string),
     (utf8 "status_message", true, .string),
     (utf8 "data", true, ASNUpstreamsData.goType),
     (utf8 "@meta", true, Meta.goType)]

/-- The reflection data of Go `ASNIPDownstreamsData`: JSON key, `omitempty` and type of each field. -/
def ASNIPDownstreamsData.goType : GoType :=
  .struct (utf8 "bgpview.ASNIPDownstreamsData")
    [(utf8 "asn", true, .int),
     (utf8 "name", true, .string),
     (utf8 "description", true, .string),
     (utf8 "country_code", true, .string),
     (utf8 "bgp_paths", true, (.slice .string))]

/-- The reflection data of Go `ASNDownstreamsData`: JSON key, `omitempty` and type of each field. -/
def ASNDownstreamsData.goType : GoType :=
  .struct (utf8 "bgpview.ASNDownstreamsData")
    [(utf8 "ipv4_downstreams", true, (.slice ASNIPDownstreamsData.goType)),
     (utf8 "ipv6_downstreams", true, (.slice ASNIPDownstreamsData.goType))]

/-- The reflection data of Go `ASNDownstreamsInfo`: JSON key, `omitempty` and type of each field. -/
def ASNDownstreamsInfo.goType : GoType :=
  .struct (utf8 "bgpview.ASNDownstreamsInfo")
    [(utf8 "status", true, .string),
     (utf8 "status_message", true, .string),
     (utf8 "data", true, ASNDownstreamsData.goType),
     (utf8 "@meta", true, Meta.goType)]

/-- The reflection data of Go `ASNIxsData`: JSON key, `omitempty` and type of each field. -/
def ASNIxsData.goType : GoType :=
  .struct (utf8 "bgpview.ASNIxsData")
    [(utf8 "ix_id", true, .int),
     (utf8 "name", true, .string),
     (utf8 "name_full", true, .string),
     (utf8 "country_code", true, .string),
     (utf8 "ipv4_address", true, .string),
     (utf8 "ipv6_address", true, .string),
     (utf8 "speed", true, .int)]

/-- The reflection data of Go `ASNIxsInfo`: JSON key, `omitempty` and type of each field. -/
def ASNIxsInfo.goType : GoType :=
  .struct (utf8 "bgpview.ASNIxsInfo")
    [(utf8 "status", true, .string),
     (utf8 "status_message", true, .string),
     (utf8 "data", true, (.slice ASNIxsData.goType)),
     (utf8 "@meta", true, Meta.goType)]

/-- The reflection data of Go `ASN`: JSON key, `omitempty` and type of each field. -/
def ASN.goType : GoType :=
  .struct (utf8 "bgpview.ASN")
    [(utf8 "asn", true, .int),
     (utf8 "name", true, .string),
     (utf8 "description", true, .string),
     (utf8 "country_code", true, .string)]

/-- The reflection data of Go `CountryCodeData`: JSON key, `omitempty` and type of each field. -/
def CountryCodeData.goType : GoType :=
  .struct (utf8 "bgpview.CountryCodeData")
    [(utf8 "whois_country_code", true, .string),
     (utf8 "rir_allocation_country_code", true, .string),
     (utf8 "maxmind_country_code", true, .string)]

/-- The reflection data of Go `MaxMindData`: JSON key, `omitempty` and type of each field. -/
def MaxMindData.goType : GoType :=
  .struct (utf8 "bgpview.MaxMindData")
    [(utf8 "country_code", true, .string),
     (utf8 "city", true, .any)]

/-- The reflection data of Go `PrefixData`: JSON key, `omitempty` and type of each field. -/
def PrefixData.goType : GoType :=
  .struct (utf8 "bgpview.PrefixData")
    [(utf8 "prefix", true, .string),
     (utf8 "ip", true, .string),
     (utf8 "cidr", true, .int),
     (utf8 "asns", true, (.slice ASN.goType)),
     (utf8 "name", true, .string),
     (utf8 "description_short", true, .string),
     (utf8 "description_full", true, (.slice .string)),
     (utf8 "email_contacts", true, (.slice .string)),
     (utf8 "abuse_contacts", true, (.slice .string)),
     (utf8 "owner_address", true, (.slice .string)),
     (utf8 "country_codes", true, CountryCodeData.goType),
     (utf8 "rir_allocation", true, AllocationData.goType),
     (utf8 "maxmind", true, MaxMindData.goType),
     (utf8 "date_updated", true, .string)]

/-- The reflection data of Go `PrefixInfo`: JSON key, `omitempty` and type of each field. -/
def PrefixInfo.goType : GoType :=
  .struct (utf8 "bgpview.PrefixInfo")
    [(utf8 "status", true, .string),
     (utf8 "status_message", true, .string),
     (utf8 "data", true, PrefixData.goType),
     (utf8 "@meta", true, Meta.goType)]

/-- The reflection data of Go `IPAllocationData`: JSON key, `omitempty` and type of each field. -/
def IPAllocationData.goType : GoType :=
  .struct (utf8 "bgpview.IPAllocationData")
    [(utf8 "rir_name", true, .string),
     (utf8 "country_code", true, .string),
     (utf8 "ip", true, .string),
     (utf8 "cidr", true, .string),
     (utf8 "prefix", true, .string),
     (utf8 "date_allocated", true, .string)]

/-- The reflection data of Go `IPData`: JSON key, `omitempty` and type of each field. -/
def IPData.goType : GoType :=
  .struct (utf8 "bgpview.IPData")
    [(utf8 "prefixes", true, (.slice PrefixData.goType)),
     (utf8 "rir_allocation", true, IPAllocationData.goType),
     (utf8 "maxmind", true, MaxMindData.goType),
     (utf8 "related_prefixes", true, (.slice PrefixData.goType))]

/-- The reflection data of Go `IPInfo`: JSON key, `omitempty` and type of each field. -/
def IPInfo.goType : GoType :=
  .struct (utf8 "bgpview.IPInfo")
    [(utf8 "status", true, .string),
     (utf8 "status_message", true, .string),
     (utf8 "data", true, IPData.goType),
     (utf8 "@meta", true, Meta.goType)]

/-- The reflection data of Go `MemberData`: JSON key, `omitempty` and type of each field. -/
def MemberData.goType : GoType :=
  .struct (utf8 "bgpview.MemberData")
    [(utf8 "asn", true, .int),
     (utf8 "name", true, .string),
     (utf8 "description", true, .string),
     (utf8 "country_code", true, .string),
     (utf8 "ipv4_address", true, .string),
     (utf8 "ipv6_address", true, .string),
     (utf8 "speed", true, .int)]

/-- The reflection data of Go `IXData`: JSON key, `omitempty` and type of each field. -/
def IXData.goType : GoType :=
  .struct (utf8 "bgpview.IXData")
    [(utf8 "name", true, .string),
     (utf8 "name_full", true, .string),
     (utf8 "website", true, .string),
     (utf8 "tech_email", true, .string),
     (utf8 "tech_phone", true, .string),
     (utf8 "policy_email", true, .string),
     (utf8 "policy_phone", true, .string),
     (utf8 "city", true, .string),
     (utf8 "country_code", true, .string),
     (utf8 "url_stats", true, .rawMessage),
     (utf8 "members_count", true, .int),
     (utf8 "members", true, (.slice MemberData.goType))]

/-- The reflection data of Go `IXInfo`: JSON key, `omitempty` and type of each field. -/
def IXInfo.goType : GoType :=
  .struct (utf8 "bgpview.IXInfo")
    [(utf8 "status", true, .string),
     (utf8 "status_message", true, .string),
     (utf8 "data", true, IXData.goType),
     (utf8 "@meta", true, Meta.goType)]

/-- The reflection data of Go `SearchASNData`: JSON key, `omitempty` and type of each field. -/
def SearchASNData.goType : GoType :=
  .struct (utf8 "bgpview.SearchASNData")
    [(utf8 "asn", true, .int),
     (utf8 "name", true, .string),
     (utf8 "description", true, .string),
     (utf8 "country_code", true, .string),
     (utf8 "email_contacts", true, (.slice .string)),
     (utf8 "abuse_contacts", true, (.slice .string)),
     (utf8 "rir_name", true, .string)]

/-- The reflection data of Go `SearchIPPrefixesData`: JSON key, `omitempty` and type of each field. -/
def SearchIPPrefixesData.goType : GoType :=
  .struct (utf8 "bgpview.SearchIPPrefixesData")
    [(utf8 "prefix", true, .string),
     (utf8 "ip", true, .string),
     (utf8 "cidr", true, .int),
     (utf8 "name", true, .string),
     (utf8 "country_code", true, .string),
     (utf8 "description", true, .string),
     (utf8 "email_contacts", true, (.slice .string)),
     (utf8 "abuse_contacts", true, (.slice .string)),
     (utf8 "rir_name", true, .string),
     (utf8 "parent_prefix", true, .string),
     (utf8 "parent_ip", true, .string),
     (utf8 "parent_cidr", true, .int)]

/-- The reflection data of Go `SearchData`: JSON key, `omitempty` and type of each field. -/
def SearchData.goType : GoType :=
  .struct (utf8 "bgpview.SearchData")
    [(utf8 "asns", true, (.slice SearchASNData.goType)),
     (utf8 "ipv4_prefixes", true, (.slice SearchIPPrefixesData.goType)),
     (utf8 "ipv6_prefixes", true, (.slice SearchIPPrefixesData.goType))]

/-- The reflection data of Go `SearchInfo`: JSON key, `omitempty` and type of each field. -/
def SearchInfo.goType : GoType :=
  .struct (utf8 "bgpview.SearchInfo")
    [(utf8 "status", true, .string),
     (utf8 "status_message", true, .string),
     (utf8 "data", true, SearchData.goType),
     (utf8 "@meta", true, Meta.goType)]

/-- The ten envelope types, one per accessor. -/
def envelopeTypes : List GoType :=
  [ASNInfo.goType, ASNPrefixesInfo.goType, ASNPeersInfo.goType, ASNUpstreamsInfo.goType, ASNDownstreamsInfo.goType, ASNIxsInfo.goType, PrefixInfo.goType, IPInfo.goType, IXInfo.goType, SearchInfo.goType]

end bgpview

/-! ## encoding/json: Marshal -/

namespace json

open bgpview

/-- The outcome of `json.Marshal`: the text written, the error returned, or
`notModelled` for a value that does not have the type it is encoded at. -/
inductive Marshaled where
  | ok (text : GoString)
  | error (e : GoError)
  | notModelled
  deriving DecidableEq, Repr

/-- The text written after `pre` by an encoder that may fail. -/
def Marshaled.prepend (pre : GoString) : Marshaled → Marshaled
  | .ok text => .ok (pre ++ text)
  | .error e => .error e
  | .notModelled => .notModelled

/-- The text of `r` followed by the text of `next`. -/
def Marshaled.andThen (r : Marshaled) (next : Marshaled) : Marshaled :=
  match r with
  | .ok text => next.prepend text
  | .error e => .error e
  | .notModelled => .notModelled

/-- Go `hex` of the encoder: a lower-case hexadecimal digit. -/
def hexDigit (n : Nat) : Byte := if n < 10 then Fin.ofNat (48 + n) else Fin.ofNat (87 + n)

/-- Go `htmlSafeSet`: the ASCII bytes written as they are inside a string. -/
def htmlSafe (b : Byte) : Bool :=
  decide (0x20 ≤ b) && decide (b < 0x80) && decide (b ≠ ch '"') && decide (b ≠ ch '\\') &&
    decide (b ≠ ch '<') && decide (b ≠ ch '>') && decide (b ≠ ch '&')

/-- The loop of Go `appendString` with `escapeHTML` set (the text between
the quotes; `\b` and `\f` are written this way since Go 1.22). -/
def appendStringLoop : Nat → GoString → GoString
  | 0, _ => []
  | _ + 1, [] => []
  | fuel + 1, b :: s =>
    if b < 0x80 then
      (if htmlSafe b then [b]
       else if b = ch '\\' ∨ b = ch '"' then [ch '\\', b]
       else if b = 8 then [ch '\\', ch 'b']
       else if b = 12 then [ch '\\', ch 'f']
       else if b = 10 then [ch '\\', ch 'n']
       else if b = 13 then [ch '\\', ch 'r']
       else if b = 9 then [ch '\\', ch 't']
       else [ch '\\', ch 'u', ch '0', ch '0', hexDigit (b.val / 16), hexDigit (b.val % 16)]) ++
        appendStringLoop fuel s
    else
      let n := runeLen (b :: s)
      if n = 0 then utf8 "\\ufffd" ++ appendStringLoop fuel s
      else if (b :: s).take 3 = [0xE2, 0x80, 0xA8] then
        utf8 "\\u2028" ++ appendStringLoop fuel ((b :: s).drop 3)
      else if (b :: s).take 3 = [0xE2, 0x80, 0xA9] then
        utf8 "\\u2029" ++ appendStringLoop fuel ((b :: s).drop 3)
      else (b :: s).take n ++ appendStringLoop fuel ((b :: s).drop n)

/-- Go `appendString(dst, src, true)`: the quoted JSON string of `s`. -/
def appendString (s : GoString) : GoString :=
  ch '"' :: (appendStringLoop (s.length + 1) s ++ [ch '"'])

/-- The loop of Go `appendCompact(dst, src, true)` on valid JSON: white space
outside strings is dropped; `<`, `>`, `&`, U+2028 and U+2029 are escaped.
`inString` tells whether the byte read is inside a string literal. -/
def compactLoop : Nat → Bool → GoString → GoString
  | 0, _, _ => []
  | _ + 1, _, [] => []
  | fuel + 1, inString, c :: s =>
    if c = ch '<' ∨ c = ch '>' ∨ c = ch '&' then
      [ch '\\', ch 'u', ch '0', ch '0', hexDigit (c.val / 16), hexDigit (c.val % 16)] ++
        compactLoop fuel inString s
    else if (c :: s).take 3 = [0xE2, 0x80, 0xA8] then
      utf8 "\\u2028" ++ compactLoop fuel inString (s.drop 2)
    else if (c :: s).take 3 = [0xE2, 0x80, 0xA9] then
      utf8 "\\u2029" ++ compactLoop fuel inString (s.drop 2)
    else if inString then
      if c = ch '\\' then
        match s with
        | [] => [c]
        | e :: s1 => c :: e :: compactLoop fuel true s1
      else c :: compactLoop fuel (c ≠ ch '"') s
    else if isSpace c then compactLoop fuel false s
    else c :: compactLoop fuel (c = ch '"') s

/-- Whether `src` is one JSON value with nothing but white space around it,
as the scanner of `appendCompact` requires. -/
def validJSON (src : GoString) : Bool :=
  match readValue src with
  | .ok (_, _, rest) => skipSpace rest = []
  | .error _ => false

/-- Go `appendCompact(dst, src, true)`. -/
def compact (src : GoString) : Except GoError GoString :=
  if validJSON src then .ok (compactLoop (src.length + 1) false src)
  else .error .jsonSyntaxError

/-- Go `isEmptyValue`: what `omitempty` omits. -/
def isEmptyValue : GoVal → Bool
  | .str s => s.length = 0
  | .int n => n = 0
  | .any .nil => true
  | .any _ => false
  | .raw none => true
  | .raw (some m) => m.length = 0
  | .nilSlice => true
  | .slice elems _ => elems.length = 0
  | .struct _ => false

/-- The step "clean up e-09 to e-9" of `floatEncoder.encode`: with `n` the
length of the text, when byte `n-4` is `e`, byte `n-3` a sign and byte `n-2`
is `0`, that `0` is taken out. -/
def cleanExponent (b : GoString) : GoString :=
  match b.reverse with
  | c :: z :: s :: e :: rest =>
    if e = ch 'e' ∧ (s = ch '-' ∨ s = ch '+') ∧ z = ch '0' then (c :: s :: e :: rest).reverse
    else b
  | _ => b

/-- Go `floatEncoder.encode` for a finite `float64`: the format `e` for a
number that is not zero and is below `1e-6` or at least `1e21` in absolute
value, else the format `f`, with the shortest digits. -/
def encodeFloat (x : strconv.Float64) : GoString :=
  if x.mant ≠ 0 ∧ (x.absLess strconv.float1e_6 ∨ ¬ x.absLess strconv.float1e21) then
    cleanExponent (strconv.FormatFloat x (ch 'e'))
  else strconv.FormatFloat x (ch 'f')

/-- The encoder of an interface value (`interfaceEncoder` and the encoders
of the dynamic types the decoder stores). -/
def encodeAny : GoAny → Marshaled
  | .nil => .ok (utf8 "null")
  | .bool b => .ok (if b then utf8 "true" else utf8 "false")
  | .number x => .ok (encodeFloat x)
  | .string s => .ok (appendString s)
  | .array es => (encodeList es true).prepend [ch '[']
  | .object ms => (encodeMap ms true).prepend [ch '{']
where
  /-- The elements of a `[]interface{}` and the closing bracket. -/
  encodeList : List GoAny → Bool → Marshaled
    | [], _ => .ok [ch ']']
    | a :: es, first =>
      ((encodeAny a).prepend (if first then [] else [ch ','])).andThen (encodeList es false)
  /-- The entries of a `map[string]interface{}`, in key order, and the closing brace. -/
  encodeMap : List (GoString × GoAny) → Bool → Marshaled
    | [], _ => .ok [ch '}']
    | (k, a) :: ms, first =>
      ((encodeAny a).prepend ((if first then [] else [ch ',']) ++ appendString k ++ [ch ':'])).andThen
        (encodeMap ms false)

mutual

/-- The encoder of a value `v` of type `ty` (`(*encodeState).reflectValue`
with the encoders of the types of `types.go`). -/
def encodeValue (ty : GoType) : GoVal → Marshaled
  | .str s =>
    match ty with
    | .string => .ok (appendString s)
    | _ => .notModelled
  | .int n =>
    match ty with
    | .int => .ok (strconv.Itoa n)
    | _ => .notModelled
  | .any a =>
    match ty with
    | .any => encodeAny a
    | _ => .notModelled
  | .raw m =>
    match ty with
    | .rawMessage =>
      match compact (m.getD (utf8 "null")) with
      | .ok text => .ok text
      | .error e => .error (.jsonMarshalerError ty.name e)
    | _ => .notModelled
  | .nilSlice =>
    match ty with
    | .slice _ => .ok (utf8 "null")
    | _ => .notModelled
  | .slice elems _ =>
    match ty with
    | .slice elem => (encodeElems elem elems true).prepend [ch '[']
    | _ => .notModelled
  | .struct vals =>
    match ty with
    | .struct _ fields => (encodeFields fields vals true).prepend [ch '{']
    | _ => .notModelled

/-- The elements of a slice, separated by commas, and the closing bracket. -/
def encodeElems (elem : GoType) : List GoVal → Bool → Marshaled
  | [], _ => .ok [ch ']']
  | v :: vs, first =>
    ((encodeValue elem v).prepend (if first then [] else [ch ','])).andThen
      (encodeElems elem vs false)

/-- The fields of a struct (`structEncoder.encode`): a field with `omitempty`
whose value is empty is left out; `first` tells whether no field has been
written yet. -/
def encodeFields : List (GoString × Bool × GoType) → List GoVal → Bool → Marshaled
  | _, [], _ => .ok [ch '}']
  | [], _ :: _, _ => .notModelled
  | f :: fields, v :: vals, first =>
    if f.2.1 ∧ isEmptyValue v then encodeFields fields vals first
    else
      ((encodeValue f.2.2 v).prepend
        ((if first then [] else [ch ',']) ++ [ch '"'] ++ f.1 ++ [ch '"', ch ':'])).andThen
        (encodeFields fields vals false)

end

/-- Go `json.Marshal(v)` for a value of type `ty`. -/
def Marshal (ty : GoType) (v : GoVal) : Marshaled := encodeValue ty v

/-- Go `reflect.DeepEqual` on values of the same type, the equality
`assert.Equal` of the tests uses: a nil slice and an empty one differ, and
what lies beyond the length of a slice is not compared.  Numbers held in
interface values are compared by `==` on `float64`. -/
def DeepEqual : GoVal → GoVal → Bool
  | .str a, .str b => a = b
  | .int a, .int b => a = b
  | .any a, .any b => anyEqual a b
  | .raw a, .raw b => a = b
  | .nilSlice, .nilSlice => true
  | .slice as _, .slice bs _ => allEqual as bs
  | .struct as, .struct bs => allEqual as bs
  | _, _ => false
where
  /-- Element-wise `DeepEqual` of two lists of the same length. -/
  allEqual : List GoVal → List GoVal → Bool
    | [], [] => true
    | a :: as, b :: bs => DeepEqual a b && allEqual as bs
    | _, _ => false
  /-- `DeepEqual` of two interface values. -/
  anyEqual : GoAny → GoAny → Bool
    | .nil, .nil => true
    | .bool a, .bool b => a = b
    | .number a, .number b => a.eq b
    | .string a, .string b => a = b
    | .array as, .array bs => anyAll as bs
    | .object as, .object bs => anyEntries as bs
    | _, _ => false
  /-- Element-wise equality of two `[]interface{}`. -/
  anyAll : List GoAny → List GoAny → Bool
    | [], [] => true
    | a :: as, b :: bs => anyEqual a b && anyAll as bs
    | _, _ => false
  /-- Entry-wise equality of two maps kept in key order. -/
  anyEntries : List (GoString × GoAny) → List (GoString × GoAny) → Bool
    | [], [] => true
    | (k, a) :: as, (l, b) :: bs => decide (k = l) && anyEqual a b && anyEntries as bs
    | _, _ => false

/-- The field of a struct value that is tagged with the JSON key `key`. -/
def field (ty : GoType) (key : GoString) (v : GoVal) : GoVal :=
  match ty, v with
  | .struct _ fields, .struct vals =>
    match indexWhere (fun f => f.1 = key) fields with
    | some i => vals.getD i default
    | none => default
  | _, _ => default

end json

/-! ## Vocabulary of the statements -/

open url url.encoding bgpview strconv

/-- Segments written after the first one: `/s1/s2...`. -/
def slashed : List GoString → GoString
  | [] => []
  | s :: ss => ch '/' :: (s ++ slashed ss)

/-- A path element that `Clean` copies unchanged: non-empty, without `/`, not `.` or `..`. -/
def CleanElem (s : GoString) : Prop :=
  s ≠ [] ∧ s ≠ utf8 "." ∧ s ≠ utf8 ".." ∧ ∀ b ∈ s, b ≠ ch '/'

/-- An ASCII letter. -/
def isLetter (c : Byte) : Bool := (ch 'a' ≤ c ∧ c ≤ ch 'z') ∨ (ch 'A' ≤ c ∧ c ≤ ch 'Z')

/-- A byte that the URL parser leaves inside the path: no control byte, no `?`, `#`, `%`. -/
def UrlByte (c : Byte) : Bool :=
  !(decide (c < ch ' ') || decide (c = 0x7f)) && decide (c ≠ ch '?') && decide (c ≠ ch '#') &&
    decide (c ≠ ch '%')

/-- An element that `resolvePath` copies: without `/`, not `.` or `..`. -/
def ResElem (x : GoString) : Prop := x ≠ utf8 "." ∧ x ≠ utf8 ".." ∧ ch '/' ∉ x

/-- The URL `ResolveReference` builds from a base with empty path and a
relative path reference: scheme, user and host of the base, path `p` (with
the raw-path hint `rawp`), no query string and no fragment. -/
def endpointURL (base : URL) (p rawp : GoString) : URL :=
  { Scheme := base.Scheme, Opaque := [], User := base.User, Host := base.Host, Path := p,
    RawPath := rawp, OmitHost := false, ForceQuery := false, RawQuery := [], Fragment := [],
    RawFragment := [] }

/-- A byte that can stand inside one path segment of a reference: a `UrlByte` other than `/`. -/
def SegByte (c : Byte) : Bool := UrlByte c && decide (c ≠ ch '/')

/-- A caller-supplied value that is one plain path segment: non-empty, not `.` or `..`,
free of `/`, `?`, `#`, `%` and control bytes. -/
def PlainSeg (s : GoString) : Prop :=
  s ≠ [] ∧ s ≠ utf8 "." ∧ s ≠ utf8 ".." ∧ ∀ b ∈ s, SegByte b = true


/-- A byte that `escape` leaves unchanged in a path and that is not `/`. -/
def PathSafeByte (c : Byte) : Bool := !shouldEscape c encodePath && decide (c ≠ ch '/')

/-- A decimal digit. -/
def isDigit (c : Byte) : Bool := decide (ch '0' ≤ c) && decide (c ≤ ch '9')

/-- A byte of an IPv4 or IPv6 address literal: a digit, a hex letter, `.` or `:`. -/
def AddrByte (c : Byte) : Bool :=
  isDigit c || (decide (ch 'a' ≤ c) && decide (c ≤ ch 'f')) ||
    (decide (ch 'A' ≤ c) && decide (c ≤ ch 'F')) || decide (c = ch '.') || decide (c = ch ':')

/-- The shape every IPv4 or IPv6 address literal has: non-empty, made of
address bytes, and not made of dots only (an IPv4 literal has a digit, an
IPv6 literal a colon). -/
def AddrLiteral (a : GoString) : Prop :=
  a ≠ [] ∧ (∀ b ∈ a, AddrByte b = true) ∧ ∃ b ∈ a, b ≠ ch '.'

/-- A Go result pair `(value, error)` in which exactly one component is non-nil. -/
def exactlyOne {D : Type} (r : Option D × Option GoError) : Prop :=
  (r.1 ≠ none ∧ r.2 = none) ∨ (r.1 = none ∧ r.2 ≠ none)

/-- A transport that answers every request with the given status and body, as
the test server of `client_test.go` does. -/
def cannedTransport (status : Int) (body : GoString) : http.Client :=
  { Do := fun _ => .ok { StatusCode := status, Body := { data := body, err := none } } }

/-- The request `do` hands to the transport for an endpoint, when it can be built. -/
def requestFor (ctx : http.Context) (endpoint : URL) : Except GoError http.Request :=
  match http.NewRequestWithContext ctx http.MethodGet endpoint.String http.NoBody with
  | .error err => .error err
  | .ok req =>
    .ok { req with Header := req.Header.Set (utf8 "accept") (utf8 "application/json") }

/-- The client of the tests: the default client with a canned transport. -/
def testClient (status : Int) (body : GoString) : Client := NewClient (cannedTransport status body)

/-- The request that reaches the transport for `https://api.bgpview.io/asn/1`. -/
def exampleRequest : http.Request :=
  { ctx := http.Context.live 0, Method := utf8 "GET",
    URL := { Scheme := utf8 "https", Opaque := [], User := none, Host := utf8 "api.bgpview.io",
             Path := utf8 "/asn/1", RawPath := [], OmitHost := false, ForceQuery := false,
             RawQuery := [], Fragment := [], RawFragment := [] },
    Header := [(utf8 "Accept", [utf8 "application/json"])],
    Body := http.NoBody, Host := utf8 "api.bgpview.io" }

/-- A byte other than `?` and `#`, the two bytes at which `url.Parse` cuts a
query string or a fragment off the path. -/
def NoCutByte (b : Byte) : Prop := b ≠ ch '?' ∧ b ≠ ch '#'

/-- The decimal form of an integer, as a Go string: the bytes of Lean's own
`toString` (an optional `-`, then the decimal digits without leading zeros). -/
def decimal (n : Int) : GoString := utf8 (toString n)

/-- Whether two consecutive bytes of `s` are both `/`. -/
def hasDoubleSlash : GoString → Bool
  | a :: b :: t => (decide (a = ch '/') && decide (b = ch '/')) || hasDoubleSlash (b :: t)
  | _ => false

/-- No two consecutive bytes of `x` are both `/`. -/
def NoDoubleSlash (x : GoString) : Prop :=
  List.Chain' (fun a b => ¬(a = ch '/' ∧ b = ch '/')) x

/-- The output of `Clean` ends in `/` only when it is the root `/` of a rooted path. -/
def EndsClean (rooted : Bool) (x : GoString) : Prop :=
  x.getLast? = some (ch '/') → x = [ch '/'] ∧ rooted = true

/-- The client of the tests pointed at a base address, as `setupTest` does
with `client.baseURL, _ = url.Parse(server.URL)`.  A parse error, which in Go
leaves a nil base, gives the zero URL here. -/
def clientAt (serverURL : GoString) (httpClient : http.Client) : Client :=
  { baseURL := match url.Parse serverURL with
      | .ok baseURL => baseURL
      | .error _ => URL.zero,
    HTTPClient := httpClient }

/-- The calls of the transport an accessor is expected to make once its URL
construction has given `endpoint`: none when that failed or when no request
can be built for the endpoint, else the one request `do` builds for it. -/
def expectedCalls (ctx : http.Context) (endpoint : Except GoError URL) : List http.Request :=
  match endpoint with
  | .error _ => []
  | .ok ep =>
    match requestFor ctx ep with
    | .error _ => []
    | .ok req => [req]

/-- A transport that fails on every request with the error `e`. -/
def failingTransport (e : GoError) : http.Client := { Do := fun _ => .error e }

/-- What "at most once, and exactly once when a request can be built" says of
the calls `calls` an accessor made after its URL construction gave `ep`: they
are the expected calls, there is at most one, and there is exactly one if and
only if the endpoint was built, the context is not nil and the string form
of the endpoint parses (the two checks of `http.NewRequestWithContext`). -/
def CalledOnce (ctx : http.Context) (ep : Except GoError URL) (calls : List http.Request) : Prop :=
  calls = expectedCalls ctx ep ∧ calls.length ≤ 1 ∧
    (calls.length = 1 ↔
      ∃ endpoint, ep = .ok endpoint ∧ ctx ≠ http.Context.nilContext ∧
        ∃ u, url.Parse endpoint.String = .ok u)

/-- Whether the member `m` of an object is decoded into field `i` of a
struct with these fields. -/
def goesTo (fields : List (GoString × Bool × json.GoType)) (i : Nat)
    (m : GoString × GoString × json.Value) : Bool :=
  decide (json.fieldIndex fields m.1 = some i)

/-- The values of the fields of a struct value. -/
def structFields : json.GoVal → List json.GoVal
  | .struct vals => vals
  | _ => []

/-- A response body that is read to its end without a read error. -/
def bodyOf (data : GoString) : http.Body := { data := data, err := none }

/-- The value `Meta{TimeZone: "UTC", APIVersion: 1, ExecutionTime: "24.48 ms"}`. -/
def metaUTC : json.GoVal := .struct [.str (utf8 "UTC"), .int 1, .str (utf8 "24.48 ms")]

/-- The metadata object `{"time_zone": "UTC", "api_version": 1,
"execution_time": "24.48 ms"}` as the scanner delivers it, whatever the white
space it is written with (`r1`, `r2`, `r3` are the raw texts of its values). -/
def metaObject (r1 r2 r3 : GoString) : json.Value :=
  .object [(utf8 "time_zone", r1, .string (utf8 "UTC")),
           (utf8 "api_version", r2, .number (utf8 "1")),
           (utf8 "execution_time", r3, .string (utf8 "24.48 ms"))]

/-- The body `{"status":"ok","@meta":{"time_zone":"UTC","api_version":1,"execution_time":"24.48 ms"}}`. -/
def atMetaBody : GoString :=
  utf8 ("\x7b\"status\":\"ok\",\"@meta\":" ++
    "\x7b\"time_zone\":\"UTC\",\"api_version\":1,\"execution_time\":\"24.48 ms\"\x7d\x7d")

/-- The body `{"status":"ok","meta":{"time_zone":"UTC","api_version":1,"execution_time":"24.48 ms"}}`. -/
def plainMetaBody : GoString :=
  utf8 ("\x7b\"status\":\"ok\",\"meta\":" ++
    "\x7b\"time_zone\":\"UTC\",\"api_version\":1,\"execution_time\":\"24.48 ms\"\x7d\x7d")

/-- A downstreams body with an empty IPv4 list and no IPv6 list:
`{"status":"ok","data":{"ipv4_downstreams":[]}}`. -/
def downstreamsBody : GoString :=
  utf8 "\x7b\"status\":\"ok\",\"data\":\x7b\"ipv4_downstreams\":[]\x7d\x7d"

/-- What `json.Marshal` writes for the value decoded from `downstreamsBody`:
`{"status":"ok","data":{},"@meta":{}}`. -/
def downstreamsAgain : GoString :=
  utf8 "\x7b\"status\":\"ok\",\"data\":\x7b\x7d,\"@meta\":\x7b\x7d\x7d"

/-- The document `small` is the document `full` with members left out of
some of its objects, at any depth: equal literals; arrays of the same length
whose elements are related; objects in which every member of `small` is, in
order, a member of `full` with the same key and a related value.  The raw
texts are not compared. -/
def subDoc : json.Value → json.Value → Prop
  | .array es1, .array es => subElems es1 es
  | .object ms1, .object ms => subMembers ms1 ms
  | .null, .null => True
  | .bool a, .bool b => a = b
  | .number a, .number b => a = b
  | .string a, .string b => a = b
  | _, _ => False
where
  /-- Element-wise `subDoc`. -/
  subElems : List (GoString × json.Value) → List (GoString × json.Value) → Prop
    | [], [] => True
    | e1 :: es1, e :: es => subDoc e1.2 e.2 ∧ subElems es1 es
    | _, _ => False
  /-- The members `ms1` are, in order, members of `ms` with related values. -/
  subMembers : List (GoString × GoString × json.Value) →
      List (GoString × GoString × json.Value) → Prop
    | [], _ => True
    | _ :: _, [] => False
    | m1 :: ms1, m :: ms =>
      (m1.1 = m.1 ∧ subDoc m1.2.2 m.2.2 ∧ subMembers ms1 ms) ∨ subMembers (m1 :: ms1) ms

/-- One step into a document that is decoded at the type `ty`: in an array
decoded into a slice, step `i` leads to element `i`; in an object decoded
into a struct, step `i` leads to the member that is decoded into field `i`,
when exactly one member of the object is (its key is not repeated).  Gives
the type the value found is decoded at, its raw text and the value. -/
def docStep (i : Nat) : json.GoType → json.Value → Option (json.GoType × GoString × json.Value)
  | .slice elem, .array es => (es.get? i).map (fun e => (elem, e.1, e.2))
  | .struct _ fields, .object ms =>
    match fields.get? i, ms.filter (goesTo fields i) with
    | some f, [m] => some (f.2.2, m.2.1, m.2.2)
    | _, _ => none
  | _, _ => none

/-- The place of a document that the steps of `path` lead to, from the place
`p` (a type, a raw text and a value): see `docStep`. -/
def docAt : List Nat → json.GoType × GoString × json.Value →
    Option (json.GoType × GoString × json.Value)
  | [], p => some p
  | i :: path, p =>
    match docStep i p.1 p.2.2 with
    | some q => docAt path q
    | none => none

/-- One step into a decoded value: element `i` of a slice, field `i` of a
struct. -/
def decodedStep (i : Nat) : json.GoVal → Option json.GoVal
  | .slice elems _ => elems.get? i
  | .struct vals => vals.get? i
  | _ => none

/-- The part of a decoded value that the steps of `path` lead to. -/
def decodedAt : List Nat → json.GoVal → Option json.GoVal
  | [], w => some w
  | i :: path, w =>
    match decodedStep i w with
    | some u => decodedAt path u
    | none => none

/-- A peers body in which the key `ipv4_peers` is repeated:
`{"data":{"ipv4_peers":[{"asn":1,"name":"A"}],"ipv4_peers":[{"asn":2}]}}`. -/
def repeatedPeersBody : GoString :=
  utf8 ("\x7b\"data\":\x7b\"ipv4_peers\":[\x7b\"asn\":1,\"name\":\"A\"\x7d]," ++
    "\"ipv4_peers\":[\x7b\"asn\":2\x7d]\x7d\x7d")

/-- The document the scanner reads from `repeatedPeersBody`. -/
def repeatedPeersDoc : json.Value :=
  .object [(utf8 "data",
    utf8 ("\x7b\"ipv4_peers\":[\x7b\"asn\":1,\"name\":\"A\"\x7d]," ++
      "\"ipv4_peers\":[\x7b\"asn\":2\x7d]\x7d"),
    .object [
      (utf8 "ipv4_peers", utf8 "[\x7b\"asn\":1,\"name\":\"A\"\x7d]",
        .array [(utf8 "\x7b\"asn\":1,\"name\":\"A\"\x7d",
          .object [(utf8 "asn", utf8 "1", .number (utf8 "1")),
            (utf8 "name", utf8 "\"A\"", .string (utf8 "A"))])]),
      (utf8 "ipv4_peers", utf8 "[\x7b\"asn\":2\x7d]",
        .array [(utf8 "\x7b\"asn\":2\x7d",
          .object [(utf8 "asn", utf8 "2", .number (utf8 "2"))])])])]

/-- A peers body with three peers, two of them equal:
`{"data":{"ipv4_peers":[{"asn":2},{"asn":1},{"asn":2}]}}`. -/
def threePeersBody : GoString :=
  utf8 ("\x7b\"data\":\x7b\"ipv4_peers\":[\x7b\"asn\":2\x7d,\x7b\"asn\":1\x7d," ++
    "\x7b\"asn\":2\x7d]\x7d\x7d")

/-- The peer `ASNIPPeersData{ASN: asn, Name: name}`. -/
def peerOf (asn : Int) (name : GoString) : json.GoVal :=
  .struct [.int asn, .str name, .str [], .str []]

/-- Valid UTF-8: every byte is ASCII or starts a sequence that
`utf8.DecodeRune` accepts (`json.runeLen` gives its length). -/
inductive ValidUTF8 : GoString → Prop where
  | nil : ValidUTF8 []
  | ascii (c : Byte) (s : GoString) : c < 0x80 → ValidUTF8 s → ValidUTF8 (c :: s)
  | rune (c : Byte) (s : GoString) : ¬ c < 0x80 → json.runeLen (c :: s) ≠ 0 →
      ValidUTF8 ((c :: s).drop (json.runeLen (c :: s))) → ValidUTF8 (c :: s)

/-- The bytes `body` are read by the scanner, from the state `st`, as the
rest of a string literal up to its closing quote, whatever follows it. -/
def StrFrom (st : json.StringState) (body : GoString) : Prop :=
  ∀ R, json.scanStringFrom st (body ++ ch '"' :: R) = .ok (body, R)

/-- The bytes that stand for one byte after a backslash (`stateInStringEsc`). -/
def simpleEscape (e : Byte) : Prop :=
  e = ch 'b' ∨ e = ch 'f' ∨ e = ch 'n' ∨ e = ch 'r' ∨ e = ch 't' ∨ e = ch '\\' ∨
    e = ch '/' ∨ e = ch '"'

/-- The input `R` does not go on a number literal that stands before it. -/
def Delim (R : GoString) : Prop :=
  ∀ c, R.head? = some c → json.isDigit c = false ∧ c ≠ ch '.' ∧ c ≠ ch 'e' ∧ c ≠ ch 'E'

/-- The text is a number literal for the scanner, whatever follows it that
does not go on a number, and `strconv.ParseFloat` reads it as `x`. -/
def FloatText (text : GoString) (x : strconv.Float64) : Prop :=
  (∀ R, Delim R → json.scanNumber (text ++ R) = .ok (text, R)) ∧
    strconv.ParseFloat text = some x ∧
    ∃ c l, text = c :: l ∧ (c = ch '-' ∨ json.isDigit c = true)

/-- The text `m` is scanned as the value `val` with `d` containers open
around it, whatever follows it and with any fuel of at least its length. -/
def Scans (d : Nat) (m : GoString) (val : json.Value) : Prop :=
  ∀ (fuel : Nat) (R : GoString), m.length ≤ fuel → Delim R →
    json.scanValue fuel d (m ++ R) = .ok (val, R)

/-- The text `body` is read by `scan` (the scanner on the elements of an
array or the members of an object, or on what follows one of them) as `out`
with `d` containers open, whatever follows it and with any fuel of at least
its length less `slack`. -/
def StableAt {α : Type} (scan : Nat → Nat → GoString → Except json.ScanError (α × GoString))
    (slack d : Nat) (body : GoString) (out : α) : Prop :=
  body ≠ [] ∧ ∀ (fuel : Nat) (R : GoString), body.length ≤ fuel + slack →
    scan fuel d (body ++ R) = .ok (out, R)

/-- What the scanner guarantees of a value it delivers with `d` containers
open around it: strings and keys are valid UTF-8, a container is within the
nesting limit, and every element and member is scanned from its raw text. -/
def Doc : Nat → json.Value → Prop
  | d, .array es => d < json.maxNestingDepth ∧ docElems (d + 1) es
  | d, .object ms => d < json.maxNestingDepth ∧ docMembers (d + 1) ms
  | _, .string s => ValidUTF8 s
  | _, .null => True
  | _, .bool _ => True
  | _, .number _ => True
where
  /-- The property `Doc` of the elements of an array. -/
  docElems : Nat → List (GoString × json.Value) → Prop
    | _, [] => True
    | d, e :: es => Scans d e.1 e.2 ∧ Doc d e.2 ∧ docElems d es
  /-- The property `Doc` of the members of an object. -/
  docMembers : Nat → List (GoString × GoString × json.Value) → Prop
    | _, [] => True
    | d, m :: ms => ValidUTF8 m.1 ∧ Scans d m.2.1 m.2.2 ∧ Doc d m.2.2 ∧ docMembers d ms

/-- What the decoder guarantees of an interface value it stores with `d`
containers open around it: valid UTF-8 strings and keys, maps in strict key
order, numbers that are `float64` values, containers within the nesting
limit. -/
def canonAny : Nat → bgpview.GoAny → Prop
  | _, .nil => True
  | _, .bool _ => True
  | _, .number x => x.valid
  | _, .string s => ValidUTF8 s
  | d, .array es => d < json.maxNestingDepth ∧ canonAnyList (d + 1) es
  | d, .object ms =>
    d < json.maxNestingDepth ∧ canonAnyMap (d + 1) ms
where
  /-- The property `canonAny` of the elements of a `[]interface{}`. -/
  canonAnyList : Nat → List bgpview.GoAny → Prop
    | _, [] => True
    | d, a :: es => canonAny d a ∧ canonAnyList d es
  /-- The property `canonAny` of the entries of a map: each key is valid UTF-8 and below
  the keys after it. -/
  canonAnyMap : Nat → List (GoString × bgpview.GoAny) → Prop
    | _, [] => True
    | d, e :: ms =>
      ValidUTF8 e.1 ∧ (∀ x ∈ ms, url.strLess e.1 x.1 = true) ∧ canonAny d e.2 ∧ canonAnyMap d ms

/-- What the decoder guarantees of a value of type `ty` it has filled with
`d` containers open around it: the value has the type, strings are valid
UTF-8, integers fit in 64 bits, a raw message is the text of a scanned value,
and lists and structs are within the nesting limit.  What a slice keeps
beyond its length is covered as well. -/
def canon : Nat → json.GoType → json.GoVal → Prop
  | _, ty, .str s =>
    match ty with
    | .string => ValidUTF8 s
    | _ => False
  | _, ty, .int n =>
    match ty with
    | .int => -9223372036854775808 ≤ n ∧ n ≤ 9223372036854775807
    | _ => False
  | d, ty, .any a =>
    match ty with
    | .any => canonAny d a
    | _ => False
  | d, ty, .raw m =>
    match ty with
    | .rawMessage =>
      match m with
      | none => True
      | some text => ∃ val, Scans d text val
    | _ => False
  | _, ty, .nilSlice =>
    match ty with
    | .slice _ => True
    | _ => False
  | d, ty, .slice elems spare =>
    match ty with
    | .slice elem =>
      d < json.maxNestingDepth ∧ canonList (d + 1) elem elems ∧ canonList (d + 1) elem spare
    | _ => False
  | d, ty, .struct vals =>
    match ty with
    | .struct _ fields => d < json.maxNestingDepth ∧ canonFields (d + 1) fields vals
    | _ => False
where
  /-- The property `canon` of the elements of a slice. -/
  canonList : Nat → json.GoType → List json.GoVal → Prop
    | _, _, [] => True
    | d, elem, v :: vs => canon d elem v ∧ canonList d elem vs
  /-- The property `canon` of the fields of a struct, one value per field. -/
  canonFields : Nat → List (GoString × Bool × json.GoType) → List json.GoVal → Prop
    | _, fields, [] => fields = []
    | d, fields, v :: vs =>
      match fields with
      | [] => False
      | f :: fs => canon d f.2.2 v ∧ canonFields d fs vs

/-- Whether the keys of the fields are plain ASCII text that `Marshal`
writes as it is, each of them once. -/
def plainKeys : List (GoString × Bool × json.GoType) → Bool
  | [] => true
  | f :: fs => f.1.all json.htmlSafe && fs.all (fun g => decide (g.1 ≠ f.1)) && plainKeys fs

/-- Whether a type is not `json.RawMessage`. -/
def notRaw : json.GoType → Bool
  | .rawMessage => false
  | _ => true

/-- Whether a type with `d` containers open around it has structs with plain
keys only, stays within the nesting limit of the scanner, and has a raw
message only as a field with `omitempty` (a nil raw message that is written
is written as `null`). -/
def goodType : Nat → json.GoType → Bool
  | d, .slice elem => notRaw elem && goodType (d + 1) elem
  | d, .struct _ fields =>
    decide (d < json.maxNestingDepth) && plainKeys fields && goodFields (d + 1) fields
  | _, _ => true
where
  /-- The check `goodType` of the types of the fields. -/
  goodFields : Nat → List (GoString × Bool × json.GoType) → Bool
    | _, [] => true
    | d, f :: fs => (f.2.1 || notRaw f.2.2) && goodType d f.2.2 && goodFields d fs

/-- Whether no list of the value is empty without being nil. -/
def noEmptyList : json.GoVal → Bool
  | .slice elems _ => !elems.isEmpty && allNoEmpty elems
  | .struct vals => allNoEmpty vals
  | _ => true
where
  /-- The check `noEmptyList` of every value of a list. -/
  allNoEmpty : List json.GoVal → Bool
    | [] => true
    | v :: vs => noEmptyList v && allNoEmpty vs

/-- Whether `Marshal` writes every raw message of the value as it is: the
message is valid JSON with no white space outside strings and none of the
bytes that `Marshal` escapes. -/
def rawCompact : json.GoVal → Bool
  | .raw (some m) => decide (json.compact m = .ok m)
  | .slice elems _ => allRawCompact elems
  | .struct vals => allRawCompact vals
  | _ => true
where
  /-- The check `rawCompact` of every value of a list. -/
  allRawCompact : List json.GoVal → Bool
    | [] => true
    | v :: vs => rawCompact v && allRawCompact vs

/-- The value without what its slices keep beyond their lengths. -/
def strip : json.GoVal → json.GoVal
  | .slice elems _ => .slice (stripAll elems) []
  | .struct vals => .struct (stripAll vals)
  | .str s => .str s
  | .int n => .int n
  | .any a => .any a
  | .raw m => .raw m
  | .nilSlice => .nilSlice
where
  /-- The function `strip` on every value of a list. -/
  stripAll : List json.GoVal → List json.GoVal
    | [] => []
    | v :: vs => strip v :: stripAll vs

/-- The scanner after an element of an array (`stateEndValue` inside an
array): the closing bracket, or a comma and the elements after it. -/
def elemsTail (fuel depth : Nat) (input : GoString) :
    Except json.ScanError (List (GoString × json.Value) × GoString) :=
  match json.skipSpace input with
  | [] => .error .eof
  | c :: s =>
    if c = ch ']' then .ok ([], s)
    else if c = ch ',' then json.scanElems fuel depth (json.skipSpace s)
    else .error .syntaxError

/-- The scanner after a member of an object (`stateEndValue` inside an
object): the closing brace, or a comma and the members after it. -/
def membersTail (fuel depth : Nat) (input : GoString) :
    Except json.ScanError (List (GoString × GoString × json.Value) × GoString) :=
  match json.skipSpace input with
  | [] => .error .eof
  | c :: s =>
    if c = ch '}' then .ok ([], s)
    else if c = ch ',' then json.scanMembers fuel depth (json.skipSpace s)
    else .error .syntaxError

/-- With fuel `f`, what the scanner accepts as a value is a text that is
scanned again as the same value, and the value is well formed. -/
def ValueStable (f : Nat) : Prop :=
  ∀ (d : Nat) (input : GoString) (val : json.Value) (rest : GoString),
    json.scanValue f d input = .ok (val, rest) →
      ∃ m, input = m ++ rest ∧ Scans d m val ∧ Doc d val

/-- With fuel `f`, what the scanner accepts as the elements of an array is
a text that is scanned again as the same elements. -/
def ElemsStable (f : Nat) : Prop :=
  ∀ (d : Nat) (input : GoString) (es : List (GoString × json.Value)) (rest : GoString),
    json.scanElems f d input = .ok (es, rest) →
      ∃ body, input = body ++ rest ∧ StableAt json.scanElems 0 d body es ∧ Doc.docElems d es

/-- With fuel `f`, what the scanner accepts after an element of an array is
a text that is scanned again the same way and that ends a number. -/
def ElemsTailStable (f : Nat) : Prop :=
  ∀ (d : Nat) (input : GoString) (es : List (GoString × json.Value)) (rest : GoString),
    elemsTail f d input = .ok (es, rest) →
      ∃ t, input = t ++ rest ∧ StableAt elemsTail 1 d t es ∧ (∀ R, Delim (t ++ R)) ∧
        Doc.docElems d es

/-- With fuel `f`, what the scanner accepts as the members of an object is
a text that is scanned again as the same members. -/
def MembersStable (f : Nat) : Prop :=
  ∀ (d : Nat) (input : GoString) (ms : List (GoString × GoString × json.Value))
    (rest : GoString),
    json.scanMembers f d input = .ok (ms, rest) →
      ∃ body, input = body ++ rest ∧ StableAt json.scanMembers 0 d body ms ∧
        Doc.docMembers d ms

/-- With fuel `f`, what the scanner accepts after a member of an object is
a text that is scanned again the same way and that ends a number. -/
def MembersTailStable (f : Nat) : Prop :=
  ∀ (d : Nat) (input : GoString) (ms : List (GoString × GoString × json.Value))
    (rest : GoString),
    membersTail f d input = .ok (ms, rest) →
      ∃ t, input = t ++ rest ∧ StableAt membersTail 1 d t ms ∧ (∀ R, Delim (t ++ R)) ∧
        Doc.docMembers d ms

/-- A downstreams body with one IPv4 downstream:
`{"status":"ok","data":{"ipv4_downstreams":[{"asn":64512,"name":"N"}]}}`. -/
def oneDownstreamBody : GoString :=
  utf8 ("\x7b\"status\":\"ok\",\"data\":\x7b\"ipv4_downstreams\":" ++
    "[\x7b\"asn\":64512,\"name\":\"N\"\x7d]\x7d\x7d")

/-- The value decoded from `oneDownstreamBody`. -/
def oneDownstream : json.GoVal :=
  .struct [.str (utf8 "ok"), .str [],
    .struct [.slice [.struct [.int 64512, .str (utf8 "N"), .str [], .str [], .nilSlice]] [],
      .nilSlice],
    .struct [.str [], .int 0, .str []]]

/-- An IX body whose raw statistics URL is written with a space:
`{"data":{"url_stats":[1, 2]}}`. -/
def spacedStatsBody : GoString :=
  utf8 "\x7b\"data\":\x7b\"url_stats\":[1, 2]\x7d\x7d"

/-- What `json.Marshal` writes for the value decoded from `spacedStatsBody`:
`{"data":{"url_stats":[1,2]},"@meta":{}}`. -/
def spacedStatsAgain : GoString :=
  utf8 "\x7b\"data\":\x7b\"url_stats\":[1,2]\x7d,\"@meta\":\x7b\x7d\x7d"

/-- A prefix body with numbers in the untyped field `city`:
`{"data":{"maxmind":{"city":[1e-7,-0,12e20,{"k":0.000001},1.5]}}}`. -/
def cityNumbersBody : GoString :=
  utf8 ("\x7b\"data\":\x7b\"maxmind\":\x7b\"city\":" ++
    "[1e-7,-0,12e20,\x7b\"k\":0.000001\x7d,1.5]\x7d\x7d\x7d")

/-- The text `Marshal` writes for the value decoded from `cityNumbersBody`:
`{"data":{"country_codes":{},"rir_allocation":{},"maxmind":{"city":[1e-7,-0,1.2e+21,{"k":0.000001},1.5]}},"@meta":{}}`. -/
def cityNumbersAgain : GoString :=
  utf8 ("\x7b\"data\":\x7b\"country_codes\":\x7b\x7d,\"rir_allocation\":\x7b\x7d," ++
    "\"maxmind\":\x7b\"city\":[1e-7,-0,1.2e+21,\x7b\"k\":0.000001\x7d,1.5]\x7d\x7d," ++
    "\"@meta\":\x7b\x7d\x7d")

/-- A prefix body with a number in the field `city` that is out of the range
of a `float64`: `{"data":{"maxmind":{"city":1e999}}}`. -/
def cityRangeBody : GoString :=
  utf8 "\x7b\"data\":\x7b\"maxmind\":\x7b\"city\":1e999\x7d\x7d\x7d"

/-- The field `Data.URLStats` of an `IXInfo` value. -/
def statsURL (v : json.GoVal) : json.GoVal :=
  json.field IXData.goType (utf8 "url_stats") (json.field IXInfo.goType (utf8 "data") v)

/-- The IX body `{"data":{"url_stats":r}}` for the text `r` of a JSON value. -/
def statsBody (r : GoString) : GoString :=
  utf8 "\x7b\"data\":\x7b\"url_stats\":" ++ (r ++ utf8 "\x7d\x7d")

/-- The document the scanner delivers for `statsBody r` when `r` is the text
of the value `val`. -/
def statsDoc (r : GoString) (val : json.Value) : json.Value :=
  .object [(utf8 "data", utf8 "\x7b\"url_stats\":" ++ (r ++ utf8 "\x7d"),
    .object [(utf8 "url_stats", r, val)])]

/-- The `IXInfo` decoded from a body that holds nothing but the raw
statistics URL `m`: every other field is zero. -/
def statsOnly (m : Option GoString) : json.GoVal :=
  .struct [.str [], .str [],
    .struct [.str [], .str [], .str [], .str [], .str [], .str [], .str [], .str [], .str [],
      .raw m, .int 0, .nilSlice],
    .struct [.str [], .int 0, .str []]]

/-- Whether a type is a string, an integer, or a struct whose fields are of
such types: no list, no raw message and no interface value lies in it. -/
def scalarType : json.GoType → Bool
  | .string => true
  | .int => true
  | .struct _ fields => scalarFields fields
  | _ => false
where
  /-- The check `scalarType` of the types of the fields. -/
  scalarFields : List (GoString × Bool × json.GoType) → Bool
    | [] => true
    | f :: fs => scalarType f.2.2 && scalarFields fs

/-- A statistics URL with a byte that `Marshal` escapes: the string `"a<b"`. -/
def htmlStats : GoString := utf8 "\"a<b\""

/-- What `Marshal` writes for `htmlStats`: `"a<b"`. -/
def htmlStatsAgain : GoString := utf8 "\"a\\u003cb\""

/-- A statistics value with white space between its tokens: `{"k": 1}`. -/
def spacedStats : GoString := utf8 "\x7b\"k\": 1\x7d"

/-- What `Marshal` writes for `spacedStats`: `{"k":1}`. -/
def spacedStatsCompact : GoString := utf8 "\x7b\"k\":1\x7d"

/-- What `Marshal` writes for an `IXInfo` that holds nothing but the raw
statistics URL `r`, when it writes `r` as it is:
`{"data":{"url_stats":r},"@meta":{}}`. -/
def statsText (r : GoString) : GoString :=
  utf8 "\x7b\"data\":\x7b\"url_stats\":" ++ (r ++ utf8 "\x7d,\"@meta\":\x7b\x7d\x7d")

/-- The member `m` is the only member of the object `ms` that is decoded
into the field tagged `key`: it has that key, and the key of no other member
equals `key` under case folding. -/
def onlyMember (key : GoString) (m : GoString × GoString × json.Value)
    (ms : List (GoString × GoString × json.Value)) : Prop :=
  m.1 = key ∧ ∃ pre post, ms = pre ++ m :: post ∧
    ∀ x ∈ pre ++ post, json.equalFold key x.1 = false

/-- The error is a `*json.UnmarshalTypeError`: a JSON value that does not
fit the Go type it is decoded into. -/
def TypeMismatch (err : Option GoError) : Prop :=
  ∃ value ty, err = some (.jsonUnmarshalTypeError value ty)

/-- An IP body with a quoted allocation CIDR, as in the fixture of the tests:
`{"data":{"rir_allocation":{"cidr":"29"}}}`. -/
def quotedCIDRBody : GoString :=
  utf8 "\x7b\"data\":\x7b\"rir_allocation\":\x7b\"cidr\":\"29\"\x7d\x7d\x7d"

/-- A prefix body with a numeric allocation CIDR, as in the fixture of the
tests: `{"data":{"rir_allocation":{"cidr":23}}}`. -/
def numericCIDRBody : GoString :=
  utf8 "\x7b\"data\":\x7b\"rir_allocation\":\x7b\"cidr\":23\x7d\x7d\x7d"

/-- The error `url.Parse` returns for the reference `ref` whose path holds
the invalid percent escape `%zz`. -/
def escapeErrorAt (ref : GoString) : GoError :=
  .urlError (utf8 "parse") ref (.EscapeError (utf8 "%zz"))

/-- The store `s1` is the store `s` after a call: every URL object of `s` is
in `s1` at its address with the value it had, the URL objects beyond them are
new, and the HTTP clients are those of `s`. -/
def keptIn (s s1 : heap.Store) : Prop :=
  (∃ fresh, s1.urls = s.urls ++ fresh) ∧ s1.clients = s.clients

/-- The client whose pointers `c` holds, read in the store `s`. -/
def clientIn (s : heap.Store) (c : heap.Client) : Option Client :=
  match s.url c.baseURL, s.client c.HTTPClient with
  | some baseURL, some httpClient => some { baseURL := baseURL, HTTPClient := httpClient }
  | _, _ => none

/-- The call `call` of an accessor of the client `c` on the store `s` returns
the outcome `out`, leaves the objects of `s` as they were and the client what
it was, and a second call, on the store the first one left, returns `out`
again: the same value or error after the same requests. -/
def LeavesClient {R : Type} (c : heap.Client) (s : heap.Store)
    (call : heap.Store → Option (R × heap.Store)) (out : R) : Prop :=
  ∃ s1, call s = some (out, s1) ∧ keptIn s s1 ∧ s1.url c.baseURL = s.url c.baseURL ∧
    s1.client c.HTTPClient = s.client c.HTTPClient ∧ clientIn s1 c = clientIn s c ∧
    ∃ s2, call s1 = some (out, s2) ∧ keptIn s1 s2

/-! ## Lemmas: `path.Clean` and `path.Join` on clean elements -/


theorem slashed_head (ss : List GoString) : slashed ss = [] ∨ (slashed ss).head? = some (ch '/') := by
  cases ss <;> simp [slashed]

theorem cleanLoop_elem (seg rest out : GoString) (dd fuel : Nat) (h : CleanElem seg)
    (hr : rest = [] ∨ rest.head? = some (ch '/')) :
    path.cleanLoop false (fuel + 1) (seg ++ rest) out dd =
      path.cleanLoop false fuel rest ((if out.length ≠ 0 then out ++ [ch '/'] else out) ++ seg) dd := by
  obtain ⟨hne, hd, hdd, hs⟩ := h
  have htw : (seg ++ rest).takeWhile (fun b => b ≠ ch '/') = seg := by
    rw [List.takeWhile_append_of_pos (by simpa using hs)]
    rcases hr with rfl | hr
    · simp
    · cases rest with
      | nil => simp
      | cons r rs => simp at hr; simp [hr]
  have hdw : (seg ++ rest).dropWhile (fun b => b ≠ ch '/') = rest := by
    rw [List.dropWhile_append_of_pos (by simpa using hs)]
    rcases hr with rfl | hr
    · simp
    · cases rest with
      | nil => simp
      | cons r rs => simp at hr; simp [hr]
  have hdot : utf8 "." = [ch '.'] := by decide
  have hdotdot : utf8 ".." = [ch '.', ch '.'] := by decide
  rw [hdot] at hd
  rw [hdotdot] at hdd
  cases seg with
  | nil => exact absurd rfl hne
  | cons c t =>
    have hc : c ≠ ch '/' := hs c (by simp)
    rw [List.cons_append] at htw hdw ⊢
    rw [path.cleanLoop]
    simp only [hc, if_false]
    have c2 : ¬ (c = ch '.' ∧ (t ++ rest = [] ∨ (t ++ rest).head? = some (ch '/'))) := by
      rintro ⟨rfl, h2⟩
      cases t with
      | nil => exact hd rfl
      | cons d t' =>
        have : d ≠ ch '/' := hs d (by simp)
        simp at h2
        exact this h2
    have c3 : ¬ (c = ch '.' ∧ (t ++ rest).head? = some (ch '.') ∧
          ((t ++ rest).tail = [] ∨ (t ++ rest).tail.head? = some (ch '/'))) := by
      rintro ⟨rfl, h2, h3⟩
      cases t with
      | nil => exact hd rfl
      | cons d t' =>
        simp at h2
        subst h2
        cases t' with
        | nil => exact hdd rfl
        | cons e t'' =>
          have : e ≠ ch '/' := hs e (by simp)
          simp at h3
          exact this h3
    rw [if_neg c2, if_neg c3]
    simp only [htw, hdw]
    congr 1
    simp

theorem slashed_length_pos (s : GoString) (ss : List GoString) : 0 < (slashed (s :: ss)).length := by
  simp [slashed]

theorem cleanLoop_slashed (ss : List GoString) (hs : ∀ s ∈ ss, CleanElem s) :
    ∀ (out : GoString) (dd fuel : Nat), out ≠ [] → (slashed ss).length ≤ fuel →
      path.cleanLoop false fuel (slashed ss) out dd = out ++ slashed ss := by
  induction ss with
  | nil =>
    intro out dd fuel _ _
    cases fuel <;> simp [slashed, path.cleanLoop]
  | cons s ss ih =>
    intro out dd fuel hout hfuel
    have hs1 : CleanElem s := hs s (by simp)
    simp only [slashed, List.length_cons, List.length_append] at hfuel
    have hslen : 0 < s.length := List.length_pos.mpr hs1.1
    obtain ⟨f, rfl⟩ : ∃ f, fuel = f + 2 := ⟨fuel - 2, by omega⟩
    simp only [slashed]
    rw [path.cleanLoop]
    simp only [if_true]
    rw [cleanLoop_elem s (slashed ss) out dd f hs1 (slashed_head ss)]
    have hlen : out.length ≠ 0 := by
      intro h; exact hout (List.length_eq_zero.mp h)
    rw [if_pos hlen]
    rw [ih (fun x hx => hs x (by simp [hx])) _ dd f (by simp) (by omega)]
    simp

theorem clean_joined (name : GoString) (ss : List GoString) (hn : CleanElem name)
    (hs : ∀ s ∈ ss, CleanElem s) :
    path.Clean (name ++ slashed ss) = name ++ slashed ss := by
  obtain ⟨c, t, rfl⟩ : ∃ c t, name = c :: t := by
    cases name with
    | nil => exact absurd rfl hn.1
    | cons c t => exact ⟨c, t, rfl⟩
  have hc : c ≠ ch '/' := hn.2.2.2 c (by simp)
  unfold path.Clean
  have h1 : ¬ (c :: t ++ slashed ss = []) := by simp
  rw [if_neg h1]
  have h2 : ((c :: t ++ slashed ss).head? = some (ch '/')) = False := by simp [hc]
  simp only [h2, decide_False, Bool.false_eq_true, if_false]
  rw [cleanLoop_elem (c :: t) (slashed ss) [] 0 _ hn (slashed_head ss)]
  simp only [List.length_nil, ne_eq, not_true_eq_false, if_false, List.nil_append]
  rw [cleanLoop_slashed ss hs (c :: t) 0 _ (by simp) (by simp; omega)]
  simp

theorem joinBuf_slashed (ss : List GoString) (hs : ∀ s ∈ ss, s ≠ []) :
    ∀ buf : GoString, buf ≠ [] → path.joinBuf ss buf = buf ++ slashed ss := by
  induction ss with
  | nil => intro buf _; simp [path.joinBuf, slashed]
  | cons s ss ih =>
    intro buf hb
    have hlen : buf.length > 0 := List.length_pos.mpr hb
    rw [path.joinBuf]
    rw [if_pos (Or.inl hlen), if_pos hlen]
    rw [ih (fun x hx => hs x (by simp [hx])) _ (by simp)]
    simp [slashed]

/-- `path.Join("", name, s1, ..., sk)` for clean elements is `name/s1/.../sk`. -/
theorem join_clean (name : GoString) (ss : List GoString) (hn : CleanElem name)
    (hs : ∀ s ∈ ss, CleanElem s) :
    path.Join ([] :: name :: ss) = name ++ slashed ss := by
  unfold path.Join
  have hsize : ((([] : GoString) :: name :: ss).map List.length).sum ≠ 0 := by
    have : 0 < name.length := List.length_pos.mpr hn.1
    simp only [List.map_cons, List.sum_cons, List.length_nil]
    omega
  simp only [hsize, if_false]
  have : path.joinBuf ([] :: name :: ss) [] = name ++ slashed ss := by
    rw [path.joinBuf]
    simp only [List.length_nil, gt_iff_lt, lt_self_iff_false, ne_eq, not_true_eq_false, or_self,
      if_false]
    rw [path.joinBuf]
    simp only [List.length_nil, gt_iff_lt, lt_self_iff_false, ne_eq, hn.1, not_false_eq_true,
      or_true, if_true, if_false, List.nil_append]
    exact joinBuf_slashed ss (fun x hx => (hs x hx).1) name hn.1
  rw [this]
  exact clean_joined name ss hn hs

theorem cut_not_mem (s : GoString) (c : Byte) (h : c ∉ s) : strings.Cut s c = (s, [], false) := by
  induction s with
  | nil => rfl
  | cons a s ih =>
    have ha : a ≠ c := fun e => h (by simp [e])
    have hs : c ∉ s := fun e => h (by simp [e])
    simp [strings.Cut, ha, ih hs]

theorem cut_append (s rest : GoString) (c : Byte) (h : c ∉ s) :
    strings.Cut (s ++ c :: rest) c = (s, rest, true) := by
  induction s with
  | nil => simp [strings.Cut]
  | cons a s ih =>
    have ha : a ≠ c := fun e => h (by simp [e])
    have hs : c ∉ s := fun e => h (by simp [e])
    simp [strings.Cut, ha, ih hs]

theorem urlByte_facts : ∀ c : Byte, UrlByte c = true →
    ¬ (c < ch ' ' ∨ c = 0x7f) ∧ c ≠ ch '?' ∧ c ≠ ch '#' ∧ c ≠ ch '%' := by decide

theorem letter_facts : ∀ c : Byte, isLetter c = true →
    ((ch 'a' ≤ c ∧ c ≤ ch 'z') ∨ (ch 'A' ≤ c ∧ c ≤ ch 'Z')) ∧ c ≠ ch ':' ∧ c ≠ ch '/' ∧
      c ≠ ch '*' ∧ c ≠ ch '.' ∧ UrlByte c = true := by decide

theorem ctl_false (s : GoString) (h : ∀ b ∈ s, UrlByte b = true) :
    stringContainsCTLByte s = false := by
  unfold stringContainsCTLByte
  rw [List.any_eq_false]
  intro b hb
  have := (urlByte_facts b (h b hb)).1
  simpa using this

theorem getSchemeLoop_letters (raw name rest : GoString) (hn : ∀ b ∈ name, isLetter b = true)
    (hr : rest = [] ∨ rest.head? = some (ch '/')) :
    ∀ i, getSchemeLoop raw (name ++ rest) i = .ok ([], raw) := by
  induction name with
  | nil =>
    intro i
    rcases hr with rfl | hr
    · rfl
    · cases rest with
      | nil => rfl
      | cons r rs =>
        simp at hr
        subst hr
        simp only [List.nil_append, getSchemeLoop]
        rfl
  | cons c t ih =>
    intro i
    have hc := (letter_facts c (hn c (by simp))).1
    simp only [List.cons_append, getSchemeLoop]
    rw [if_pos hc]
    exact ih (fun b hb => hn b (by simp [hb])) (i + 1)

theorem unescapeScan_path (s : GoString) (h : ch '%' ∉ s) :
    ∀ n, unescapeScan encodePath s n false = .ok (n, false) := by
  induction s with
  | nil => intro n; rfl
  | cons c s ih =>
    intro n
    have hc : c ≠ ch '%' := fun e => h (by simp [e])
    have hs : ch '%' ∉ s := fun e => h (by simp [e])
    rw [unescapeScan.eq_def]
    simp only [hc, if_false]
    by_cases hp : c = ch '+'
    · simp [hp, ih hs]
    · simp [hp, ih hs]

theorem unescape_path (s : GoString) (h : ch '%' ∉ s) : unescape s encodePath = .ok s := by
  simp [unescape, unescapeScan_path s h]

/-- `parse`/`Parse` of a reference `name/seg/...` free of `?`, `#`, `%` and control bytes. -/
theorem Parse_plain (name rest : GoString) (hne : name ≠ [])
    (hn : ∀ b ∈ name, isLetter b = true)
    (hr : rest = [] ∨ rest.head? = some (ch '/'))
    (hb : ∀ b ∈ rest, UrlByte b = true) :
    url.Parse (name ++ rest) =
      .ok { URL.zero with Path := name ++ rest,
                          RawPath := if name ++ rest = escape (name ++ rest) encodePath then []
                                     else name ++ rest } := by
  have hall : ∀ b ∈ name ++ rest, UrlByte b = true := by
    intro b hb'
    rcases List.mem_append.mp hb' with h | h
    · exact (letter_facts b (hn b h)).2.2.2.2.2
    · exact hb b h
  have hq : ch '?' ∉ name ++ rest := fun h => (urlByte_facts _ (hall _ h)).2.1 rfl
  have hf : ch '#' ∉ name ++ rest := fun h => (urlByte_facts _ (hall _ h)).2.2.1 rfl
  have hp : ch '%' ∉ name ++ rest := fun h => (urlByte_facts _ (hall _ h)).2.2.2 rfl
  obtain ⟨c, t, rfl⟩ : ∃ c t, name = c :: t := by
    cases name with
    | nil => exact absurd rfl hne
    | cons c t => exact ⟨c, t, rfl⟩
  have hcl := letter_facts c (hn c (by simp))
  have hstar : ¬ (c :: t ++ rest = utf8 "*") := by
    have : utf8 "*" = [ch '*'] := by decide
    rw [this]
    intro h
    simp at h
    exact hcl.2.2.2.1 h.1
  have hcolon : ch ':' ∉ c :: t := fun h => (letter_facts _ (hn _ h)).2.1 rfl
  have hslash : ch '/' ∉ c :: t := fun h => (letter_facts _ (hn _ h)).2.2.1 rfl
  have hcutseg : (strings.Cut (c :: t ++ rest) (ch '/')).1 = c :: t := by
    rcases hr with rfl | hr
    · rw [List.append_nil, cut_not_mem _ _ hslash]
    · cases rest with
      | nil => rw [List.append_nil, cut_not_mem _ _ hslash]
      | cons r rs =>
        simp at hr
        subst hr
        rw [cut_append _ _ _ hslash]
  have hparse : parse (c :: t ++ rest) =
      .ok { URL.zero with Path := c :: t ++ rest,
                          RawPath := if c :: t ++ rest = escape (c :: t ++ rest) encodePath then []
                                     else c :: t ++ rest } := by
    unfold parse
    rw [ctl_false _ hall]
    simp only [Bool.false_eq_true, if_false, hstar]
    have hgs : getScheme (c :: t ++ rest) = .ok ([], c :: t ++ rest) :=
      getSchemeLoop_letters _ _ _ hn hr 0
    rw [hgs]
    have hcount : strings.Count (c :: t ++ rest) (ch '?') = 0 := by
      unfold strings.Count
      exact List.count_eq_zero.mpr hq
    have hpre1 : strings.HasPrefix (c :: t ++ rest) (utf8 "/") = false := by
      have : utf8 "/" = [ch '/'] := by decide
      rw [this]
      simp [strings.HasPrefix, List.isPrefixOf, Ne.symm hcl.2.2.1]
    have hpre2 : strings.HasPrefix (c :: t ++ rest) (utf8 "//") = false := by
      have : utf8 "//" = [ch '/', ch '/'] := by decide
      rw [this]
      simp [strings.HasPrefix, List.isPrefixOf, Ne.symm hcl.2.2.1]
    have hcont : strings.Contains (c :: t) (ch ':') = false := by
      unfold strings.Contains
      simpa using hcolon
    simp only [hcount, cut_not_mem _ _ hq, hpre1, hpre2, hcutseg, hcont, strings.ToLower,
      List.map_nil, URL.zero, zero_ne_one, and_false, if_false, ne_eq, not_true_eq_false,
      Bool.not_false, Bool.false_eq_true, false_and, false_or, or_false, and_true]
    unfold URL.setPath
    rw [unescape_path _ hp]
    simp only [Bool.not_false, Bool.true_and, and_true, and_false, if_false, ne_eq,
      not_true_eq_false, false_and, false_or, Bool.false_eq_true, decide_False, Bool.and_false,
      Bool.not_true, decide_True, Bool.and_self, or_false]
    split <;> rfl
  unfold url.Parse
  rw [cut_not_mem _ _ hf]
  simp only [hparse]
  simp

/-! escaping lemmas -/

theorem escapeByte_path_cases : ∀ c : Byte,
    (escapeByte encodePath c = [ch '%', upperhex (c.val / 16), upperhex (c.val % 16)] ∧
      shouldEscape c encodePath = true ∧
      ishex (upperhex (c.val / 16)) = true ∧ ishex (upperhex (c.val % 16)) = true ∧
      unhex (upperhex (c.val / 16)) * 16 + unhex (upperhex (c.val % 16)) = c) ∨
    (escapeByte encodePath c = [c] ∧ shouldEscape c encodePath = false ∧ c ≠ ch '%') := by
  decide

theorem escapeByte_query_cases : ∀ c : Byte,
    (escapeByte encodeQueryComponent c = [ch '+'] ∧ c = ch ' ') ∨
    (escapeByte encodeQueryComponent c = [ch '%', upperhex (c.val / 16), upperhex (c.val % 16)] ∧
      shouldEscape c encodeQueryComponent = true ∧
      ishex (upperhex (c.val / 16)) = true ∧ ishex (upperhex (c.val % 16)) = true ∧
      unhex (upperhex (c.val / 16)) * 16 + unhex (upperhex (c.val % 16)) = c) ∨
    (escapeByte encodeQueryComponent c = [c] ∧ shouldEscape c encodeQueryComponent = false ∧
      c ≠ ch '%' ∧ c ≠ ch '+') := by
  decide

theorem shouldEscape_space : ∀ m : encoding, shouldEscape (ch ' ') m = true := by
  intro m
  cases m <;> decide

theorem escape_eq_flatMap (s : GoString) (m : encoding) :
    escape s m = s.flatMap (escapeByte m) := by
  unfold escape
  split
  · rename_i h
    induction s with
    | nil => rfl
    | cons c s ih =>
      simp only [List.all_cons, Bool.and_eq_true, Bool.not_eq_true'] at h
      have hc : escapeByte m c = [c] := by
        unfold escapeByte
        have hsp : ¬ (c = ch ' ' ∧ m = encodeQueryComponent) := by
          rintro ⟨rfl, -⟩
          rw [shouldEscape_space] at h
          exact absurd h.1 (by decide)
        rw [if_neg hsp]
        simp [h.1]
      rw [List.flatMap_cons, hc, ← ih h.2]
      rfl
  · rfl

theorem unescapeBuild_escape_path (s : GoString) :
    unescapeBuild encodePath (s.flatMap (escapeByte encodePath)) = s := by
  induction s with
  | nil => rfl
  | cons c s ih =>
    rw [List.flatMap_cons]
    rcases escapeByte_path_cases c with ⟨h, -, -, -, hu⟩ | ⟨h, hs, hp⟩
    · rw [h]
      simp only [List.cons_append, List.nil_append]
      rw [unescapeBuild.eq_def]
      simp only [if_true, ih, hu]
    · rw [h]
      simp only [List.cons_append, List.nil_append]
      rw [unescapeBuild.eq_def]
      simp only [hp, if_false, ih]
      by_cases hplus : c = ch '+'
      · subst hplus; simp
      · simp [hplus]

theorem unescapeScan_escape_path (s : GoString) : ∀ n : Nat,
    ∃ n', unescapeScan encodePath (s.flatMap (escapeByte encodePath)) n false = .ok (n', false) ∧
      n ≤ n' ∧ (n' = n → s.flatMap (escapeByte encodePath) = s) := by
  induction s with
  | nil => intro n; exact ⟨n, rfl, le_refl _, fun _ => rfl⟩
  | cons c s ih =>
    intro n
    rw [List.flatMap_cons]
    rcases escapeByte_path_cases c with ⟨h, -, h1, h2, -⟩ | ⟨h, hs, hp⟩
    · obtain ⟨n', e, hle, -⟩ := ih (n + 1)
      refine ⟨n', ?_, by omega, fun hn => by omega⟩
      rw [h]
      simp only [List.cons_append, List.nil_append]
      rw [unescapeScan.eq_def]
      simp [h1, h2, e]
    · obtain ⟨n', e, hle, himp⟩ := ih n
      refine ⟨n', ?_, hle, fun hn => by rw [h, himp hn]; rfl⟩
      rw [h]
      simp only [List.cons_append, List.nil_append]
      rw [unescapeScan.eq_def]
      simp only [hp, if_false]
      by_cases hplus : c = ch '+'
      · simp [hplus, e]
      · simp [hplus, e]

/-- `unescape` undoes `escape` in path mode. -/
theorem unescape_escape_path (s : GoString) :
    unescape (escape s encodePath) encodePath = .ok s := by
  rw [escape_eq_flatMap]
  obtain ⟨n', e, -, himp⟩ := unescapeScan_escape_path s 0
  unfold unescape
  rw [e]
  simp only
  split
  · rename_i h
    rw [himp h.1]
  · rw [unescapeBuild_escape_path]

theorem unescapeBuild_escape_query (s : GoString) :
    unescapeBuild encodeQueryComponent (s.flatMap (escapeByte encodeQueryComponent)) = s := by
  induction s with
  | nil => rfl
  | cons c s ih =>
    rw [List.flatMap_cons]
    rcases escapeByte_query_cases c with ⟨h, hc⟩ | ⟨h, -, -, -, hu⟩ | ⟨h, hs, hp, hplus⟩
    · rw [h, hc]
      simp only [List.cons_append, List.nil_append]
      rw [unescapeBuild.eq_def]
      have hne : ch '+' ≠ ch '%' := by decide
      simp only [hne, if_false, if_true, ih]
    · rw [h]
      simp only [List.cons_append, List.nil_append]
      rw [unescapeBuild.eq_def]
      simp only [if_true, ih, hu]
    · rw [h]
      simp only [List.cons_append, List.nil_append]
      rw [unescapeBuild.eq_def]
      simp only [hp, hplus, if_false, ih]

theorem unescapeScan_escape_query (s : GoString) : ∀ (n : Nat) (hp : Bool),
    ∃ n' hp', unescapeScan encodeQueryComponent (s.flatMap (escapeByte encodeQueryComponent)) n hp
        = .ok (n', hp') ∧
      n ≤ n' ∧ (hp = true → hp' = true) ∧
      (n' = n → hp' = false → s.flatMap (escapeByte encodeQueryComponent) = s) := by
  induction s with
  | nil => intro n hp; exact ⟨n, hp, rfl, le_refl _, id, fun _ _ => rfl⟩
  | cons c s ih =>
    intro n hp
    rw [List.flatMap_cons]
    rcases escapeByte_query_cases c with ⟨h, hc⟩ | ⟨h, -, h1, h2, -⟩ | ⟨h, hs, hpc, hplus⟩
    · obtain ⟨n', hp', e, hle, htrue, -⟩ := ih n true
      refine ⟨n', hp', ?_, hle, fun _ => htrue rfl, fun _ hf => ?_⟩
      · rw [h]
        simp only [List.cons_append, List.nil_append]
        rw [unescapeScan.eq_def]
        have hne : ch '+' ≠ ch '%' := by decide
        simp only [hne, if_false, if_true, decide_True, e]
      · rw [htrue rfl] at hf
        exact absurd hf (by decide)
    · obtain ⟨n', hp', e, hle, htrue, -⟩ := ih (n + 1) hp
      refine ⟨n', hp', ?_, by omega, htrue, fun hn => by omega⟩
      rw [h]
      simp only [List.cons_append, List.nil_append]
      rw [unescapeScan.eq_def]
      simp [h1, h2, e]
    · obtain ⟨n', hp', e, hle, htrue, himp⟩ := ih n hp
      refine ⟨n', hp', ?_, hle, htrue, fun hn hf => by rw [h, himp hn hf]; rfl⟩
      rw [h]
      simp only [List.cons_append, List.nil_append]
      rw [unescapeScan.eq_def]
      simp [hpc, hplus, e]

/-- `QueryUnescape` undoes `QueryEscape`. -/
theorem queryUnescape_queryEscape (s : GoString) : QueryUnescape (QueryEscape s) = .ok s := by
  unfold QueryUnescape QueryEscape
  rw [escape_eq_flatMap]
  obtain ⟨n', hp', e, -, -, himp⟩ := unescapeScan_escape_query s 0 false
  unfold unescape
  rw [e]
  simp only
  split
  · rename_i h
    rw [himp h.1 (by simpa using h.2)]
  · rw [unescapeBuild_escape_query]

/-! reference resolution -/

theorem resolveLoop_elems (xs : List GoString) :
    ∀ (x dst : GoString) (first : Bool) (fuel : Nat), (∀ y ∈ x :: xs, ResElem y) →
      (x ++ slashed xs).length < fuel →
      ∃ e, ResElem e ∧ resolveLoop fuel (x ++ slashed xs) dst first =
        ((if first then dst else dst ++ [ch '/']) ++ x ++ slashed xs, e) := by
  induction xs with
  | nil =>
    intro x dst first fuel h hf
    obtain ⟨f, rfl⟩ : ∃ f, fuel = f + 1 := ⟨fuel - 1, by omega⟩
    have hx := h x (by simp)
    refine ⟨x, hx, ?_⟩
    simp only [slashed, List.append_nil, resolveLoop]
    rw [cut_not_mem _ _ hx.2.2]
    simp only [hx.1, hx.2.1, if_false, Bool.false_eq_true]
    cases first <;> simp
  | cons y ys ih =>
    intro x dst first fuel h hf
    obtain ⟨f, rfl⟩ : ∃ f, fuel = f + 1 := ⟨fuel - 1, by omega⟩
    have hx := h x (by simp)
    simp only [slashed, List.length_append, List.length_cons] at hf
    obtain ⟨e, he, heq⟩ := ih y ((if first then dst else dst ++ [ch '/']) ++ x) false f
      (fun z hz => h z (by simp at hz ⊢; right; exact hz))
      (by simp only [List.length_append]; omega)
    refine ⟨e, he, ?_⟩
    simp only [slashed, resolveLoop]
    rw [cut_append _ _ _ hx.2.2]
    simp only [hx.1, hx.2.1, if_false, if_true]
    have : (if (!first) = true then dst ++ [ch '/'] else dst) =
        (if first = true then dst else dst ++ [ch '/']) := by cases first <;> simp
    rw [this, heq]
    simp

theorem resolvePath_elems (x : GoString) (xs : List GoString) (h : ∀ y ∈ x :: xs, ResElem y)
    (hne : x ≠ []) :
    resolvePath [] (x ++ slashed xs) = ch '/' :: (x ++ slashed xs) := by
  obtain ⟨c, t, rfl⟩ : ∃ c t, x = c :: t := by
    cases x with
    | nil => exact absurd rfl hne
    | cons c t => exact ⟨c, t, rfl⟩
  have hc : c ≠ ch '/' := fun e => (h (c :: t) (by simp)).2.2 (by simp [e])
  obtain ⟨e, he, heq⟩ := resolveLoop_elems xs (c :: t) [ch '/'] true
    ((c :: t ++ slashed xs).length + 1) h (by omega)
  unfold resolvePath
  have h1 : ¬ (c :: t ++ slashed xs = []) := by simp
  have h2 : (c :: t ++ slashed xs).head? ≠ some (ch '/') := by simp [hc]
  simp only [h1, h2, if_false, if_true, ne_eq, not_false_eq_true]
  have h3 : List.take (strings.LastIndex [] (ch '/') + 1).toNat ([] : GoString) = [] := by simp
  rw [h3, List.nil_append]
  simp only [h1, if_false]
  rw [heq]
  simp only [if_true, he.1, he.2.1, or_self, if_false]
  have h4 : ¬ (([ch '/'] ++ (c :: t) ++ slashed xs).length > 1 ∧
      ([ch '/'] ++ (c :: t) ++ slashed xs).get? 1 = some (ch '/')) := by
    rintro ⟨-, h⟩
    simp at h
    exact hc h
  rw [if_neg h4]
  simp

theorem unescape_ok_nil (s : GoString) (m : encoding) (h : unescape s m = .ok []) : s = [] := by
  cases s with
  | nil => rfl
  | cons c s =>
    exfalso
    unfold unescape at h
    split at h
    · exact absurd h (by simp)
    · rename_i n hp hscan
      split at h
      · exact absurd h (by simp)
      · rw [unescapeBuild.eq_def] at h
        simp only at h
        split at h
        · rename_i hc
          subst hc
          split at h
          · exact absurd h (by simp)
          · rename_i hshort
            rw [unescapeScan.eq_def] at hscan
            simp only [if_true] at hscan
            exact absurd hscan (by simp)
        · split at h <;> exact absurd h (by simp)

theorem escapedPath_empty (u : URL) (h : u.Path = []) : u.EscapedPath = [] := by
  unfold URL.EscapedPath
  have h1 : ¬ (u.RawPath ≠ [] ∧ validEncoded u.RawPath encodePath = true ∧
      unescapesTo u.RawPath encodePath u.Path = true) := by
    rintro ⟨hne, -, hu⟩
    unfold unescapesTo at hu
    split at hu
    · rename_i p hp
      simp only [decide_eq_true_eq] at hu
      rw [hu, h] at hp
      exact hne (unescape_ok_nil _ _ hp)
    · exact absurd hu (by simp)
  rw [if_neg h1, h]
  have h2 : ¬ (([] : GoString) = utf8 "*") := by decide
  rw [if_neg h2]
  rfl

theorem resolve_rel (base : URL) (hbase : base.Path = []) (s R q : GoString) (x : GoString)
    (xs : List GoString)
    (hq : ({ URL.zero with Path := s, RawPath := R } : URL).EscapedPath = q)
    (hqx : q = x ++ slashed xs) (hx : ∀ y ∈ x :: xs, ResElem y) (hxne : x ≠ [])
    (hs : s ≠ []) (hun : unescape (ch '/' :: q) encodePath = .ok (ch '/' :: s)) :
    base.ResolveReference { URL.zero with Path := s, RawPath := R } =
      endpointURL base (ch '/' :: s)
        (if ch '/' :: q = escape (ch '/' :: s) encodePath then [] else ch '/' :: q) := by
  unfold URL.ResolveReference
  rw [hq, escapedPath_empty base hbase, hqx, resolvePath_elems x xs hx hxne, ← hqx]
  simp only [URL.zero, hs, ne_eq, not_true_eq_false, or_self, if_false, if_true, false_and,
    and_false]
  unfold URL.setPathIgnoringError URL.setPath
  rw [hun]
  simp only [endpointURL]
  by_cases hc : ch '/' :: q = escape (ch '/' :: s) encodePath
  · simp only [hc, if_true]
  · simp only [hc, if_false]

/-! the endpoint of a joined path of plain segments -/

theorem segByte_facts : ∀ c : Byte, SegByte c = true →
    UrlByte c = true ∧ c ≠ ch '/' ∧ c ≠ ch '%' ∧ ch '/' ∉ escapeByte encodePath c := by decide

theorem slash_facts : UrlByte (ch '/') = true ∧ escapeByte encodePath (ch '/') = [ch '/'] := by
  decide

theorem letter_escape : ∀ c : Byte, isLetter c = true → escapeByte encodePath c = [c] := by decide

theorem PlainSeg.cleanElem {s : GoString} (h : PlainSeg s) : CleanElem s :=
  ⟨h.1, h.2.1, h.2.2.1, fun b hb => (segByte_facts b (h.2.2.2 b hb)).2.1⟩

theorem PlainSeg.resElem {s : GoString} (h : PlainSeg s) : ResElem s :=
  ⟨h.2.1, h.2.2.1, fun hm => (segByte_facts _ (h.2.2.2 _ hm)).2.1 rfl⟩

theorem PlainSeg.resElem_escape {s : GoString} (h : PlainSeg s) :
    ResElem (s.flatMap (escapeByte encodePath)) := by
  have hb := unescapeBuild_escape_path s
  refine ⟨?_, ?_, ?_⟩
  · intro e
    rw [e] at hb
    exact h.2.1 (hb.symm.trans (by decide))
  · intro e
    rw [e] at hb
    exact h.2.2.1 (hb.symm.trans (by decide))
  · intro hm
    rw [List.mem_flatMap] at hm
    obtain ⟨b, hbs, hbm⟩ := hm
    exact (segByte_facts b (h.2.2.2 b hbs)).2.2.2 hbm

theorem letters_cleanElem (name : GoString) (hne : name ≠ [])
    (hn : ∀ b ∈ name, isLetter b = true) : CleanElem name := by
  have hdot : ch '.' ∉ name := fun h => (letter_facts _ (hn _ h)).2.2.2.2.1 rfl
  refine ⟨hne, ?_, ?_, fun b hb => (letter_facts b (hn b hb)).2.2.1⟩
  · intro e
    rw [e] at hdot
    exact hdot (by decide)
  · intro e
    rw [e] at hdot
    exact hdot (by decide)

theorem letters_resElem (name : GoString) (hne : name ≠ [])
    (hn : ∀ b ∈ name, isLetter b = true) : ResElem name :=
  have h := letters_cleanElem name hne hn
  ⟨h.2.1, h.2.2.1, fun hm => h.2.2.2 _ hm rfl⟩

theorem letters_flatMap (name : GoString) (hn : ∀ b ∈ name, isLetter b = true) :
    name.flatMap (escapeByte encodePath) = name := by
  induction name with
  | nil => rfl
  | cons c t ih =>
    rw [List.flatMap_cons, letter_escape c (hn c (by simp)), ih (fun b hb => hn b (by simp [hb]))]
    rfl

theorem slashed_flatMap (ss : List GoString) :
    (slashed ss).flatMap (escapeByte encodePath) =
      slashed (ss.map (fun s => s.flatMap (escapeByte encodePath))) := by
  induction ss with
  | nil => rfl
  | cons s ss ih =>
    simp only [slashed, List.flatMap_cons, List.flatMap_append, List.map_cons, slash_facts.2, ih]
    rfl

theorem slashed_urlByte (ss : List GoString) (hs : ∀ s ∈ ss, PlainSeg s) :
    ∀ b ∈ slashed ss, UrlByte b = true := by
  induction ss with
  | nil => intro b hb; simp [slashed] at hb
  | cons s ss ih =>
    intro b hb
    simp only [slashed, List.mem_cons, List.mem_append] at hb
    rcases hb with rfl | hb | hb
    · exact slash_facts.1
    · exact (segByte_facts b ((hs s (by simp)).2.2.2 b hb)).1
    · exact ih (fun x hx => hs x (by simp [hx])) b hb

theorem urlByte_no_percent (s : GoString) (h : ∀ b ∈ s, UrlByte b = true) : ch '%' ∉ s :=
  fun hm => (urlByte_facts _ (h _ hm)).2.2.2 rfl

/-- The endpoint built from a base with empty path and the elements
`name, s1, ..., sk`: the path is `/name/s1/.../sk`, everything else comes
from the base, and there is no query string and no fragment. -/
theorem endpoint_plain (base : URL) (hbase : base.Path = []) (name : GoString)
    (ss : List GoString) (hne : name ≠ []) (hn : ∀ b ∈ name, isLetter b = true)
    (hs : ∀ s ∈ ss, PlainSeg s) :
    base.Parse (path.Join (base.Path :: name :: ss)) =
      .ok (endpointURL base (ch '/' :: (name ++ slashed ss))
        (if validEncoded (name ++ slashed ss) encodePath = true ∧
            name ++ slashed ss ≠ escape (name ++ slashed ss) encodePath
         then ch '/' :: (name ++ slashed ss) else [])) := by
  have hjoin : path.Join (base.Path :: name :: ss) = name ++ slashed ss := by
    rw [hbase]
    exact join_clean name ss (letters_cleanElem name hne hn) (fun s h => (hs s h).cleanElem)
  have hrb := slashed_urlByte ss hs
  have hall : ∀ b ∈ name ++ slashed ss, UrlByte b = true := by
    intro b hb
    rcases List.mem_append.mp hb with h | h
    · exact (letter_facts b (hn b h)).2.2.2.2.2
    · exact hrb b h
  have hnp : ch '%' ∉ name ++ slashed ss := urlByte_no_percent _ hall
  have hsne : name ++ slashed ss ≠ [] := by simp [hne]
  have hesc : escape (name ++ slashed ss) encodePath =
      name ++ slashed (ss.map (fun s => s.flatMap (escapeByte encodePath))) := by
    rw [escape_eq_flatMap, List.flatMap_append, letters_flatMap name hn, slashed_flatMap]
  have hesc1 : escape (ch '/' :: (name ++ slashed ss)) encodePath =
      ch '/' :: escape (name ++ slashed ss) encodePath := by
    rw [escape_eq_flatMap, escape_eq_flatMap, List.flatMap_cons, slash_facts.2]
    rfl
  unfold URL.Parse
  rw [hjoin, Parse_plain name (slashed ss) hne hn (slashed_head ss) hrb]
  simp only
  by_cases heq : name ++ slashed ss = escape (name ++ slashed ss) encodePath
  · -- nothing to escape
    have hq : ({ URL.zero with Path := name ++ slashed ss, RawPath := [] } : URL).EscapedPath =
        name ++ slashed ss := by
      unfold URL.EscapedPath
      have hstar : ¬ (name ++ slashed ss = utf8 "*") := by
        intro e
        have := letters_cleanElem name hne hn
        cases name with
        | nil => exact hne rfl
        | cons c t =>
          have hc := (letter_facts c (hn c (by simp))).2.2.2.1
          have : utf8 "*" = [ch '*'] := by decide
          rw [this] at e
          simp at e
          exact hc e.1
      simp only [ne_eq, not_true_eq_false, false_and, if_false, hstar]
      exact heq.symm
    rw [if_pos heq]
    rw [resolve_rel base hbase _ [] _ name ss hq rfl
      (by
        intro y hy
        rcases List.mem_cons.mp hy with rfl | hy
        · exact letters_resElem _ hne hn
        · exact (hs y hy).resElem)
      hne hsne
      (unescape_path _ (by
        intro hm
        rcases List.mem_cons.mp hm with h | h
        · exact absurd h (by decide)
        · exact hnp h))]
    have h1 : ch '/' :: (name ++ slashed ss) = escape (ch '/' :: (name ++ slashed ss)) encodePath := by
      rw [hesc1, ← heq]
    rw [if_pos h1]
    have h2 : ¬ (validEncoded (name ++ slashed ss) encodePath = true ∧
        name ++ slashed ss ≠ escape (name ++ slashed ss) encodePath) := fun h => h.2 heq
    rw [if_neg h2]
  · rw [if_neg heq]
    have hstar : ¬ (name ++ slashed ss = utf8 "*") := by
      intro e
      cases name with
      | nil => exact hne rfl
      | cons c t =>
        have hc := (letter_facts c (hn c (by simp))).2.2.2.1
        have : utf8 "*" = [ch '*'] := by decide
        rw [this] at e
        simp at e
        exact hc e.1
    by_cases hv : validEncoded (name ++ slashed ss) encodePath = true
    · -- the raw path is kept
      have hq : ({ URL.zero with Path := name ++ slashed ss, RawPath := name ++ slashed ss } :
          URL).EscapedPath = name ++ slashed ss := by
        unfold URL.EscapedPath
        have : unescapesTo (name ++ slashed ss) encodePath (name ++ slashed ss) = true := by
          unfold unescapesTo
          rw [unescape_path _ hnp]
          simp
        simp only [ne_eq, hsne, not_false_eq_true, hv, this, and_self, if_true]
      rw [resolve_rel base hbase _ _ _ name ss hq rfl
        (by
          intro y hy
          rcases List.mem_cons.mp hy with rfl | hy
          · exact letters_resElem _ hne hn
          · exact (hs y hy).resElem)
        hne hsne
        (unescape_path _ (by
          intro hm
          rcases List.mem_cons.mp hm with h | h
          · exact absurd h (by decide)
          · exact hnp h))]
      have h1 : ¬ (ch '/' :: (name ++ slashed ss) =
          escape (ch '/' :: (name ++ slashed ss)) encodePath) := by
        rw [hesc1]
        intro e
        exact heq (List.cons.inj e).2
      rw [if_neg h1, if_pos ⟨hv, heq⟩]
    · -- the path is escaped afresh
      have hq : ({ URL.zero with Path := name ++ slashed ss, RawPath := name ++ slashed ss } :
          URL).EscapedPath = escape (name ++ slashed ss) encodePath := by
        unfold URL.EscapedPath
        simp only [ne_eq, hsne, not_false_eq_true, hv, Bool.false_eq_true, false_and, and_false,
          if_false, hstar]
      rw [resolve_rel base hbase _ _ _ name
        (ss.map (fun s => s.flatMap (escapeByte encodePath))) hq hesc
        (by
          intro y hy
          rcases List.mem_cons.mp hy with rfl | hy
          · exact letters_resElem _ hne hn
          · rw [List.mem_map] at hy
            obtain ⟨z, hz, rfl⟩ := hy
            exact (hs z hz).resElem_escape)
        hne hsne
        (by rw [← hesc1]; exact unescape_escape_path _)]
      rw [if_pos hesc1.symm, if_neg (fun h => hv h.1)]

/-! ## Lemmas: segments that need no escaping -/

theorem pathSafe_facts : ∀ c : Byte, PathSafeByte c = true →
    SegByte c = true ∧ shouldEscape c encodePath = false := by decide

theorem addrByte_safe : ∀ c : Byte, AddrByte c = true → PathSafeByte c = true := by decide

theorem digit_safe : ∀ c : Byte, (isDigit c = true ∨ c = ch '-') →
    PathSafeByte c = true ∧ c ≠ ch '.' := by decide

theorem letter_safe : ∀ c : Byte, isLetter c = true → shouldEscape c encodePath = false := by
  decide

theorem digit_isDigit (d : Nat) (h : d < 10) : isDigit (digit d) = true := by
  interval_cases d <;> decide

theorem formatBits10_digits : ∀ (fuel us : Nat) (acc : GoString),
    (∀ b ∈ acc, isDigit b = true) → ∀ b ∈ formatBits10 fuel us acc, isDigit b = true := by
  intro fuel
  induction fuel with
  | zero => intro us acc h; simpa [formatBits10] using h
  | succ f ih =>
    intro us acc h
    rw [formatBits10]
    split
    · apply ih
      intro b hb
      simp only [List.mem_cons] at hb
      rcases hb with rfl | rfl | hb
      · exact digit_isDigit _ (by omega)
      · exact digit_isDigit _ (by omega)
      · exact h b hb
    · split
      · intro b hb
        simp only [List.mem_cons] at hb
        rcases hb with rfl | rfl | hb
        · exact digit_isDigit _ (by omega)
        · exact digit_isDigit _ (by omega)
        · exact h b hb
      · intro b hb
        simp only [List.mem_cons] at hb
        rcases hb with rfl | hb
        · exact digit_isDigit _ (by omega)
        · exact h b hb

theorem formatBits10_ne_nil : ∀ (fuel us : Nat) (acc : GoString),
    formatBits10 (fuel + 1) us acc ≠ [] := by
  intro fuel
  induction fuel with
  | zero =>
    intro us acc
    rw [formatBits10]
    split
    · simp [formatBits10]
    · split <;> simp
  | succ f ih =>
    intro us acc
    rw [formatBits10]
    split
    · exact ih _ _
    · split <;> simp

theorem Itoa_ne_nil (n : Int) : Itoa n ≠ [] := by
  unfold Itoa FormatInt
  split
  · unfold small
    split <;> simp
  · simp only
    split
    · simp
    · exact formatBits10_ne_nil _ _ _

theorem Itoa_bytes (n : Int) : ∀ b ∈ Itoa n, isDigit b = true ∨ b = ch '-' := by
  unfold Itoa FormatInt
  split
  · rename_i hn
    have hlt : n.toNat < 100 := by omega
    unfold small
    split
    · intro b hb
      simp only [List.mem_singleton] at hb
      subst hb
      exact Or.inl (digit_isDigit _ (by omega))
    · intro b hb
      simp only [List.mem_cons, List.mem_singleton, List.not_mem_nil, or_false] at hb
      rcases hb with rfl | rfl
      · exact Or.inl (digit_isDigit _ (by omega))
      · exact Or.inl (digit_isDigit _ (by omega))
  · simp only
    have h := formatBits10_digits (n.natAbs + 1) n.natAbs [] (by simp)
    split
    · intro b hb
      rcases List.mem_cons.mp hb with rfl | hb
      · exact Or.inr rfl
      · exact Or.inl (h b hb)
    · intro b hb
      exact Or.inl (h b hb)

theorem Itoa_safe (n : Int) : ∀ b ∈ Itoa n, PathSafeByte b = true :=
  fun b hb => (digit_safe b (Itoa_bytes n b hb)).1

theorem no_dot_plain (s : GoString) (hne : s ≠ []) (hs : ∀ b ∈ s, PathSafeByte b = true)
    (hd : ∃ b ∈ s, b ≠ ch '.') : PlainSeg s := by
  obtain ⟨d, hds, hdd⟩ := hd
  refine ⟨hne, ?_, ?_, fun b hb => (pathSafe_facts b (hs b hb)).1⟩
  · intro e
    rw [e] at hds
    have : utf8 "." = [ch '.'] := by decide
    rw [this] at hds
    simp at hds
    exact hdd hds
  · intro e
    rw [e] at hds
    have : utf8 ".." = [ch '.', ch '.'] := by decide
    rw [this] at hds
    simp at hds
    exact hdd hds

theorem Itoa_plain (n : Int) : PlainSeg (Itoa n) := by
  apply no_dot_plain _ (Itoa_ne_nil n) (Itoa_safe n)
  obtain ⟨c, t, h⟩ : ∃ c t, Itoa n = c :: t := by
    cases h : Itoa n with
    | nil => exact absurd h (Itoa_ne_nil n)
    | cons c t => exact ⟨c, t, rfl⟩
  refine ⟨c, by simp [h], ?_⟩
  exact (digit_safe c (Itoa_bytes n c (by simp [h]))).2

theorem AddrLiteral.plain {a : GoString} (h : AddrLiteral a) : PlainSeg a :=
  no_dot_plain a h.1 (fun b hb => addrByte_safe b (h.2.1 b hb)) h.2.2

theorem AddrLiteral.safe {a : GoString} (h : AddrLiteral a) : ∀ b ∈ a, PathSafeByte b = true :=
  fun b hb => addrByte_safe b (h.2.1 b hb)

theorem escape_of_all (s : GoString) (m : encoding) (h : ∀ b ∈ s, shouldEscape b m = false) :
    escape s m = s := by
  unfold escape
  have : s.all (fun c => !shouldEscape c m) = true := by
    rw [List.all_eq_true]
    intro b hb
    simp [h b hb]
  rw [if_pos this]

theorem joined_noescape (name : GoString) (ss : List GoString)
    (hn : ∀ b ∈ name, isLetter b = true) (hs : ∀ s ∈ ss, ∀ b ∈ s, PathSafeByte b = true) :
    ∀ b ∈ name ++ slashed ss, shouldEscape b encodePath = false := by
  intro b hb
  rcases List.mem_append.mp hb with h | h
  · exact letter_safe b (hn b h)
  · clear hb
    induction ss with
    | nil => simp [slashed] at h
    | cons s ss ih =>
      simp only [slashed, List.mem_cons, List.mem_append] at h
      rcases h with rfl | h | h
      · decide
      · exact (pathSafe_facts b (hs s (by simp) b h)).2
      · exact ih (fun x hx => hs x (by simp [hx])) h

/-- The endpoint built from a base with empty path and elements that need no
escaping: the path is `/name/s1/.../sk` with no raw-path hint. -/
theorem endpoint_safe (base : URL) (hbase : base.Path = []) (name : GoString)
    (ss : List GoString) (hne : name ≠ []) (hn : ∀ b ∈ name, isLetter b = true)
    (hs : ∀ s ∈ ss, PlainSeg s) (hsafe : ∀ s ∈ ss, ∀ b ∈ s, PathSafeByte b = true) :
    base.Parse (path.Join (base.Path :: name :: ss)) =
      .ok (endpointURL base (ch '/' :: (name ++ slashed ss)) []) := by
  rw [endpoint_plain base hbase name ss hne hn hs]
  have h := escape_of_all _ _ (joined_noescape name ss hn hsafe)
  rw [if_neg (fun hc => hc.2 h.symm)]

/-- The wire form of the path of such an endpoint is the path itself. -/
theorem endpointURL_escapedPath (base : URL) (name : GoString) (ss : List GoString)
    (hn : ∀ b ∈ name, isLetter b = true) (hsafe : ∀ s ∈ ss, ∀ b ∈ s, PathSafeByte b = true) :
    (endpointURL base (ch '/' :: (name ++ slashed ss)) []).EscapedPath =
      ch '/' :: (name ++ slashed ss) := by
  unfold URL.EscapedPath endpointURL
  have h1 : ¬ (ch '/' :: (name ++ slashed ss) = utf8 "*") := by
    have : utf8 "*" = [ch '*'] := by decide
    rw [this]
    intro e
    exact absurd (List.cons.inj e).1 (by decide)
  simp only [ne_eq, not_true_eq_false, false_and, if_false, h1]
  apply escape_of_all
  intro b hb
  rcases List.mem_cons.mp hb with rfl | hb
  · decide
  · exact joined_noescape name ss hn hsafe b hb

/-! ## Lemmas: `strconv.Itoa` writes the decimal form -/

theorem utf8_cons (c : Char) (cs : List Char) :
    utf8 (String.mk (c :: cs)) = utf8 (String.mk [c]) ++ utf8 (String.mk cs) := by
  simp [utf8, String.toList]

theorem utf8_digitChar (d : Nat) (h : d < 10) : utf8 (String.mk [Nat.digitChar d]) = [digit d] := by
  interval_cases d <;> decide

theorem formatBits10_toDigitsCore : ∀ (us f1 f2 : Nat) (accC : List Char),
    us < f1 → us < f2 →
    formatBits10 f2 us (utf8 (String.mk accC)) =
      utf8 (String.mk (Nat.toDigitsCore 10 f1 us accC)) := by
  intro us
  induction us using Nat.strong_induction_on with
  | _ us ih =>
    intro f1 f2 accC h1 h2
    obtain ⟨g2, rfl⟩ : ∃ g, f2 = g + 1 := ⟨f2 - 1, by omega⟩
    obtain ⟨g1, rfl⟩ : ∃ g, f1 = g + 1 := ⟨f1 - 1, by omega⟩
    rw [formatBits10]
    by_cases h100 : us ≥ 100
    · rw [if_pos h100]
      obtain ⟨k1, rfl⟩ : ∃ g, g1 = g + 1 := ⟨g1 - 1, by omega⟩
      have e1 : us / 10 ≠ 0 := by omega
      have e2 : us / 10 / 10 ≠ 0 := by omega
      rw [Nat.toDigitsCore]
      simp only [e1, if_false]
      rw [Nat.toDigitsCore]
      simp only [e2, if_false]
      have e3 : us / 10 / 10 = us / 100 := by omega
      rw [e3]
      rw [← ih (us / 100) (by omega) k1 g2 _ (by omega) (by omega)]
      congr 1
      rw [utf8_cons, utf8_cons (Nat.digitChar (us % 10)),
        utf8_digitChar _ (Nat.mod_lt _ (by omega)), utf8_digitChar _ (Nat.mod_lt _ (by omega))]
      have e4 : us % 100 / 10 = us / 10 % 10 := by omega
      have e5 : us % 100 % 10 = us % 10 := by omega
      rw [e4, e5]
      rfl
    · rw [if_neg h100]
      by_cases h10 : us ≥ 10
      · rw [if_pos h10]
        obtain ⟨k1, rfl⟩ : ∃ g, g1 = g + 1 := ⟨g1 - 1, by omega⟩
        have e1 : us / 10 ≠ 0 := by omega
        have e2 : us / 10 / 10 = 0 := by omega
        rw [Nat.toDigitsCore]
        simp only [e1, if_false]
        rw [Nat.toDigitsCore]
        simp only [e2, if_true]
        rw [utf8_cons, utf8_cons (Nat.digitChar (us % 10)),
          utf8_digitChar _ (Nat.mod_lt _ (by omega)), utf8_digitChar _ (Nat.mod_lt _ (by omega))]
        have e4 : us / 10 % 10 = us / 10 := by omega
        rw [e4]
        rfl
      · rw [if_neg h10]
        have e1 : us / 10 = 0 := by omega
        rw [Nat.toDigitsCore]
        simp only [e1, if_true]
        rw [utf8_cons, utf8_digitChar _ (Nat.mod_lt _ (by omega))]
        have e4 : us % 10 = us := by omega
        rw [e4]
        rfl

theorem formatBits10_repr (us : Nat) :
    formatBits10 (us + 1) us [] = utf8 (Nat.repr us) := by
  have h := formatBits10_toDigitsCore us (us + 1) (us + 1) [] (by omega) (by omega)
  have e : utf8 (String.mk []) = [] := by decide
  rw [e] at h
  rw [h]
  rfl

theorem small_repr (i : Nat) (h : i < 100) : small i = utf8 (Nat.repr i) := by
  rw [← formatBits10_repr]
  unfold small
  rw [formatBits10]
  have h100 : ¬ i ≥ 100 := by omega
  rw [if_neg h100]
  by_cases h10 : i < 10
  · rw [if_pos h10, if_neg (by omega)]
  · rw [if_neg h10, if_pos (by omega)]

/-- `strconv.Itoa` writes the decimal form of its argument. -/
theorem Itoa_eq_decimal (n : Int) : Itoa n = decimal n := by
  unfold Itoa FormatInt decimal
  cases n with
  | ofNat m =>
    have e : toString (Int.ofNat m) = Nat.repr m := rfl
    rw [e]
    split
    · rename_i h
      exact small_repr m (by simpa using h.2)
    · simp only
      have hneg : ¬ (Int.ofNat m < 0) := by simp
      rw [if_neg hneg]
      exact formatBits10_repr m
  | negSucc m =>
    have e : toString (Int.negSucc m) = "-" ++ Nat.repr (m + 1) := rfl
    rw [e]
    have h0 : ¬ (0 ≤ Int.negSucc m ∧ Int.negSucc m < 100) := by
      intro h
      exact absurd h.1 (by simp)
    rw [if_neg h0]
    simp only
    have hneg : Int.negSucc m < 0 := Int.negSucc_lt_zero m
    rw [if_pos hneg]
    have hu : utf8 ("-" ++ Nat.repr (m + 1)) = ch '-' :: utf8 (Nat.repr (m + 1)) := by
      have happ : utf8 ("-" ++ Nat.repr (m + 1)) = utf8 "-" ++ utf8 (Nat.repr (m + 1)) := by
        simp [utf8, String.toList]
      have hminus : utf8 "-" = [ch '-'] := by decide
      rw [happ, hminus]
      rfl
    rw [hu]
    have : (Int.negSucc m).natAbs = m + 1 := rfl
    rw [this, formatBits10_repr]

/-! ## The request executor `do` -/

theorem do_eq_of_request {D : Type} (c : Client) (ctx : http.Context) (endpoint : URL)
    (decode : Decoder D) (data : D) (req : http.Request)
    (hreq : requestFor ctx endpoint = .ok req) :
    c.do_ ctx endpoint decode data =
      match c.HTTPClient.Do req with
      | .error err => (data, some err)
      | .ok resp =>
        if resp.StatusCode ≠ http.StatusOK then
          (data, some (errorf_d_s resp.StatusCode (http.ReadAll resp.Body).1))
        else decode resp.Body data := by
  unfold requestFor at hreq
  unfold Client.do_
  generalize http.NewRequestWithContext ctx http.MethodGet endpoint.String http.NoBody = nr
    at hreq ⊢
  cases nr with
  | error e => exact absurd hreq (by simp)
  | ok r =>
    simp only [Except.ok.injEq] at hreq
    subst hreq
    rfl

/-- C1: for every response whose status code is not 200 and every body, `do`
fails with the error whose message is the decimal status code, then `": "`,
then the raw body; the decoder is not consulted and the destination is
returned unchanged.  This covers 201 and 204 like every other code. -/
theorem do_non200_error {D : Type} (c : Client) (ctx : http.Context) (endpoint : URL)
    (decode : Decoder D) (data : D) (req : http.Request) (resp : http.Response)
    (hreq : requestFor ctx endpoint = .ok req)
    (hresp : c.HTTPClient.Do req = .ok resp)
    (hstatus : resp.StatusCode ≠ 200) :
    c.do_ ctx endpoint decode data =
      (data, some (GoError.errorString
        (decimal resp.StatusCode ++ utf8 ": " ++ resp.Body.data))) := by
  rw [← Itoa_eq_decimal, do_eq_of_request c ctx endpoint decode data req hreq, hresp]
  simp only [http.StatusOK, hstatus, ne_eq, not_false_eq_true, if_true, errorf_d_s, http.ReadAll]

/-- C3: for a response with status exactly 200 the result of `do` is the
result of decoding the body into the destination: the decoded value with no
error when the decoder succeeds, the decoder's error when it fails. -/
theorem do_200_decodes {D : Type} (c : Client) (ctx : http.Context) (endpoint : URL)
    (decode : Decoder D) (data : D) (req : http.Request) (resp : http.Response)
    (hreq : requestFor ctx endpoint = .ok req)
    (hresp : c.HTTPClient.Do req = .ok resp)
    (hstatus : resp.StatusCode = 200) :
    c.do_ ctx endpoint decode data = decode resp.Body data ∧
    (∀ v, decode resp.Body data = (v, none) → c.do_ ctx endpoint decode data = (v, none)) ∧
    (∀ v e, decode resp.Body data = (v, some e) →
      (c.do_ ctx endpoint decode data).2 = some e) := by
  have h : c.do_ ctx endpoint decode data = decode resp.Body data := by
    rw [do_eq_of_request c ctx endpoint decode data req hreq, hresp]
    simp [http.StatusOK, hstatus]
  refine ⟨h, fun v hv => by rw [h, hv], fun v e hv => by rw [h, hv]⟩

/-- C2: every accessor returns exactly one of a value and an error, whatever
the endpoint construction, the transport and the decoder do; in particular a
decoder that fills part of the destination and then fails yields a nil value
with the error. -/
theorem accessors_value_xor_error (c : Client) (ctx : http.Context) (n : Int) (s : GoString) :
    (∀ decode, exactlyOne (c.GetASN ctx n decode)) ∧
    (∀ decode, exactlyOne (c.GetASNPrefixes ctx n decode)) ∧
    (∀ decode, exactlyOne (c.GetASNPeers ctx n decode)) ∧
    (∀ decode, exactlyOne (c.GetASNUpstreams ctx n decode)) ∧
    (∀ decode, exactlyOne (c.GetASNDownstreams ctx n decode)) ∧
    (∀ decode, exactlyOne (c.GetASNIxs ctx n decode)) ∧
    (∀ decode, exactlyOne (c.GetPrefix ctx s n decode)) ∧
    (∀ decode, exactlyOne (c.GetIP ctx s decode)) ∧
    (∀ decode, exactlyOne (c.GetIX ctx n decode)) ∧
    (∀ decode, exactlyOne (c.GetSearch ctx s decode)) := by
  refine ⟨?_, ?_, ?_, ?_, ?_, ?_, ?_, ?_, ?_, ?_⟩ <;> intro decode
  · unfold Client.GetASN
    split
    · exact Or.inr ⟨rfl, by simp⟩
    · dsimp only
      split
      · exact Or.inr ⟨rfl, by simp⟩
      · exact Or.inl ⟨by simp, rfl⟩
  · unfold Client.GetASNPrefixes
    split
    · exact Or.inr ⟨rfl, by simp⟩
    · dsimp only
      split
      · exact Or.inr ⟨rfl, by simp⟩
      · exact Or.inl ⟨by simp, rfl⟩
  · unfold Client.GetASNPeers
    split
    · exact Or.inr ⟨rfl, by simp⟩
    · dsimp only
      split
      · exact Or.inr ⟨rfl, by simp⟩
      · exact Or.inl ⟨by simp, rfl⟩
  · unfold Client.GetASNUpstreams
    split
    · exact Or.inr ⟨rfl, by simp⟩
    · dsimp only
      split
      · exact Or.inr ⟨rfl, by simp⟩
      · exact Or.inl ⟨by simp, rfl⟩
  · unfold Client.GetASNDownstreams
    split
    · exact Or.inr ⟨rfl, by simp⟩
    · dsimp only
      split
      · exact Or.inr ⟨rfl, by simp⟩
      · exact Or.inl ⟨by simp, rfl⟩
  · unfold Client.GetASNIxs
    split
    · exact Or.inr ⟨rfl, by simp⟩
    · dsimp only
      split
      · exact Or.inr ⟨rfl, by simp⟩
      · exact Or.inl ⟨by simp, rfl⟩
  · unfold Client.GetPrefix
    split
    · exact Or.inr ⟨rfl, by simp⟩
    · dsimp only
      split
      · exact Or.inr ⟨rfl, by simp⟩
      · exact Or.inl ⟨by simp, rfl⟩
  · unfold Client.GetIP
    split
    · exact Or.inr ⟨rfl, by simp⟩
    · dsimp only
      split
      · exact Or.inr ⟨rfl, by simp⟩
      · exact Or.inl ⟨by simp, rfl⟩
  · unfold Client.GetIX
    split
    · exact Or.inr ⟨rfl, by simp⟩
    · dsimp only
      split
      · exact Or.inr ⟨rfl, by simp⟩
      · exact Or.inl ⟨by simp, rfl⟩
  · unfold Client.GetSearch
    split
    · exact Or.inr ⟨rfl, by simp⟩
    · dsimp only
      split
      · exact Or.inr ⟨rfl, by simp⟩
      · exact Or.inl ⟨by simp, rfl⟩

/-! ## The paths the accessors request -/

theorem plain_of_letters (s : GoString) (hne : s ≠ []) (h : ∀ b ∈ s, isLetter b = true) :
    PlainSeg s ∧ ∀ b ∈ s, PathSafeByte b = true := by
  have hc := letters_cleanElem s hne h
  have hsafe : ∀ b ∈ s, PathSafeByte b = true := by
    intro b hb
    have h1 := letter_safe b (h b hb)
    have h2 := (letter_facts b (h b hb)).2.2.1
    simp [PathSafeByte, h1, h2]
  exact ⟨⟨hne, hc.2.1, hc.2.2.1, fun b hb => (pathSafe_facts b (hsafe b hb)).1⟩, hsafe⟩

/-- C4: with a base address whose path is empty, for every integer `n` the
six ASN accessors build the endpoint whose path is `/asn/<n>`,
`/asn/<n>/prefixes`, `/asn/<n>/peers`, `/asn/<n>/upstreams`,
`/asn/<n>/downstreams` and `/asn/<n>/ixs`, with the scheme, user and host of
the base address, no query string and no fragment (`endpointURL`). -/
theorem asn_endpoints (c : Client) (hbase : c.baseURL.Path = []) (n : Int) :
    c.endpointGetASN n = .ok (endpointURL c.baseURL (utf8 "/asn/" ++ decimal n) []) ∧
    c.endpointGetASNPrefixes n =
      .ok (endpointURL c.baseURL (utf8 "/asn/" ++ decimal n ++ utf8 "/prefixes") []) ∧
    c.endpointGetASNPeers n =
      .ok (endpointURL c.baseURL (utf8 "/asn/" ++ decimal n ++ utf8 "/peers") []) ∧
    c.endpointGetASNUpstreams n =
      .ok (endpointURL c.baseURL (utf8 "/asn/" ++ decimal n ++ utf8 "/upstreams") []) ∧
    c.endpointGetASNDownstreams n =
      .ok (endpointURL c.baseURL (utf8 "/asn/" ++ decimal n ++ utf8 "/downstreams") []) ∧
    c.endpointGetASNIxs n =
      .ok (endpointURL c.baseURL (utf8 "/asn/" ++ decimal n ++ utf8 "/ixs") []) := by
  simp only [← Itoa_eq_decimal]
  have hasn : utf8 "asn" ≠ [] ∧ ∀ b ∈ utf8 "asn", isLetter b = true := by decide
  have key : ∀ tail : GoString, tail ≠ [] → (∀ b ∈ tail, isLetter b = true) →
      c.baseURL.Parse (path.Join [c.baseURL.Path, utf8 "asn", Itoa n, tail]) =
        .ok (endpointURL c.baseURL (utf8 "/asn/" ++ Itoa n ++ (ch '/' :: tail)) []) := by
    intro tail hne ht
    have hp := plain_of_letters tail hne ht
    rw [endpoint_safe c.baseURL hbase (utf8 "asn") [Itoa n, tail] hasn.1 hasn.2
      (by
        intro s hs
        simp only [List.mem_cons, List.mem_singleton, List.not_mem_nil, or_false] at hs
        rcases hs with rfl | rfl
        · exact Itoa_plain n
        · exact hp.1)
      (by
        intro s hs
        simp only [List.mem_cons, List.mem_singleton, List.not_mem_nil, or_false] at hs
        rcases hs with rfl | rfl
        · exact Itoa_safe n
        · exact hp.2)]
    have : utf8 "/asn/" = ch '/' :: (utf8 "asn" ++ [ch '/']) := by decide
    rw [this]
    simp [slashed]
  refine ⟨?_, ?_, ?_, ?_, ?_, ?_⟩
  · unfold Client.endpointGetASN
    rw [endpoint_safe c.baseURL hbase (utf8 "asn") [Itoa n] hasn.1 hasn.2
      (by
        intro s hs
        simp only [List.mem_singleton] at hs
        subst hs
        exact Itoa_plain n)
      (by
        intro s hs
        simp only [List.mem_singleton] at hs
        subst hs
        exact Itoa_safe n)]
    have : utf8 "/asn/" = ch '/' :: (utf8 "asn" ++ [ch '/']) := by decide
    rw [this]
    simp [slashed]
  · unfold Client.endpointGetASNPrefixes
    rw [key (utf8 "prefixes") (by decide) (by decide)]
    rfl
  · unfold Client.endpointGetASNPeers
    rw [key (utf8 "peers") (by decide) (by decide)]
    rfl
  · unfold Client.endpointGetASNUpstreams
    rw [key (utf8 "upstreams") (by decide) (by decide)]
    rfl
  · unfold Client.endpointGetASNDownstreams
    rw [key (utf8 "downstreams") (by decide) (by decide)]
    rfl
  · unfold Client.endpointGetASNIxs
    rw [key (utf8 "ixs") (by decide) (by decide)]
    rfl

/-- C5: with a base address whose path is empty, for every address literal
`a` (digits, hex letters, `.` and `:`), `GetIP` builds the endpoint whose
path is `/ip/<a>`, with no query string and no fragment, and the wire form of
that path (`EscapedPath`) is `/ip/<a>` too: the colons are not escaped. -/
theorem getIP_endpoint (c : Client) (hbase : c.baseURL.Path = []) (a : GoString)
    (ha : AddrLiteral a) :
    c.endpointGetIP a = .ok (endpointURL c.baseURL (utf8 "/ip/" ++ a) []) ∧
    (endpointURL c.baseURL (utf8 "/ip/" ++ a) []).EscapedPath = utf8 "/ip/" ++ a := by
  have hip : utf8 "ip" ≠ [] ∧ ∀ b ∈ utf8 "ip", isLetter b = true := by decide
  have hlit : utf8 "/ip/" ++ a = ch '/' :: (utf8 "ip" ++ slashed [a]) := by
    have : utf8 "/ip/" = ch '/' :: (utf8 "ip" ++ [ch '/']) := by decide
    rw [this]
    simp [slashed]
  have hsafe : ∀ s ∈ [a], ∀ b ∈ s, PathSafeByte b = true := by
    intro s hs
    simp only [List.mem_singleton] at hs
    subst hs
    exact ha.safe
  constructor
  · unfold Client.endpointGetIP
    rw [endpoint_safe c.baseURL hbase (utf8 "ip") [a] hip.1 hip.2
      (by
        intro s hs
        simp only [List.mem_singleton] at hs
        subst hs
        exact ha.plain)
      hsafe, hlit]
  · rw [hlit]
    exact endpointURL_escapedPath c.baseURL (utf8 "ip") [a] hip.2 hsafe

/-- C6: with a base address whose path is empty, for every address literal
`a` and every integer `cidr`, `GetPrefix` builds the endpoint whose path is
`/prefix/<a>/<cidr>`, with no query string and no fragment. -/
theorem getPrefix_endpoint (c : Client) (hbase : c.baseURL.Path = []) (a : GoString)
    (cidr : Int) (ha : AddrLiteral a) :
    c.endpointGetPrefix a cidr =
      .ok (endpointURL c.baseURL (utf8 "/prefix/" ++ a ++ utf8 "/" ++ decimal cidr) []) := by
  rw [← Itoa_eq_decimal]
  have hpre : utf8 "prefix" ≠ [] ∧ ∀ b ∈ utf8 "prefix", isLetter b = true := by decide
  unfold Client.endpointGetPrefix
  rw [endpoint_safe c.baseURL hbase (utf8 "prefix") [a, Itoa cidr] hpre.1 hpre.2
    (by
      intro s hs
      simp only [List.mem_cons, List.mem_singleton, List.not_mem_nil, or_false] at hs
      rcases hs with rfl | rfl
      · exact ha.plain
      · exact Itoa_plain cidr)
    (by
      intro s hs
      simp only [List.mem_cons, List.mem_singleton, List.not_mem_nil, or_false] at hs
      rcases hs with rfl | rfl
      · exact ha.safe
      · exact Itoa_safe cidr)]
  have h1 : utf8 "/prefix/" = ch '/' :: (utf8 "prefix" ++ [ch '/']) := by decide
  have h2 : utf8 "/" = [ch '/'] := by decide
  rw [h1, h2]
  simp [slashed]

/-- C7: with a base address whose path is empty, for every integer `ixID`,
`GetIX` builds the endpoint whose path is `/ix/<ixID>`, with no query string
and no fragment. -/
theorem getIX_endpoint (c : Client) (hbase : c.baseURL.Path = []) (ixID : Int) :
    c.endpointGetIX ixID = .ok (endpointURL c.baseURL (utf8 "/ix/" ++ decimal ixID) []) := by
  rw [← Itoa_eq_decimal]
  have hix : utf8 "ix" ≠ [] ∧ ∀ b ∈ utf8 "ix", isLetter b = true := by decide
  unfold Client.endpointGetIX
  rw [endpoint_safe c.baseURL hbase (utf8 "ix") [Itoa ixID] hix.1 hix.2
    (by
      intro s hs
      simp only [List.mem_singleton] at hs
      subst hs
      exact Itoa_plain ixID)
    (by
      intro s hs
      simp only [List.mem_singleton] at hs
      subst hs
      exact Itoa_safe ixID)]
  have : utf8 "/ix/" = ch '/' :: (utf8 "ix" ++ [ch '/']) := by decide
  rw [this]
  simp [slashed]

/-! ## The search query -/

theorem escapeByte_query_amp : ∀ c : Byte, ch '&' ∉ escapeByte encodeQueryComponent c := by
  decide

theorem escapeByte_query_semi : ∀ c : Byte, ch ';' ∉ escapeByte encodeQueryComponent c := by
  decide

theorem escapeByte_query_eq : ∀ c : Byte, ch '=' ∉ escapeByte encodeQueryComponent c := by
  decide

theorem queryEscape_sep (t : GoString) : ∀ b ∈ QueryEscape t,
    b ≠ ch '&' ∧ b ≠ ch ';' ∧ b ≠ ch '=' := by
  intro b hb
  unfold QueryEscape at hb
  rw [escape_eq_flatMap, List.mem_flatMap] at hb
  obtain ⟨c, -, hc⟩ := hb
  exact ⟨fun e => escapeByte_query_amp c (e ▸ hc), fun e => escapeByte_query_semi c (e ▸ hc),
    fun e => escapeByte_query_eq c (e ▸ hc)⟩

theorem encode_single (k t : GoString) :
    Values.Encode (Values.Set [] k t) = QueryEscape k ++ [ch '='] ++ QueryEscape t := by
  simp [Values.Encode, Values.Set, Values.store, Values.sortedKeys, insertKey, Values.lookup,
    encodeKey]

/-- `ParseQuery` of `query_term=<escaped t>` is the single pair `query_term -> [t]`. -/
theorem parseQuery_query_term (t : GoString) :
    ParseQuery (utf8 "query_term=" ++ QueryEscape t) = ([(utf8 "query_term", [t])], none) := by
  have hk : utf8 "query_term=" = utf8 "query_term" ++ [ch '='] := by decide
  have hkb : ∀ b ∈ utf8 "query_term", b ≠ ch '&' ∧ b ≠ ch ';' ∧ b ≠ ch '=' := by decide
  have hall : ∀ b ∈ utf8 "query_term" ++ ch '=' :: QueryEscape t, b ≠ ch '&' ∧ b ≠ ch ';' := by
    intro b hb
    simp only [List.mem_append, List.mem_cons] at hb
    rcases hb with h | rfl | h
    · exact ⟨(hkb b h).1, (hkb b h).2.1⟩
    · decide
    · exact ⟨(queryEscape_sep t b h).1, (queryEscape_sep t b h).2.1⟩
  have hamp : ch '&' ∉ utf8 "query_term" ++ ch '=' :: QueryEscape t :=
    fun h => (hall _ h).1 rfl
  have hsemi : ch ';' ∉ utf8 "query_term" ++ ch '=' :: QueryEscape t :=
    fun h => (hall _ h).2 rfl
  have heq : ch '=' ∉ utf8 "query_term" := fun h => (hkb _ h).2.2 rfl
  have hku : QueryUnescape (utf8 "query_term") = .ok (utf8 "query_term") := by decide
  unfold ParseQuery
  rw [hk, List.append_assoc, List.singleton_append]
  have hlen : (utf8 "query_term" ++ ch '=' :: QueryEscape t).length + 1 =
      ((utf8 "query_term" ++ ch '=' :: QueryEscape t).length - 1) + 1 + 1 := by
    simp only [List.length_append, List.length_cons]
    omega
  rw [hlen]
  rw [parseQueryLoop]
  have hne : ¬ (utf8 "query_term" ++ ch '=' :: QueryEscape t = []) := by simp
  rw [if_neg hne]
  simp only [cut_not_mem _ _ hamp]
  have hcont : strings.Contains (utf8 "query_term" ++ ch '=' :: QueryEscape t) (ch ';') = false := by
    unfold strings.Contains
    simpa using hsemi
  rw [hcont]
  simp only [Bool.false_eq_true, if_false, hne]
  rw [cut_append _ _ _ heq]
  simp only [hku, queryUnescape_queryEscape]
  simp [parseQueryLoop, Values.store, Values.lookup]

/-- C8: with a base address whose path is empty, for every search term `t`
(any byte string), `GetSearch` builds the endpoint whose path is `/search`
and whose raw query is `query_term=` followed by the query-encoding of `t`;
URL-decoding that raw query yields, without error, exactly one parameter,
`query_term`, whose single value is `t`. -/
theorem getSearch_endpoint (c : Client) (hbase : c.baseURL.Path = []) (t : GoString) :
    c.endpointGetSearch t =
      .ok { endpointURL c.baseURL (utf8 "/search") [] with
            RawQuery := utf8 "query_term=" ++ QueryEscape t } ∧
    ParseQuery (utf8 "query_term=" ++ QueryEscape t) = ([(utf8 "query_term", [t])], none) := by
  refine ⟨?_, parseQuery_query_term t⟩
  have hs : utf8 "search" ≠ [] ∧ ∀ b ∈ utf8 "search", isLetter b = true := by decide
  unfold Client.endpointGetSearch
  rw [endpoint_safe c.baseURL hbase (utf8 "search") [] hs.1 hs.2 (by simp) (by simp)]
  have h1 : ch '/' :: (utf8 "search" ++ slashed []) = utf8 "/search" := by decide
  rw [h1]
  have h2 : (endpointURL c.baseURL (utf8 "/search") []).Query = [] := rfl
  simp only [h2, encode_single]
  have h3 : QueryEscape (utf8 "query_term") ++ [ch '='] = utf8 "query_term=" := by decide
  rw [h3]

/-! ## Lemmas: values without `?` and `#` -/

theorem backtrack_le (out : GoString) (dd : Nat) : ∀ w, path.backtrack out dd w ≤ w := by
  intro w
  induction w with
  | zero => simp [path.backtrack]
  | succ w ih =>
    rw [path.backtrack]
    split
    · omega
    · omega

theorem cleanLoop_bytes (rooted : Bool) : ∀ (fuel : Nat) (rest out : GoString) (dd : Nat),
    (∀ b ∈ rest, NoCutByte b) → (∀ b ∈ out, NoCutByte b) →
    ∀ b ∈ path.cleanLoop rooted fuel rest out dd, NoCutByte b := by
  have hslash : NoCutByte (ch '/') := by unfold NoCutByte; decide
  have hdot : NoCutByte (ch '.') := by unfold NoCutByte; decide
  intro fuel
  induction fuel with
  | zero => intro rest out dd _ ho; simpa [path.cleanLoop] using ho
  | succ f ih =>
    intro rest out dd hr ho
    cases rest with
    | nil => simpa [path.cleanLoop] using ho
    | cons c rest1 =>
      rw [path.cleanLoop]
      have hr1 : ∀ b ∈ rest1, NoCutByte b := fun b hb => hr b (by simp [hb])
      have hr2 : ∀ b ∈ rest1.tail, NoCutByte b := fun b hb => hr1 b (List.mem_of_mem_tail hb)
      simp only
      split
      · exact ih _ _ _ hr1 ho
      · split
        · exact ih _ _ _ hr1 ho
        · split
          · split
            · exact ih _ _ _ hr2 (fun b hb => ho b (List.mem_of_mem_take hb))
            · split
              · apply ih _ _ _ hr2
                intro b hb
                simp only [List.mem_append, List.mem_cons, List.mem_singleton,
                  List.not_mem_nil, or_false] at hb
                rcases hb with hb | rfl | rfl
                · split at hb
                  · simp only [List.mem_append, List.mem_singleton] at hb
                    rcases hb with hb | rfl
                    · exact ho b hb
                    · exact hslash
                  · exact ho b hb
                · exact hdot
                · exact hdot
              · exact ih _ _ _ hr2 ho
          · apply ih
            · intro b hb
              exact hr b ((List.dropWhile_sublist _).subset hb)
            · intro b hb
              simp only [List.mem_append] at hb
              rcases hb with hb | hb
              · split at hb
                · simp only [List.mem_append, List.mem_singleton] at hb
                  rcases hb with hb | rfl
                  · exact ho b hb
                  · exact hslash
                · exact ho b hb
              · exact hr b ((List.takeWhile_sublist _).subset hb)

theorem clean_bytes (p : GoString) (h : ∀ b ∈ p, NoCutByte b) :
    ∀ b ∈ path.Clean p, NoCutByte b := by
  have hslash : NoCutByte (ch '/') := by unfold NoCutByte; decide
  have hdot : NoCutByte (ch '.') := by unfold NoCutByte; decide
  unfold path.Clean
  by_cases hp : p = []
  · rw [if_pos hp]
    intro b hb
    simp only [List.mem_singleton] at hb
    subst hb
    exact hdot
  · rw [if_neg hp]
    have key : ∀ out : GoString, (∀ b ∈ out, NoCutByte b) →
        ∀ b ∈ (if out.length = 0 then [ch '.'] else out), NoCutByte b := by
      intro out ho b hb
      split at hb
      · simp only [List.mem_singleton] at hb
        subst hb
        exact hdot
      · exact ho b hb
    apply key
    split
    · apply cleanLoop_bytes
      · exact fun b hb => h b (List.mem_of_mem_tail hb)
      · intro b hb
        simp only [List.mem_singleton] at hb
        subst hb
        exact hslash
    · apply cleanLoop_bytes
      · exact h
      · simp

theorem joinBuf_bytes (elem : List GoString) : ∀ buf : GoString,
    (∀ e ∈ elem, ∀ b ∈ e, NoCutByte b) → (∀ b ∈ buf, NoCutByte b) →
    ∀ b ∈ path.joinBuf elem buf, NoCutByte b := by
  have hslash : NoCutByte (ch '/') := by unfold NoCutByte; decide
  induction elem with
  | nil => intro buf _ hb; simpa [path.joinBuf] using hb
  | cons e elem ih =>
    intro buf he hb
    rw [path.joinBuf]
    split
    · apply ih _ (fun x hx => he x (by simp [hx]))
      intro b hbm
      simp only [List.mem_append] at hbm
      rcases hbm with hbm | hbm
      · split at hbm
        · simp only [List.mem_append, List.mem_singleton] at hbm
          rcases hbm with hbm | rfl
          · exact hb b hbm
          · exact hslash
        · exact hb b hbm
      · exact he e (by simp) b hbm
    · exact ih _ (fun x hx => he x (by simp [hx])) hb

theorem join_bytes (elem : List GoString) (h : ∀ e ∈ elem, ∀ b ∈ e, NoCutByte b) :
    ∀ b ∈ path.Join elem, NoCutByte b := by
  unfold path.Join
  simp only
  split
  · simp
  · exact clean_bytes _ (joinBuf_bytes elem [] h (by simp))

theorem getSchemeLoop_rest (raw : GoString) : ∀ (s : GoString) (i : Nat) (sch rest : GoString),
    getSchemeLoop raw s i = .ok (sch, rest) → ∀ b ∈ rest, b ∈ raw ∨ b ∈ s := by
  intro s
  induction s with
  | nil =>
    intro i sch rest h b hb
    simp only [getSchemeLoop, Except.ok.injEq, Prod.mk.injEq] at h
    rw [← h.2] at hb
    exact Or.inl hb
  | cons c s ih =>
    intro i sch rest h b hb
    rw [getSchemeLoop] at h
    split at h
    · rcases ih _ _ _ h b hb with h1 | h1
      · exact Or.inl h1
      · exact Or.inr (by simp [h1])
    · split at h
      · split at h
        · simp only [Except.ok.injEq, Prod.mk.injEq] at h
          rw [← h.2] at hb
          exact Or.inl hb
        · rcases ih _ _ _ h b hb with h1 | h1
          · exact Or.inl h1
          · exact Or.inr (by simp [h1])
      · split at h
        · split at h
          · exact absurd h (by simp)
          · simp only [Except.ok.injEq, Prod.mk.injEq] at h
            rw [← h.2] at hb
            exact Or.inr (by simp [hb])
        · simp only [Except.ok.injEq, Prod.mk.injEq] at h
          rw [← h.2] at hb
          exact Or.inl hb

theorem setPath_fields (u v : URL) (p : GoString) (h : u.setPath p = .ok v) :
    v.RawQuery = u.RawQuery ∧ v.ForceQuery = u.ForceQuery ∧ v.Fragment = u.Fragment := by
  unfold URL.setPath at h
  split at h
  · exact absurd h (by simp)
  · split at h <;>
    · simp only [Except.ok.injEq] at h
      subst h
      exact ⟨rfl, rfl, rfl⟩

theorem setPathIgnoringError_fields (u : URL) (p : GoString) :
    (u.setPathIgnoringError p).RawQuery = u.RawQuery ∧
    (u.setPathIgnoringError p).ForceQuery = u.ForceQuery ∧
    (u.setPathIgnoringError p).Fragment = u.Fragment := by
  unfold URL.setPathIgnoringError
  split
  · rename_i v hv
    exact setPath_fields u v p hv
  · exact ⟨rfl, rfl, rfl⟩

theorem parse_noquery (x : GoString) (hx : ch '?' ∉ x) (u : URL) (h : parse x = .ok u) :
    u.RawQuery = [] ∧ u.ForceQuery = false ∧ u.Fragment = [] := by
  unfold parse at h
  split at h
  · exact absurd h (by simp)
  · split at h
    · simp only [Except.ok.injEq] at h
      subst h
      exact ⟨rfl, rfl, rfl⟩
    · split at h
      · exact absurd h (by simp)
      · rename_i scheme rest0 hgs
        have hrest : ch '?' ∉ rest0 := by
          intro hm
          rcases getSchemeLoop_rest x x 0 scheme rest0 hgs _ hm with h1 | h1 <;> exact hx h1
        have hcount : strings.Count rest0 (ch '?') = 0 := by
          unfold strings.Count
          exact List.count_eq_zero.mpr hrest
        simp only [hcount, cut_not_mem _ _ hrest, zero_ne_one, and_false, if_false,
          decide_False, Bool.false_eq_true] at h
        split at h
        · simp only [Except.ok.injEq] at h
          subst h
          exact ⟨rfl, rfl, rfl⟩
        · split at h
          · exact absurd h (by simp)
          · split at h
            · split at h
              · exact absurd h (by simp)
              · have := setPath_fields _ _ _ h
                exact this
            · split at h
              · have := setPath_fields _ _ _ h
                exact this
              · have := setPath_fields _ _ _ h
                exact this

theorem Parse_noquery (x : GoString) (hx : ∀ b ∈ x, NoCutByte b) (u : URL)
    (h : url.Parse x = .ok u) :
    u.RawQuery = [] ∧ u.ForceQuery = false ∧ u.Fragment = [] := by
  have hq : ch '?' ∉ x := fun hm => (hx _ hm).1 rfl
  have hf : ch '#' ∉ x := fun hm => (hx _ hm).2 rfl
  unfold url.Parse at h
  rw [cut_not_mem _ _ hf] at h
  simp only at h
  split at h
  · exact absurd h (by simp)
  · rename_i v hv
    simp only [if_true, Except.ok.injEq] at h
    subst h
    exact parse_noquery x hq _ hv

theorem resolve_noquery (base ref : URL) (hb : base.RawQuery = [] ∧ base.Fragment = [])
    (hr : ref.RawQuery = [] ∧ ref.ForceQuery = false ∧ ref.Fragment = []) :
    (base.ResolveReference ref).RawQuery = [] ∧ (base.ResolveReference ref).ForceQuery = false ∧
    (base.ResolveReference ref).Fragment = [] := by
  obtain ⟨hb1, hb2⟩ := hb
  obtain ⟨hr1, hr2, hr3⟩ := hr
  unfold URL.ResolveReference
  simp only []
  split_ifs <;>
    simp only [(setPathIgnoringError_fields _ _).1, (setPathIgnoringError_fields _ _).2.1,
      (setPathIgnoringError_fields _ _).2.2, hb1, hb2, hr1, hr2, hr3, and_self]

/-! ## Caller-supplied address values -/

theorem escapedPath_joined (base : URL) (name : GoString) (ss : List GoString) (R : GoString)
    (hn : ∀ b ∈ name, isLetter b = true)
    (hR : R = [] ∨ R = ch '/' :: (name ++ slashed ss)) :
    ∃ ss' : List GoString, ss'.length = ss.length ∧
      (endpointURL base (ch '/' :: (name ++ slashed ss)) R).EscapedPath =
        ch '/' :: (name ++ slashed ss') := by
  unfold URL.EscapedPath
  simp only [endpointURL]
  split
  · rename_i h
    rcases hR with hR | hR
    · exact absurd hR h.1
    · exact ⟨ss, rfl, hR⟩
  · have h1 : ¬ (ch '/' :: (name ++ slashed ss) = utf8 "*") := by
      have : utf8 "*" = [ch '*'] := by decide
      rw [this]
      intro e
      exact absurd (List.cons.inj e).1 (by decide)
    rw [if_neg h1]
    refine ⟨ss.map (fun s => s.flatMap (escapeByte encodePath)), by simp, ?_⟩
    rw [escape_eq_flatMap, List.flatMap_cons, slash_facts.2, List.flatMap_append,
      letters_flatMap name hn, slashed_flatMap]
    rfl

/-- C9 (amended): with a base address whose path is empty, for every
ipAddress that is one plain path segment (non-empty, not `.` or `..`, free of
`/`, `?`, `#`, `%` and control bytes) the endpoint is built, its path is
`/ip/<ipAddress>` for `GetIP` and `/prefix/<ipAddress>/<cidr>` for
`GetPrefix`, the wire form of the path begins with `/ip/` and `/prefix/`
respectively, and scheme and host are those of the base address. -/
theorem plain_address_stays_under_endpoint (c : Client) (hbase : c.baseURL.Path = [])
    (a : GoString) (cidr : Int) (ha : PlainSeg a) :
    (∃ u rest, c.endpointGetIP a = .ok u ∧ u.Path = utf8 "/ip/" ++ a ∧
      u.EscapedPath = utf8 "/ip/" ++ rest ∧
      u.Scheme = c.baseURL.Scheme ∧ u.Host = c.baseURL.Host) ∧
    (∃ u rest, c.endpointGetPrefix a cidr = .ok u ∧
      u.Path = utf8 "/prefix/" ++ a ++ utf8 "/" ++ decimal cidr ∧
      u.EscapedPath = utf8 "/prefix/" ++ rest ∧
      u.Scheme = c.baseURL.Scheme ∧ u.Host = c.baseURL.Host) := by
  rw [← Itoa_eq_decimal]
  constructor
  · have hip : utf8 "ip" ≠ [] ∧ ∀ b ∈ utf8 "ip", isLetter b = true := by decide
    have hlit : utf8 "/ip/" = ch '/' :: (utf8 "ip" ++ [ch '/']) := by decide
    have hss : ∀ s ∈ [a], PlainSeg s := by
      intro s hs
      simp only [List.mem_singleton] at hs
      subst hs
      exact ha
    have hep := endpoint_plain c.baseURL hbase (utf8 "ip") [a] hip.1 hip.2 hss
    obtain ⟨ss', hlen, hesc⟩ := escapedPath_joined c.baseURL (utf8 "ip") [a]
      (if validEncoded (utf8 "ip" ++ slashed [a]) encodePath = true ∧
          utf8 "ip" ++ slashed [a] ≠ escape (utf8 "ip" ++ slashed [a]) encodePath
       then ch '/' :: (utf8 "ip" ++ slashed [a]) else []) hip.2
      (by split <;> simp)
    obtain ⟨x, rfl⟩ : ∃ x, ss' = [x] := by
      match ss', hlen with
      | [x], _ => exact ⟨x, rfl⟩
    refine ⟨_, x, hep, ?_, ?_, rfl, rfl⟩
    · rw [hlit]
      simp [endpointURL, slashed]
    · rw [hesc, hlit]
      simp [slashed]
  · have hpre : utf8 "prefix" ≠ [] ∧ ∀ b ∈ utf8 "prefix", isLetter b = true := by decide
    have hlit : utf8 "/prefix/" = ch '/' :: (utf8 "prefix" ++ [ch '/']) := by decide
    have hsl : utf8 "/" = [ch '/'] := by decide
    have hss : ∀ s ∈ [a, Itoa cidr], PlainSeg s := by
      intro s hs
      simp only [List.mem_cons, List.mem_singleton, List.not_mem_nil, or_false] at hs
      rcases hs with rfl | rfl
      · exact ha
      · exact Itoa_plain cidr
    have hep := endpoint_plain c.baseURL hbase (utf8 "prefix") [a, Itoa cidr] hpre.1 hpre.2 hss
    obtain ⟨ss', hlen, hesc⟩ := escapedPath_joined c.baseURL (utf8 "prefix") [a, Itoa cidr]
      (if validEncoded (utf8 "prefix" ++ slashed [a, Itoa cidr]) encodePath = true ∧
          utf8 "prefix" ++ slashed [a, Itoa cidr] ≠
            escape (utf8 "prefix" ++ slashed [a, Itoa cidr]) encodePath
       then ch '/' :: (utf8 "prefix" ++ slashed [a, Itoa cidr]) else []) hpre.2
      (by split <;> simp)
    obtain ⟨x, y, rfl⟩ : ∃ x y, ss' = [x, y] := by
      match ss', hlen with
      | [x, y], _ => exact ⟨x, y, rfl⟩
    refine ⟨_, x ++ ch '/' :: y, hep, ?_, ?_, rfl, rfl⟩
    · rw [hlit, hsl]
      simp [endpointURL, slashed]
    · rw [hesc, hlit]
      simp [slashed]

/-- C10 (amended): with a base address that has no query string and no
fragment and whose path holds no `?` or `#`, for every ipAddress holding
neither `?` nor `#` the URL that `GetIP` or `GetPrefix` builds has no query
string and no fragment. -/
theorem no_cut_byte_no_query (c : Client) (hbase : ∀ b ∈ c.baseURL.Path, NoCutByte b)
    (hq : c.baseURL.RawQuery = []) (hf : c.baseURL.Fragment = [])
    (a : GoString) (cidr : Int) (ha : ∀ b ∈ a, NoCutByte b) :
    (∀ u, c.endpointGetIP a = .ok u →
      u.RawQuery = [] ∧ u.ForceQuery = false ∧ u.Fragment = []) ∧
    (∀ u, c.endpointGetPrefix a cidr = .ok u →
      u.RawQuery = [] ∧ u.ForceQuery = false ∧ u.Fragment = []) := by
  have hlit : ∀ s : GoString, (∀ b ∈ s, isLetter b = true) → ∀ b ∈ s, NoCutByte b := by
    intro s hs b hb
    have h := urlByte_facts b (letter_facts b (hs b hb)).2.2.2.2.2
    exact ⟨h.2.1, h.2.2.1⟩
  have hitoa : ∀ b ∈ Itoa cidr, NoCutByte b := by
    intro b hb
    have h := urlByte_facts b (segByte_facts b (pathSafe_facts b (Itoa_safe cidr b hb)).1).1
    exact ⟨h.2.1, h.2.2.1⟩
  have key : ∀ (elem : List GoString) (u : URL), (∀ e ∈ elem, ∀ b ∈ e, NoCutByte b) →
      c.baseURL.Parse (path.Join elem) = .ok u →
      u.RawQuery = [] ∧ u.ForceQuery = false ∧ u.Fragment = [] := by
    intro elem u he h
    unfold URL.Parse at h
    split at h
    · exact absurd h (by simp)
    · rename_i ref href
      simp only [Except.ok.injEq] at h
      subst h
      exact resolve_noquery c.baseURL ref ⟨hq, hf⟩
        (Parse_noquery _ (join_bytes elem he) ref href)
  constructor
  · intro u h
    apply key _ u _ h
    intro e he
    simp only [List.mem_cons, List.mem_singleton, List.not_mem_nil, or_false] at he
    rcases he with rfl | rfl | rfl
    · exact hbase
    · exact hlit _ (by decide)
    · exact ha
  · intro u h
    apply key _ u _ h
    intro e he
    simp only [List.mem_cons, List.mem_singleton, List.not_mem_nil, or_false] at he
    rcases he with rfl | rfl | rfl | rfl
    · exact hbase
    · exact hlit _ (by decide)
    · exact ha
    · exact hitoa

/-! ## Witnesses -/

theorem testClient_base (status : Int) (body : GoString) :
    (testClient status body).baseURL =
      { Scheme := utf8 "https", Opaque := [], User := none, Host := utf8 "api.bgpview.io",
        Path := [], RawPath := [], OmitHost := false, ForceQuery := false, RawQuery := [],
        Fragment := [], RawFragment := [] } := by
  have h : url.Parse defaultBaseURL = .ok
      { Scheme := utf8 "https", Opaque := [], User := none, Host := utf8 "api.bgpview.io",
        Path := [], RawPath := [], OmitHost := false, ForceQuery := false, RawQuery := [],
        Fragment := [], RawFragment := [] } := by decide
  simp only [testClient, NewClient, h]

theorem exampleRequest_ok (status : Int) (body : GoString) :
    requestFor (http.Context.live 0)
      (endpointURL (testClient status body).baseURL (utf8 "/asn/1") []) = .ok exampleRequest := by
  rw [testClient_base]
  decide

/-- Witness of C1: status 500 with body `boom` gives the error `500: boom`
and leaves the destination untouched. -/
theorem do_non200_error_witness :
    (testClient 500 (utf8 "boom")).do_ (http.Context.live 0)
        (endpointURL (testClient 500 (utf8 "boom")).baseURL (utf8 "/asn/1") [])
        (fun (_ : http.Body) (d : Nat) => (d + 1, none)) 7 =
      (7, some (GoError.errorString (utf8 "500: boom"))) := by
  have h := do_non200_error (testClient 500 (utf8 "boom")) (http.Context.live 0)
    (endpointURL (testClient 500 (utf8 "boom")).baseURL (utf8 "/asn/1") [])
    (fun (_ : http.Body) (d : Nat) => (d + 1, none)) 7 exampleRequest
    { StatusCode := 500, Body := { data := utf8 "boom", err := none } }
    (exampleRequest_ok 500 (utf8 "boom")) rfl (by decide)
  rw [h]
  have : decimal 500 ++ utf8 ": " ++ utf8 "boom" = utf8 "500: boom" := by
    rw [← Itoa_eq_decimal]
    decide
  simp only [this]

/-- Witness of C3: status 200 hands the body to the decoder and returns its result. -/
theorem do_200_decodes_witness :
    (testClient 200 (utf8 "{}")).do_ (http.Context.live 0)
        (endpointURL (testClient 200 (utf8 "{}")).baseURL (utf8 "/asn/1") [])
        (fun (b : http.Body) (_ : GoString) => (b.data, none)) [] =
      (utf8 "{}", none) := by
  have h := do_200_decodes (testClient 200 (utf8 "{}")) (http.Context.live 0)
    (endpointURL (testClient 200 (utf8 "{}")).baseURL (utf8 "/asn/1") [])
    (fun (b : http.Body) (_ : GoString) => (b.data, none)) [] exampleRequest
    { StatusCode := 200, Body := { data := utf8 "{}", err := none } }
    (exampleRequest_ok 200 (utf8 "{}")) rfl rfl
  exact h.1

/-- Witness of C4: the default client requests `/asn/61138/downstreams`. -/
theorem asn_endpoints_witness :
    (testClient 200 []).endpointGetASNDownstreams 61138 =
      .ok (endpointURL (testClient 200 []).baseURL (utf8 "/asn/61138/downstreams") []) := by
  have h := (asn_endpoints (testClient 200 []) (by rw [testClient_base]) 61138).2.2.2.2.1
  rw [h]
  have : utf8 "/asn/" ++ decimal 61138 ++ utf8 "/downstreams" =
      utf8 "/asn/61138/downstreams" := by
    rw [← Itoa_eq_decimal]
    decide
  rw [this]

/-- Witness of C5: the IPv6 literal `2a05:dfc7:60::` is requested as `/ip/2a05:dfc7:60::`. -/
theorem getIP_endpoint_witness :
    (testClient 200 []).endpointGetIP (utf8 "2a05:dfc7:60::") =
      .ok (endpointURL (testClient 200 []).baseURL (utf8 "/ip/2a05:dfc7:60::") []) ∧
    (endpointURL (testClient 200 []).baseURL (utf8 "/ip/2a05:dfc7:60::") []).EscapedPath =
      utf8 "/ip/2a05:dfc7:60::" := by
  have h := getIP_endpoint (testClient 200 []) (by rw [testClient_base]) (utf8 "2a05:dfc7:60::")
    (by unfold AddrLiteral; decide)
  have e : utf8 "/ip/" ++ utf8 "2a05:dfc7:60::" = utf8 "/ip/2a05:dfc7:60::" := by decide
  rw [e] at h
  exact h

/-- Witness of C6: `GetPrefix("192.209.63.0", 24)` requests `/prefix/192.209.63.0/24`. -/
theorem getPrefix_endpoint_witness :
    (testClient 200 []).endpointGetPrefix (utf8 "192.209.63.0") 24 =
      .ok (endpointURL (testClient 200 []).baseURL (utf8 "/prefix/192.209.63.0/24") []) := by
  have h := getPrefix_endpoint (testClient 200 []) (by rw [testClient_base])
    (utf8 "192.209.63.0") 24 (by unfold AddrLiteral; decide)
  have e : utf8 "/prefix/" ++ utf8 "192.209.63.0" ++ utf8 "/" ++ decimal 24 =
      utf8 "/prefix/192.209.63.0/24" := by
    rw [← Itoa_eq_decimal]
    decide
  rw [e] at h
  exact h

/-- Witness of C7: `GetIX(492)` requests `/ix/492`. -/
theorem getIX_endpoint_witness :
    (testClient 200 []).endpointGetIX 492 =
      .ok (endpointURL (testClient 200 []).baseURL (utf8 "/ix/492") []) := by
  have h := getIX_endpoint (testClient 200 []) (by rw [testClient_base]) 492
  have e : utf8 "/ix/" ++ decimal 492 = utf8 "/ix/492" := by
    rw [← Itoa_eq_decimal]
    decide
  rw [e] at h
  exact h

/-- Witness of C8: the term `digitalocean` gives the raw query
`query_term=digitalocean`, and the term `a b&c=d#e%é` gives
`query_term=a+b%26c%3Dd%23e%25%C3%A9`; each raw query decodes to the single
parameter `query_term` with the term as its value. -/
theorem getSearch_endpoint_witness :
    ((testClient 200 []).endpointGetSearch (utf8 "digitalocean") =
      .ok { endpointURL (testClient 200 []).baseURL (utf8 "/search") [] with
            RawQuery := utf8 "query_term=digitalocean" } ∧
    ParseQuery (utf8 "query_term=digitalocean") =
      ([(utf8 "query_term", [utf8 "digitalocean"])], none)) ∧
    ((testClient 200 []).endpointGetSearch (utf8 "a b&c=d#e%é") =
      .ok { endpointURL (testClient 200 []).baseURL (utf8 "/search") [] with
            RawQuery := utf8 "query_term=a+b%26c%3Dd%23e%25%C3%A9" } ∧
    ParseQuery (utf8 "query_term=a+b%26c%3Dd%23e%25%C3%A9") =
      ([(utf8 "query_term", [utf8 "a b&c=d#e%é"])], none)) := by
  have h := getSearch_endpoint (testClient 200 []) (by rw [testClient_base]) (utf8 "digitalocean")
  have e : utf8 "query_term=" ++ QueryEscape (utf8 "digitalocean") =
      utf8 "query_term=digitalocean" := by decide
  rw [e] at h
  have h2 := getSearch_endpoint (testClient 200 []) (by rw [testClient_base])
    (utf8 "a b&c=d#e%é")
  have e2 : utf8 "query_term=" ++ QueryEscape (utf8 "a b&c=d#e%é") =
      utf8 "query_term=a+b%26c%3Dd%23e%25%C3%A9" := by decide
  rw [e2] at h2
  exact ⟨h, h2⟩

/-- Counterexample to C9: `GetIP("../asn/1")` builds exactly the endpoint of
`GetASN(1)`, whose path `/asn/1` is not under `/ip/`; `GetPrefix("../../asn", 1)`
builds it too; `GetIP("..?x")` requests the root path; and a value without a
literal `/` leaves `/ip/` through `%2f` escapes. -/
theorem traversal_counterexample :
    (testClient 200 []).endpointGetIP (utf8 "../asn/1") =
      .ok (endpointURL (testClient 200 []).baseURL (utf8 "/asn/1") []) ∧
    (testClient 200 []).endpointGetIP (utf8 "../asn/1") =
      (testClient 200 []).endpointGetASN 1 ∧
    strings.HasPrefix (utf8 "/asn/1") (utf8 "/ip/") = false ∧
    (testClient 200 []).endpointGetPrefix (utf8 "../../asn") 1 =
      .ok (endpointURL (testClient 200 []).baseURL (utf8 "/asn/1") []) ∧
    (testClient 200 []).endpointGetIP (utf8 "..?x") =
      .ok { endpointURL (testClient 200 []).baseURL (utf8 "/") [] with RawQuery := utf8 "x" } ∧
    (testClient 200 []).endpointGetIP (utf8 " %2f..%2f..%2fasn%2f1") =
      .ok (endpointURL (testClient 200 []).baseURL (utf8 "/asn/1") []) := by
  unfold Client.endpointGetIP Client.endpointGetPrefix Client.endpointGetASN
  rw [testClient_base]
  decide

/-- Witness of C9 (amended): the plain segment `a b` stays under `/ip/` and
`/prefix/`. -/
theorem plain_address_stays_under_endpoint_witness :
    PlainSeg (utf8 "a b") ∧
    (∃ u rest, (testClient 200 []).endpointGetIP (utf8 "a b") = .ok u ∧
      u.Path = utf8 "/ip/" ++ utf8 "a b" ∧ u.EscapedPath = utf8 "/ip/" ++ rest ∧
      u.Scheme = (testClient 200 []).baseURL.Scheme ∧
      u.Host = (testClient 200 []).baseURL.Host) ∧
    (∃ u rest, (testClient 200 []).endpointGetPrefix (utf8 "a b") 24 = .ok u ∧
      u.Path = utf8 "/prefix/" ++ utf8 "a b" ++ utf8 "/" ++ decimal 24 ∧
      u.EscapedPath = utf8 "/prefix/" ++ rest ∧
      u.Scheme = (testClient 200 []).baseURL.Scheme ∧
      u.Host = (testClient 200 []).baseURL.Host) :=
  have hp : PlainSeg (utf8 "a b") := by unfold PlainSeg; decide
  ⟨hp, plain_address_stays_under_endpoint (testClient 200 []) (by rw [testClient_base])
    (utf8 "a b") 24 hp⟩

/-- Counterexample to C10: a `?` or `#` in ipAddress is not kept in the path;
the text after it becomes the query string or the fragment of the request. -/
theorem reserved_bytes_counterexample :
    (testClient 200 []).endpointGetIP (utf8 "1.1.1.1?x=1") =
      .ok { endpointURL (testClient 200 []).baseURL (utf8 "/ip/1.1.1.1") [] with
            RawQuery := utf8 "x=1" } ∧
    (testClient 200 []).endpointGetIP (utf8 "1.1.1.1#f") =
      .ok { endpointURL (testClient 200 []).baseURL (utf8 "/ip/1.1.1.1") [] with
            Fragment := utf8 "f" } ∧
    (testClient 200 []).endpointGetPrefix (utf8 "1.1.1.0?x") 24 =
      .ok { endpointURL (testClient 200 []).baseURL (utf8 "/prefix/1.1.1.0") [] with
            RawQuery := utf8 "x/24" } ∧
    (testClient 200 []).endpointGetPrefix (utf8 "1.1.1.0#f") 24 =
      .ok { endpointURL (testClient 200 []).baseURL (utf8 "/prefix/1.1.1.0") [] with
            Fragment := utf8 "f/24" } := by
  unfold Client.endpointGetIP Client.endpointGetPrefix
  rw [testClient_base]
  decide

/-- Witness of C10 (amended): the value `10.0.0.1/x y`, free of `?` and `#`,
gives an endpoint with no query string and no fragment. -/
theorem no_cut_byte_no_query_witness :
    (∀ b ∈ utf8 "10.0.0.1/x y", NoCutByte b) ∧
    (testClient 200 []).endpointGetIP (utf8 "10.0.0.1/x y") =
      .ok (endpointURL (testClient 200 []).baseURL (utf8 "/ip/10.0.0.1/x y") []) ∧
    (endpointURL (testClient 200 []).baseURL (utf8 "/ip/10.0.0.1/x y") []).RawQuery = [] ∧
    (endpointURL (testClient 200 []).baseURL (utf8 "/ip/10.0.0.1/x y") []).ForceQuery = false ∧
    (endpointURL (testClient 200 []).baseURL (utf8 "/ip/10.0.0.1/x y") []).Fragment = [] :=
  have ha : ∀ b ∈ utf8 "10.0.0.1/x y", NoCutByte b := by unfold NoCutByte; decide
  have he : (testClient 200 []).endpointGetIP (utf8 "10.0.0.1/x y") =
      .ok (endpointURL (testClient 200 []).baseURL (utf8 "/ip/10.0.0.1/x y") []) := by
    unfold Client.endpointGetIP
    rw [testClient_base]
    decide
  ⟨ha, he, (no_cut_byte_no_query (testClient 200 [])
    (by rw [testClient_base]; simp) (by rw [testClient_base]) (by rw [testClient_base])
    (utf8 "10.0.0.1/x y") 24 ha).1 _ he⟩

theorem noDoubleSlash_iff (x : GoString) : hasDoubleSlash x = false ↔ NoDoubleSlash x := by
  induction x with
  | nil => simp [hasDoubleSlash, NoDoubleSlash]
  | cons a t ih =>
    cases t with
    | nil => simp [hasDoubleSlash, NoDoubleSlash]
    | cons b t =>
      unfold NoDoubleSlash at ih ⊢
      rw [hasDoubleSlash, List.chain'_cons, ← ih]
      simp only [Bool.or_eq_false_iff, Bool.and_eq_false_imp, decide_eq_true_eq,
        decide_eq_false_iff_not, not_and]

theorem noDoubleSlash_of_no_slash (x : GoString) (h : ∀ b ∈ x, b ≠ ch '/') : NoDoubleSlash x := by
  induction x with
  | nil => exact List.chain'_nil
  | cons a t ih =>
    cases t with
    | nil => exact List.chain'_singleton a
    | cons b t =>
      unfold NoDoubleSlash at ih ⊢
      rw [List.chain'_cons]
      exact ⟨fun hh => h a (List.mem_cons_self _ _) hh.1,
        ih (fun c hc => h c (List.mem_cons_of_mem _ hc))⟩

theorem backtrack_spec (out : GoString) (dd : Nat) :
    ∀ w, dd ≤ w → dd ≤ path.backtrack out dd w ∧ path.backtrack out dd w ≤ w ∧
      (path.backtrack out dd w = dd ∨ out.get? (path.backtrack out dd w) = some (ch '/')) := by
  intro w
  induction w with
  | zero =>
    intro h
    have : dd = 0 := by omega
    subst this
    simp [path.backtrack]
  | succ w ih =>
    intro h
    rw [path.backtrack]
    split_ifs with hc
    · obtain ⟨h1, h2, h3⟩ := ih (by omega)
      exact ⟨h1, by omega, h3⟩
    · refine ⟨h, le_refl _, ?_⟩
      by_cases hd : w + 1 > dd
      · right
        by_contra hne
        exact hc ⟨hd, hne⟩
      · left; omega

theorem getLast?_take_succ (x : GoString) (w : Nat) (hw : w + 1 ≤ x.length) :
    (x.take (w + 1)).getLast? = x.get? w := by
  induction x generalizing w with
  | nil => simp at hw
  | cons a t ih =>
    cases w with
    | zero => simp
    | succ w =>
      simp only [List.length_cons] at hw
      have hw2 : w + 1 ≤ t.length := by omega
      rw [List.take_succ_cons, List.get?_cons_succ, ← ih w hw2]
      cases t with
      | nil => simp at hw2
      | cons b t => simp [List.getLast?_cons_cons]

theorem noDoubleSlash_get (x : GoString) (h : NoDoubleSlash x) (i : Nat)
    (h1 : x.get? i = some (ch '/')) (h2 : x.get? (i + 1) = some (ch '/')) : False := by
  induction x generalizing i with
  | nil => simp at h1
  | cons a t ih =>
    cases t with
    | nil => simp at h2
    | cons b t =>
      unfold NoDoubleSlash at h ih
      rw [List.chain'_cons] at h
      cases i with
      | zero =>
        simp only [List.get?_cons_zero, List.get?_cons_succ, Option.some.injEq] at h1 h2
        exact h.1 ⟨h1, h2⟩
      | succ i =>
        rw [List.get?_cons_succ] at h1 h2
        exact ih h.2 i h1 h2

theorem endsClean_backtrack (rooted : Bool) (out : GoString) (dd : Nat) (hn : NoDoubleSlash out)
    (hdd : dd < out.length) (hd : EndsClean rooted (out.take dd)) :
    EndsClean rooted (out.take (path.backtrack out dd (out.length - 1))) := by
  obtain ⟨h1, h2, h3⟩ := backtrack_spec out dd (out.length - 1) (by omega)
  rcases h3 with h3 | h3
  · rw [h3]; exact hd
  · by_cases he : path.backtrack out dd (out.length - 1) = dd
    · rw [he]; exact hd
    · generalize path.backtrack out dd (out.length - 1) = w at h1 h2 h3 he
      obtain ⟨v, rfl⟩ : ∃ v, w = v + 1 := ⟨w - 1, by omega⟩
      intro hl
      rw [getLast?_take_succ out v (by omega)] at hl
      exact (noDoubleSlash_get out hn v hl h3).elim

theorem noDoubleSlash_snoc_slash (rooted : Bool) (out : GoString) (hn : NoDoubleSlash out)
    (he : EndsClean rooted out) (hlen : (rooted = true ∧ out.length ≠ 1) ∨ (rooted = false ∧ out.length ≠ 0))
    (e : GoString) (hne : e ≠ []) (hs : ∀ b ∈ e, b ≠ ch '/') :
    NoDoubleSlash ((out ++ [ch '/']) ++ e) := by
  unfold NoDoubleSlash at hn ⊢
  rw [List.append_assoc]
  refine List.Chain'.append hn ?_ ?_
  · cases e with
    | nil => exact absurd rfl hne
    | cons a t =>
      simp only [List.singleton_append]
      rw [List.chain'_cons]
      exact ⟨fun hh => hs a (List.mem_cons_self _ _) hh.2, noDoubleSlash_of_no_slash _ hs⟩
  · intro x hx y hy hh
    simp only [List.singleton_append, List.head?_cons, Option.mem_def, Option.some.injEq] at hy
    have hl : out.getLast? = some (ch '/') := by rw [Option.mem_def] at hx; rw [hx, hh.1]
    obtain ⟨ho, hr⟩ := he hl
    rcases hlen with ⟨_, h⟩ | ⟨h, _⟩
    · rw [ho] at h; simp at h
    · rw [hr] at h; cases h

theorem noDoubleSlash_append_elem (out : GoString) (hn : NoDoubleSlash out)
    (e : GoString) (hs : ∀ b ∈ e, b ≠ ch '/') : NoDoubleSlash (out ++ e) := by
  unfold NoDoubleSlash at hn ⊢
  refine List.Chain'.append hn (noDoubleSlash_of_no_slash _ hs) ?_
  intro x _ y hy hh
  rw [Option.mem_def] at hy
  have : y ∈ e := List.mem_of_mem_head? hy
  exact hs y this hh.2

theorem endsClean_append_elem (rooted : Bool) (out e : GoString) (hne : e ≠ [])
    (hs : ∀ b ∈ e, b ≠ ch '/') : EndsClean rooted (out ++ e) := by
  intro hl
  rw [List.getLast?_append_of_ne_nil _ hne] at hl
  exact (hs _ (List.mem_of_mem_getLast? hl) rfl).elim

theorem cleanLoop_good (rooted : Bool) : ∀ (fuel : Nat) (rest out : GoString) (dd : Nat),
    NoDoubleSlash out → EndsClean rooted out → dd ≤ out.length → EndsClean rooted (out.take dd) →
    NoDoubleSlash (path.cleanLoop rooted fuel rest out dd) ∧
      EndsClean rooted (path.cleanLoop rooted fuel rest out dd) := by
  intro fuel
  induction fuel with
  | zero => intro rest out dd hn he _ _; exact ⟨hn, he⟩
  | succ fuel ih =>
    intro rest out dd hn he hdd hd
    cases rest with
    | nil => exact ⟨hn, he⟩
    | cons c rest1 =>
      rw [path.cleanLoop]
      dsimp only
      have hcs : ∀ b ∈ List.takeWhile (fun b => decide (b ≠ ch '/')) (c :: rest1), b ≠ ch '/' := by
        intro b hb
        simpa using List.mem_takeWhile_imp hb
      have hdots : ∀ b ∈ [ch '.', ch '.'], b ≠ ch '/' := by decide
      split_ifs with h1 h2 h3 h4 h5 h6 h7
      · exact ih _ _ _ hn he hdd hd
      · exact ih _ _ _ hn he hdd hd
      · -- backtrack
        have hw := backtrack_spec out dd (out.length - 1) (by omega)
        refine ih _ _ _ (List.Chain'.take hn _) (endsClean_backtrack rooted out dd hn h4 hd) ?_ ?_
        · rw [List.length_take]; omega
        · rw [List.take_take, min_eq_left hw.1]; exact hd
      · -- append a slash and `..`
        have hr : rooted = false := by simpa using h5
        refine ih _ _ _ (noDoubleSlash_snoc_slash rooted out hn he (Or.inr ⟨hr, by omega⟩) _
          (by simp) hdots) (endsClean_append_elem rooted _ _ (by simp) hdots) (le_refl _) ?_
        rw [List.take_length]
        exact endsClean_append_elem rooted _ _ (by simp) hdots
      · -- append `..`
        refine ih _ _ _ (noDoubleSlash_append_elem out hn _ hdots)
          (endsClean_append_elem rooted _ _ (by simp) hdots) (le_refl _) ?_
        rw [List.take_length]
        exact endsClean_append_elem rooted _ _ (by simp) hdots
      · exact ih _ _ _ hn he hdd hd
      · -- a real element after a slash
        have hc : (List.takeWhile (fun b => decide (b ≠ ch '/')) (c :: rest1)) ≠ [] := by
          rw [List.takeWhile_cons]; simp [h1]
        have hlen2 : (rooted = true ∧ out.length ≠ 1) ∨ (rooted = false ∧ out.length ≠ 0) := by
          rcases h7 with ⟨a, b⟩ | ⟨a, b⟩
          · exact Or.inl ⟨a, b⟩
          · exact Or.inr ⟨by simpa using a, b⟩
        refine ih _ _ _ (noDoubleSlash_snoc_slash rooted out hn he hlen2 _ hc hcs)
          (endsClean_append_elem rooted _ _ hc hcs) ?_ ?_
        · simp only [List.length_append]; omega
        · rw [List.append_assoc, List.take_append_of_le_length hdd]; exact hd
      · -- a real element
        have hc : (List.takeWhile (fun b => decide (b ≠ ch '/')) (c :: rest1)) ≠ [] := by
          rw [List.takeWhile_cons]; simp [h1]
        refine ih _ _ _ (noDoubleSlash_append_elem out hn _ hcs)
          (endsClean_append_elem rooted _ _ hc hcs) ?_ ?_
        · simp only [List.length_append]; omega
        · rw [List.take_append_of_le_length hdd]; exact hd

theorem getLast?_of_hasSuffix_slash (x : GoString)
    (h : strings.HasSuffix x (utf8 "/") = true) : x.getLast? = some (ch '/') := by
  have hu : utf8 "/" = [ch '/'] := by decide
  rw [hu] at h
  unfold strings.HasSuffix at h
  rw [List.isSuffixOf_iff_suffix] at h
  obtain ⟨t, rfl⟩ := h
  simp

theorem clean_good (p : GoString) :
    NoDoubleSlash (path.Clean p) ∧
      (strings.HasSuffix (path.Clean p) (utf8 "/") = true → path.Clean p = utf8 "/") := by
  have hu : utf8 "/" = [ch '/'] := by decide
  have key : ∀ rooted : Bool, ∀ x : GoString, NoDoubleSlash x → EndsClean rooted x →
      NoDoubleSlash (if x.length = 0 then [ch '.'] else x) ∧
        (strings.HasSuffix (if x.length = 0 then [ch '.'] else x) (utf8 "/") = true →
          (if x.length = 0 then [ch '.'] else x) = utf8 "/") := by
    intro rooted x hn he
    split_ifs with h0
    · exact ⟨List.chain'_singleton _, by decide⟩
    · refine ⟨hn, fun hs => ?_⟩
      rw [hu]
      exact (he (getLast?_of_hasSuffix_slash x hs)).1
  unfold path.Clean
  by_cases h0 : p = []
  · rw [if_pos h0]; exact ⟨List.chain'_singleton _, by decide⟩
  · rw [if_neg h0]
    dsimp only
    by_cases hr : p.head? = some (ch '/')
    · have h := cleanLoop_good true (p.length + 1) p.tail [ch '/'] 1 (List.chain'_singleton _)
        (fun _ => ⟨rfl, rfl⟩) (by simp) (fun _ => ⟨rfl, rfl⟩)
      simp only [hr, decide_True, if_true]
      exact key true _ h.1 h.2
    · have h := cleanLoop_good false (p.length + 1) p [] 0 List.chain'_nil
        (fun h => by simp at h) (by simp) (fun h => by simp at h)
      simp only [hr, decide_False, if_false, Bool.false_eq_true]
      exact key false _ h.1 h.2

/-- C11 (amended).  The path `path.Join` returns, whatever elements it is given
(so for every base path, endpoint name and caller-supplied value an accessor
passes), has no two consecutive `/` and ends in `/` only when it is the root
path `/` itself. -/
theorem join_no_double_slash (elem : List GoString) :
    hasDoubleSlash (path.Join elem) = false ∧
      (strings.HasSuffix (path.Join elem) (utf8 "/") = true → path.Join elem = utf8 "/") := by
  unfold path.Join
  dsimp only
  split_ifs with h0
  · exact ⟨rfl, by decide⟩
  · exact ⟨(noDoubleSlash_iff _).2 (clean_good _).1, (clean_good _).2⟩

/-- C11, counterexample.  With the base path `/` (a base address written with
a trailing slash) and the ipAddress `..`, the path `GetIP` joins is `/`: it
ends in `/`. -/
theorem join_root_counterexample :
    path.Join [utf8 "/", utf8 "ip", utf8 ".."] = utf8 "/" ∧
      strings.HasSuffix (path.Join [utf8 "/", utf8 "ip", utf8 ".."]) (utf8 "/") = true := by
  decide

/-! ## Lemmas: a base address with a path -/

theorem cleanLoop_elem_rooted (seg rest out : GoString) (dd fuel : Nat) (h : CleanElem seg)
    (hr : rest = [] ∨ rest.head? = some (ch '/')) :
    path.cleanLoop true (fuel + 1) (seg ++ rest) out dd =
      path.cleanLoop true fuel rest ((if out.length ≠ 1 then out ++ [ch '/'] else out) ++ seg) dd := by
  obtain ⟨hne, hd, hdd, hs⟩ := h
  have htw : (seg ++ rest).takeWhile (fun b => b ≠ ch '/') = seg := by
    rw [List.takeWhile_append_of_pos (by simpa using hs)]
    rcases hr with rfl | hr
    · simp
    · cases rest with
      | nil => simp
      | cons r rs => simp at hr; simp [hr]
  have hdw : (seg ++ rest).dropWhile (fun b => b ≠ ch '/') = rest := by
    rw [List.dropWhile_append_of_pos (by simpa using hs)]
    rcases hr with rfl | hr
    · simp
    · cases rest with
      | nil => simp
      | cons r rs => simp at hr; simp [hr]
  have hdot : utf8 "." = [ch '.'] := by decide
  have hdotdot : utf8 ".." = [ch '.', ch '.'] := by decide
  rw [hdot] at hd
  rw [hdotdot] at hdd
  cases seg with
  | nil => exact absurd rfl hne
  | cons c t =>
    have hc : c ≠ ch '/' := hs c (by simp)
    rw [List.cons_append] at htw hdw ⊢
    rw [path.cleanLoop]
    simp only [hc, if_false]
    have c2 : ¬ (c = ch '.' ∧ (t ++ rest = [] ∨ (t ++ rest).head? = some (ch '/'))) := by
      rintro ⟨rfl, h2⟩
      cases t with
      | nil => exact hd rfl
      | cons d t' =>
        have : d ≠ ch '/' := hs d (by simp)
        simp at h2
        exact this h2
    have c3 : ¬ (c = ch '.' ∧ (t ++ rest).head? = some (ch '.') ∧
          ((t ++ rest).tail = [] ∨ (t ++ rest).tail.head? = some (ch '/'))) := by
      rintro ⟨rfl, h2, h3⟩
      cases t with
      | nil => exact hd rfl
      | cons d t' =>
        simp at h2
        subst h2
        cases t' with
        | nil => exact hdd rfl
        | cons e t'' =>
          have : e ≠ ch '/' := hs e (by simp)
          simp at h3
          exact this h3
    rw [if_neg c2, if_neg c3]
    simp only [htw, hdw]
    congr 1
    simp

theorem slashed_append (xs ys : List GoString) : slashed (xs ++ ys) = slashed xs ++ slashed ys := by
  induction xs with
  | nil => rfl
  | cons x xs ih => simp [slashed, ih]

theorem cleanLoop_nil (rooted : Bool) (fuel : Nat) (out : GoString) (dd : Nat) :
    path.cleanLoop rooted fuel [] out dd = out := by
  cases fuel <;> rfl

/-- The rooted loop of `Clean` copies a run `/s1/.../sk` of clean elements
and goes on with what follows it. -/
theorem cleanLoop_slashed_rooted (ss : List GoString) (hs : ∀ s ∈ ss, CleanElem s) :
    ∀ (rest out : GoString) (dd fuel : Nat), out ≠ [] →
      (rest = [] ∨ rest.head? = some (ch '/')) → (slashed ss ++ rest).length ≤ fuel →
      ∃ fuel1, rest.length ≤ fuel1 ∧
        path.cleanLoop true fuel (slashed ss ++ rest) out dd =
          path.cleanLoop true fuel1 rest
            (if out.length = 1 then out ++ (slashed ss).tail else out ++ slashed ss) dd := by
  induction ss with
  | nil =>
    intro rest out dd fuel _ _ hfuel
    refine ⟨fuel, by simpa [slashed] using hfuel, ?_⟩
    simp [slashed]
  | cons s ss ih =>
    intro rest out dd fuel hout hrest hfuel
    have hs1 : CleanElem s := hs s (by simp)
    simp only [slashed, List.length_cons, List.length_append] at hfuel
    have hslen : 0 < s.length := List.length_pos.mpr hs1.1
    obtain ⟨f, rfl⟩ : ∃ f, fuel = f + 2 := ⟨fuel - 2, by omega⟩
    have hr2 : slashed ss ++ rest = [] ∨ (slashed ss ++ rest).head? = some (ch '/') := by
      cases ss with
      | nil => simpa [slashed] using hrest
      | cons a b => right; simp [slashed]
    have hstep : path.cleanLoop true (f + 2) (slashed (s :: ss) ++ rest) out dd =
        path.cleanLoop true f (slashed ss ++ rest)
          ((if out.length ≠ 1 then out ++ [ch '/'] else out) ++ s) dd := by
      simp only [slashed, List.cons_append, List.append_assoc]
      rw [path.cleanLoop]
      simp only [if_true]
      exact cleanLoop_elem_rooted s (slashed ss ++ rest) out dd f hs1 hr2
    have hlen : ((if out.length ≠ 1 then out ++ [ch '/'] else out) ++ s).length ≠ 1 := by
      have : 0 < out.length := List.length_pos.mpr hout
      split_ifs <;> simp only [List.length_append, List.length_singleton] <;> omega
    obtain ⟨f1, hf1, heq⟩ := ih (fun x hx => hs x (by simp [hx])) rest
      ((if out.length ≠ 1 then out ++ [ch '/'] else out) ++ s) dd f (by
        intro e
        have := congrArg List.length e
        simp only [List.length_append, List.length_nil] at this
        omega) hrest (by simp only [List.length_append]; omega)
    refine ⟨f1, hf1, ?_⟩
    rw [hstep, heq, if_neg hlen]
    congr 1
    by_cases h1 : out.length = 1
    · simp [h1, slashed]
    · simp [h1, slashed]

/-- `Clean` of `/b1/.../bk` (or of that with a trailing `/`, or of `/`)
followed by `/s1/.../sn`, all elements clean, is `/b1/.../bk/s1/.../sn`. -/
theorem clean_rooted (bs ss : List GoString) (t : GoString) (ht : t = [] ∨ t = [ch '/'])
    (hne : ss ≠ []) (hb : ∀ s ∈ bs, CleanElem s) (hs : ∀ s ∈ ss, CleanElem s) :
    path.Clean (slashed bs ++ t ++ slashed ss) = slashed (bs ++ ss) := by
  obtain ⟨s0, ss0, rfl⟩ : ∃ s0 ss0, ss = s0 :: ss0 := by
    cases ss with
    | nil => exact absurd rfl hne
    | cons a b => exact ⟨a, b, rfl⟩
  have hhead : ∀ y : GoString, (slashed (s0 :: ss0) ++ y).head? = some (ch '/') := by
    intro y; simp [slashed]
  -- the input begins with a slash
  obtain ⟨tl, htl⟩ : ∃ tl, slashed bs ++ t ++ slashed (s0 :: ss0) = ch '/' :: tl := by
    cases bs with
    | nil =>
      rcases ht with rfl | rfl
      · exact ⟨s0 ++ slashed ss0, by simp [slashed]⟩
      · exact ⟨ch '/' :: (s0 ++ slashed ss0), by simp [slashed]⟩
    | cons b bs => exact ⟨b ++ slashed bs ++ t ++ slashed (s0 :: ss0), by simp [slashed]⟩
  unfold path.Clean
  rw [htl]
  have h1 : ¬ (ch '/' :: tl = []) := by simp
  rw [if_neg h1]
  simp only [List.head?_cons, decide_True, if_true, List.tail_cons, List.length_cons]
  have hback : path.cleanLoop true (tl.length + 1 + 1) tl [ch '/'] 1 =
      path.cleanLoop true (tl.length + 1 + 1 + 1) (ch '/' :: tl) [ch '/'] 1 := by
    conv_rhs => rw [path.cleanLoop]
    simp
  rw [hback, ← htl, List.append_assoc]
  have hr1 : t ++ slashed (s0 :: ss0) = [] ∨ (t ++ slashed (s0 :: ss0)).head? = some (ch '/') := by
    right
    rcases ht with rfl | rfl
    · simp [slashed]
    · simp
  have hlen : (slashed bs ++ (t ++ slashed (s0 :: ss0))).length ≤ tl.length + 1 + 1 + 1 := by
    rw [← List.append_assoc, htl]
    simp
  obtain ⟨f1, hf1, heq1⟩ := cleanLoop_slashed_rooted bs hb (t ++ slashed (s0 :: ss0)) [ch '/'] 1
    _ (by simp) hr1 hlen
  rw [heq1]
  simp only [List.length_singleton, if_true]
  -- the optional trailing slash of the base
  have hskip : ∃ f2, (slashed (s0 :: ss0)).length ≤ f2 ∧
      path.cleanLoop true f1 (t ++ slashed (s0 :: ss0)) ([ch '/'] ++ (slashed bs).tail) 1 =
        path.cleanLoop true f2 (slashed (s0 :: ss0)) ([ch '/'] ++ (slashed bs).tail) 1 := by
    rcases ht with rfl | rfl
    · exact ⟨f1, by simpa using hf1, by simp⟩
    · simp only [List.length_append, List.length_singleton] at hf1
      obtain ⟨g, rfl⟩ : ∃ g, f1 = g + 1 := ⟨f1 - 1, by omega⟩
      refine ⟨g, by omega, ?_⟩
      simp only [List.singleton_append]
      rw [path.cleanLoop]
      simp
  obtain ⟨f2, hf2, heq2⟩ := hskip
  rw [heq2]
  obtain ⟨f3, -, heq3⟩ := cleanLoop_slashed_rooted (s0 :: ss0) hs [] ([ch '/'] ++ (slashed bs).tail)
    1 f2 (by simp) (Or.inl rfl) (by simpa using hf2)
  rw [List.append_nil] at heq3
  rw [heq3, cleanLoop_nil]
  have hfin : (if ([ch '/'] ++ (slashed bs).tail).length = 1
      then [ch '/'] ++ (slashed bs).tail ++ (slashed (s0 :: ss0)).tail
      else [ch '/'] ++ (slashed bs).tail ++ slashed (s0 :: ss0)) = slashed (bs ++ s0 :: ss0) := by
    cases bs with
    | nil => simp [slashed]
    | cons b bs =>
      have hbne : b ≠ [] := (hb b (by simp)).1
      have : 0 < b.length := List.length_pos.mpr hbne
      have hl : ([ch '/'] ++ (slashed (b :: bs)).tail).length ≠ 1 := by
        simp only [slashed, List.tail_cons, List.length_append, List.length_singleton]
        omega
      rw [if_neg hl, slashed_append]
      simp [slashed]
  rw [hfin]
  have hpos : (slashed (bs ++ s0 :: ss0)).length ≠ 0 := by
    rw [slashed_append]
    simp [slashed]
  rw [if_neg hpos]

/-- `path.Join(p, s1, ..., sn)` for a clean absolute base path `p`. -/
theorem join_rooted (bs ss : List GoString) (t : GoString) (ht : t = [] ∨ t = [ch '/'])
    (hp : slashed bs ++ t ≠ []) (hne : ss ≠ [])
    (hb : ∀ s ∈ bs, CleanElem s) (hs : ∀ s ∈ ss, CleanElem s) :
    path.Join ((slashed bs ++ t) :: ss) = slashed (bs ++ ss) := by
  unfold path.Join
  have hplen : 0 < (slashed bs ++ t).length := List.length_pos.mpr hp
  have hsize : (((slashed bs ++ t) :: ss).map List.length).sum ≠ 0 := by
    simp only [List.map_cons, List.sum_cons]
    omega
  simp only [hsize, if_false]
  have : path.joinBuf ((slashed bs ++ t) :: ss) [] = slashed bs ++ t ++ slashed ss := by
    rw [path.joinBuf]
    simp only [List.length_nil, gt_iff_lt, lt_self_iff_false, ne_eq, hp, not_false_eq_true,
      or_true, if_true, if_false, List.nil_append]
    exact joinBuf_slashed ss (fun x hx => (hs x hx).1) _ hp
  rw [this]
  exact clean_rooted bs ss t ht hne hb hs

theorem slashed_ne_nil (x : GoString) (xs : List GoString) : slashed (x :: xs) ≠ [] := by
  simp [slashed]

/-- `url.Parse` of an absolute path `/s1/.../sk` of plain segments. -/
theorem Parse_abs (xs : List GoString) (hne : xs ≠ []) (hs : ∀ s ∈ xs, PlainSeg s) :
    url.Parse (slashed xs) =
      .ok { URL.zero with Path := slashed xs,
                          RawPath := if slashed xs = escape (slashed xs) encodePath then []
                                     else slashed xs } := by
  obtain ⟨x, xs1, rfl⟩ : ∃ x xs1, xs = x :: xs1 := by
    cases xs with
    | nil => exact absurd rfl hne
    | cons a b => exact ⟨a, b, rfl⟩
  have hall := slashed_urlByte (x :: xs1) hs
  have hq : ch '?' ∉ slashed (x :: xs1) := fun h => (urlByte_facts _ (hall _ h)).2.1 rfl
  have hf : ch '#' ∉ slashed (x :: xs1) := fun h => (urlByte_facts _ (hall _ h)).2.2.1 rfl
  have hp : ch '%' ∉ slashed (x :: xs1) := fun h => (urlByte_facts _ (hall _ h)).2.2.2 rfl
  obtain ⟨c, t, rfl⟩ : ∃ c t, x = c :: t := by
    cases x with
    | nil => exact absurd rfl (hs [] (by simp)).1
    | cons c t => exact ⟨c, t, rfl⟩
  have hc : c ≠ ch '/' := (segByte_facts c ((hs (c :: t) (by simp)).2.2.2 c (by simp))).2.1
  have hshape : slashed ((c :: t) :: xs1) = ch '/' :: c :: (t ++ slashed xs1) := by
    simp [slashed]
  have hstar : ¬ (slashed ((c :: t) :: xs1) = utf8 "*") := by
    have : utf8 "*" = [ch '*'] := by decide
    rw [this, hshape]
    simp
  have hparse : parse (slashed ((c :: t) :: xs1)) =
      .ok { URL.zero with Path := slashed ((c :: t) :: xs1),
                          RawPath := if slashed ((c :: t) :: xs1) =
                              escape (slashed ((c :: t) :: xs1)) encodePath then []
                            else slashed ((c :: t) :: xs1) } := by
    unfold parse
    rw [ctl_false _ hall]
    simp only [Bool.false_eq_true, if_false, hstar]
    have hgs : getScheme (slashed ((c :: t) :: xs1)) = .ok ([], slashed ((c :: t) :: xs1)) := by
      rw [hshape]
      unfold getScheme
      rw [getSchemeLoop]
      have h1 : ¬ ((ch 'a' ≤ ch '/' ∧ ch '/' ≤ ch 'z') ∨ (ch 'A' ≤ ch '/' ∧ ch '/' ≤ ch 'Z')) := by
        decide
      have h2 : ¬ ((ch '0' ≤ ch '/' ∧ ch '/' ≤ ch '9') ∨ ch '/' = ch '+' ∨ ch '/' = ch '-' ∨
          ch '/' = ch '.') := by decide
      have h3 : ¬ (ch '/' = ch ':') := by decide
      rw [if_neg h1, if_neg h2, if_neg h3]
    rw [hgs]
    have hcount : strings.Count (slashed ((c :: t) :: xs1)) (ch '?') = 0 := by
      unfold strings.Count
      exact List.count_eq_zero.mpr hq
    have hpre1 : strings.HasPrefix (slashed ((c :: t) :: xs1)) (utf8 "/") = true := by
      have : utf8 "/" = [ch '/'] := by decide
      rw [this, hshape]
      simp [strings.HasPrefix, List.isPrefixOf]
    have hpre2 : strings.HasPrefix (slashed ((c :: t) :: xs1)) (utf8 "//") = false := by
      have : utf8 "//" = [ch '/', ch '/'] := by decide
      rw [this, hshape]
      simp [strings.HasPrefix, List.isPrefixOf, Ne.symm hc]
    simp only [hcount, cut_not_mem _ _ hq, hpre1, hpre2, strings.ToLower,
      List.map_nil, URL.zero, zero_ne_one, and_false, if_false, ne_eq, not_true_eq_false,
      Bool.not_false, Bool.false_eq_true, false_and, false_or, or_false, and_true,
      Bool.not_true]
    unfold URL.setPath
    rw [unescape_path _ hp]
    simp only [Bool.not_false, Bool.true_and, and_true, and_false, if_false, ne_eq,
      not_true_eq_false, false_and, false_or, Bool.false_eq_true, decide_False, Bool.and_false,
      Bool.not_true, decide_True, Bool.and_self, or_false]
    split <;> rfl
  unfold url.Parse
  rw [cut_not_mem _ _ hf]
  simp only [hparse]
  simp

theorem resolvePath_abs (base : GoString) (xs : List GoString) (hne : xs ≠ [])
    (h : ∀ y ∈ xs, ResElem y) : resolvePath base (slashed xs) = slashed xs := by
  obtain ⟨x, xs1, rfl⟩ : ∃ x xs1, xs = x :: xs1 := by
    cases xs with
    | nil => exact absurd rfl hne
    | cons a b => exact ⟨a, b, rfl⟩
  have hnil : ResElem [] := ⟨by decide, by decide, by simp⟩
  obtain ⟨e, he, heq⟩ := resolveLoop_elems (x :: xs1) [] [ch '/'] true
    ((slashed (x :: xs1)).length + 1)
    (by
      intro y hy
      rcases List.mem_cons.mp hy with rfl | hy
      · exact hnil
      · exact h y hy)
    (by simp)
  rw [List.nil_append] at heq
  unfold resolvePath
  have h1 : ¬ (slashed (x :: xs1) = []) := slashed_ne_nil x xs1
  have h2 : ¬ ((slashed (x :: xs1)).head? ≠ some (ch '/')) := by simp [slashed]
  simp only [h1, h2, if_false]
  rw [heq]
  simp only [if_true, he.1, he.2.1, or_self, if_false]
  have h4 : ([ch '/'] ++ [] ++ slashed (x :: xs1)).length > 1 ∧
      ([ch '/'] ++ [] ++ slashed (x :: xs1)).get? 1 = some (ch '/') := by
    simp [slashed]
  rw [if_pos h4]
  simp

theorem resolve_abs (base : URL) (s R q : GoString) (xs : List GoString)
    (hq : ({ URL.zero with Path := s, RawPath := R } : URL).EscapedPath = q)
    (hqx : q = slashed xs) (hx : ∀ y ∈ xs, ResElem y) (hxne : xs ≠ [])
    (hs : s ≠ []) (hun : unescape q encodePath = .ok s) :
    base.ResolveReference { URL.zero with Path := s, RawPath := R } =
      endpointURL base s (if q = escape s encodePath then [] else q) := by
  unfold URL.ResolveReference
  rw [hq, hqx, resolvePath_abs _ xs hxne hx, ← hqx]
  simp only [URL.zero, hs, ne_eq, not_true_eq_false, or_self, if_false, if_true, false_and,
    and_false]
  unfold URL.setPathIgnoringError URL.setPath
  rw [hun]
  simp only [endpointURL]
  by_cases hc : q = escape s encodePath
  · simp only [hc, if_true]
  · simp only [hc, if_false]

theorem slashed_percent (xs : List GoString) (hs : ∀ s ∈ xs, PlainSeg s) :
    ch '%' ∉ slashed xs := urlByte_no_percent _ (slashed_urlByte xs hs)

/-- The endpoint built from a base whose path is a clean absolute path
`/b1/.../bk`, with or without a trailing `/`, and the elements `s1, ..., sn`:
the path is `/b1/.../bk/s1/.../sn`, everything else comes from the base, and
there is no query string and no fragment. -/
theorem endpoint_rooted (base : URL) (bs ss : List GoString) (t : GoString)
    (hpath : base.Path = slashed bs ++ t) (ht : t = [] ∨ t = [ch '/'])
    (hp : base.Path ≠ []) (hne : ss ≠ [])
    (hb : ∀ s ∈ bs, PlainSeg s) (hs : ∀ s ∈ ss, PlainSeg s) :
    ∃ R, base.Parse (path.Join (base.Path :: ss)) =
      .ok (endpointURL base (slashed (bs ++ ss)) R) := by
  have hxs : ∀ s ∈ bs ++ ss, PlainSeg s := by
    intro s h
    rcases List.mem_append.mp h with h | h
    · exact hb s h
    · exact hs s h
  have hxne : bs ++ ss ≠ [] := by simp [hne]
  have hjoin : path.Join (base.Path :: ss) = slashed (bs ++ ss) := by
    rw [hpath]
    exact join_rooted bs ss t ht (hpath ▸ hp) hne (fun s h => (hb s h).cleanElem)
      (fun s h => (hs s h).cleanElem)
  have hnp := slashed_percent (bs ++ ss) hxs
  have hsne : slashed (bs ++ ss) ≠ [] := by
    cases h : bs ++ ss with
    | nil => exact absurd h hxne
    | cons a b => exact slashed_ne_nil a b
  have hstar : ¬ (slashed (bs ++ ss) = utf8 "*") := by
    have : utf8 "*" = [ch '*'] := by decide
    rw [this]
    cases h : bs ++ ss with
    | nil => exact absurd h hxne
    | cons a b =>
      intro e
      have h2 : (slashed (a :: b)).head? = some (ch '*') := by rw [e]; rfl
      simp only [slashed, List.head?_cons, Option.some.injEq] at h2
      exact absurd h2 (by decide)
  have hesc : escape (slashed (bs ++ ss)) encodePath =
      slashed ((bs ++ ss).map (fun s => s.flatMap (escapeByte encodePath))) := by
    rw [escape_eq_flatMap, slashed_flatMap]
  unfold URL.Parse
  rw [hjoin, Parse_abs (bs ++ ss) hxne hxs]
  simp only
  by_cases heq : slashed (bs ++ ss) = escape (slashed (bs ++ ss)) encodePath
  · have hq : ({ URL.zero with Path := slashed (bs ++ ss), RawPath := [] } : URL).EscapedPath =
        slashed (bs ++ ss) := by
      unfold URL.EscapedPath
      simp only [ne_eq, not_true_eq_false, false_and, if_false, hstar]
      exact heq.symm
    rw [if_pos heq]
    exact ⟨_, congrArg Except.ok (resolve_abs base _ [] _ (bs ++ ss) hq rfl
      (fun y hy => (hxs y hy).resElem) hxne hsne (unescape_path _ hnp))⟩
  · rw [if_neg heq]
    by_cases hv : validEncoded (slashed (bs ++ ss)) encodePath = true
    · have hq : ({ URL.zero with Path := slashed (bs ++ ss), RawPath := slashed (bs ++ ss) } :
          URL).EscapedPath = slashed (bs ++ ss) := by
        unfold URL.EscapedPath
        have : unescapesTo (slashed (bs ++ ss)) encodePath (slashed (bs ++ ss)) = true := by
          unfold unescapesTo
          rw [unescape_path _ hnp]
          simp
        simp only [ne_eq, hsne, not_false_eq_true, hv, this, and_self, if_true]
      exact ⟨_, congrArg Except.ok (resolve_abs base _ _ _ (bs ++ ss) hq rfl
        (fun y hy => (hxs y hy).resElem) hxne hsne (unescape_path _ hnp))⟩
    · have hq : ({ URL.zero with Path := slashed (bs ++ ss), RawPath := slashed (bs ++ ss) } :
          URL).EscapedPath = escape (slashed (bs ++ ss)) encodePath := by
        unfold URL.EscapedPath
        simp only [ne_eq, hsne, not_false_eq_true, hv, Bool.false_eq_true, false_and, and_false,
          if_false, hstar]
      refine ⟨_, congrArg Except.ok (resolve_abs base _ _ _
        ((bs ++ ss).map (fun s => s.flatMap (escapeByte encodePath))) hq hesc ?_ (by simp [hne])
        hsne (unescape_escape_path _))⟩
      intro y hy
      rw [List.mem_map] at hy
      obtain ⟨z, hz, rfl⟩ := hy
      exact (hxs z hz).resElem_escape

/-! ## The paths requested under a base path -/

/-- C12 (amended): for every base address whose path is a clean absolute
path (`/`, or `/b1/.../bk` with plain segments, with or without a trailing
`/`), every integer `n`, every plain segment `a` and every search term, each
accessor builds the endpoint whose path is the base path without its trailing
`/` followed by the template path of the endpoint, with the scheme, user and
host of the base address (`endpointURL`); `GetSearch` adds the query
`query_term=<encoded term>`. -/
theorem endpoints_under_base_path (c : Client) (bs : List GoString) (t : GoString)
    (hpath : c.baseURL.Path = slashed bs ++ t) (ht : t = [] ∨ t = [ch '/'])
    (hp : c.baseURL.Path ≠ []) (hb : ∀ s ∈ bs, PlainSeg s)
    (n : Int) (a : GoString) (ha : PlainSeg a) (term : GoString) :
    (∃ R, c.endpointGetASN n =
      .ok (endpointURL c.baseURL (slashed bs ++ utf8 "/asn/" ++ decimal n) R)) ∧
    (∃ R, c.endpointGetASNPrefixes n =
      .ok (endpointURL c.baseURL (slashed bs ++ utf8 "/asn/" ++ decimal n ++ utf8 "/prefixes") R)) ∧
    (∃ R, c.endpointGetASNPeers n =
      .ok (endpointURL c.baseURL (slashed bs ++ utf8 "/asn/" ++ decimal n ++ utf8 "/peers") R)) ∧
    (∃ R, c.endpointGetASNUpstreams n =
      .ok (endpointURL c.baseURL (slashed bs ++ utf8 "/asn/" ++ decimal n ++ utf8 "/upstreams") R)) ∧
    (∃ R, c.endpointGetASNDownstreams n =
      .ok (endpointURL c.baseURL
        (slashed bs ++ utf8 "/asn/" ++ decimal n ++ utf8 "/downstreams") R)) ∧
    (∃ R, c.endpointGetASNIxs n =
      .ok (endpointURL c.baseURL (slashed bs ++ utf8 "/asn/" ++ decimal n ++ utf8 "/ixs") R)) ∧
    (∃ R, c.endpointGetPrefix a n =
      .ok (endpointURL c.baseURL
        (slashed bs ++ utf8 "/prefix/" ++ a ++ utf8 "/" ++ decimal n) R)) ∧
    (∃ R, c.endpointGetIP a = .ok (endpointURL c.baseURL (slashed bs ++ utf8 "/ip/" ++ a) R)) ∧
    (∃ R, c.endpointGetIX n =
      .ok (endpointURL c.baseURL (slashed bs ++ utf8 "/ix/" ++ decimal n) R)) ∧
    (∃ R, c.endpointGetSearch term =
      .ok { endpointURL c.baseURL (slashed bs ++ utf8 "/search") R with
            RawQuery := utf8 "query_term=" ++ QueryEscape term }) := by
  simp only [← Itoa_eq_decimal]
  have key : ∀ ss : List GoString, ss ≠ [] → (∀ s ∈ ss, PlainSeg s) →
      ∃ R, c.baseURL.Parse (path.Join (c.baseURL.Path :: ss)) =
        .ok (endpointURL c.baseURL (slashed bs ++ slashed ss) R) := by
    intro ss hne hs
    obtain ⟨R, h⟩ := endpoint_rooted c.baseURL bs ss t hpath ht hp hne hb hs
    exact ⟨R, by rw [h, slashed_append]⟩
  have pl : ∀ s : GoString, s ≠ [] → (∀ b ∈ s, isLetter b = true) → PlainSeg s :=
    fun s h1 h2 => (plain_of_letters s h1 h2).1
  have hasn : PlainSeg (utf8 "asn") := pl _ (by decide) (by decide)
  have hnum : PlainSeg (Itoa n) := Itoa_plain n
  have asn2 : ∀ tail : GoString, tail ≠ [] → (∀ b ∈ tail, isLetter b = true) →
      ∃ R, c.baseURL.Parse (path.Join [c.baseURL.Path, utf8 "asn", Itoa n, tail]) =
        .ok (endpointURL c.baseURL (slashed bs ++ utf8 "/asn/" ++ Itoa n ++ (ch '/' :: tail)) R) := by
    intro tail h1 h2
    obtain ⟨R, h⟩ := key [utf8 "asn", Itoa n, tail] (by simp) (by
      intro s hs
      simp only [List.mem_cons, List.mem_singleton, List.not_mem_nil, or_false] at hs
      rcases hs with rfl | rfl | rfl
      · exact hasn
      · exact hnum
      · exact pl _ h1 h2)
    refine ⟨R, ?_⟩
    rw [h]
    have : utf8 "/asn/" = ch '/' :: (utf8 "asn" ++ [ch '/']) := by decide
    rw [this]
    simp [slashed]
  refine ⟨?_, ?_, ?_, ?_, ?_, ?_, ?_, ?_, ?_, ?_⟩
  · obtain ⟨R, h⟩ := key [utf8 "asn", Itoa n] (by simp) (by
      intro s hs
      simp only [List.mem_cons, List.mem_singleton, List.not_mem_nil, or_false] at hs
      rcases hs with rfl | rfl
      · exact hasn
      · exact hnum)
    refine ⟨R, ?_⟩
    unfold Client.endpointGetASN
    rw [h]
    have : utf8 "/asn/" = ch '/' :: (utf8 "asn" ++ [ch '/']) := by decide
    rw [this]
    simp [slashed]
  · exact asn2 (utf8 "prefixes") (by decide) (by decide)
  · exact asn2 (utf8 "peers") (by decide) (by decide)
  · exact asn2 (utf8 "upstreams") (by decide) (by decide)
  · exact asn2 (utf8 "downstreams") (by decide) (by decide)
  · exact asn2 (utf8 "ixs") (by decide) (by decide)
  · obtain ⟨R, h⟩ := key [utf8 "prefix", a, Itoa n] (by simp) (by
      intro s hs
      simp only [List.mem_cons, List.mem_singleton, List.not_mem_nil, or_false] at hs
      rcases hs with rfl | rfl | rfl
      · exact pl _ (by decide) (by decide)
      · exact ha
      · exact hnum)
    refine ⟨R, ?_⟩
    unfold Client.endpointGetPrefix
    rw [h]
    have h1 : utf8 "/prefix/" = ch '/' :: (utf8 "prefix" ++ [ch '/']) := by decide
    have h2 : utf8 "/" = [ch '/'] := by decide
    rw [h1, h2]
    simp [slashed]
  · obtain ⟨R, h⟩ := key [utf8 "ip", a] (by simp) (by
      intro s hs
      simp only [List.mem_cons, List.mem_singleton, List.not_mem_nil, or_false] at hs
      rcases hs with rfl | rfl
      · exact pl _ (by decide) (by decide)
      · exact ha)
    refine ⟨R, ?_⟩
    unfold Client.endpointGetIP
    rw [h]
    have h1 : utf8 "/ip/" = ch '/' :: (utf8 "ip" ++ [ch '/']) := by decide
    rw [h1]
    simp [slashed]
  · obtain ⟨R, h⟩ := key [utf8 "ix", Itoa n] (by simp) (by
      intro s hs
      simp only [List.mem_cons, List.mem_singleton, List.not_mem_nil, or_false] at hs
      rcases hs with rfl | rfl
      · exact pl _ (by decide) (by decide)
      · exact hnum)
    refine ⟨R, ?_⟩
    unfold Client.endpointGetIX
    rw [h]
    have h1 : utf8 "/ix/" = ch '/' :: (utf8 "ix" ++ [ch '/']) := by decide
    rw [h1]
    simp [slashed]
  · obtain ⟨R, h⟩ := key [utf8 "search"] (by simp) (by
      intro s hs
      simp only [List.mem_singleton] at hs
      subst hs
      exact pl _ (by decide) (by decide))
    refine ⟨R, ?_⟩
    unfold Client.endpointGetSearch
    rw [h]
    have h1 : slashed [utf8 "search"] = utf8 "/search" := by decide
    rw [h1]
    have h2 : (endpointURL c.baseURL (slashed bs ++ utf8 "/search") R).Query = [] := rfl
    simp only [h2, encode_single]
    have h3 : QueryEscape (utf8 "query_term") ++ [ch '='] = utf8 "query_term=" := by decide
    rw [h3]

theorem clientAt_base (serverURL : GoString) (httpClient : http.Client) (u : URL)
    (h : url.Parse serverURL = .ok u) : (clientAt serverURL httpClient).baseURL = u := by
  simp only [clientAt, h]

/-- Witness of C12 (amended): with the base address `https://api.bgpview.io/v1/`,
`GetASN(1)` requests `/v1/asn/1` on the host of the base address. -/
theorem endpoints_under_base_path_witness :
    ∃ R, (clientAt (utf8 "https://api.bgpview.io/v1/") (cannedTransport 200 [])).endpointGetASN 1 =
      .ok (endpointURL
        { Scheme := utf8 "https", Opaque := [], User := none, Host := utf8 "api.bgpview.io",
          Path := utf8 "/v1/", RawPath := [], OmitHost := false, ForceQuery := false,
          RawQuery := [], Fragment := [], RawFragment := [] } (utf8 "/v1/asn/1") R) := by
  have hb := clientAt_base (utf8 "https://api.bgpview.io/v1/") (cannedTransport 200 [])
      { Scheme := utf8 "https", Opaque := [], User := none, Host := utf8 "api.bgpview.io",
        Path := utf8 "/v1/", RawPath := [], OmitHost := false, ForceQuery := false,
        RawQuery := [], Fragment := [], RawFragment := [] } (by decide)
  have h := (endpoints_under_base_path
    (clientAt (utf8 "https://api.bgpview.io/v1/") (cannedTransport 200 []))
    [utf8 "v1"] [ch '/'] (by rw [hb]; decide) (Or.inr rfl) (by rw [hb]; decide)
    (by
      intro s hs
      simp only [List.mem_singleton] at hs
      subst hs
      unfold PlainSeg
      decide)
    1 (utf8 "1.1.1.1") (by unfold PlainSeg; decide) []).1
  have e : slashed [utf8 "v1"] ++ utf8 "/asn/" ++ decimal 1 = utf8 "/v1/asn/1" := by
    rw [← Itoa_eq_decimal]
    decide
  rw [e, hb] at h
  exact h

/-- Counterexample to C12: a base path with a `..` segment is cleaned (the
request path of `GetASN(1)` under `/a/../b` is `/b/asn/1`); a base path with
an escaped `?` is cut at it (under the base `/a%3Fb/`, whose path is `/a?b/`,
the request path is `/a` and `b/asn/1` becomes the query); and under the
base `/100%25/`, whose path is `/100%/`, no endpoint is built at all. -/
theorem base_path_counterexample :
    (clientAt (utf8 "https://api.bgpview.io/a/../b") (cannedTransport 200 [])).baseURL.Path =
      utf8 "/a/../b" ∧
    (clientAt (utf8 "https://api.bgpview.io/a/../b") (cannedTransport 200 [])).endpointGetASN 1 =
      .ok { Scheme := utf8 "https", Opaque := [], User := none, Host := utf8 "api.bgpview.io",
            Path := utf8 "/b/asn/1", RawPath := [], OmitHost := false, ForceQuery := false,
            RawQuery := [], Fragment := [], RawFragment := [] } ∧
    (clientAt (utf8 "https://api.bgpview.io/a%3Fb/") (cannedTransport 200 [])).baseURL.Path =
      utf8 "/a?b/" ∧
    (clientAt (utf8 "https://api.bgpview.io/a%3Fb/") (cannedTransport 200 [])).endpointGetASN 1 =
      .ok { Scheme := utf8 "https", Opaque := [], User := none, Host := utf8 "api.bgpview.io",
            Path := utf8 "/a", RawPath := [], OmitHost := false, ForceQuery := false,
            RawQuery := utf8 "b/asn/1", Fragment := [], RawFragment := [] } ∧
    (clientAt (utf8 "https://api.bgpview.io/100%25/") (cannedTransport 200 [])).baseURL.Path =
      utf8 "/100%/" ∧
    (clientAt (utf8 "https://api.bgpview.io/100%25/") (cannedTransport 200 [])).endpointGetASN 1 =
      .error (.urlError (utf8 "parse") (utf8 "/100%/asn/1") (.EscapeError (utf8 "%/a"))) := by
  unfold Client.endpointGetASN clientAt
  decide

/-! ## The calls of the transport -/

theorem do_traced_fst {D : Type} (c : Client) (ctx : http.Context) (endpoint : URL)
    (decode : Decoder D) (data : D) :
    (c.do_traced ctx endpoint decode data).1 = c.do_ ctx endpoint decode data := by
  unfold Client.do_traced Client.do_
  generalize http.NewRequestWithContext ctx http.MethodGet endpoint.String http.NoBody = nr
  cases nr with
  | error e => rfl
  | ok req =>
    dsimp only
    generalize c.HTTPClient.Do _ = r
    cases r with
    | error e => rfl
    | ok resp =>
      dsimp only
      split_ifs <;> rfl

theorem expectedCalls_ok (ctx : http.Context) (endpoint : URL) :
    expectedCalls ctx (.ok endpoint) =
      match http.NewRequestWithContext ctx http.MethodGet endpoint.String http.NoBody with
      | .error _ => []
      | .ok req =>
        [{ req with Header := req.Header.Set (utf8 "accept") (utf8 "application/json") }] := by
  unfold expectedCalls requestFor
  dsimp only
  cases http.NewRequestWithContext ctx http.MethodGet endpoint.String http.NoBody <;> rfl

theorem do_traced_calls {D : Type} (c : Client) (ctx : http.Context) (endpoint : URL)
    (decode : Decoder D) (data : D) :
    (c.do_traced ctx endpoint decode data).2 = expectedCalls ctx (.ok endpoint) := by
  rw [expectedCalls_ok]
  unfold Client.do_traced
  generalize http.NewRequestWithContext ctx http.MethodGet endpoint.String http.NoBody = nr
  cases nr with
  | error e => rfl
  | ok req =>
    dsimp only
    generalize c.HTTPClient.Do _ = r
    cases r with
    | error e => rfl
    | ok resp =>
      dsimp only
      split_ifs <;> rfl

theorem expectedCalls_length (ctx : http.Context) (ep : Except GoError URL) :
    (expectedCalls ctx ep).length ≤ 1 := by
  unfold expectedCalls
  cases ep with
  | error e => simp
  | ok u =>
    dsimp only
    cases requestFor ctx u <;> simp

theorem requestFor_ok_iff (ctx : http.Context) (ep : URL) :
    (∃ req, requestFor ctx ep = .ok req) ↔
      ctx ≠ http.Context.nilContext ∧ ∃ u, url.Parse ep.String = .ok u := by
  have hvm : http.validMethod (utf8 "GET") = true := by decide
  have hne : ¬ (http.MethodGet = []) := by decide
  unfold requestFor http.NewRequestWithContext
  simp only [hne, if_false]
  have hm : http.MethodGet = utf8 "GET" := rfl
  rw [hm, hvm]
  simp only [Bool.not_true, Bool.false_eq_true, if_false]
  by_cases hc : ctx = http.Context.nilContext
  · simp [hc]
  · simp only [hc, if_false, ne_eq, not_false_eq_true, true_and]
    cases url.Parse ep.String with
    | error e => simp
    | ok u => simp

theorem expectedCalls_one (ctx : http.Context) (ep : Except GoError URL) :
    (expectedCalls ctx ep).length = 1 ↔
      ∃ endpoint, ep = .ok endpoint ∧ ctx ≠ http.Context.nilContext ∧
        ∃ u, url.Parse endpoint.String = .ok u := by
  cases ep with
  | error e => simp [expectedCalls]
  | ok endpoint =>
    simp only [Except.ok.injEq, exists_eq_left']
    rw [← requestFor_ok_iff]
    unfold expectedCalls
    dsimp only
    cases requestFor ctx endpoint <;> simp

theorem GetASN_traced_calls (c : Client) (ctx : http.Context) (asNumber : Int)
    (decode : Decoder ASNInfo) :
    (c.GetASN_traced ctx asNumber decode).2 = expectedCalls ctx (c.endpointGetASN asNumber) := by
  unfold Client.GetASN_traced
  generalize c.endpointGetASN asNumber = ep
  cases ep with
  | error e => rfl
  | ok endpoint =>
    dsimp only
    rw [← do_traced_calls c ctx endpoint decode default]
    generalize c.do_traced ctx endpoint decode default = r
    obtain ⟨⟨v, e⟩, calls⟩ := r
    cases e <;> rfl

theorem GetASN_traced_fst (c : Client) (ctx : http.Context) (asNumber : Int)
    (decode : Decoder ASNInfo) :
    (c.GetASN_traced ctx asNumber decode).1 = c.GetASN ctx asNumber decode := by
  unfold Client.GetASN_traced Client.GetASN
  generalize c.endpointGetASN asNumber = ep
  cases ep with
  | error e => rfl
  | ok endpoint =>
    dsimp only
    rw [← do_traced_fst c ctx endpoint decode default]
    generalize c.do_traced ctx endpoint decode default = r
    obtain ⟨⟨v, e⟩, calls⟩ := r
    cases e <;> rfl

theorem GetASNPrefixes_traced_calls (c : Client) (ctx : http.Context) (asNumber : Int)
    (decode : Decoder ASNPrefixesInfo) :
    (c.GetASNPrefixes_traced ctx asNumber decode).2 = expectedCalls ctx (c.endpointGetASNPrefixes asNumber) := by
  unfold Client.GetASNPrefixes_traced
  generalize c.endpointGetASNPrefixes asNumber = ep
  cases ep with
  | error e => rfl
  | ok endpoint =>
    dsimp only
    rw [← do_traced_calls c ctx endpoint decode default]
    generalize c.do_traced ctx endpoint decode default = r
    obtain ⟨⟨v, e⟩, calls⟩ := r
    cases e <;> rfl

theorem GetASNPrefixes_traced_fst (c : Client) (ctx : http.Context) (asNumber : Int)
    (decode : Decoder ASNPrefixesInfo) :
    (c.GetASNPrefixes_traced ctx asNumber decode).1 = c.GetASNPrefixes ctx asNumber decode := by
  unfold Client.GetASNPrefixes_traced Client.GetASNPrefixes
  generalize c.endpointGetASNPrefixes asNumber = ep
  cases ep with
  | error e => rfl
  | ok endpoint =>
    dsimp only
    rw [← do_traced_fst c ctx endpoint decode default]
    generalize c.do_traced ctx endpoint decode default = r
    obtain ⟨⟨v, e⟩, calls⟩ := r
    cases e <;> rfl

theorem GetASNPeers_traced_calls (c : Client) (ctx : http.Context) (asNumber : Int)
    (decode : Decoder ASNPeersInfo) :
    (c.GetASNPeers_traced ctx asNumber decode).2 = expectedCalls ctx (c.endpointGetASNPeers asNumber) := by
  unfold Client.GetASNPeers_traced
  generalize c.endpointGetASNPeers asNumber = ep
  cases ep with
  | error e => rfl
  | ok endpoint =>
    dsimp only
    rw [← do_traced_calls c ctx endpoint decode default]
    generalize c.do_traced ctx endpoint decode default = r
    obtain ⟨⟨v, e⟩, calls⟩ := r
    cases e <;> rfl

theorem GetASNPeers_traced_fst (c : Client) (ctx : http.Context) (asNumber : Int)
    (decode : Decoder ASNPeersInfo) :
    (c.GetASNPeers_traced ctx asNumber decode).1 = c.GetASNPeers ctx asNumber decode := by
  unfold Client.GetASNPeers_traced Client.GetASNPeers
  generalize c.endpointGetASNPeers asNumber = ep
  cases ep with
  | error e => rfl
  | ok endpoint =>
    dsimp only
    rw [← do_traced_fst c ctx endpoint decode default]
    generalize c.do_traced ctx endpoint decode default = r
    obtain ⟨⟨v, e⟩, calls⟩ := r
    cases e <;> rfl

theorem GetASNUpstreams_traced_calls (c : Client) (ctx : http.Context) (asNumber : Int)
    (decode : Decoder ASNUpstreamsInfo) :
    (c.GetASNUpstreams_traced ctx asNumber decode).2 = expectedCalls ctx (c.endpointGetASNUpstreams asNumber) := by
  unfold Client.GetASNUpstreams_traced
  generalize c.endpointGetASNUpstreams asNumber = ep
  cases ep with
  | error e => rfl
  | ok endpoint =>
    dsimp only
    rw [← do_traced_calls c ctx endpoint decode default]
    generalize c.do_traced ctx endpoint decode default = r
    obtain ⟨⟨v, e⟩, calls⟩ := r
    cases e <;> rfl

theorem GetASNUpstreams_traced_fst (c : Client) (ctx : http.Context) (asNumber : Int)
    (decode : Decoder ASNUpstreamsInfo) :
    (c.GetASNUpstreams_traced ctx asNumber decode).1 = c.GetASNUpstreams ctx asNumber decode := by
  unfold Client.GetASNUpstreams_traced Client.GetASNUpstreams
  generalize c.endpointGetASNUpstreams asNumber = ep
  cases ep with
  | error e => rfl
  | ok endpoint =>
    dsimp only
    rw [← do_traced_fst c ctx endpoint decode default]
    generalize c.do_traced ctx endpoint decode default = r
    obtain ⟨⟨v, e⟩, calls⟩ := r
    cases e <;> rfl

theorem GetASNDownstreams_traced_calls (c : Client) (ctx : http.Context) (asNumber : Int)
    (decode : Decoder ASNDownstreamsInfo) :
    (c.GetASNDownstreams_traced ctx asNumber decode).2 = expectedCalls ctx (c.endpointGetASNDownstreams asNumber) := by
  unfold Client.GetASNDownstreams_traced
  generalize c.endpointGetASNDownstreams asNumber = ep
  cases ep with
  | error e => rfl
  | ok endpoint =>
    dsimp only
    rw [← do_traced_calls c ctx endpoint decode default]
    generalize c.do_traced ctx endpoint decode default = r
    obtain ⟨⟨v, e⟩, calls⟩ := r
    cases e <;> rfl

theorem GetASNDownstreams_traced_fst (c : Client) (ctx : http.Context) (asNumber : Int)
    (decode : Decoder ASNDownstreamsInfo) :
    (c.GetASNDownstreams_traced ctx asNumber decode).1 = c.GetASNDownstreams ctx asNumber decode := by
  unfold Client.GetASNDownstreams_traced Client.GetASNDownstreams
  generalize c.endpointGetASNDownstreams asNumber = ep
  cases ep with
  | error e => rfl
  | ok endpoint =>
    dsimp only
    rw [← do_traced_fst c ctx endpoint decode default]
    generalize c.do_traced ctx endpoint decode default = r
    obtain ⟨⟨v, e⟩, calls⟩ := r
    cases e <;> rfl

theorem GetASNIxs_traced_calls (c : Client) (ctx : http.Context) (asNumber : Int)
    (decode : Decoder ASNIxsInfo) :
    (c.GetASNIxs_traced ctx asNumber decode).2 = expectedCalls ctx (c.endpointGetASNIxs asNumber) := by
  unfold Client.GetASNIxs_traced
  generalize c.endpointGetASNIxs asNumber = ep
  cases ep with
  | error e => rfl
  | ok endpoint =>
    dsimp only
    rw [← do_traced_calls c ctx endpoint decode default]
    generalize c.do_traced ctx endpoint decode default = r
    obtain ⟨⟨v, e⟩, calls⟩ := r
    cases e <;> rfl

theorem GetASNIxs_traced_fst (c : Client) (ctx : http.Context) (asNumber : Int)
    (decode : Decoder ASNIxsInfo) :
    (c.GetASNIxs_traced ctx asNumber decode).1 = c.GetASNIxs ctx asNumber decode := by
  unfold Client.GetASNIxs_traced Client.GetASNIxs
  generalize c.endpointGetASNIxs asNumber = ep
  cases ep with
  | error e => rfl
  | ok endpoint =>
    dsimp only
    rw [← do_traced_fst c ctx endpoint decode default]
    generalize c.do_traced ctx endpoint decode default = r
    obtain ⟨⟨v, e⟩, calls⟩ := r
    cases e <;> rfl

theorem GetPrefix_traced_calls (c : Client) (ctx : http.Context) (ipAddress : GoString) (cidr : Int)
    (decode : Decoder PrefixInfo) :
    (c.GetPrefix_traced ctx ipAddress cidr decode).2 = expectedCalls ctx (c.endpointGetPrefix ipAddress cidr) := by
  unfold Client.GetPrefix_traced
  generalize c.endpointGetPrefix ipAddress cidr = ep
  cases ep with
  | error e => rfl
  | ok endpoint =>
    dsimp only
    rw [← do_traced_calls c ctx endpoint decode default]
    generalize c.do_traced ctx endpoint decode default = r
    obtain ⟨⟨v, e⟩, calls⟩ := r
    cases e <;> rfl

theorem GetPrefix_traced_fst (c : Client) (ctx : http.Context) (ipAddress : GoString) (cidr : Int)
    (decode : Decoder PrefixInfo) :
    (c.GetPrefix_traced ctx ipAddress cidr decode).1 = c.GetPrefix ctx ipAddress cidr decode := by
  unfold Client.GetPrefix_traced Client.GetPrefix
  generalize c.endpointGetPrefix ipAddress cidr = ep
  cases ep with
  | error e => rfl
  | ok endpoint =>
    dsimp only
    rw [← do_traced_fst c ctx endpoint decode default]
    generalize c.do_traced ctx endpoint decode default = r
    obtain ⟨⟨v, e⟩, calls⟩ := r
    cases e <;> rfl

theorem GetIP_traced_calls (c : Client) (ctx : http.Context) (ipAddress : GoString)
    (decode : Decoder IPInfo) :
    (c.GetIP_traced ctx ipAddress decode).2 = expectedCalls ctx (c.endpointGetIP ipAddress) := by
  unfold Client.GetIP_traced
  generalize c.endpointGetIP ipAddress = ep
  cases ep with
  | error e => rfl
  | ok endpoint =>
    dsimp only
    rw [← do_traced_calls c ctx endpoint decode default]
    generalize c.do_traced ctx endpoint decode default = r
    obtain ⟨⟨v, e⟩, calls⟩ := r
    cases e <;> rfl

theorem GetIP_traced_fst (c : Client) (ctx : http.Context) (ipAddress : GoString)
    (decode : Decoder IPInfo) :
    (c.GetIP_traced ctx ipAddress decode).1 = c.GetIP ctx ipAddress decode := by
  unfold Client.GetIP_traced Client.GetIP
  generalize c.endpointGetIP ipAddress = ep
  cases ep with
  | error e => rfl
  | ok endpoint =>
    dsimp only
    rw [← do_traced_fst c ctx endpoint decode default]
    generalize c.do_traced ctx endpoint decode default = r
    obtain ⟨⟨v, e⟩, calls⟩ := r
    cases e <;> rfl

theorem GetIX_traced_calls (c : Client) (ctx : http.Context) (ixID : Int)
    (decode : Decoder IXInfo) :
    (c.GetIX_traced ctx ixID decode).2 = expectedCalls ctx (c.endpointGetIX ixID) := by
  unfold Client.GetIX_traced
  generalize c.endpointGetIX ixID = ep
  cases ep with
  | error e => rfl
  | ok endpoint =>
    dsimp only
    rw [← do_traced_calls c ctx endpoint decode default]
    generalize c.do_traced ctx endpoint decode default = r
    obtain ⟨⟨v, e⟩, calls⟩ := r
    cases e <;> rfl

theorem GetIX_traced_fst (c : Client) (ctx : http.Context) (ixID : Int)
    (decode : Decoder IXInfo) :
    (c.GetIX_traced ctx ixID decode).1 = c.GetIX ctx ixID decode := by
  unfold Client.GetIX_traced Client.GetIX
  generalize c.endpointGetIX ixID = ep
  cases ep with
  | error e => rfl
  | ok endpoint =>
    dsimp only
    rw [← do_traced_fst c ctx endpoint decode default]
    generalize c.do_traced ctx endpoint decode default = r
    obtain ⟨⟨v, e⟩, calls⟩ := r
    cases e <;> rfl

theorem GetSearch_traced_calls (c : Client) (ctx : http.Context) (term : GoString)
    (decode : Decoder SearchInfo) :
    (c.GetSearch_traced ctx term decode).2 = expectedCalls ctx (c.endpointGetSearch term) := by
  unfold Client.GetSearch_traced
  generalize c.endpointGetSearch term = ep
  cases ep with
  | error e => rfl
  | ok endpoint =>
    dsimp only
    rw [← do_traced_calls c ctx endpoint decode default]
    generalize c.do_traced ctx endpoint decode default = r
    obtain ⟨⟨v, e⟩, calls⟩ := r
    cases e <;> rfl

theorem GetSearch_traced_fst (c : Client) (ctx : http.Context) (term : GoString)
    (decode : Decoder SearchInfo) :
    (c.GetSearch_traced ctx term decode).1 = c.GetSearch ctx term decode := by
  unfold Client.GetSearch_traced Client.GetSearch
  generalize c.endpointGetSearch term = ep
  cases ep with
  | error e => rfl
  | ok endpoint =>
    dsimp only
    rw [← do_traced_fst c ctx endpoint decode default]
    generalize c.do_traced ctx endpoint decode default = r
    obtain ⟨⟨v, e⟩, calls⟩ := r
    cases e <;> rfl

/-! ## The request handed to the transport -/

theorem newRequest_shape (ctx : http.Context) (rawURL : GoString) (r : http.Request)
    (h : http.NewRequestWithContext ctx http.MethodGet rawURL http.NoBody = .ok r) :
    r.Method = utf8 "GET" ∧ r.Header = [] ∧ r.Body = http.NoBody ∧ r.ctx = ctx ∧
      ∃ u, url.Parse rawURL = .ok u ∧ r.URL = { u with Host := http.removeEmptyPort u.Host } ∧
        r.Host = http.removeEmptyPort u.Host := by
  have hvm : http.validMethod (utf8 "GET") = true := by decide
  have hne : ¬ (http.MethodGet = []) := by decide
  have hm : http.MethodGet = utf8 "GET" := rfl
  unfold http.NewRequestWithContext at h
  simp only [hne, if_false] at h
  rw [hm, hvm] at h
  simp only [Bool.not_true, Bool.false_eq_true, if_false] at h
  by_cases hc : ctx = http.Context.nilContext
  · simp [hc] at h
  · simp only [hc, if_false] at h
    generalize url.Parse rawURL = p at h
    cases p with
    | error e => simp at h
    | ok u =>
      simp only [Except.ok.injEq] at h
      subst h
      exact ⟨rfl, rfl, rfl, rfl, u, rfl, rfl, rfl⟩

/-- C13: every request `do` hands to the transport has method `GET`, has the
single header `Accept: application/json` (so no `Authorization` header), has
the empty body `http.NoBody`, carries the caller's context, and its URL is
the one `http.NewRequestWithContext` parses from the string form of the
endpoint (with an empty port removed from the host, as that function does). -/
theorem do_request_shape {D : Type} (c : Client) (ctx : http.Context) (endpoint : URL)
    (decode : Decoder D) (data : D) (req : http.Request)
    (h : req ∈ (c.do_traced ctx endpoint decode data).2) :
    req.Method = utf8 "GET" ∧
    req.Header = [(utf8 "Accept", [utf8 "application/json"])] ∧
    (∀ kv ∈ req.Header, kv.1 ≠ utf8 "Authorization") ∧
    req.Body = http.NoBody ∧ req.Body.data = [] ∧ req.ctx = ctx ∧
    ∃ u, url.Parse endpoint.String = .ok u ∧
      req.URL = { u with Host := http.removeEmptyPort u.Host } ∧
      req.Host = http.removeEmptyPort u.Host := by
  rw [do_traced_calls, expectedCalls_ok] at h
  generalize hnr : http.NewRequestWithContext ctx http.MethodGet endpoint.String http.NoBody = nr
    at h
  cases nr with
  | error e => simp at h
  | ok r =>
    simp only [List.mem_singleton] at h
    obtain ⟨h1, h2, h3, h4, u, h5, h6, h7⟩ := newRequest_shape ctx _ r hnr
    subst h
    have hh : http.Header.Set [] (utf8 "accept") (utf8 "application/json") =
        [(utf8 "Accept", [utf8 "application/json"])] := by decide
    refine ⟨h1, ?_, ?_, h3, ?_, h4, u, h5, h6, h7⟩
    · simp only [h2, hh]
    · simp only [h2, hh]
      decide
    · simp only [h3]
      rfl

/-- C14: when the transport fails with the error `e` on the request built for
the endpoint, `do` returns `e` itself with the destination untouched, whatever
the decoder is, and every accessor that built this endpoint returns a nil
value with `e` itself. -/
theorem transport_error_returned (c : Client) (ctx : http.Context) (endpoint : URL)
    (req : http.Request) (e : GoError)
    (hreq : requestFor ctx endpoint = .ok req) (hdo : c.HTTPClient.Do req = .error e) :
    (∀ (D : Type) (decode : Decoder D) (data : D),
      c.do_ ctx endpoint decode data = (data, some e)) ∧
    (∀ (n : Int) (decode : Decoder ASNInfo), c.endpointGetASN n = .ok endpoint →
      c.GetASN ctx n decode = (none, some e)) ∧
    (∀ (n : Int) (decode : Decoder ASNPrefixesInfo), c.endpointGetASNPrefixes n = .ok endpoint →
      c.GetASNPrefixes ctx n decode = (none, some e)) ∧
    (∀ (n : Int) (decode : Decoder ASNPeersInfo), c.endpointGetASNPeers n = .ok endpoint →
      c.GetASNPeers ctx n decode = (none, some e)) ∧
    (∀ (n : Int) (decode : Decoder ASNUpstreamsInfo), c.endpointGetASNUpstreams n = .ok endpoint →
      c.GetASNUpstreams ctx n decode = (none, some e)) ∧
    (∀ (n : Int) (decode : Decoder ASNDownstreamsInfo), c.endpointGetASNDownstreams n = .ok endpoint →
      c.GetASNDownstreams ctx n decode = (none, some e)) ∧
    (∀ (n : Int) (decode : Decoder ASNIxsInfo), c.endpointGetASNIxs n = .ok endpoint →
      c.GetASNIxs ctx n decode = (none, some e)) ∧
    (∀ (a : GoString) (n : Int) (decode : Decoder PrefixInfo), c.endpointGetPrefix a n = .ok endpoint →
      c.GetPrefix ctx a n decode = (none, some e)) ∧
    (∀ (a : GoString) (decode : Decoder IPInfo), c.endpointGetIP a = .ok endpoint →
      c.GetIP ctx a decode = (none, some e)) ∧
    (∀ (n : Int) (decode : Decoder IXInfo), c.endpointGetIX n = .ok endpoint →
      c.GetIX ctx n decode = (none, some e)) ∧
    (∀ (term : GoString) (decode : Decoder SearchInfo), c.endpointGetSearch term = .ok endpoint →
      c.GetSearch ctx term decode = (none, some e)) := by
  have hd : ∀ (D : Type) (decode : Decoder D) (data : D),
      c.do_ ctx endpoint decode data = (data, some e) := by
    intro D decode data
    rw [do_eq_of_request c ctx endpoint decode data req hreq, hdo]
  refine ⟨hd, ?_, ?_, ?_, ?_, ?_, ?_, ?_, ?_, ?_, ?_⟩
  · intro n decode hep
    unfold Client.GetASN
    rw [hep]
    simp only [hd]
  · intro n decode hep
    unfold Client.GetASNPrefixes
    rw [hep]
    simp only [hd]
  · intro n decode hep
    unfold Client.GetASNPeers
    rw [hep]
    simp only [hd]
  · intro n decode hep
    unfold Client.GetASNUpstreams
    rw [hep]
    simp only [hd]
  · intro n decode hep
    unfold Client.GetASNDownstreams
    rw [hep]
    simp only [hd]
  · intro n decode hep
    unfold Client.GetASNIxs
    rw [hep]
    simp only [hd]
  · intro a n decode hep
    unfold Client.GetPrefix
    rw [hep]
    simp only [hd]
  · intro a decode hep
    unfold Client.GetIP
    rw [hep]
    simp only [hd]
  · intro n decode hep
    unfold Client.GetIX
    rw [hep]
    simp only [hd]
  · intro term decode hep
    unfold Client.GetSearch
    rw [hep]
    simp only [hd]

/-- C15 (amended): every accessor call hands at most one request to the
transport, whatever the transport answers and whatever the decoder does; it
hands exactly one if and only if the endpoint was built, the context is not
nil and the string form of the endpoint parses (`CalledOnce`). -/
theorem accessors_call_transport_once (c : Client) (ctx : http.Context) (n : Int)
    (a term : GoString) :
    (∀ decode : Decoder ASNInfo,
      CalledOnce ctx (c.endpointGetASN n) (c.GetASN_traced ctx n decode).2) ∧
    (∀ decode : Decoder ASNPrefixesInfo,
      CalledOnce ctx (c.endpointGetASNPrefixes n) (c.GetASNPrefixes_traced ctx n decode).2) ∧
    (∀ decode : Decoder ASNPeersInfo,
      CalledOnce ctx (c.endpointGetASNPeers n) (c.GetASNPeers_traced ctx n decode).2) ∧
    (∀ decode : Decoder ASNUpstreamsInfo,
      CalledOnce ctx (c.endpointGetASNUpstreams n) (c.GetASNUpstreams_traced ctx n decode).2) ∧
    (∀ decode : Decoder ASNDownstreamsInfo,
      CalledOnce ctx (c.endpointGetASNDownstreams n) (c.GetASNDownstreams_traced ctx n decode).2) ∧
    (∀ decode : Decoder ASNIxsInfo,
      CalledOnce ctx (c.endpointGetASNIxs n) (c.GetASNIxs_traced ctx n decode).2) ∧
    (∀ decode : Decoder PrefixInfo,
      CalledOnce ctx (c.endpointGetPrefix a n) (c.GetPrefix_traced ctx a n decode).2) ∧
    (∀ decode : Decoder IPInfo,
      CalledOnce ctx (c.endpointGetIP a) (c.GetIP_traced ctx a decode).2) ∧
    (∀ decode : Decoder IXInfo,
      CalledOnce ctx (c.endpointGetIX n) (c.GetIX_traced ctx n decode).2) ∧
    (∀ decode : Decoder SearchInfo,
      CalledOnce ctx (c.endpointGetSearch term) (c.GetSearch_traced ctx term decode).2) := by
  have key : ∀ ep : Except GoError URL, CalledOnce ctx ep (expectedCalls ctx ep) :=
    fun ep => ⟨rfl, expectedCalls_length ctx ep, expectedCalls_one ctx ep⟩
  refine ⟨?_, ?_, ?_, ?_, ?_, ?_, ?_, ?_, ?_, ?_⟩
  · intro decode
    rw [GetASN_traced_calls]
    exact key _
  · intro decode
    rw [GetASNPrefixes_traced_calls]
    exact key _
  · intro decode
    rw [GetASNPeers_traced_calls]
    exact key _
  · intro decode
    rw [GetASNUpstreams_traced_calls]
    exact key _
  · intro decode
    rw [GetASNDownstreams_traced_calls]
    exact key _
  · intro decode
    rw [GetASNIxs_traced_calls]
    exact key _
  · intro decode
    rw [GetPrefix_traced_calls]
    exact key _
  · intro decode
    rw [GetIP_traced_calls]
    exact key _
  · intro decode
    rw [GetIX_traced_calls]
    exact key _
  · intro decode
    rw [GetSearch_traced_calls]
    exact key _

theorem NewClient_base (httpClient : http.Client) :
    (NewClient httpClient).baseURL =
      { Scheme := utf8 "https", Opaque := [], User := none, Host := utf8 "api.bgpview.io",
        Path := [], RawPath := [], OmitHost := false, ForceQuery := false, RawQuery := [],
        Fragment := [], RawFragment := [] } := by
  have h : url.Parse defaultBaseURL = .ok
      { Scheme := utf8 "https", Opaque := [], User := none, Host := utf8 "api.bgpview.io",
        Path := [], RawPath := [], OmitHost := false, ForceQuery := false, RawQuery := [],
        Fragment := [], RawFragment := [] } := by decide
  simp only [NewClient, h]

theorem exampleRequest_for (httpClient : http.Client) :
    requestFor (http.Context.live 0)
      (endpointURL (NewClient httpClient).baseURL (utf8 "/asn/1") []) = .ok exampleRequest := by
  rw [NewClient_base]
  decide

theorem example_endpoint (httpClient : http.Client) :
    (NewClient httpClient).endpointGetASN 1 =
      .ok (endpointURL (NewClient httpClient).baseURL (utf8 "/asn/1") []) := by
  unfold Client.endpointGetASN
  rw [NewClient_base]
  decide

/-- Witness of C13: the one request `do` hands to the transport for
`https://api.bgpview.io/asn/1` is a `GET` with the header
`Accept: application/json` and no body. -/
theorem do_request_shape_witness :
    exampleRequest ∈ ((testClient 200 (utf8 "{}")).do_traced (http.Context.live 0)
        (endpointURL (testClient 200 (utf8 "{}")).baseURL (utf8 "/asn/1") [])
        (fun (b : http.Body) (_ : GoString) => (b.data, none)) []).2 ∧
    exampleRequest.Method = utf8 "GET" ∧
    exampleRequest.Header = [(utf8 "Accept", [utf8 "application/json"])] ∧
    exampleRequest.Body = http.NoBody := by
  have hm : exampleRequest ∈ ((testClient 200 (utf8 "{}")).do_traced (http.Context.live 0)
        (endpointURL (testClient 200 (utf8 "{}")).baseURL (utf8 "/asn/1") [])
        (fun (b : http.Body) (_ : GoString) => (b.data, none)) []).2 := by
    rw [do_traced_calls]
    unfold expectedCalls
    simp only [exampleRequest_ok]
    exact List.mem_singleton.mpr rfl
  have h := do_request_shape (testClient 200 (utf8 "{}")) (http.Context.live 0)
    (endpointURL (testClient 200 (utf8 "{}")).baseURL (utf8 "/asn/1") [])
    (fun (b : http.Body) (_ : GoString) => (b.data, none)) [] exampleRequest hm
  exact ⟨hm, h.1, h.2.1, h.2.2.2.1⟩

/-- Witness of C14: with a transport that fails with the error `external 7`
(say, connection refused), `GetASN(1)` returns a nil value and that error. -/
theorem transport_error_returned_witness :
    (NewClient (failingTransport (.external 7))).GetASN (http.Context.live 0) 1
        (fun (_ : http.Body) (d : ASNInfo) => (d, none)) = (none, some (.external 7)) :=
  (transport_error_returned (NewClient (failingTransport (.external 7))) (http.Context.live 0)
    (endpointURL (NewClient (failingTransport (.external 7))).baseURL (utf8 "/asn/1") [])
    exampleRequest (.external 7) (exampleRequest_for _) rfl).2.1 1 _ (example_endpoint _)

/-- Counterexample to C15: with a nil context, `GetASN(1)` builds its endpoint
but hands no request to the transport; it fails with `net/http: nil Context`. -/
theorem nil_context_counterexample :
    (testClient 200 (utf8 "{}")).endpointGetASN 1 =
      .ok (endpointURL (testClient 200 (utf8 "{}")).baseURL (utf8 "/asn/1") []) ∧
    ((testClient 200 (utf8 "{}")).GetASN_traced http.Context.nilContext 1
      (fun (_ : http.Body) (d : ASNInfo) => (d, none))).2 = [] ∧
    ((testClient 200 (utf8 "{}")).GetASN_traced http.Context.nilContext 1
      (fun (_ : http.Body) (d : ASNInfo) => (d, none))).1.2 =
        some (.errorString (utf8 "net/http: nil Context")) := by
  have hep := example_endpoint (cannedTransport 200 (utf8 "{}"))
  refine ⟨hep, ?_, ?_⟩
  · rw [GetASN_traced_calls]
    unfold testClient
    rw [hep]
    rfl
  · rw [GetASN_traced_fst]
    unfold Client.GetASN testClient
    rw [hep]
    rfl

/-! ## Lemmas: decoding an object into a struct -/

open json

theorem indexWhere_some (p : GoString × Bool × GoType → Bool) :
    ∀ (fields : List (GoString × Bool × GoType)) (i : Nat), indexWhere p fields = some i →
      ∃ f, fields.get? i = some f ∧ p f = true := by
  intro fields
  induction fields with
  | nil => intro i h; simp [indexWhere] at h
  | cons f fs ih =>
    intro i h
    rw [indexWhere] at h
    by_cases hp : p f = true
    · rw [if_pos hp] at h
      cases h
      exact ⟨f, rfl, hp⟩
    · rw [if_neg hp] at h
      cases hq : indexWhere p fs with
      | none => rw [hq] at h; simp at h
      | some j =>
        rw [hq] at h
        simp only [Option.map_some', Option.some.injEq] at h
        subst h
        obtain ⟨g, hg, hpg⟩ := ih j hq
        exact ⟨g, by simpa using hg, hpg⟩

theorem fieldIndex_some (fields : List (GoString × Bool × GoType)) (key : GoString) (i : Nat)
    (h : fieldIndex fields key = some i) :
    ∃ f, fields.get? i = some f ∧ (f.1 = key ∨ equalFold f.1 key = true) := by
  unfold fieldIndex at h
  cases hq : indexWhere (fun f => decide (f.1 = key)) fields with
  | some j =>
    rw [hq] at h
    simp only [Option.some.injEq] at h
    subst h
    obtain ⟨f, hf, hp⟩ := indexWhere_some _ fields j hq
    exact ⟨f, hf, Or.inl (by simpa using hp)⟩
  | none =>
    rw [hq] at h
    simp only at h
    obtain ⟨f, hf, hp⟩ := indexWhere_some _ fields i h
    exact ⟨f, hf, Or.inr hp⟩

theorem decodeMembers_length (fields : List (GoString × Bool × GoType)) :
    ∀ (ms : List (GoString × GoString × Value)) (vals : List GoVal),
      (decodeMembers fields ms vals).1.length = vals.length := by
  intro ms
  induction ms with
  | nil => intro vals; rw [decodeMembers]
  | cons m ms ih =>
    intro vals
    obtain ⟨key, raw, v⟩ := m
    rw [decodeMembers]
    cases fieldIndex fields key with
    | none => exact ih vals
    | some i =>
      dsimp only
      cases fields.get? i with
      | none => exact ih vals
      | some f =>
        dsimp only
        rw [ih, List.length_set]

/-- The value of field `i` after the member loop depends only on the value
the field had before it. -/
theorem decodeMembers_congr (fields : List (GoString × Bool × GoType)) (i : Nat) :
    ∀ (ms : List (GoString × GoString × Value)) (vals vals1 : List GoVal),
      vals[i]? = vals1[i]? →
      (decodeMembers fields ms vals).1[i]? = (decodeMembers fields ms vals1).1[i]? := by
  intro ms
  induction ms with
  | nil => intro vals vals1 h; simpa [decodeMembers] using h
  | cons m ms ih =>
    intro vals vals1 h
    obtain ⟨key, raw, v⟩ := m
    rw [decodeMembers, decodeMembers]
    cases fieldIndex fields key with
    | none => exact ih vals vals1 h
    | some j =>
      dsimp only
      cases fields.get? j with
      | none => exact ih vals vals1 h
      | some f =>
        dsimp only
        apply ih
        by_cases hj : j = i
        · subst hj
          have hd : vals.getD j (zero f.2.2) = vals1.getD j (zero f.2.2) := by
            simp only [List.getD_eq_getElem?_getD, h]
          rw [hd]
          have hl : j < vals.length ↔ j < vals1.length := by
            have h1 := @List.getElem?_eq_none_iff _ vals j
            have h2 := @List.getElem?_eq_none_iff _ vals1 j
            rw [h] at h1
            constructor
            · intro hlt
              by_contra hge
              exact absurd (h1.mp (h2.mpr (by omega))) (by omega)
            · intro hlt
              by_contra hge
              exact absurd (h2.mp (h1.mpr (by omega))) (by omega)
          simp only [List.getElem?_set, hl, if_true]
        · simp only [List.getElem?_set, hj, if_false]
          exact h

/-- The value of field `i` after the member loop is the one the members
decoded into field `i` give on their own. -/
theorem decodeMembers_filter (fields : List (GoString × Bool × GoType)) (i : Nat) :
    ∀ (ms : List (GoString × GoString × Value)) (vals : List GoVal),
      (decodeMembers fields ms vals).1[i]? =
        (decodeMembers fields (ms.filter (goesTo fields i)) vals).1[i]? := by
  intro ms
  induction ms with
  | nil => intro vals; rfl
  | cons m ms ih =>
    intro vals
    obtain ⟨key, raw, v⟩ := m
    by_cases hg : fieldIndex fields key = some i
    · have hk : goesTo fields i (key, raw, v) = true := by simp [goesTo, hg]
      rw [List.filter_cons_of_pos hk, decodeMembers, decodeMembers, hg]
      dsimp only
      cases fields.get? i with
      | none => exact ih vals
      | some f => exact ih _
    · have hk : ¬ (goesTo fields i (key, raw, v) = true) := by simp [goesTo, hg]
      rw [List.filter_cons_of_neg hk, decodeMembers]
      cases hj : fieldIndex fields key with
      | none => exact ih vals
      | some j =>
        dsimp only
        cases fields.get? j with
        | none => exact ih vals
        | some f =>
          dsimp only
          rw [ih]
          apply decodeMembers_congr
          have hji : j ≠ i := fun e => hg (by rw [hj, e])
          simp only [List.getElem?_set, hji, if_false]

/-- A field that no member is decoded into keeps its value. -/
theorem decodeMembers_absent (fields : List (GoString × Bool × GoType)) (i : Nat)
    (ms : List (GoString × GoString × Value)) (vals : List GoVal)
    (h : ∀ m ∈ ms, fieldIndex fields m.1 ≠ some i) :
    (decodeMembers fields ms vals).1[i]? = vals[i]? := by
  rw [decodeMembers_filter]
  have : ms.filter (goesTo fields i) = [] := by
    rw [List.filter_eq_nil_iff]
    intro m hm
    simp [goesTo, h m hm]
  rw [this, decodeMembers]

/-- The field that a single member is decoded into gets the value decoded
from that member. -/
theorem decodeMembers_single (fields : List (GoString × Bool × GoType)) (i : Nat)
    (ms : List (GoString × GoString × Value)) (vals : List GoVal)
    (m : GoString × GoString × Value) (f : GoString × Bool × GoType)
    (hf : fields.get? i = some f) (hi : i < vals.length)
    (h : ms.filter (goesTo fields i) = [m]) :
    (decodeMembers fields ms vals).1[i]? =
      some (decodeValue f.2.2 m.2.1 m.2.2 (vals.getD i (zero f.2.2))).1 := by
  have hm : goesTo fields i m = true := by
    have : m ∈ ms.filter (goesTo fields i) := by rw [h]; simp
    exact (List.mem_filter.mp this).2
  have hidx : fieldIndex fields m.1 = some i := by simpa [goesTo] using hm
  obtain ⟨key, raw, v⟩ := m
  rw [decodeMembers_filter, h, decodeMembers, hidx]
  dsimp only
  rw [hf]
  dsimp only
  rw [decodeMembers]
  simp only [List.getElem?_set, hi, if_true]

mutual

/-- The error a value leaves does not depend on the destination. -/
theorem decodeValue_error : ∀ (v : Value) (ty : GoType) (raw : GoString) (d d1 : GoVal),
    (decodeValue ty raw v d).2 = (decodeValue ty raw v d1).2
  | .null, ty, raw, d, d1 => by cases ty <;> simp [decodeValue]
  | .bool b, ty, raw, d, d1 => by cases ty <;> simp [decodeValue]
  | .number lit, ty, raw, d, d1 => by
    cases ty <;> simp only [decodeValue]
    · cases parseInt64 lit <;> rfl
    · cases strconv.ParseFloat lit <;> rfl
  | .string s, ty, raw, d, d1 => by cases ty <;> simp [decodeValue]
  | .array es, ty, raw, d, d1 => by
    cases ty <;> simp only [decodeValue]
    rename_i elem
    cases es with
    | nil => rfl
    | cons e es =>
      dsimp only
      have h := decodeElems_error (e :: es) elem
      cases d <;> cases d1 <;> exact h _ _ _ _
  | .object ms, ty, raw, d, d1 => by
    cases ty <;> simp only [decodeValue]
    exact decodeMembers_error ms _ _ _

/-- The error the elements of an array leave does not depend on the slice
they are decoded into. -/
theorem decodeElems_error : ∀ (es : List (GoString × Value)) (elem : GoType)
    (elems spare elems1 spare1 : List GoVal),
    (decodeElems elem es elems spare).2.2 = (decodeElems elem es elems1 spare1).2.2
  | [], elem, elems, spare, elems1, spare1 => by simp [decodeElems]
  | (raw, v) :: es, elem, elems, spare, elems1, spare1 => by
    simp only [decodeElems]
    rw [decodeValue_error v elem raw _ (zero elem), decodeElems_error es elem _ _ [] []]
    conv_rhs => rw [decodeValue_error v elem raw _ (zero elem), decodeElems_error es elem _ _ [] []]

/-- The error the members of an object leave does not depend on the struct
they are decoded into. -/
theorem decodeMembers_error : ∀ (ms : List (GoString × GoString × Value))
    (fields : List (GoString × Bool × GoType)) (vals vals1 : List GoVal),
    (decodeMembers fields ms vals).2 = (decodeMembers fields ms vals1).2
  | [], fields, vals, vals1 => by simp [decodeMembers]
  | (key, raw, v) :: ms, fields, vals, vals1 => by
    simp only [decodeMembers]
    cases fieldIndex fields key with
    | none => exact decodeMembers_error ms fields vals vals1
    | some i =>
      dsimp only
      cases fields.get? i with
      | none => exact decodeMembers_error ms fields vals vals1
      | some f =>
        dsimp only
        rw [decodeValue_error v f.2.2 raw _ (zero f.2.2), decodeMembers_error ms fields _ []]
        conv_rhs => rw [decodeValue_error v f.2.2 raw _ (zero f.2.2),
          decodeMembers_error ms fields _ []]

end

theorem firstError_none (a b : Option GoError) :
    firstError a b = none ↔ a = none ∧ b = none := by
  cases a <;> simp [firstError]

/-- Leaving members out of an object cannot bring an error in. -/
theorem decodeMembers_filter_error (fields : List (GoString × Bool × GoType))
    (keep : GoString × GoString × Value → Bool) :
    ∀ (ms : List (GoString × GoString × Value)) (vals vals1 : List GoVal),
      (decodeMembers fields ms vals).2 = none →
      (decodeMembers fields (ms.filter keep) vals1).2 = none := by
  intro ms
  induction ms with
  | nil => intro vals vals1 _; simp [decodeMembers]
  | cons m ms ih =>
    intro vals vals1 h
    obtain ⟨key, raw, v⟩ := m
    rw [decodeMembers] at h
    by_cases hk : keep (key, raw, v) = true
    · rw [List.filter_cons_of_pos hk, decodeMembers]
      cases hj : fieldIndex fields key with
      | none =>
        rw [hj] at h
        exact ih vals vals1 h
      | some j =>
        rw [hj] at h
        dsimp only at h ⊢
        cases hf : fields.get? j with
        | none =>
          rw [hf] at h
          exact ih vals vals1 h
        | some f =>
          rw [hf] at h
          dsimp only at h ⊢
          rw [firstError_none] at h ⊢
          exact ⟨by rw [decodeValue_error v f.2.2 raw _ (vals.getD j (zero f.2.2))]; exact h.1,
            ih _ _ h.2⟩
    · rw [List.filter_cons_of_neg hk]
      cases hj : fieldIndex fields key with
      | none =>
        rw [hj] at h
        exact ih vals vals1 h
      | some j =>
        rw [hj] at h
        dsimp only at h
        cases hf : fields.get? j with
        | none =>
          rw [hf] at h
          exact ih vals vals1 h
        | some f =>
          rw [hf] at h
          dsimp only at h
          rw [firstError_none] at h
          exact ih _ _ h.2

theorem decodeElems_fresh (elem : GoType) : ∀ es : List (GoString × Value),
    (decodeElems elem es [] []).1 = es.map (fun e => (decodeValue elem e.1 e.2 (zero elem)).1) ∧
      (decodeElems elem es [] []).2.1 = [] := by
  intro es
  induction es with
  | nil => simp [decodeElems]
  | cons e es ih =>
    obtain ⟨raw, v⟩ := e
    simp only [decodeElems, List.map_cons]
    exact ⟨by rw [ih.1], ih.2⟩

theorem zeros_getElem? : ∀ (fields : List (GoString × Bool × GoType)) (i : Nat),
    (zero.zeros fields)[i]? = (fields[i]?).map (fun f => zero f.2.2) := by
  intro fields
  induction fields with
  | nil => intro i; simp [zero.zeros]
  | cons f fs ih =>
    intro i
    obtain ⟨k, o, t⟩ := f
    cases i with
    | zero => simp [zero.zeros]
    | succ i => simp [zero.zeros, ih i]

theorem decodeValue_struct_object (name : GoString) (fields : List (GoString × Bool × GoType))
    (raw : GoString) (ms : List (GoString × GoString × Value)) (vals : List GoVal) :
    decodeValue (.struct name fields) raw (.object ms) (.struct vals) =
      (.struct (decodeMembers fields ms vals).1, (decodeMembers fields ms vals).2) := by
  simp only [decodeValue]

/-- A body whose first value is an object or an array is decoded as that value. -/
theorem Decode_container (ty : GoType) (body : http.Body) (dest : GoVal) (raw rest : GoString)
    (v : Value) (hv : v.isContainer = true)
    (h : readValue body.data = .ok (raw, v, rest)) :
    Decode ty body dest = decodeValue ty raw v dest := by
  unfold Decode
  rw [h]
  simp [hv]

/-- The error the members of an object leave in an interface value does not
depend on the map they are added to. -/
theorem objectInterface_error : ∀ (ms : List (GoString × GoString × Value))
    (m m1 : List (GoString × GoAny)),
    (valueInterface.objectInterface ms m).2 = (valueInterface.objectInterface ms m1).2
  | [], m, m1 => by simp [valueInterface.objectInterface]
  | (key, raw, v) :: ms, m, m1 => by
    simp only [valueInterface.objectInterface]
    rw [objectInterface_error ms _ []]
    conv_rhs => rw [objectInterface_error ms _ []]

mutual

/-- A document with members left out, at any depth, is stored in an
interface value without error when the full document is. -/
theorem subDoc_interface : ∀ (v v1 : Value),
    subDoc v1 v → (valueInterface v).2 = none → (valueInterface v1).2 = none
  | .null, v1 => by
    intro hs h
    cases v1 <;> simp only [subDoc] at hs
    simp [valueInterface]
  | .bool b, v1 => by
    intro hs h
    cases v1 <;> simp only [subDoc] at hs
    simp [valueInterface]
  | .number lit, v1 => by
    intro hs h
    cases v1 <;> simp only [subDoc] at hs
    subst hs
    exact h
  | .string s, v1 => by
    intro hs h
    cases v1 <;> simp only [subDoc] at hs
    simp [valueInterface]
  | .array es, v1 => by
    intro hs h
    cases v1 <;> simp only [subDoc] at hs
    rename_i es1
    simp only [valueInterface] at h ⊢
    exact subElems_interface es es1 hs h
  | .object ms, v1 => by
    intro hs h
    cases v1 <;> simp only [subDoc] at hs
    rename_i ms1
    simp only [valueInterface] at h ⊢
    exact subMembers_interface ms ms1 [] [] hs h

/-- Element-wise: the elements of the smaller array are stored without error. -/
theorem subElems_interface : ∀ (es es1 : List (GoString × Value)),
    subDoc.subElems es1 es → (valueInterface.arrayInterface es).2 = none →
      (valueInterface.arrayInterface es1).2 = none
  | [], es1 => by
    intro hs _
    cases es1 with
    | nil => simp [valueInterface.arrayInterface]
    | cons e1 es1 => simp only [subDoc.subElems] at hs
  | e :: es, es1 => by
    intro hs h
    cases es1 with
    | nil => simp only [subDoc.subElems] at hs
    | cons e1 es1 =>
      simp only [subDoc.subElems] at hs
      obtain ⟨raw, v⟩ := e
      obtain ⟨raw1, v1⟩ := e1
      simp only [valueInterface.arrayInterface, firstError_none] at h ⊢
      exact ⟨subDoc_interface v v1 hs.1 h.1, subElems_interface es es1 hs.2 h.2⟩

/-- The members kept are stored without error. -/
theorem subMembers_interface : ∀ (ms ms1 : List (GoString × GoString × Value))
    (m m1 : List (GoString × GoAny)),
    subDoc.subMembers ms1 ms → (valueInterface.objectInterface ms m).2 = none →
      (valueInterface.objectInterface ms1 m1).2 = none
  | [], ms1, m, m1 => by
    intro hs _
    cases ms1 with
    | nil => simp [valueInterface.objectInterface]
    | cons x ms1 => simp only [subDoc.subMembers] at hs
  | x :: ms, ms1, m, m1 => by
    intro hs h
    cases ms1 with
    | nil => simp [valueInterface.objectInterface]
    | cons x1 ms1 =>
      simp only [subDoc.subMembers] at hs
      obtain ⟨key, raw, v⟩ := x
      obtain ⟨key1, raw1, v1⟩ := x1
      simp only [valueInterface.objectInterface, firstError_none] at h
      rcases hs with ⟨hk, hv, hms⟩ | hskip
      · dsimp only at hk hv
        simp only [valueInterface.objectInterface, firstError_none]
        exact ⟨subDoc_interface v v1 hv h.1, subMembers_interface ms ms1 _ _ hms h.2⟩
      · exact subMembers_interface ms ((key1, raw1, v1) :: ms1) _ m1 hskip h.2

end

mutual

/-- A document with members left out, at any depth, decodes without error
when the full document does. -/
theorem subDoc_error : ∀ (v v1 : Value) (ty : GoType) (raw raw1 : GoString) (d d1 : GoVal),
    subDoc v1 v → (decodeValue ty raw v d).2 = none → (decodeValue ty raw1 v1 d1).2 = none
  | .null, v1, ty, raw, raw1, d, d1 => by
    intro hs h
    cases v1 <;> simp only [subDoc] at hs
    cases ty <;> simp [decodeValue] at h ⊢
  | .bool b, v1, ty, raw, raw1, d, d1 => by
    intro hs h
    cases v1 <;> simp only [subDoc] at hs
    subst hs
    cases ty <;> simp [decodeValue] at h ⊢
  | .number lit, v1, ty, raw, raw1, d, d1 => by
    intro hs h
    cases v1 <;> simp only [subDoc] at hs
    subst hs
    cases ty <;> simp [decodeValue] at h ⊢
    · cases hp : parseInt64 _ with
      | none => rw [hp] at h; simp at h
      | some n => rfl
    · cases hp : strconv.ParseFloat _ with
      | none => rw [hp] at h; simp at h
      | some n => rfl
  | .string s, v1, ty, raw, raw1, d, d1 => by
    intro hs h
    cases v1 <;> simp only [subDoc] at hs
    subst hs
    cases ty <;> simp [decodeValue] at h ⊢
  | .array es, v1, ty, raw, raw1, d, d1 => by
    intro hs h
    cases v1 <;> simp only [subDoc] at hs
    rename_i es1
    cases ty <;> simp only [decodeValue] at h ⊢
    · exact absurd h (by simp)
    · exact absurd h (by simp)
    · exact subElems_interface es es1 hs h
    · rename_i elem
      cases es1 with
      | nil => rfl
      | cons e1 es1 =>
        cases es with
        | nil => simp only [subDoc.subElems] at hs
        | cons e es =>
          dsimp only at h ⊢
          have h2 : (decodeElems elem (e :: es) [] []).2.2 = none := by
            rw [← h]
            cases d <;> exact decodeElems_error _ _ _ _ _ _
          have h3 := subElems_error (e :: es) (e1 :: es1) elem [] [] [] [] hs h2
          rw [← h3]
          cases d1 <;> exact decodeElems_error _ _ _ _ _ _
    · exact absurd h (by simp)
  | .object ms, v1, ty, raw, raw1, d, d1 => by
    intro hs h
    cases v1 <;> simp only [subDoc] at hs
    rename_i ms1
    cases ty <;> simp only [decodeValue] at h ⊢
    · exact absurd h (by simp)
    · exact absurd h (by simp)
    · exact subMembers_interface ms ms1 [] [] hs h
    · exact absurd h (by simp)
    · exact subMembers_error ms ms1 _ _ _ hs h

/-- Element-wise: the elements of the smaller array decode without error. -/
theorem subElems_error : ∀ (es es1 : List (GoString × Value)) (elem : GoType)
    (elems spare elems1 spare1 : List GoVal),
    subDoc.subElems es1 es → (decodeElems elem es elems spare).2.2 = none →
      (decodeElems elem es1 elems1 spare1).2.2 = none
  | [], es1, elem, elems, spare, elems1, spare1 => by
    intro hs _
    cases es1 with
    | nil => simp [decodeElems]
    | cons e1 es1 => simp only [subDoc.subElems] at hs
  | e :: es, es1, elem, elems, spare, elems1, spare1 => by
    intro hs h
    cases es1 with
    | nil => simp only [subDoc.subElems] at hs
    | cons e1 es1 =>
      simp only [subDoc.subElems] at hs
      obtain ⟨raw, v⟩ := e
      obtain ⟨raw1, v1⟩ := e1
      simp only [decodeElems, firstError_none] at h ⊢
      exact ⟨subDoc_error v v1 elem raw raw1 _ _ hs.1 h.1,
        subElems_error es es1 elem _ _ _ _ hs.2 h.2⟩

/-- The members kept decode without error. -/
theorem subMembers_error : ∀ (ms ms1 : List (GoString × GoString × Value))
    (fields : List (GoString × Bool × GoType)) (vals vals1 : List GoVal),
    subDoc.subMembers ms1 ms → (decodeMembers fields ms vals).2 = none →
      (decodeMembers fields ms1 vals1).2 = none
  | [], ms1, fields, vals, vals1 => by
    intro hs _
    cases ms1 with
    | nil => simp [decodeMembers]
    | cons m1 ms1 => simp only [subDoc.subMembers] at hs
  | m :: ms, ms1, fields, vals, vals1 => by
    intro hs h
    cases ms1 with
    | nil => simp [decodeMembers]
    | cons m1 ms1 =>
      simp only [subDoc.subMembers] at hs
      obtain ⟨key, raw, v⟩ := m
      obtain ⟨key1, raw1, v1⟩ := m1
      -- what the full object says about its first member and about the rest
      have hrest : ∃ vals2, (decodeMembers fields ms vals2).2 = none := by
        rw [decodeMembers] at h
        cases hj : fieldIndex fields key with
        | none => rw [hj] at h; exact ⟨_, h⟩
        | some j =>
          rw [hj] at h
          dsimp only at h
          cases hf : fields.get? j with
          | none => rw [hf] at h; exact ⟨_, h⟩
          | some f =>
            rw [hf] at h
            dsimp only at h
            rw [firstError_none] at h
            exact ⟨_, h.2⟩
      obtain ⟨vals2, h2⟩ := hrest
      rcases hs with ⟨hk, hv, hms⟩ | hskip
      · dsimp only at hk hv
        subst hk
        rw [decodeMembers] at h ⊢
        cases hj : fieldIndex fields key1 with
        | none => exact subMembers_error ms ms1 fields vals2 vals1 hms h2
        | some j =>
          rw [hj] at h
          dsimp only at h ⊢
          cases hf : fields.get? j with
          | none => exact subMembers_error ms ms1 fields vals2 vals1 hms h2
          | some f =>
            rw [hf] at h
            dsimp only at h ⊢
            rw [firstError_none] at h ⊢
            exact ⟨subDoc_error v v1 f.2.2 raw raw1 _ _ hv h.1,
              subMembers_error ms ms1 fields vals2 _ hms h2⟩
      · exact subMembers_error ms ((key1, raw1, v1) :: ms1) fields vals2 vals1 hskip h2

end

/-! ## What the decoder does with absent fields -/

/-- C17: for every struct type of the data model (every envelope and every
record nested in one), every object and every way `keep` of leaving members
out of it: the empty object `{}` decodes into the zero value without error; a
field whose members are all left out keeps the value it had, the zero value
when the destination is fresh; a field whose members are all kept gets the
value it gets from the full object; no error comes in when the full object
gave none, also when members are left out at any depth (`subDoc`); and the
body `{}` decodes to the all-zero envelope of every envelope type. -/
theorem absent_fields_zero (name : GoString) (fields : List (GoString × Bool × GoType))
    (raw : GoString) (ms : List (GoString × GoString × Value))
    (keep : GoString × GoString × Value → Bool) (vals : List GoVal) :
    decodeValue (.struct name fields) raw (.object []) (zero (.struct name fields)) =
      (zero (.struct name fields), none) ∧
    (∀ i, (∀ m ∈ ms, goesTo fields i m = true → keep m = false) →
      (structFields (decodeValue (.struct name fields) raw (.object (ms.filter keep))
        (.struct vals)).1)[i]? = vals[i]?) ∧
    (∀ i, (∀ m ∈ ms, goesTo fields i m = true → keep m = false) →
      (structFields (decodeValue (.struct name fields) raw (.object (ms.filter keep))
        (zero (.struct name fields))).1)[i]? = (fields[i]?).map (fun f => zero f.2.2)) ∧
    (∀ i, (∀ m ∈ ms, goesTo fields i m = true → keep m = true) →
      (structFields (decodeValue (.struct name fields) raw (.object (ms.filter keep))
        (.struct vals)).1)[i]? =
      (structFields (decodeValue (.struct name fields) raw (.object ms) (.struct vals)).1)[i]?) ∧
    ((decodeValue (.struct name fields) raw (.object ms) (.struct vals)).2 = none →
      (decodeValue (.struct name fields) raw (.object (ms.filter keep)) (.struct vals)).2 = none) ∧
    (∀ (small : Value) (raw1 : GoString) (dest : GoVal), subDoc small (.object ms) →
      (decodeValue (.struct name fields) raw (.object ms) (.struct vals)).2 = none →
      (decodeValue (.struct name fields) raw1 small dest).2 = none) ∧
    (∀ T ∈ envelopeTypes, Decode T (bodyOf (utf8 "\x7b\x7d")) (zero T) = (zero T, none)) := by
  have habs : ∀ (i : Nat) (vs : List GoVal),
      (∀ m ∈ ms, goesTo fields i m = true → keep m = false) →
      (decodeMembers fields (ms.filter keep) vs).1[i]? = vs[i]? := by
    intro i vs h
    apply decodeMembers_absent
    intro m hm hidx
    rw [List.mem_filter] at hm
    have := h m hm.1 (by simp [goesTo, hidx])
    rw [this] at hm
    exact absurd hm.2 (by simp)
  refine ⟨?_, ?_, ?_, ?_, ?_, ?_, ?_⟩
  · simp only [zero, decodeValue, decodeMembers]
  · intro i h
    rw [decodeValue_struct_object]
    exact habs i vals h
  · intro i h
    simp only [zero]
    rw [decodeValue_struct_object]
    simp only [structFields]
    rw [habs i _ h, zeros_getElem?]
  · intro i h
    rw [decodeValue_struct_object, decodeValue_struct_object]
    simp only [structFields]
    rw [decodeMembers_filter fields i (ms.filter keep), decodeMembers_filter fields i ms]
    have : (ms.filter keep).filter (goesTo fields i) = ms.filter (goesTo fields i) := by
      rw [List.filter_filter]
      apply List.filter_congr
      intro m hm
      by_cases hg : goesTo fields i m = true
      · simp [hg, h m hm hg]
      · simp [hg]
    rw [this]
  · intro h
    rw [decodeValue_struct_object] at h ⊢
    exact decodeMembers_filter_error fields keep ms vals vals h
  · intro small raw1 dest hs h
    exact subDoc_error _ _ _ _ _ _ _ hs h
  · intro T hT
    simp only [envelopeTypes, List.mem_cons, List.mem_singleton, List.not_mem_nil, or_false] at hT
    rcases hT with rfl | rfl | rfl | rfl | rfl | rfl | rfl | rfl | rfl | rfl <;> rfl

/-! ## What the decoder does with lists -/

open json

/-- An array decoded into a list that is nil or empty gives one element per
array element, each decoded into a zero value, in order. -/
theorem decodeValue_array_fresh (elem : GoType) (raw : GoString) (es : List (GoString × Value))
    (d : GoVal) (hd : d = .nilSlice ∨ d = .slice [] []) :
    (decodeValue (.slice elem) raw (.array es) d).1 =
      .slice (es.map (fun e => (decodeValue elem e.1 e.2 (zero elem)).1)) [] := by
  cases es with
  | nil => simp [decodeValue]
  | cons e es =>
    have hf := decodeElems_fresh elem (e :: es)
    rcases hd with rfl | rfl <;> simp only [decodeValue] <;> rw [hf.1, hf.2]

/-- In a struct decoded from its zero value, a field reached by exactly one
member of the object holds what that member decodes to. -/
theorem decodeMembers_fresh (fields : List (GoString × Bool × GoType))
    (ms : List (GoString × GoString × Value)) (i : Nat) (f : GoString × Bool × GoType)
    (m : GoString × GoString × Value) (hf : fields.get? i = some f)
    (hm : ms.filter (goesTo fields i) = [m]) :
    (decodeMembers fields ms (zero.zeros fields)).1[i]? =
      some (decodeValue f.2.2 m.2.1 m.2.2 (zero f.2.2)).1 := by
  have hf1 : fields[i]? = some f := by rw [← List.get?_eq_getElem?]; exact hf
  have h1 := zeros_getElem? fields i
  rw [hf1] at h1
  have hi : i < (zero.zeros fields).length := by
    by_contra hge
    rw [List.getElem?_eq_none (by omega)] at h1
    simp at h1
  rw [decodeMembers_single fields i ms _ m f hf hi hm]
  have hz : (zero.zeros fields).getD i (zero f.2.2) = zero f.2.2 := by
    rw [List.getD_eq_getElem?_getD, h1]
    rfl
  rw [hz]

/-- One step into the document and the same step into the value decoded
from it into a zero value lead to a value and to its decoding into a zero
value. -/
theorem decodedStep_docStep (i : Nat) (ty : GoType) (raw : GoString) (v : Value)
    (q : GoType × GoString × Value) (h : docStep i ty v = some q) :
    decodedStep i (decodeValue ty raw v (zero ty)).1 =
      some (decodeValue q.1 q.2.1 q.2.2 (zero q.1)).1 := by
  cases ty with
  | slice elem =>
    cases v with
    | array es =>
      rw [docStep] at h
      cases he : es.get? i with
      | none => rw [he] at h; cases h
      | some e =>
        rw [he] at h
        cases h
        rw [decodeValue_array_fresh elem raw es _ (Or.inl (by rfl)), decodedStep,
          List.get?_eq_getElem?, List.getElem?_map, ← List.get?_eq_getElem?, he]
        rfl
    | null => simp [docStep] at h
    | bool b => simp [docStep] at h
    | number l => simp [docStep] at h
    | string s => simp [docStep] at h
    | object ms => simp [docStep] at h
  | struct name fields =>
    cases v with
    | object ms =>
      rw [docStep] at h
      cases hf : fields.get? i with
      | none => rw [hf] at h; simp at h
      | some f =>
        rw [hf] at h
        cases hm : ms.filter (goesTo fields i) with
        | nil => rw [hm] at h; simp at h
        | cons m rest =>
          cases rest with
          | cons m2 rest2 => rw [hm] at h; simp at h
          | nil =>
            rw [hm] at h
            cases h
            simp only [zero]
            rw [decodeValue_struct_object, decodedStep, List.get?_eq_getElem?,
              decodeMembers_fresh fields ms i f m hf hm]
    | null => simp [docStep] at h
    | bool b => simp [docStep] at h
    | number l => simp [docStep] at h
    | string s => simp [docStep] at h
    | array es => simp [docStep] at h
  | string => cases v <;> simp [docStep] at h
  | int => cases v <;> simp [docStep] at h
  | any => cases v <;> simp [docStep] at h
  | rawMessage => cases v <;> simp [docStep] at h

/-- The place of a document that a path leads to is decoded, into a zero
value, to the part of the decoded value that the same path leads to. -/
theorem decodedAt_docAt : ∀ (path : List Nat) (p q : GoType × GoString × Value),
    docAt path p = some q →
      decodedAt path (decodeValue p.1 p.2.1 p.2.2 (zero p.1)).1 =
        some (decodeValue q.1 q.2.1 q.2.2 (zero q.1)).1
  | [], p, q, h => by
    rw [docAt] at h
    cases h
    rw [decodedAt]
  | i :: path, p, q, h => by
    rw [docAt] at h
    cases hs : docStep i p.1 p.2.2 with
    | none => rw [hs] at h; cases h
    | some r =>
      rw [hs] at h
      rw [decodedAt, decodedStep_docStep i p.1 p.2.1 p.2.2 r hs]
      exact decodedAt_docAt path r q h

/-- C18 (amended): decoding a JSON array of any length into a list that is
nil, as every list field of a new envelope is, or empty, gives the list of
the same length whose `i`-th element is the `i`-th element of the array
decoded into a zero value: nothing is reordered, merged or dropped, and
equal elements are all kept.  In a struct decoded from its zero value, a
field reached by exactly one member of the object holds what that member
decodes to.  Hence, for every type, every document decoded into a zero value
of it and every path of array indices and of fields whose key is not
repeated (`docAt`) that leads to an array decoded into a list: the decoded
value holds at that path the list of the decoded elements, in order; so it
is for every body that `Decode` reads into a new envelope.  On the body
`{"data":{"ipv4_peers":[{"asn":2},{"asn":1},{"asn":2}]}}` the path of the
fields `data` and `ipv4_peers` leads to the array of three elements, and the
list decoded is the peers 2, 1, 2. -/
theorem lists_keep_order (elem : GoType) (raw : GoString) (es : List (GoString × Value)) :
    (decodeValue (.slice elem) raw (.array es) (zero (.slice elem))).1 =
      .slice (es.map (fun e => (decodeValue elem e.1 e.2 (zero elem)).1)) [] ∧
    (decodeValue (.slice elem) raw (.array es) (.slice [] [])).1 =
      .slice (es.map (fun e => (decodeValue elem e.1 e.2 (zero elem)).1)) [] ∧
    (es.map (fun e => (decodeValue elem e.1 e.2 (zero elem)).1)).length = es.length ∧
    (∀ (i : Nat) (e : GoString × Value), es[i]? = some e →
      (es.map (fun e => (decodeValue elem e.1 e.2 (zero elem)).1))[i]? =
        some (decodeValue elem e.1 e.2 (zero elem)).1) ∧
    (∀ (fields : List (GoString × Bool × GoType)) (ms : List (GoString × GoString × Value))
      (i : Nat) (f : GoString × Bool × GoType) (m : GoString × GoString × Value),
      fields.get? i = some f → ms.filter (goesTo fields i) = [m] →
      (decodeMembers fields ms (zero.zeros fields)).1[i]? =
        some (decodeValue f.2.2 m.2.1 m.2.2 (zero f.2.2)).1) ∧
    (∀ (ty : GoType) (raw0 : GoString) (v : Value) (path : List Nat) (raw1 : GoString),
      docAt path (ty, raw0, v) = some (.slice elem, raw1, .array es) →
      decodedAt path (decodeValue ty raw0 v (zero ty)).1 =
        some (.slice (es.map (fun e => (decodeValue elem e.1 e.2 (zero elem)).1)) [])) ∧
    (∀ (T : GoType) (body : http.Body) (raw0 rest : GoString) (v : Value) (path : List Nat)
      (raw1 : GoString),
      readValue body.data = .ok (raw0, v, rest) → v.isContainer = true →
      docAt path (T, raw0, v) = some (.slice elem, raw1, .array es) →
      decodedAt path (Decode T body (zero T)).1 =
        some (.slice (es.map (fun e => (decodeValue elem e.1 e.2 (zero elem)).1)) [])) ∧
    (∃ (raw0 : GoString) (v : Value) (raw1 : GoString) (es3 : List (GoString × Value)),
      readValue threePeersBody = .ok (raw0, v, []) ∧
      docAt [2, 0] (ASNPeersInfo.goType, raw0, v) =
        some (.slice ASNIPPeersData.goType, raw1, .array es3) ∧
      es3.length = 3) ∧
    decodedAt [2, 0]
        (Decode ASNPeersInfo.goType (bodyOf threePeersBody) (zero ASNPeersInfo.goType)).1 =
      some (.slice [peerOf 2 [], peerOf 1 [], peerOf 2 []] []) := by
  have hpath : ∀ (ty : GoType) (raw0 : GoString) (v : Value) (path : List Nat) (raw1 : GoString),
      docAt path (ty, raw0, v) = some (.slice elem, raw1, .array es) →
      decodedAt path (decodeValue ty raw0 v (zero ty)).1 =
        some (.slice (es.map (fun e => (decodeValue elem e.1 e.2 (zero elem)).1)) []) := by
    intro ty raw0 v path raw1 h
    have := decodedAt_docAt path (ty, raw0, v) (.slice elem, raw1, .array es) h
    dsimp only at this
    rw [this, decodeValue_array_fresh elem raw1 es _ (Or.inl (by rfl))]
  refine ⟨decodeValue_array_fresh elem raw es _ (Or.inl (by rfl)),
    decodeValue_array_fresh elem raw es _ (Or.inr rfl), List.length_map _ _, ?_, ?_, hpath, ?_,
    ⟨_, _, _, _, rfl, rfl, rfl⟩, ?_⟩
  · intro i e he
    rw [List.getElem?_map, he]
    rfl
  · intro fields ms i f m hf hm
    exact decodeMembers_fresh fields ms i f m hf hm
  · intro T body raw0 rest v path raw1 hread hv h
    rw [Decode_container T body _ raw0 rest v hv hread]
    exact hpath T raw0 v path raw1 h
  · rfl

/-- Counterexample to C18: in the body
`{"data":{"ipv4_peers":[{"asn":1,"name":"A"}],"ipv4_peers":[{"asn":2}]}}`
the key `ipv4_peers` is repeated.  `Decode` reads it without error; the
array of the second member has the one element `{"asn":2}`, whose decoding
is the peer of ASN 2 without a name; but the decoded list holds the peer of
ASN 2 with the name `A`: the element was decoded into the element the first
array had left, and the two are merged. -/
theorem lists_merge_counterexample :
    readValue repeatedPeersBody = .ok (repeatedPeersBody, repeatedPeersDoc, []) ∧
    (Decode ASNPeersInfo.goType (bodyOf repeatedPeersBody) (zero ASNPeersInfo.goType)).2 =
      none ∧
    field ASNPeersData.goType (utf8 "ipv4_peers")
      (field ASNPeersInfo.goType (utf8 "data")
        (Decode ASNPeersInfo.goType (bodyOf repeatedPeersBody)
          (zero ASNPeersInfo.goType)).1) = .slice [peerOf 2 (utf8 "A")] [] ∧
    (decodeValue ASNIPPeersData.goType (utf8 "\x7b\"asn\":2\x7d")
      (.object [(utf8 "asn", utf8 "2", .number (utf8 "2"))])
      (zero ASNIPPeersData.goType)).1 = peerOf 2 [] ∧
    DeepEqual (peerOf 2 (utf8 "A")) (peerOf 2 []) = false := by
  refine ⟨rfl, rfl, rfl, rfl, rfl⟩

/-- C19: an array `[]` decodes into any list field as the empty non-nil
list; a list field that no member of the object is decoded into keeps its
value, nil in a fresh destination; the empty list and the nil list are not
equal (`reflect.DeepEqual` tells them apart); and the downstreams body
`{"status":"ok","data":{"ipv4_downstreams":[]}}` decodes without error to
`IPv4Downstreams` empty and not nil, `IPv6Downstreams` nil. -/
theorem empty_list_is_not_nil (elem : GoType) (raw : GoString) (dest : GoVal)
    (fields : List (GoString × Bool × GoType)) (ms : List (GoString × GoString × Value))
    (i : Nat) (key : GoString) (oe : Bool) :
    decodeValue (.slice elem) raw (.array []) dest = (.slice [] [], none) ∧
    zero (.slice elem) = .nilSlice ∧
    ((∀ m ∈ ms, goesTo fields i m = false) → fields[i]? = some (key, oe, .slice elem) →
      (decodeMembers fields ms (zero.zeros fields)).1[i]? = some .nilSlice) ∧
    GoVal.slice [] [] ≠ GoVal.nilSlice ∧
    DeepEqual (.slice [] []) .nilSlice = false ∧ DeepEqual .nilSlice (.slice [] []) = false ∧
    (Decode ASNDownstreamsInfo.goType (bodyOf downstreamsBody)
      (zero ASNDownstreamsInfo.goType)).2 = none ∧
    field ASNDownstreamsData.goType (utf8 "ipv4_downstreams")
      (field ASNDownstreamsInfo.goType (utf8 "data")
        (Decode ASNDownstreamsInfo.goType (bodyOf downstreamsBody)
          (zero ASNDownstreamsInfo.goType)).1) = .slice [] [] ∧
    field ASNDownstreamsData.goType (utf8 "ipv6_downstreams")
      (field ASNDownstreamsInfo.goType (utf8 "data")
        (Decode ASNDownstreamsInfo.goType (bodyOf downstreamsBody)
          (zero ASNDownstreamsInfo.goType)).1) = .nilSlice := by
  refine ⟨by simp only [decodeValue], rfl, ?_, GoVal.noConfusion, rfl, rfl, rfl, rfl, rfl⟩
  intro h hf
  rw [decodeMembers_absent fields i ms _ (fun m hm hidx => by
    have := h m hm
    simp [goesTo, hidx] at this), zeros_getElem?, hf]
  rfl

/-! ## The key of the metadata -/

theorem fieldIndex_exact (fields : List (GoString × Bool × GoType)) (key : GoString) (i : Nat)
    (h : indexWhere (fun f => decide (f.1 = key)) fields = some i) :
    fieldIndex fields key = some i := by
  unfold fieldIndex
  rw [h]

/-- In a struct whose field `i` is tagged `@meta` and has the type `Meta`, a
fresh destination decoded from an object with one `@meta` member holding the
example metadata has `metaUTC` in that field. -/
theorem meta_general (name : GoString) (fields : List (GoString × Bool × GoType)) (i : Nat)
    (hidx : indexWhere (fun f => decide (f.1 = utf8 "@meta")) fields = some i)
    (hf : fields.get? i = some (utf8 "@meta", true, Meta.goType))
    (raw mraw r1 r2 r3 : GoString) (pre post : List (GoString × GoString × Value))
    (hother : ∀ m ∈ pre ++ post, equalFold (utf8 "@meta") m.1 = false) :
    field (.struct name fields) (utf8 "@meta")
      (decodeValue (.struct name fields) raw
        (.object (pre ++ (utf8 "@meta", mraw, metaObject r1 r2 r3) :: post))
        (zero (.struct name fields))).1 = metaUTC := by
  have hself : equalFold (utf8 "@meta") (utf8 "@meta") = true := by decide
  have hnot : ∀ m ∈ pre ++ post, goesTo fields i m = false := by
    intro m hm
    by_contra hg
    have hidx2 : fieldIndex fields m.1 = some i := by simpa [goesTo] using hg
    obtain ⟨f, hf2, hm2⟩ := fieldIndex_some fields m.1 i hidx2
    rw [hf] at hf2
    cases hf2
    have := hother m hm
    rcases hm2 with h1 | h1
    · dsimp only at h1
      rw [← h1, hself] at this
      exact absurd this (by simp)
    · dsimp only at h1
      rw [h1] at this
      exact absurd this (by simp)
  have hfilter : (pre ++ (utf8 "@meta", mraw, metaObject r1 r2 r3) :: post).filter
      (goesTo fields i) = [(utf8 "@meta", mraw, metaObject r1 r2 r3)] := by
    have hme : goesTo fields i (utf8 "@meta", mraw, metaObject r1 r2 r3) = true := by
      simp [goesTo, fieldIndex_exact fields _ i hidx]
    have hpre : pre.filter (goesTo fields i) = [] := by
      rw [List.filter_eq_nil_iff]
      intro m hm
      simp [hnot m (List.mem_append_left _ hm)]
    have hpost : post.filter (goesTo fields i) = [] := by
      rw [List.filter_eq_nil_iff]
      intro m hm
      simp [hnot m (List.mem_append_right _ hm)]
    rw [List.filter_append, List.filter_cons_of_pos hme, hpre, hpost]
    rfl
  have hf1 : fields[i]? = some (utf8 "@meta", true, Meta.goType) := by
    rw [← List.get?_eq_getElem?]; exact hf
  have h1 := zeros_getElem? fields i
  rw [hf1] at h1
  have hi : i < (zero.zeros fields).length := by
    by_contra hge
    rw [List.getElem?_eq_none (by omega)] at h1
    simp at h1
  have hz : (zero.zeros fields).getD i (zero Meta.goType) = zero Meta.goType := by
    rw [List.getD_eq_getElem?_getD, h1]
    rfl
  have hres := decodeMembers_single fields i _ (zero.zeros fields) _ _ hf hi hfilter
  dsimp only at hres
  rw [hz] at hres
  simp only [zero]
  rw [decodeValue_struct_object]
  simp only [field, hidx, List.getD_eq_getElem?_getD, hres]
  rfl

/-- C16 (amended): in every envelope type the metadata object is read from
the top-level key `@meta`.  For every body whose first JSON value is an
object with a member `@meta` holding `{"time_zone": "UTC", "api_version": 1,
"execution_time": "24.48 ms"}` and with no other key equal to `@meta` under
case folding, the envelope decoded from it has
`Meta{TimeZone: "UTC", APIVersion: 1, ExecutionTime: "24.48 ms"}`. -/
theorem meta_read_from_at_meta (T : GoType) (hT : T ∈ envelopeTypes) (body : http.Body)
    (raw rest mraw r1 r2 r3 : GoString) (pre post : List (GoString × GoString × Value))
    (hread : readValue body.data =
      .ok (raw, .object (pre ++ (utf8 "@meta", mraw, metaObject r1 r2 r3) :: post), rest))
    (hother : ∀ m ∈ pre ++ post, equalFold (utf8 "@meta") m.1 = false) :
    field T (utf8 "@meta") (Decode T body (zero T)).1 = metaUTC := by
  rw [Decode_container T body _ raw rest
    (.object (pre ++ (utf8 "@meta", mraw, metaObject r1 r2 r3) :: post)) rfl hread]
  simp only [envelopeTypes, List.mem_cons, List.mem_singleton, List.not_mem_nil, or_false] at hT
  rcases hT with rfl | rfl | rfl | rfl | rfl | rfl | rfl | rfl | rfl | rfl <;>
    exact meta_general _ _ 3 (by decide) (by rfl) raw mraw r1 r2 r3 pre post hother

/-- Witness of C16 (amended): the body
`{"status":"ok","@meta":{"time_zone":"UTC","api_version":1,"execution_time":"24.48 ms"}}`
decodes into an `ASNInfo` whose `Meta` is the example metadata. -/
theorem meta_read_from_at_meta_witness :
    field ASNInfo.goType (utf8 "@meta")
      (Decode ASNInfo.goType (bodyOf atMetaBody) (zero ASNInfo.goType)).1 = metaUTC :=
  meta_read_from_at_meta ASNInfo.goType (by simp [envelopeTypes]) (bodyOf atMetaBody)
    (consumed atMetaBody []) []
    (utf8 ("\x7b\"time_zone\":\"UTC\",\"api_version\":1,\"execution_time\":\"24.48 ms\"\x7d"))
    (utf8 "\"UTC\"") (utf8 "1") (utf8 "\"24.48 ms\"")
    [(utf8 "status", utf8 "\"ok\"", .string (utf8 "ok"))] [] (by rfl) (by decide)

/-- Counterexample to C16: the body
`{"status":"ok","meta":{"time_zone":"UTC","api_version":1,"execution_time":"24.48 ms"}}`
decodes into an `ASNInfo` without error, and its `Meta` is all zero: the key
`meta` names no field and is skipped. -/
theorem meta_key_counterexample :
    (Decode ASNInfo.goType (bodyOf plainMetaBody) (zero ASNInfo.goType)).2 = none ∧
    field ASNInfo.goType (utf8 "@meta")
      (Decode ASNInfo.goType (bodyOf plainMetaBody) (zero ASNInfo.goType)).1 =
        .struct [.str [], .int 0, .str []] ∧
    fieldIndex [(utf8 "status", true, GoType.string), (utf8 "status_message", true, GoType.string),
      (utf8 "data", true, ASNData.goType), (utf8 "@meta", true, Meta.goType)] (utf8 "meta") =
        none := by
  refine ⟨rfl, rfl, by decide⟩

/-! ## Lemmas: UTF-8 sequences -/

open json

theorem runeLen_ascii (c : Byte) (s : GoString) (h : c < 0x80) : runeLen (c :: s) = 1 := by
  unfold runeLen
  simp only [if_pos h]

/-- The sequence at the head of the input: its length depends on its own
bytes only, and none of them is ASCII unless it is a single byte. -/
theorem runeLen_spec (s : GoString) (h : runeLen s ≠ 0) :
    ∃ chunk rest, s = chunk ++ rest ∧ chunk.length = runeLen s ∧
      (∀ t, runeLen (chunk ++ t) = chunk.length) ∧
      ((∀ b ∈ chunk, ¬ b < 0x80) ∨ ∃ b, chunk = [b] ∧ b < 0x80) := by
  rcases s with _ | ⟨b0, s1⟩
  · exact absurd rfl h
  by_cases h0 : b0 < 0x80
  · refine ⟨[b0], s1, rfl, (runeLen_ascii b0 s1 h0).symm, fun t => runeLen_ascii b0 t h0,
      Or.inr ⟨b0, rfl, h0⟩⟩
  by_cases h2 : 0xC2 ≤ b0 ∧ b0 ≤ 0xDF
  · rcases s1 with _ | ⟨b1, s2⟩
    · simp [runeLen, h0, h2] at h
    · by_cases hc : (decide (0x80 ≤ b1) && decide (b1 ≤ 0xBF)) = true
      · have e : ∀ t, runeLen (b0 :: b1 :: t) = 2 := fun t => by
          simp only [runeLen, if_neg h0, if_pos h2, if_pos hc]
        refine ⟨[b0, b1], s2, rfl, (e s2).symm, fun t => e t, Or.inl ?_⟩
        intro b hb
        simp only [List.mem_cons, List.mem_singleton, List.not_mem_nil, or_false] at hb
        rcases hb with rfl | rfl
        · exact h0
        · simp only [Bool.and_eq_true, decide_eq_true_eq] at hc
          exact not_lt.mpr hc.1
      · simp only [runeLen, if_neg h0, if_pos h2, if_neg hc] at h
        exact absurd rfl h
  by_cases h3 : 0xE0 ≤ b0 ∧ b0 ≤ 0xEF
  · have e : ∀ b1 b2 t, runeLen (b0 :: b1 :: b2 :: t) =
        if (if b0 = 0xE0 then (0xA0 : Byte) else 0x80) ≤ b1 ∧
            b1 ≤ (if b0 = 0xED then (0x9F : Byte) else 0xBF) ∧
            (decide (0x80 ≤ b2) && decide (b2 ≤ 0xBF)) = true then 3 else 0 := fun b1 b2 t => by
      simp only [runeLen, if_neg h0, if_neg h2, if_pos h3]
    rcases s1 with _ | ⟨b1, _ | ⟨b2, s3⟩⟩
    · simp [runeLen, h0, h2, h3] at h
    · simp [runeLen, h0, h2, h3] at h
    · rw [e] at h ⊢
      by_cases hc : (if b0 = 0xE0 then (0xA0 : Byte) else 0x80) ≤ b1 ∧
          b1 ≤ (if b0 = 0xED then (0x9F : Byte) else 0xBF) ∧
          (decide (0x80 ≤ b2) && decide (b2 ≤ 0xBF)) = true
      · rw [if_pos hc]
        refine ⟨[b0, b1, b2], s3, rfl, rfl, fun t => ?_, Or.inl ?_⟩
        · rw [List.cons_append, List.cons_append, List.cons_append, List.nil_append, e, if_pos hc]
          rfl
        · intro b hb
          simp only [List.mem_cons, List.mem_singleton, List.not_mem_nil, or_false] at hb
          obtain ⟨hlo, _, hc2⟩ := hc
          simp only [Bool.and_eq_true, decide_eq_true_eq] at hc2
          rcases hb with rfl | rfl | rfl
          · exact h0
          · have : (0x80 : Byte) ≤ (if b0 = 0xE0 then (0xA0 : Byte) else 0x80) := by
              split_ifs <;> decide
            exact not_lt.mpr (le_trans this hlo)
          · exact not_lt.mpr hc2.1
      · rw [if_neg hc] at h
        exact absurd rfl h
  by_cases h4 : 0xF0 ≤ b0 ∧ b0 ≤ 0xF4
  · have e : ∀ b1 b2 b3 t, runeLen (b0 :: b1 :: b2 :: b3 :: t) =
        if (if b0 = 0xF0 then (0x90 : Byte) else 0x80) ≤ b1 ∧
            b1 ≤ (if b0 = 0xF4 then (0x8F : Byte) else 0xBF) ∧
            (decide (0x80 ≤ b2) && decide (b2 ≤ 0xBF)) = true ∧
            (decide (0x80 ≤ b3) && decide (b3 ≤ 0xBF)) = true then 4 else 0 :=
        fun b1 b2 b3 t => by
      simp only [runeLen, if_neg h0, if_neg h2, if_neg h3, if_pos h4]
    rcases s1 with _ | ⟨b1, _ | ⟨b2, _ | ⟨b3, s4⟩⟩⟩
    · simp [runeLen, h0, h2, h3, h4] at h
    · simp [runeLen, h0, h2, h3, h4] at h
    · simp [runeLen, h0, h2, h3, h4] at h
    · rw [e] at h ⊢
      by_cases hc : (if b0 = 0xF0 then (0x90 : Byte) else 0x80) ≤ b1 ∧
          b1 ≤ (if b0 = 0xF4 then (0x8F : Byte) else 0xBF) ∧
          (decide (0x80 ≤ b2) && decide (b2 ≤ 0xBF)) = true ∧
          (decide (0x80 ≤ b3) && decide (b3 ≤ 0xBF)) = true
      · rw [if_pos hc]
        refine ⟨[b0, b1, b2, b3], s4, rfl, rfl, fun t => ?_, Or.inl ?_⟩
        · rw [List.cons_append, List.cons_append, List.cons_append, List.cons_append,
            List.nil_append, e, if_pos hc]
          rfl
        · intro b hb
          simp only [List.mem_cons, List.mem_singleton, List.not_mem_nil, or_false] at hb
          obtain ⟨hlo, _, hc2, hc3⟩ := hc
          simp only [Bool.and_eq_true, decide_eq_true_eq] at hc2 hc3
          rcases hb with rfl | rfl | rfl | rfl
          · exact h0
          · have : (0x80 : Byte) ≤ (if b0 = 0xF0 then (0x90 : Byte) else 0x80) := by
              split_ifs <;> decide
            exact not_lt.mpr (le_trans this hlo)
          · exact not_lt.mpr hc2.1
          · exact not_lt.mpr hc3.1
      · rw [if_neg hc] at h
        exact absurd rfl h
  · simp [runeLen, h0, h2, h3, h4] at h

theorem byte_val_ofNat (n : Nat) : ((Fin.ofNat n : Byte)).val = n % 256 := rfl

theorem runeLen_two (b0 b1 : Byte) (t : GoString) (h2 : 0xC2 ≤ b0.val ∧ b0.val ≤ 0xDF)
    (h1 : 0x80 ≤ b1.val ∧ b1.val ≤ 0xBF) : runeLen (b0 :: b1 :: t) = 2 := by
  have h0 : ¬ b0 < 0x80 := fun h => by
    have : b0.val < 0x80 := h
    omega
  have h2f : (0xC2 : Byte) ≤ b0 ∧ b0 ≤ 0xDF := ⟨h2.1, h2.2⟩
  have hc : (decide ((0x80 : Byte) ≤ b1) && decide (b1 ≤ (0xBF : Byte))) = true := by
    simp only [Bool.and_eq_true, decide_eq_true_eq]
    exact ⟨h1.1, h1.2⟩
  simp only [runeLen, if_neg h0, if_pos h2f, if_pos hc]

theorem runeLen_three (b0 b1 b2 : Byte) (t : GoString) (h3 : 0xE0 ≤ b0.val ∧ b0.val ≤ 0xEF)
    (h1 : (if b0.val = 0xE0 then 0xA0 else 0x80) ≤ b1.val ∧
      b1.val ≤ (if b0.val = 0xED then 0x9F else 0xBF))
    (h2 : 0x80 ≤ b2.val ∧ b2.val ≤ 0xBF) : runeLen (b0 :: b1 :: b2 :: t) = 3 := by
  have h0 : ¬ b0 < 0x80 := fun h => by
    have : b0.val < 0x80 := h
    omega
  have h2f : ¬ ((0xC2 : Byte) ≤ b0 ∧ b0 ≤ 0xDF) := fun h => by
    have : b0.val ≤ 0xDF := h.2
    omega
  have h3f : (0xE0 : Byte) ≤ b0 ∧ b0 ≤ 0xEF := ⟨h3.1, h3.2⟩
  have hlo : (if b0 = 0xE0 then (0xA0 : Byte) else 0x80) ≤ b1 := by
    by_cases hb : b0 = 0xE0
    · have hv : b0.val = 0xE0 := congrArg Fin.val hb
      rw [if_pos hb]
      rw [if_pos hv] at h1
      exact h1.1
    · have hv : ¬ b0.val = 0xE0 := fun e => hb (Fin.ext e)
      rw [if_neg hb]
      rw [if_neg hv] at h1
      exact h1.1
  have hhi : b1 ≤ (if b0 = 0xED then (0x9F : Byte) else 0xBF) := by
    by_cases hb : b0 = 0xED
    · have hv : b0.val = 0xED := congrArg Fin.val hb
      rw [if_pos hb]
      rw [if_pos hv] at h1
      exact h1.2
    · have hv : ¬ b0.val = 0xED := fun e => hb (Fin.ext e)
      rw [if_neg hb]
      rw [if_neg hv] at h1
      exact h1.2
  have hc : (decide ((0x80 : Byte) ≤ b2) && decide (b2 ≤ (0xBF : Byte))) = true := by
    simp only [Bool.and_eq_true, decide_eq_true_eq]
    exact ⟨h2.1, h2.2⟩
  simp only [runeLen, if_neg h0, if_neg h2f, if_pos h3f, hlo, hhi, hc, and_self, if_true]

theorem runeLen_four (b0 b1 b2 b3 : Byte) (t : GoString) (h4 : 0xF0 ≤ b0.val ∧ b0.val ≤ 0xF4)
    (h1 : (if b0.val = 0xF0 then 0x90 else 0x80) ≤ b1.val ∧
      b1.val ≤ (if b0.val = 0xF4 then 0x8F else 0xBF))
    (h2 : 0x80 ≤ b2.val ∧ b2.val ≤ 0xBF) (h3 : 0x80 ≤ b3.val ∧ b3.val ≤ 0xBF) :
    runeLen (b0 :: b1 :: b2 :: b3 :: t) = 4 := by
  have h0 : ¬ b0 < 0x80 := fun h => by
    have : b0.val < 0x80 := h
    omega
  have h2f : ¬ ((0xC2 : Byte) ≤ b0 ∧ b0 ≤ 0xDF) := fun h => by
    have : b0.val ≤ 0xDF := h.2
    omega
  have h3f : ¬ ((0xE0 : Byte) ≤ b0 ∧ b0 ≤ 0xEF) := fun h => by
    have : b0.val ≤ 0xEF := h.2
    omega
  have h4f : (0xF0 : Byte) ≤ b0 ∧ b0 ≤ 0xF4 := ⟨h4.1, h4.2⟩
  have hlo : (if b0 = 0xF0 then (0x90 : Byte) else 0x80) ≤ b1 := by
    by_cases hb : b0 = 0xF0
    · have hv : b0.val = 0xF0 := congrArg Fin.val hb
      rw [if_pos hb]
      rw [if_pos hv] at h1
      exact h1.1
    · have hv : ¬ b0.val = 0xF0 := fun e => hb (Fin.ext e)
      rw [if_neg hb]
      rw [if_neg hv] at h1
      exact h1.1
  have hhi : b1 ≤ (if b0 = 0xF4 then (0x8F : Byte) else 0xBF) := by
    by_cases hb : b0 = 0xF4
    · have hv : b0.val = 0xF4 := congrArg Fin.val hb
      rw [if_pos hb]
      rw [if_pos hv] at h1
      exact h1.2
    · have hv : ¬ b0.val = 0xF4 := fun e => hb (Fin.ext e)
      rw [if_neg hb]
      rw [if_neg hv] at h1
      exact h1.2
  have hc2 : (decide ((0x80 : Byte) ≤ b2) && decide (b2 ≤ (0xBF : Byte))) = true := by
    simp only [Bool.and_eq_true, decide_eq_true_eq]
    exact ⟨h2.1, h2.2⟩
  have hc3 : (decide ((0x80 : Byte) ≤ b3) && decide (b3 ≤ (0xBF : Byte))) = true := by
    simp only [Bool.and_eq_true, decide_eq_true_eq]
    exact ⟨h3.1, h3.2⟩
  simp only [runeLen, if_neg h0, if_neg h2f, if_neg h3f, if_pos h4f, hlo, hhi, hc2, hc3,
    and_self, if_true]

/-- The bytes `utf8.EncodeRune` writes are one UTF-8 sequence. -/
theorem runeLen_encodeRune (r : Nat) (t : GoString) :
    runeLen (encodeRune r ++ t) = (encodeRune r).length ∧
      ((∀ b ∈ encodeRune r, ¬ b < 0x80) ∨ ∃ b, encodeRune r = [b] ∧ b < 0x80) := by
  unfold encodeRune
  by_cases h1 : r < 0x80
  · rw [if_pos h1]
    have hb : (Fin.ofNat r : Byte) < 0x80 := by
      show (Fin.ofNat r : Byte).val < 0x80
      rw [byte_val_ofNat]
      omega
    exact ⟨runeLen_ascii _ _ hb, Or.inr ⟨_, rfl, hb⟩⟩
  rw [if_neg h1]
  by_cases h2 : r < 0x800
  · rw [if_pos h2]
    refine ⟨runeLen_two _ _ _ ?_ ?_, Or.inl ?_⟩
    · rw [byte_val_ofNat]; omega
    · rw [byte_val_ofNat]; omega
    · intro b hb hlt
      have hv : b.val < 0x80 := hlt
      simp only [List.mem_cons, List.mem_singleton, List.not_mem_nil, or_false] at hb
      rcases hb with rfl | rfl <;> rw [byte_val_ofNat] at hv <;> omega
  rw [if_neg h2]
  by_cases h3 : (0xD800 ≤ r ∧ r < 0xE000) ∨ 0x10FFFF < r
  · rw [if_pos h3]
    refine ⟨runeLen_three _ _ _ _ (by decide) (by decide) (by decide), Or.inl (by decide)⟩
  rw [if_neg h3]
  by_cases h4 : r < 0x10000
  · rw [if_pos h4]
    refine ⟨runeLen_three _ _ _ _ ?_ ?_ ?_, Or.inl ?_⟩
    · rw [byte_val_ofNat]; omega
    · simp only [byte_val_ofNat]
      constructor <;> split_ifs <;> omega
    · rw [byte_val_ofNat]; omega
    · intro b hb hlt
      have hv : b.val < 0x80 := hlt
      simp only [List.mem_cons, List.mem_singleton, List.not_mem_nil, or_false] at hb
      rcases hb with rfl | rfl | rfl <;> rw [byte_val_ofNat] at hv <;> omega
  rw [if_neg h4]
  refine ⟨runeLen_four _ _ _ _ _ ?_ ?_ ?_ ?_, Or.inl ?_⟩
  · rw [byte_val_ofNat]; omega
  · simp only [byte_val_ofNat]
    constructor <;> split_ifs <;> omega
  · rw [byte_val_ofNat]; omega
  · rw [byte_val_ofNat]; omega
  · intro b hb hlt
    have hv : b.val < 0x80 := hlt
    simp only [List.mem_cons, List.mem_singleton, List.not_mem_nil, or_false] at hb
    rcases hb with rfl | rfl | rfl | rfl <;> rw [byte_val_ofNat] at hv <;> omega

/-! ## Lemmas: the scanner inside a string literal -/

open json

theorem keepByte_ok (c : Byte) (r : Except ScanError (GoString × GoString))
    (body rest : GoString) :
    keepByte c r = .ok (body, rest) ↔ ∃ b, r = .ok (b, rest) ∧ body = c :: b := by
  cases r with
  | error e => simp [keepByte]
  | ok p =>
    obtain ⟨b, r1⟩ := p
    simp only [keepByte, Except.ok.injEq, Prod.mk.injEq]
    constructor
    · rintro ⟨h1, h2⟩
      exact ⟨b, ⟨rfl, h2⟩, h1.symm⟩
    · rintro ⟨b1, ⟨h1, h2⟩, h3⟩
      subst h1
      exact ⟨h3.symm, h2⟩

theorem scanStringFrom_cons (st : StringState) (c : Byte) (s : GoString) :
    scanStringFrom st (c :: s) =
      match stringStep st c with
      | .error err => .error err
      | .ok none => .ok ([], s)
      | .ok (some next) => keepByte c (scanStringFrom next s) := by
  rw [scanStringFrom]

theorem stringStep_stop (st : StringState) (c : Byte) (h : stringStep st c = .ok none) :
    st = .inString ∧ c = ch '"' := by
  cases st <;> simp only [stringStep] at h <;> split_ifs at h <;> simp_all

theorem strFrom_nil (st : StringState) : StrFrom st [] ↔ st = .inString := by
  constructor
  · intro h
    have h1 := h []
    rw [List.nil_append, scanStringFrom_cons] at h1
    cases hs : stringStep st (ch '"') with
    | error e => rw [hs] at h1; simp at h1
    | ok o =>
      cases o with
      | none => exact (stringStep_stop st _ hs).1
      | some st1 =>
        rw [hs] at h1
        simp only [keepByte_ok] at h1
        obtain ⟨b, _, hb⟩ := h1
        cases hb
  · rintro rfl R
    rw [List.nil_append, scanStringFrom_cons]
    rfl

theorem strFrom_cons (st : StringState) (c : Byte) (body : GoString) :
    StrFrom st (c :: body) ↔ ∃ next, stringStep st c = .ok (some next) ∧ StrFrom next body := by
  constructor
  · intro h
    cases hs : stringStep st c with
    | error e =>
      have h1 := h []
      rw [List.cons_append, scanStringFrom_cons, hs] at h1
      simp at h1
    | ok o =>
      cases o with
      | none =>
        have h1 := h []
        rw [List.cons_append, scanStringFrom_cons, hs] at h1
        simp at h1
      | some next =>
        refine ⟨next, rfl, fun R => ?_⟩
        have h1 := h R
        rw [List.cons_append, scanStringFrom_cons, hs] at h1
        simp only [keepByte_ok] at h1
        obtain ⟨b, hb, he⟩ := h1
        cases he
        exact hb
  · rintro ⟨next, hs, h⟩ R
    rw [List.cons_append, scanStringFrom_cons, hs]
    simp only [keepByte_ok]
    exact ⟨body, h R, rfl⟩

/-- What the scanner accepts as a string literal is its body, the closing
quote and the rest of the input; the body is read the same way whatever
follows it. -/
theorem scanStringFrom_spec : ∀ (s : GoString) (st : StringState) (body rest : GoString),
    scanStringFrom st s = .ok (body, rest) → s = body ++ ch '"' :: rest ∧ StrFrom st body := by
  intro s
  induction s with
  | nil => intro st body rest h; simp [scanStringFrom] at h
  | cons c s ih =>
    intro st body rest h
    rw [scanStringFrom_cons] at h
    cases hs : stringStep st c with
    | error e => rw [hs] at h; simp at h
    | ok o =>
      cases o with
      | none =>
        rw [hs] at h
        simp only [Except.ok.injEq, Prod.mk.injEq] at h
        obtain ⟨h1, h2⟩ := h
        subst h1 h2
        obtain ⟨h3, h4⟩ := stringStep_stop st c hs
        subst h3 h4
        exact ⟨rfl, (strFrom_nil _).mpr rfl⟩
      | some next =>
        rw [hs] at h
        simp only [keepByte_ok] at h
        obtain ⟨b, hb, he⟩ := h
        subst he
        obtain ⟨h1, h2⟩ := ih next b rest hb
        refine ⟨by rw [h1]; rfl, (strFrom_cons _ _ _).mpr ⟨next, hs, h2⟩⟩

theorem strBody_safe (c : Byte) (b : GoString) (h : StrFrom .inString (c :: b))
    (hc : c ≠ ch '\\') : c ≠ ch '"' ∧ ¬ c < 0x20 ∧ StrFrom .inString b := by
  obtain ⟨next, hs, hb⟩ := (strFrom_cons _ _ _).mp h
  simp only [stringStep, if_neg hc] at hs
  by_cases h1 : c = ch '"'
  · rw [if_pos h1] at hs
    simp at hs
  rw [if_neg h1] at hs
  by_cases h2 : c < 0x20
  · rw [if_pos h2] at hs
    simp at hs
  rw [if_neg h2] at hs
  simp only [Except.ok.injEq, Option.some.injEq] at hs
  subst hs
  exact ⟨h1, h2, hb⟩

theorem strBody_cons_safe (c : Byte) (b : GoString) (h1 : c ≠ ch '"') (h2 : c ≠ ch '\\')
    (h3 : ¬ c < 0x20) (h : StrFrom .inString b) : StrFrom .inString (c :: b) :=
  (strFrom_cons _ _ _).mpr ⟨.inString, by simp only [stringStep, if_neg h1, if_neg h2, if_neg h3], h⟩

theorem strBody_append_high (chunk X : GoString) (hc : ∀ b ∈ chunk, ¬ b < 0x80) :
    StrFrom .inString (chunk ++ X) ↔ StrFrom .inString X := by
  induction chunk with
  | nil => rfl
  | cons c t ih =>
    have h0 : ¬ c < 0x80 := hc c (List.mem_cons_self _ _)
    have hv : ¬ c.val < 0x80 := h0
    have h1 : c ≠ ch '"' := fun e => by rw [e] at h0; exact h0 (by decide)
    have h2 : c ≠ ch '\\' := fun e => by rw [e] at h0; exact h0 (by decide)
    have h3 : ¬ c < 0x20 := fun e => by
      have : c.val < 0x20 := e
      omega
    rw [List.cons_append]
    constructor
    · intro h
      exact (ih (fun b hb => hc b (List.mem_cons_of_mem _ hb))).mp (strBody_safe c _ h h2).2.2
    · intro h
      exact strBody_cons_safe c _ h1 h2 h3
        ((ih (fun b hb => hc b (List.mem_cons_of_mem _ hb))).mpr h)

theorem strFrom_hex (st next : StringState) (hne : st ≠ .inString)
    (hstep : ∀ c, stringStep st c = if isHex c then .ok (some next) else .error .syntaxError)
    (b : GoString) :
    StrFrom st b ↔ ∃ h b1, b = h :: b1 ∧ isHex h = true ∧ StrFrom next b1 := by
  constructor
  · intro hb
    cases b with
    | nil => exact absurd ((strFrom_nil st).mp hb) hne
    | cons h b1 =>
      obtain ⟨n1, hs, h1⟩ := (strFrom_cons _ _ _).mp hb
      rw [hstep] at hs
      by_cases hh : isHex h = true
      · rw [if_pos hh] at hs
        simp only [Except.ok.injEq, Option.some.injEq] at hs
        subst hs
        exact ⟨h, b1, rfl, hh, h1⟩
      · rw [if_neg hh] at hs
        simp at hs
  · rintro ⟨h, b1, rfl, hh, h1⟩
    exact (strFrom_cons _ _ _).mpr ⟨next, by rw [hstep, if_pos hh], h1⟩

/-- The four hexadecimal digits of a `\u` escape. -/
theorem strFrom_escU (b : GoString) :
    StrFrom .escU b ↔ ∃ h1 h2 h3 h4 b1, b = h1 :: h2 :: h3 :: h4 :: b1 ∧ isHex h1 = true ∧
      isHex h2 = true ∧ isHex h3 = true ∧ isHex h4 = true ∧ StrFrom .inString b1 := by
  rw [strFrom_hex .escU .escU1 (by decide) (fun c => rfl)]
  constructor
  · rintro ⟨h1, b1, rfl, hh1, hb⟩
    rw [strFrom_hex .escU1 .escU12 (by decide) (fun c => rfl)] at hb
    obtain ⟨h2, b2, rfl, hh2, hb⟩ := hb
    rw [strFrom_hex .escU12 .escU123 (by decide) (fun c => rfl)] at hb
    obtain ⟨h3, b3, rfl, hh3, hb⟩ := hb
    rw [strFrom_hex .escU123 .inString (by decide) (fun c => rfl)] at hb
    obtain ⟨h4, b4, rfl, hh4, hb⟩ := hb
    exact ⟨h1, h2, h3, h4, b4, rfl, hh1, hh2, hh3, hh4, hb⟩
  · rintro ⟨h1, h2, h3, h4, b1, rfl, hh1, hh2, hh3, hh4, hb⟩
    refine ⟨h1, _, rfl, hh1, ?_⟩
    rw [strFrom_hex .escU1 .escU12 (by decide) (fun c => rfl)]
    refine ⟨h2, _, rfl, hh2, ?_⟩
    rw [strFrom_hex .escU12 .escU123 (by decide) (fun c => rfl)]
    refine ⟨h3, _, rfl, hh3, ?_⟩
    rw [strFrom_hex .escU123 .inString (by decide) (fun c => rfl)]
    exact ⟨h4, _, rfl, hh4, hb⟩

/-- What follows a backslash inside a string literal. -/
theorem strBody_esc (b : GoString) :
    StrFrom .inString (ch '\\' :: b) ↔
      ∃ e b1, b = e :: b1 ∧
        ((simpleEscape e ∧ StrFrom .inString b1) ∨
          (¬ simpleEscape e ∧ e = ch 'u' ∧ StrFrom .escU b1)) := by
  have hstep : stringStep .inString (ch '\\') = .ok (some .esc) := by decide
  rw [strFrom_cons]
  constructor
  · rintro ⟨next, hs, hb⟩
    rw [hstep] at hs
    simp only [Except.ok.injEq, Option.some.injEq] at hs
    subst hs
    cases b with
    | nil => exact absurd ((strFrom_nil _).mp hb) (by decide)
    | cons e b1 =>
      obtain ⟨n1, hs, h1⟩ := (strFrom_cons _ _ _).mp hb
      refine ⟨e, b1, rfl, ?_⟩
      by_cases he : simpleEscape e
      · left
        have : stringStep .esc e = .ok (some .inString) := by
          simp only [stringStep]
          exact if_pos he
        rw [this] at hs
        simp only [Except.ok.injEq, Option.some.injEq] at hs
        subst hs
        exact ⟨he, h1⟩
      · right
        have e1 : stringStep .esc e =
            if e = ch 'u' then .ok (some .escU) else .error .syntaxError := by
          simp only [stringStep]
          exact if_neg he
        rw [e1] at hs
        by_cases hu : e = ch 'u'
        · rw [if_pos hu] at hs
          simp only [Except.ok.injEq, Option.some.injEq] at hs
          subst hs
          exact ⟨he, hu, h1⟩
        · rw [if_neg hu] at hs
          simp at hs
  · rintro ⟨e, b1, rfl, h⟩
    refine ⟨.esc, hstep, (strFrom_cons _ _ _).mpr ?_⟩
    rcases h with ⟨he, hb⟩ | ⟨he, hu, hb⟩
    · refine ⟨.inString, ?_, hb⟩
      simp only [stringStep]
      exact if_pos he
    · refine ⟨.escU, ?_, hb⟩
      simp only [stringStep]
      exact (if_neg he).trans (if_pos hu)

/-! ## Lemmas: unquoted strings are valid UTF-8 -/

open json

theorem validUTF8_append_chunk (chunk t : GoString) (hne : chunk ≠ [])
    (hlen : runeLen (chunk ++ t) = chunk.length)
    (hb : (∀ b ∈ chunk, ¬ b < 0x80) ∨ ∃ b, chunk = [b] ∧ b < 0x80) (ht : ValidUTF8 t) :
    ValidUTF8 (chunk ++ t) := by
  rcases hb with hb | ⟨b, rfl, hb⟩
  · cases chunk with
    | nil => exact absurd rfl hne
    | cons c cs =>
      have hc : ¬ c < 0x80 := hb c (List.mem_cons_self _ _)
      rw [List.cons_append] at hlen ⊢
      refine ValidUTF8.rune c (cs ++ t) hc (by rw [hlen]; simp) ?_
      rw [hlen, ← List.cons_append, List.drop_left]
      exact ht
  · exact ValidUTF8.ascii b t hb ht

theorem encodeRune_ne_nil (r : Nat) : encodeRune r ≠ [] := by
  unfold encodeRune
  split_ifs <;> simp

theorem validUTF8_encodeRune (r : Nat) (t : GoString) (ht : ValidUTF8 t) :
    ValidUTF8 (encodeRune r ++ t) :=
  validUTF8_append_chunk _ _ (encodeRune_ne_nil r) (runeLen_encodeRune r t).1
    (runeLen_encodeRune r t).2 ht

theorem validUTF8_replacement (t : GoString) (ht : ValidUTF8 t) :
    ValidUTF8 ([0xEF, 0xBF, 0xBD] ++ t) :=
  validUTF8_append_chunk _ _ (by simp)
    (runeLen_three _ _ _ _ (by decide) (by decide) (by decide)) (Or.inl (by decide)) ht

/-- The sequence at the head of a string whose first byte is not ASCII. -/
theorem runeLen_split (c : Byte) (s : GoString) (hc : ¬ c < 0x80) (hn : runeLen (c :: s) ≠ 0) :
    ∃ chunk rest, c :: s = chunk ++ rest ∧ chunk.length = runeLen (c :: s) ∧ chunk ≠ [] ∧
      (∀ t, runeLen (chunk ++ t) = chunk.length) ∧ (∀ b ∈ chunk, ¬ b < 0x80) ∧
      (c :: s).take (runeLen (c :: s)) = chunk ∧ (c :: s).drop (runeLen (c :: s)) = rest := by
  obtain ⟨chunk, rest, h1, h2, h3, h4⟩ := runeLen_spec (c :: s) hn
  have hne : chunk ≠ [] := by
    intro e
    rw [e] at h2
    exact hn h2.symm
  refine ⟨chunk, rest, h1, h2, hne, h3, ?_, ?_, ?_⟩
  · rcases h4 with h4 | ⟨b, rfl, hb⟩
    · exact h4
    · simp only [List.singleton_append, List.cons.injEq] at h1
      rw [h1.1] at hc
      exact absurd hb hc
  · rw [← h2, h1, List.take_left]
  · rw [← h2, h1, List.drop_left]

theorem simpleEscape_not_u : ¬ simpleEscape (ch 'u') := by
  unfold simpleEscape
  decide

/-- The text of a scanned string literal is valid UTF-8. -/
theorem unquoteLoop_valid : ∀ (fuel : Nat) (body : GoString),
    StrFrom .inString body → ValidUTF8 (unquoteLoop fuel body) := by
  intro fuel
  induction fuel with
  | zero => intro body _; rw [unquoteLoop]; exact ValidUTF8.nil
  | succ f ih =>
    intro body hb
    cases body with
    | nil => rw [unquoteLoop]; exact ValidUTF8.nil
    | cons c s =>
      rw [unquoteLoop.eq_def]
      dsimp only
      by_cases hc : c = ch '\\'
      · subst hc
        rw [if_pos rfl]
        obtain ⟨e, b1, rfl, h⟩ := (strBody_esc s).mp hb
        dsimp only
        by_cases hu : e = ch 'u'
        · subst hu
          rw [if_pos rfl]
          rcases h with ⟨he, _⟩ | ⟨_, _, h⟩
          · exact absurd he simpleEscape_not_u
          obtain ⟨h1, h2, h3, h4, b2, rfl, _, _, _, _, hb2⟩ := (strFrom_escU b1).mp h
          dsimp only
          split_ifs with hsur
          · split
            · rename_i b u k1 k2 k3 k4 s3
              split_ifs with hpair
              · obtain ⟨rfl, rfl, hk1, hk2, hk3, hk4, _⟩ := hpair
                obtain ⟨e1, b3, he1, h5⟩ := (strBody_esc _).mp hb2
                cases he1
                rcases h5 with ⟨he, _⟩ | ⟨_, _, h5⟩
                · exact absurd he simpleEscape_not_u
                obtain ⟨_, _, _, _, b4, hb4, _, _, _, _, hb5⟩ := (strFrom_escU _).mp h5
                cases hb4
                exact validUTF8_encodeRune _ _ (ih _ hb5)
              · exact validUTF8_replacement _ (ih _ hb2)
            · exact validUTF8_replacement _ (ih _ hb2)
          · exact validUTF8_encodeRune _ _ (ih _ hb2)
        · rw [if_neg hu]
          rcases h with ⟨he, hb1⟩ | ⟨_, hu1, _⟩
          · refine ValidUTF8.ascii _ _ ?_ (ih _ hb1)
            unfold simpleEscape at he
            rcases he with rfl | rfl | rfl | rfl | rfl | rfl | rfl | rfl <;> decide
          · exact absurd hu1 hu
      · rw [if_neg hc]
        obtain ⟨_, _, hs⟩ := strBody_safe c s hb hc
        by_cases ha : c < 0x80
        · rw [if_pos ha]
          exact ValidUTF8.ascii _ _ ha (ih _ hs)
        · rw [if_neg ha]
          by_cases hn : runeLen (c :: s) = 0
          · rw [if_pos hn]
            exact validUTF8_replacement _ (ih _ hs)
          · rw [if_neg hn]
            obtain ⟨chunk, rest, h1, h2, hne, h3, h4, h5, h6⟩ := runeLen_split c s ha hn
            rw [h5, h6]
            have hrest : StrFrom .inString rest := by
              rw [h1] at hb
              exact (strBody_append_high chunk rest h4).mp hb
            exact validUTF8_append_chunk _ _ hne (h3 _) (Or.inl h4) (ih _ hrest)

theorem unquote_valid (body : GoString) (h : StrFrom .inString body) :
    ValidUTF8 (unquote body) :=
  unquoteLoop_valid _ _ h

/-! ## Lemmas: a string written by `Marshal` is read back -/

open json

theorem unquoteLoop_ascii (g : Nat) (c : Byte) (s : GoString) (h1 : c ≠ ch '\\')
    (h2 : c < 0x80) : unquoteLoop (g + 1) (c :: s) = c :: unquoteLoop g s := by
  rw [unquoteLoop.eq_def]
  dsimp only
  rw [if_neg h1, if_pos h2]

theorem unquoteLoop_esc (g : Nat) (e : Byte) (s : GoString) (hu : e ≠ ch 'u') :
    unquoteLoop (g + 1) (ch '\\' :: e :: s) =
      (if e = ch 'b' then 8 else if e = ch 'f' then 12 else if e = ch 'n' then 10
        else if e = ch 'r' then 13 else if e = ch 't' then 9 else e) :: unquoteLoop g s := by
  rw [unquoteLoop.eq_def]
  dsimp only
  rw [if_pos rfl, if_neg hu]

theorem unquoteLoop_u (g : Nat) (h1 h2 h3 h4 : Byte) (s : GoString)
    (h : ¬ (0xD800 ≤ hexVal h1 * 4096 + hexVal h2 * 256 + hexVal h3 * 16 + hexVal h4 ∧
      hexVal h1 * 4096 + hexVal h2 * 256 + hexVal h3 * 16 + hexVal h4 < 0xE000)) :
    unquoteLoop (g + 1) (ch '\\' :: ch 'u' :: h1 :: h2 :: h3 :: h4 :: s) =
      encodeRune (hexVal h1 * 4096 + hexVal h2 * 256 + hexVal h3 * 16 + hexVal h4) ++
        unquoteLoop g s := by
  rw [unquoteLoop.eq_def]
  dsimp only
  rw [if_pos rfl, if_pos rfl, if_neg h]

theorem unquoteLoop_chunk (g : Nat) (chunk X : GoString) (hne : chunk ≠ [])
    (hlen : runeLen (chunk ++ X) = chunk.length) (hb : ∀ b ∈ chunk, ¬ b < 0x80) :
    unquoteLoop (g + 1) (chunk ++ X) = chunk ++ unquoteLoop g X := by
  cases chunk with
  | nil => exact absurd rfl hne
  | cons c cs =>
    have hc : ¬ c < 0x80 := hb c (List.mem_cons_self _ _)
    have h1 : c ≠ ch '\\' := fun e => by rw [e] at hc; exact hc (by decide)
    rw [List.cons_append] at hlen ⊢
    rw [unquoteLoop.eq_def]
    dsimp only
    rw [if_neg h1, if_neg hc, hlen, if_neg (by simp)]
    rw [← List.cons_append, List.take_left, List.drop_left]

theorem hexDigit_facts : ∀ b : Byte,
    isHex (hexDigit (b.val / 16)) = true ∧ isHex (hexDigit (b.val % 16)) = true ∧
      hexVal (ch '0') * 4096 + hexVal (ch '0') * 256 + hexVal (hexDigit (b.val / 16)) * 16 +
        hexVal (hexDigit (b.val % 16)) = b.val := by
  decide

theorem encodeRune_ascii (b : Byte) (h : b < 0x80) : encodeRune b.val = [b] := by
  have hv : b.val < 0x80 := h
  unfold encodeRune
  rw [if_pos hv]
  congr 1
  apply Fin.ext
  rw [byte_val_ofNat]
  omega

/-- What `appendString` writes for an ASCII byte is read back as that byte. -/
theorem ascii_piece (b : Byte) (hb : b < 0x80) (X : GoString) (g : Nat)
    (hX : StrFrom .inString X) :
    StrFrom .inString
      ((if htmlSafe b then [b]
        else if b = ch '\\' ∨ b = ch '"' then [ch '\\', b]
        else if b = 8 then [ch '\\', ch 'b']
        else if b = 12 then [ch '\\', ch 'f']
        else if b = 10 then [ch '\\', ch 'n']
        else if b = 13 then [ch '\\', ch 'r']
        else if b = 9 then [ch '\\', ch 't']
        else [ch '\\', ch 'u', ch '0', ch '0', hexDigit (b.val / 16), hexDigit (b.val % 16)]) ++
          X) ∧
    unquoteLoop (g + 1)
      ((if htmlSafe b then [b]
        else if b = ch '\\' ∨ b = ch '"' then [ch '\\', b]
        else if b = 8 then [ch '\\', ch 'b']
        else if b = 12 then [ch '\\', ch 'f']
        else if b = 10 then [ch '\\', ch 'n']
        else if b = 13 then [ch '\\', ch 'r']
        else if b = 9 then [ch '\\', ch 't']
        else [ch '\\', ch 'u', ch '0', ch '0', hexDigit (b.val / 16), hexDigit (b.val % 16)]) ++
          X) = b :: unquoteLoop g X := by
  by_cases h1 : htmlSafe b = true
  · rw [if_pos h1]
    have hq : b ≠ ch '"' := fun e => by rw [e] at h1; revert h1; decide
    have hs : b ≠ ch '\\' := fun e => by rw [e] at h1; revert h1; decide
    have hl : ¬ b < 0x20 := fun hlt => by
      have h2 : (0x20 : Byte) ≤ b := by
        simp only [htmlSafe, Bool.and_eq_true, decide_eq_true_eq] at h1
        exact h1.1.1.1.1.1.1
      exact absurd hlt (not_lt.mpr h2)
    exact ⟨strBody_cons_safe b X hq hs hl hX, unquoteLoop_ascii g b X hs hb⟩
  rw [if_neg h1]
  by_cases h2 : b = ch '\\' ∨ b = ch '"'
  · rw [if_pos h2]
    have he : simpleEscape b := by
      unfold simpleEscape
      rcases h2 with rfl | rfl <;> decide
    refine ⟨(strBody_esc _).mpr ⟨b, X, rfl, Or.inl ⟨he, hX⟩⟩, ?_⟩
    show unquoteLoop (g + 1) (ch '\\' :: b :: X) = _
    rw [unquoteLoop_esc g b X (by rcases h2 with rfl | rfl <;> decide)]
    rcases h2 with rfl | rfl <;> rfl
  rw [if_neg h2]
  have esc : ∀ (e c : Byte), simpleEscape e → e ≠ ch 'u' →
      (if e = ch 'b' then 8 else if e = ch 'f' then 12 else if e = ch 'n' then 10
        else if e = ch 'r' then 13 else if e = ch 't' then 9 else e) = c →
      StrFrom .inString ([ch '\\', e] ++ X) ∧
        unquoteLoop (g + 1) ([ch '\\', e] ++ X) = c :: unquoteLoop g X := by
    intro e c he hu hc
    refine ⟨(strBody_esc _).mpr ⟨e, X, rfl, Or.inl ⟨he, hX⟩⟩, ?_⟩
    show unquoteLoop (g + 1) (ch '\\' :: e :: X) = _
    rw [unquoteLoop_esc g e X hu, hc]
  by_cases h3 : b = 8
  · rw [if_pos h3, h3]
    exact esc _ _ (by unfold simpleEscape; decide) (by decide) rfl
  rw [if_neg h3]
  by_cases h4 : b = 12
  · rw [if_pos h4, h4]
    exact esc _ _ (by unfold simpleEscape; decide) (by decide) rfl
  rw [if_neg h4]
  by_cases h5 : b = 10
  · rw [if_pos h5, h5]
    exact esc _ _ (by unfold simpleEscape; decide) (by decide) rfl
  rw [if_neg h5]
  by_cases h6 : b = 13
  · rw [if_pos h6, h6]
    exact esc _ _ (by unfold simpleEscape; decide) (by decide) rfl
  rw [if_neg h6]
  by_cases h7 : b = 9
  · rw [if_pos h7, h7]
    exact esc _ _ (by unfold simpleEscape; decide) (by decide) rfl
  rw [if_neg h7]
  obtain ⟨hx1, hx2, hv⟩ := hexDigit_facts b
  have hbv : b.val < 0x80 := hb
  refine ⟨(strBody_esc _).mpr ⟨ch 'u', _, rfl, Or.inr ⟨simpleEscape_not_u, rfl,
    (strFrom_escU _).mpr ⟨_, _, _, _, X, rfl, by decide, by decide, hx1, hx2, hX⟩⟩⟩, ?_⟩
  show unquoteLoop (g + 1) (ch '\\' :: ch 'u' :: ch '0' :: ch '0' :: _ :: _ :: X) = _
  rw [unquoteLoop_u g _ _ _ _ X (by rw [hv]; omega), hv, encodeRune_ascii b hb]
  rfl

theorem unquoteLoop_nil (g : Nat) : unquoteLoop g [] = [] := by
  cases g <;> rw [unquoteLoop]

/-- The escape `\\u2028` or `\\u2029` that `appendString` writes for a line or
paragraph separator is read back as the separator. -/
theorem separator_piece (d : Byte) (hd : d = ch '8' ∨ d = ch '9') (X : GoString) (g : Nat)
    (hX : StrFrom .inString X) :
    StrFrom .inString ([ch '\\', ch 'u', ch '2', ch '0', ch '2', d] ++ X) ∧
      unquoteLoop (g + 1) ([ch '\\', ch 'u', ch '2', ch '0', ch '2', d] ++ X) =
        [0xE2, 0x80, if d = ch '8' then 0xA8 else 0xA9] ++ unquoteLoop g X := by
  have hx : isHex d = true := by rcases hd with rfl | rfl <;> decide
  refine ⟨(strBody_esc _).mpr ⟨ch 'u', _, rfl, Or.inr ⟨simpleEscape_not_u, rfl,
    (strFrom_escU _).mpr ⟨_, _, _, _, X, rfl, by decide, by decide, by decide, hx, hX⟩⟩⟩, ?_⟩
  show unquoteLoop (g + 1) (ch '\\' :: ch 'u' :: ch '2' :: ch '0' :: ch '2' :: d :: X) = _
  rcases hd with rfl | rfl
  · rw [unquoteLoop_u g _ _ _ _ X (by decide)]
    rfl
  · rw [unquoteLoop_u g _ _ _ _ X (by decide)]
    rfl

theorem take_three_eq (s : GoString) (a b c : Byte) (h : s.take 3 = [a, b, c]) :
    ∃ rest, s = a :: b :: c :: rest := by
  rcases s with _ | ⟨x, _ | ⟨y, _ | ⟨z, r⟩⟩⟩ <;> simp at h
  obtain ⟨rfl, rfl, rfl⟩ := h
  exact ⟨r, rfl⟩

/-- The text `appendString` writes between the quotes for a valid UTF-8
string is accepted by the scanner and unquoted to the string. -/
theorem appendStringLoop_roundtrip (s : GoString) (hs : ValidUTF8 s) :
    ∀ f, s.length < f → StrFrom .inString (appendStringLoop f s) ∧
      ∀ g, (appendStringLoop f s).length < g → unquoteLoop g (appendStringLoop f s) = s := by
  induction hs with
  | nil =>
    intro f hf
    obtain ⟨f, rfl⟩ : ∃ k, f = k + 1 := ⟨f - 1, by simp at hf; omega⟩
    rw [appendStringLoop]
    exact ⟨(strFrom_nil _).mpr rfl, fun g _ => unquoteLoop_nil g⟩
  | ascii c s hc _ ih =>
    intro f hf
    obtain ⟨f, rfl⟩ : ∃ k, f = k + 1 := ⟨f - 1, by simp at hf; omega⟩
    obtain ⟨i1, i2⟩ := ih f (by simp at hf; omega)
    rw [appendStringLoop, if_pos hc]
    refine ⟨(ascii_piece c hc _ 0 i1).1, fun g hg => ?_⟩
    have hpos : 0 < ((if htmlSafe c then [c]
        else if c = ch '\\' ∨ c = ch '"' then [ch '\\', c]
        else if c = 8 then [ch '\\', ch 'b']
        else if c = 12 then [ch '\\', ch 'f']
        else if c = 10 then [ch '\\', ch 'n']
        else if c = 13 then [ch '\\', ch 'r']
        else if c = 9 then [ch '\\', ch 't']
        else [ch '\\', ch 'u', ch '0', ch '0', hexDigit (c.val / 16),
          hexDigit (c.val % 16)]) : GoString).length := by
      split_ifs <;> simp
    rw [List.length_append] at hg
    obtain ⟨g, rfl⟩ : ∃ k, g = k + 1 := ⟨g - 1, by omega⟩
    rw [(ascii_piece c hc _ g i1).2, i2 g (by omega)]
  | rune c s hc hn _ ih =>
    intro f hf
    obtain ⟨f, rfl⟩ : ∃ k, f = k + 1 := ⟨f - 1, by simp at hf; omega⟩
    have hdrop : ((c :: s).drop (runeLen (c :: s))).length < f := by
      rw [List.length_drop]
      simp only [List.length_cons] at hf ⊢
      have := Nat.pos_of_ne_zero hn
      omega
    obtain ⟨i1, i2⟩ := ih f hdrop
    rw [appendStringLoop, if_neg hc]
    dsimp only
    rw [if_neg hn]
    by_cases h8 : (c :: s).take 3 = [0xE2, 0x80, 0xA8]
    · rw [if_pos h8]
      obtain ⟨rest, hr⟩ := take_three_eq _ _ _ _ h8
      have hlen : runeLen (c :: s) = 3 := by
        rw [hr]
        exact runeLen_three _ _ _ _ (by decide) (by decide) (by decide)
      rw [hlen] at i1 i2
      have hp := separator_piece (ch '8') (Or.inl rfl) _ 0 i1
      refine ⟨hp.1, fun g hg => ?_⟩
      obtain ⟨g, rfl⟩ : ∃ k, g = k + 1 := ⟨g - 1, by simp at hg; omega⟩
      have hg1 : (appendStringLoop f ((c :: s).drop 3)).length < g := by
        have : (utf8 "\\u2028").length = 6 := by decide
        rw [List.length_append, this] at hg
        omega
      have hq := (separator_piece (ch '8') (Or.inl rfl) _ g i1).2
      rw [i2 g hg1] at hq
      rw [show utf8 "\\u2028" = [ch '\\', ch 'u', ch '2', ch '0', ch '2', ch '8'] from by decide,
        hq, hr]
      rfl
    rw [if_neg h8]
    by_cases h9 : (c :: s).take 3 = [0xE2, 0x80, 0xA9]
    · rw [if_pos h9]
      obtain ⟨rest, hr⟩ := take_three_eq _ _ _ _ h9
      have hlen : runeLen (c :: s) = 3 := by
        rw [hr]
        exact runeLen_three _ _ _ _ (by decide) (by decide) (by decide)
      rw [hlen] at i1 i2
      have hp := separator_piece (ch '9') (Or.inr rfl) _ 0 i1
      refine ⟨hp.1, fun g hg => ?_⟩
      obtain ⟨g, rfl⟩ : ∃ k, g = k + 1 := ⟨g - 1, by simp at hg; omega⟩
      have hg1 : (appendStringLoop f ((c :: s).drop 3)).length < g := by
        have : (utf8 "\\u2029").length = 6 := by decide
        rw [List.length_append, this] at hg
        omega
      have hq := (separator_piece (ch '9') (Or.inr rfl) _ g i1).2
      rw [i2 g hg1] at hq
      rw [show utf8 "\\u2029" = [ch '\\', ch 'u', ch '2', ch '0', ch '2', ch '9'] from by decide,
        hq, hr]
      rfl
    rw [if_neg h9]
    obtain ⟨chunk, rest, h1, h2, hne, h3, h4, h5, h6⟩ := runeLen_split c s hc hn
    rw [h6] at i1 i2
    rw [h5, h6]
    refine ⟨(strBody_append_high chunk _ h4).mpr i1, fun g hg => ?_⟩
    have hcl : 0 < chunk.length := List.length_pos.mpr hne
    rw [List.length_append] at hg
    obtain ⟨g, rfl⟩ : ∃ k, g = k + 1 := ⟨g - 1, by omega⟩
    rw [unquoteLoop_chunk g chunk _ hne (h3 _) h4, i2 g (by omega), h1]

/-- A string literal written by `appendString` for a valid UTF-8 string is
scanned and unquoted to the string. -/
theorem appendString_scan (s : GoString) (hs : ValidUTF8 s) (R : GoString) :
    ∃ body, appendString s = ch '"' :: (body ++ [ch '"']) ∧
      scanString (body ++ ch '"' :: R) = .ok (body, R) ∧ unquote body = s := by
  obtain ⟨h1, h2⟩ := appendStringLoop_roundtrip s hs (s.length + 1) (by omega)
  exact ⟨_, rfl, h1 R, h2 _ (by omega)⟩

/-! ## Lemmas: the scanner on a number -/

open json

theorem scanDigits_eq (s : GoString) : (scanDigits s).1 ++ (scanDigits s).2 = s :=
  List.takeWhile_append_dropWhile _ _

theorem scanDigits_digits (s : GoString) : ∀ b ∈ (scanDigits s).1, json.isDigit b = true :=
  fun _ hb => (List.mem_takeWhile_imp hb)

theorem scanDigits_append (ds R : GoString) (hds : ∀ b ∈ ds, json.isDigit b = true)
    (hR : ∀ c, R.head? = some c → json.isDigit c = false) : scanDigits (ds ++ R) = (ds, R) := by
  induction ds with
  | nil =>
    cases R with
    | nil => rfl
    | cons c R =>
      have hc := hR c rfl
      simp [scanDigits, List.takeWhile, List.dropWhile, hc]
  | cons d ds ih =>
    have hd := hds d (List.mem_cons_self _ _)
    have h1 := ih (fun b hb => hds b (List.mem_cons_of_mem _ hb))
    simp only [scanDigits, Prod.mk.injEq] at h1 ⊢
    rw [List.cons_append, List.takeWhile_cons_of_pos hd, List.dropWhile_cons_of_pos hd, h1.1]
    exact ⟨rfl, h1.2⟩

theorem scanDigits_rest (s : GoString) :
    ∀ c, (scanDigits s).2.head? = some c → json.isDigit c = false := by
  induction s with
  | nil => intro c h; simp [scanDigits] at h
  | cons d s ih =>
    intro c h
    simp only [scanDigits, List.dropWhile] at h ih
    cases hd : json.isDigit d with
    | true =>
      rw [hd] at h
      exact ih c h
    | false =>
      rw [hd] at h
      simp only [List.head?_cons, Option.some.injEq] at h
      rw [← h]
      exact hd

/-- The integer part of a number is read the same way before any input
that does not start with a digit. -/
theorem scanInt_spec (s p rest : GoString) (h : scanInt s = .ok (p, rest)) :
    s = p ++ rest ∧ p ≠ [] ∧ (∀ c, p.head? = some c → c ≠ ch '-') ∧
      (∀ b ∈ p, json.isDigit b = true) ∧
      ∀ R, (∀ c, R.head? = some c → json.isDigit c = false) → scanInt (p ++ R) = .ok (p, R) := by
  unfold scanInt at h
  cases s with
  | nil => simp at h
  | cons d s2 =>
    dsimp only at h
    by_cases h0 : d = ch '0'
    · rw [if_pos h0] at h
      simp only [Except.ok.injEq, Prod.mk.injEq] at h
      obtain ⟨rfl, rfl⟩ := h
      subst h0
      refine ⟨rfl, by simp, ?_, ?_, fun R _ => rfl⟩
      · intro c hc
        simp only [List.head?_cons, Option.some.injEq] at hc
        rw [← hc]
        decide
      · intro b hb
        simp only [List.mem_singleton] at hb
        rw [hb]
        decide
    · rw [if_neg h0] at h
      by_cases hd : json.isDigit d = true
      · rw [if_pos hd] at h
        simp only [Except.ok.injEq, Prod.mk.injEq] at h
        obtain ⟨rfl, rfl⟩ := h
        refine ⟨by rw [List.cons_append, scanDigits_eq], by simp, ?_, ?_, fun R hR => ?_⟩
        · intro c hc
          simp only [List.head?_cons, Option.some.injEq] at hc
          rw [← hc]
          intro e
          rw [e] at hd
          revert hd
          decide
        · intro b hb
          rcases List.mem_cons.mp hb with rfl | hb
          · exact hd
          · exact scanDigits_digits s2 b hb
        · unfold scanInt
          rw [List.cons_append]
          dsimp only
          rw [if_neg h0, if_pos hd, scanDigits_append _ R (scanDigits_digits s2) hR]
      · rw [if_neg hd] at h
        simp at h

/-- The fraction of a number is read the same way before any input that
starts with neither a digit nor a point. -/
theorem scanFraction_spec (s p rest : GoString) (h : scanFraction s = .ok (p, rest)) :
    s = p ++ rest ∧
      (∀ c, p.head? = some c → c = ch '.') ∧
      ∀ R, (∀ c, R.head? = some c → json.isDigit c = false ∧ c ≠ ch '.') →
        scanFraction (p ++ R) = .ok (p, R) := by
  unfold scanFraction at h
  cases s with
  | nil =>
    simp only [Except.ok.injEq, Prod.mk.injEq] at h
    obtain ⟨rfl, rfl⟩ := h
    refine ⟨rfl, by simp, fun R hR => ?_⟩
    cases R with
    | nil => rfl
    | cons c R =>
      unfold scanFraction
      rw [List.nil_append]
      dsimp only
      rw [if_neg (hR c rfl).2]
  | cons c s1 =>
    dsimp only at h
    by_cases hc : c = ch '.'
    · rw [if_pos hc] at h
      cases s1 with
      | nil => simp at h
      | cons d s2 =>
        dsimp only at h
        by_cases hd : json.isDigit d = true
        · rw [if_pos hd] at h
          simp only [Except.ok.injEq, Prod.mk.injEq] at h
          obtain ⟨rfl, rfl⟩ := h
          refine ⟨by rw [List.cons_append, scanDigits_eq], ?_, fun R hR => ?_⟩
          · intro x hx
            simp only [List.head?_cons, Option.some.injEq] at hx
            rw [← hx]
            exact hc
          · have hds := scanDigits_digits (d :: s2)
            have hne : (scanDigits (d :: s2)).1 ≠ [] := by
              simp [scanDigits, List.takeWhile, hd]
            obtain ⟨d1, ds1, he⟩ := List.exists_cons_of_ne_nil hne
            have hd1 : json.isDigit d1 = true := hds d1 (by rw [he]; exact List.mem_cons_self _ _)
            have hap := scanDigits_append _ R hds (fun x hx => (hR x hx).1)
            unfold scanFraction
            rw [List.cons_append]
            dsimp only
            rw [if_pos hc]
            rw [he] at hap ⊢
            rw [List.cons_append] at hap ⊢
            dsimp only
            rw [if_pos hd1, hap]
        · rw [if_neg hd] at h
          simp at h
    · rw [if_neg hc] at h
      simp only [Except.ok.injEq, Prod.mk.injEq] at h
      obtain ⟨rfl, rfl⟩ := h
      refine ⟨rfl, by simp, fun R hR => ?_⟩
      cases R with
      | nil => rfl
      | cons x R =>
        unfold scanFraction
        rw [List.nil_append]
        dsimp only
        rw [if_neg (hR x rfl).2]

theorem scanDigits_cons (d : Byte) (s : GoString) (hd : json.isDigit d = true) :
    ∃ ds, (scanDigits (d :: s)).1 = d :: ds ∧ ∀ b ∈ d :: ds, json.isDigit b = true := by
  refine ⟨(scanDigits s).1, ?_, ?_⟩
  · simp only [scanDigits]
    rw [List.takeWhile_cons_of_pos hd]
  · intro b hb
    rcases List.mem_cons.mp hb with rfl | hb
    · exact hd
    · exact scanDigits_digits s b hb

/-- The exponent of a number is read the same way before any input that
does not go on a number. -/
theorem scanExponent_spec (s p rest : GoString) (h : scanExponent s = .ok (p, rest)) :
    s = p ++ rest ∧
      (∀ c, p.head? = some c → c = ch 'e' ∨ c = ch 'E') ∧
      ∀ R, Delim R → scanExponent (p ++ R) = .ok (p, R) := by
  have hnone : ∀ R, Delim R → scanExponent R = .ok ([], R) := by
    intro R hR
    cases R with
    | nil => rfl
    | cons x R =>
      unfold scanExponent
      dsimp only
      have := hR x rfl
      rw [if_neg (by rintro (e | e) <;> simp [e] at this)]
  unfold scanExponent at h
  cases s with
  | nil =>
    simp only [Except.ok.injEq, Prod.mk.injEq] at h
    obtain ⟨rfl, rfl⟩ := h
    exact ⟨rfl, by simp, fun R hR => hnone R hR⟩
  | cons c s3 =>
    dsimp only at h
    by_cases hc : c = ch 'e' ∨ c = ch 'E'
    · rw [if_pos hc] at h
      have key : ∀ (sg t : GoString), (sg = [] ∨ sg = [ch '+'] ∨ sg = [ch '-']) →
          (match t with
            | [] => (Except.error ScanError.eof : Except ScanError (GoString × GoString))
            | d :: _ =>
              if json.isDigit d = true then
                .ok (c :: sg ++ (scanDigits t).1, (scanDigits t).2)
              else .error .syntaxError) = .ok (p, rest) →
          c :: sg ++ t = p ++ rest ∧ (∀ x, p.head? = some x → x = ch 'e' ∨ x = ch 'E') ∧
            ∀ R, Delim R → scanExponent (p ++ R) = .ok (p, R) := by
        intro sg t hsg ht
        cases t with
        | nil => simp at ht
        | cons d t1 =>
          dsimp only at ht
          by_cases hd : json.isDigit d = true
          · rw [if_pos hd] at ht
            simp only [Except.ok.injEq, Prod.mk.injEq] at ht
            obtain ⟨rfl, rfl⟩ := ht
            refine ⟨by rw [List.append_assoc, scanDigits_eq], ?_, fun R hR => ?_⟩
            · intro x hx
              simp only [List.cons_append, List.head?_cons, Option.some.injEq] at hx
              rw [← hx]
              exact hc
            · obtain ⟨ds, hds, hall⟩ := scanDigits_cons d t1 hd
              rw [hds]
              have hap := scanDigits_append (d :: ds) R hall (fun x hx => (hR x hx).1)
              have hdp : d ≠ ch '+' ∧ d ≠ ch '-' := by
                constructor <;> intro e <;> rw [e] at hd <;> revert hd <;> decide
              unfold scanExponent
              rcases hsg with rfl | rfl | rfl
              · simp only [List.cons_append, List.nil_append]
                rw [if_pos hc]
                simp only [hdp.1, hdp.2, or_self, if_false]
                rw [if_pos hd]
                rw [List.cons_append] at hap
                rw [hap]
                rfl
              · simp only [List.cons_append, List.nil_append]
                rw [if_pos hc]
                simp only [true_or, if_true]
                rw [if_pos hd]
                rw [List.cons_append] at hap
                rw [hap]
                rfl
              · simp only [List.cons_append, List.nil_append]
                rw [if_pos hc]
                simp only [or_true, if_true]
                rw [if_pos hd]
                rw [List.cons_append] at hap
                rw [hap]
                rfl
          · rw [if_neg hd] at ht
            simp at ht
      cases s3 with
      | nil => simp at h
      | cons g s4 =>
        dsimp only at h
        by_cases hg : g = ch '+' ∨ g = ch '-'
        · rw [if_pos hg] at h
          have := key [g] s4 (by rcases hg with rfl | rfl <;> simp) h
          simpa using this
        · rw [if_neg hg] at h
          have := key [] (g :: s4) (Or.inl rfl) h
          simpa using this
    · rw [if_neg hc] at h
      simp only [Except.ok.injEq, Prod.mk.injEq] at h
      obtain ⟨rfl, rfl⟩ := h
      exact ⟨rfl, by simp, fun R hR => hnone R hR⟩

theorem head?_append_or (a b : GoString) (c : Byte) (h : (a ++ b).head? = some c) :
    a.head? = some c ∨ (a = [] ∧ b.head? = some c) := by
  cases a with
  | nil => exact Or.inr ⟨rfl, h⟩
  | cons x a => exact Or.inl h

/-- The scanner on a number, with the minus sign `ng` already taken off. -/
theorem scanNumber_eq (ng t : GoString)
    (hng : ng = [ch '-'] ∨ (ng = [] ∧ ∀ c, t.head? = some c → c ≠ ch '-')) :
    scanNumber (ng ++ t) =
      match scanInt t with
      | .error err => .error err
      | .ok (int, s2) =>
        match scanFraction s2 with
        | .error err => .error err
        | .ok (frac, s3) =>
          match scanExponent s3 with
          | .error err => .error err
          | .ok (exp, rest) => .ok (ng ++ int ++ frac ++ exp, rest) := by
  rcases hng with rfl | ⟨rfl, hd⟩
  · rfl
  · cases t with
    | nil => rfl
    | cons c t =>
      have hc : c ≠ ch '-' := hd c rfl
      rw [List.nil_append]
      unfold scanNumber
      dsimp only
      simp only [if_neg hc]

/-- A number literal is read the same way before any input that does not
go on a number. -/
theorem scanNumber_spec (s lit rest : GoString) (h : scanNumber s = .ok (lit, rest)) :
    s = lit ++ rest ∧ lit ≠ [] ∧ ∀ R, Delim R → scanNumber (lit ++ R) = .ok (lit, R) := by
  have key : ∀ (ng t : GoString), (ng = [ch '-'] ∨ (ng = [] ∧ ∀ c, t.head? = some c → c ≠ ch '-')) →
      (match scanInt t with
        | .error err => (Except.error err : Except ScanError (GoString × GoString))
        | .ok (int, s2) =>
          match scanFraction s2 with
          | .error err => .error err
          | .ok (frac, s3) =>
            match scanExponent s3 with
            | .error err => .error err
            | .ok (exp, rest) => .ok (ng ++ int ++ frac ++ exp, rest)) = .ok (lit, rest) →
      ng ++ t = lit ++ rest ∧ lit ≠ [] ∧ ∀ R, Delim R → scanNumber (lit ++ R) = .ok (lit, R) := by
    intro ng t hng ht
    cases h1 : scanInt t with
    | error e => rw [h1] at ht; simp at ht
    | ok r1 =>
      obtain ⟨int, s2⟩ := r1
      rw [h1] at ht
      dsimp only at ht
      cases h2 : scanFraction s2 with
      | error e => rw [h2] at ht; simp at ht
      | ok r2 =>
        obtain ⟨frac, s3⟩ := r2
        rw [h2] at ht
        dsimp only at ht
        cases h3 : scanExponent s3 with
        | error e => rw [h3] at ht; simp at ht
        | ok r3 =>
          obtain ⟨exp, rest1⟩ := r3
          rw [h3] at ht
          simp only [Except.ok.injEq, Prod.mk.injEq] at ht
          obtain ⟨rfl, rfl⟩ := ht
          obtain ⟨e1, n1, hd1, _, st1⟩ := scanInt_spec _ _ _ h1
          obtain ⟨e2, hd2, st2⟩ := scanFraction_spec _ _ _ h2
          obtain ⟨e3, hd3, st3⟩ := scanExponent_spec _ _ _ h3
          refine ⟨by rw [e1, e2, e3]; simp only [List.append_assoc], ?_, fun R hR => ?_⟩
          · intro e
            simp only [List.append_eq_nil] at e
            exact n1 e.1.1.2
          · have hexp : ∀ c, (exp ++ R).head? = some c → json.isDigit c = false ∧ c ≠ ch '.' := by
              intro c hc
              rcases head?_append_or _ _ _ hc with h | ⟨_, h⟩
              · rcases hd3 c h with rfl | rfl <;> decide
              · exact ⟨(hR c h).1, (hR c h).2.1⟩
            have hfrac : ∀ c, (frac ++ (exp ++ R)).head? = some c → json.isDigit c = false := by
              intro c hc
              rcases head?_append_or _ _ _ hc with h | ⟨_, h⟩
              · rw [hd2 c h]
                decide
              · exact (hexp c h).1
            have i1 := st1 _ hfrac
            have i2 := st2 _ hexp
            have i3 := st3 R hR
            obtain ⟨d, ds, hint⟩ := List.exists_cons_of_ne_nil n1
            have hdm : d ≠ ch '-' := hd1 d (by rw [hint]; rfl)
            have hng1 : ng = [ch '-'] ∨ (ng = [] ∧
                ∀ c, (int ++ (frac ++ (exp ++ R))).head? = some c → c ≠ ch '-') := by
              rcases hng with h | ⟨h, _⟩
              · exact Or.inl h
              · refine Or.inr ⟨h, fun c hc => ?_⟩
                rw [hint] at hc
                simp only [List.cons_append, List.head?_cons, Option.some.injEq] at hc
                rw [← hc]
                exact hdm
            have := scanNumber_eq ng _ hng1
            rw [i1] at this
            dsimp only at this
            rw [i2] at this
            dsimp only at this
            rw [i3] at this
            dsimp only at this
            simp only [List.append_assoc] at this ⊢
            exact this
  cases s with
  | nil => simp [scanNumber, scanInt] at h
  | cons c s1 =>
    by_cases hc : c = ch '-'
    · subst hc
      have e := scanNumber_eq [ch '-'] s1 (Or.inl rfl)
      rw [List.singleton_append] at e
      rw [e] at h
      have := key [ch '-'] s1 (Or.inl rfl) h
      simpa using this
    · have hh : ([] : GoString) = [] ∧ ∀ x, (c :: s1).head? = some x → x ≠ ch '-' :=
        ⟨rfl, fun x hx => by
          simp only [List.head?_cons, Option.some.injEq] at hx
          rw [← hx]
          exact hc⟩
      have e := scanNumber_eq [] (c :: s1) (Or.inr hh)
      rw [List.nil_append] at e
      rw [e] at h
      have := key [] (c :: s1) (Or.inr hh) h
      simpa using this

/-! ## Lemmas: an integer written by `Marshal` is read back -/

open json

theorem digit_facts : ∀ d : Fin 10,
    json.isDigit (digit d.val) = true ∧ ((digit d.val).val : Int) - 48 = d.val ∧
      (digit d.val = ch '0' → d.val = 0) := by
  decide

theorem digit_lt (d : Nat) (h : d < 10) :
    json.isDigit (digit d) = true ∧ ((digit d).val : Int) - 48 = d ∧
      (digit d = ch '0' → d = 0) :=
  digit_facts ⟨d, h⟩

/-- The digits `formatBits` writes: no leading zero, and their value is the
number. -/
theorem formatBits10_value : ∀ (us fuel : Nat) (acc : GoString), us < fuel →
    ∃ ds, formatBits10 fuel us acc = ds ++ acc ∧ ds ≠ [] ∧
      (∀ b ∈ ds, json.isDigit b = true) ∧
      (∀ c, ds.head? = some c → c = ch '0' → us = 0) ∧
      ds.foldl (fun (a : Int) d => a * 10 + ((d.val : Int) - 48)) 0 = us := by
  intro us
  induction us using Nat.strong_induction_on with
  | _ us ih =>
    intro fuel acc hf
    obtain ⟨fuel, rfl⟩ : ∃ k, fuel = k + 1 := ⟨fuel - 1, by omega⟩
    rw [formatBits10]
    by_cases h100 : us ≥ 100
    · rw [if_pos h100]
      obtain ⟨ds, e, hne, hd, hh, hv⟩ := ih (us / 100) (by omega) fuel
        (digit (us % 100 / 10) :: digit (us % 100 % 10) :: acc) (by omega)
      obtain ⟨a1, a2, _⟩ := digit_lt (us % 100 / 10) (by omega)
      obtain ⟨b1, b2, _⟩ := digit_lt (us % 100 % 10) (by omega)
      refine ⟨ds ++ [digit (us % 100 / 10), digit (us % 100 % 10)], ?_, by simp, ?_, ?_, ?_⟩
      · rw [e]
        simp
      · intro b hb
        rcases List.mem_append.mp hb with hb | hb
        · exact hd b hb
        · simp only [List.mem_cons, List.mem_singleton, List.not_mem_nil, or_false] at hb
          rcases hb with rfl | rfl
          · exact a1
          · exact b1
      · intro c hc h0
        obtain ⟨x, xs, hx⟩ := List.exists_cons_of_ne_nil hne
        rw [hx] at hc hh
        simp only [List.cons_append, List.head?_cons, Option.some.injEq] at hc hh
        have := hh c hc h0
        omega
      · rw [List.foldl_append, hv]
        simp only [List.foldl_cons, List.foldl_nil]
        rw [a2, b2]
        omega
    · rw [if_neg h100]
      by_cases h10 : us ≥ 10
      · rw [if_pos h10]
        obtain ⟨a1, a2, a3⟩ := digit_lt (us / 10) (by omega)
        obtain ⟨b1, b2, _⟩ := digit_lt (us % 10) (by omega)
        refine ⟨[digit (us / 10), digit (us % 10)], rfl, by simp, ?_, ?_, ?_⟩
        · intro b hb
          simp only [List.mem_cons, List.mem_singleton, List.not_mem_nil, or_false] at hb
          rcases hb with rfl | rfl
          · exact a1
          · exact b1
        · intro c hc h0
          simp only [List.head?_cons, Option.some.injEq] at hc
          rw [← hc] at h0
          have := a3 h0
          omega
        · simp only [List.foldl_cons, List.foldl_nil]
          rw [a2, b2]
          omega
      · rw [if_neg h10]
        obtain ⟨a1, a2, a3⟩ := digit_lt us (by omega)
        refine ⟨[digit us], rfl, by simp, ?_, ?_, ?_⟩
        · intro b hb
          simp only [List.mem_singleton] at hb
          rw [hb]
          exact a1
        · intro c hc h0
          simp only [List.head?_cons, Option.some.injEq] at hc
          rw [← hc] at h0
          exact a3 h0
        · simp only [List.foldl_cons, List.foldl_nil]
          rw [a2]
          omega

/-- The text of `strconv.Itoa`: a minus sign for a negative number, then
the digits of its absolute value without leading zero. -/
theorem Itoa_shape (n : Int) :
    ∃ ds, Itoa n = (if n < 0 then [ch '-'] else []) ++ ds ∧ ds ≠ [] ∧
      (∀ b ∈ ds, json.isDigit b = true) ∧
      (∀ c, ds.head? = some c → c = ch '0' → ds = [ch '0']) ∧
      ds.foldl (fun (a : Int) d => a * 10 + ((d.val : Int) - 48)) 0 = n.natAbs := by
  unfold Itoa FormatInt
  by_cases hs : 0 ≤ n ∧ n < 100
  · rw [if_pos hs, if_neg (by omega)]
    have hn : n.toNat < 100 := by omega
    have hnat : (n.natAbs : Int) = n.toNat := by omega
    obtain ⟨ds, e, hne, hd, hh, hv⟩ := formatBits10_value n.toNat (n.toNat + 1) [] (by omega)
    have e2 : small n.toNat = ds := by
      rw [small_repr _ hn, ← formatBits10_repr, e, List.append_nil]
    rw [e2]
    refine ⟨ds, (List.nil_append _).symm, hne, hd, ?_, by rw [hv, hnat]⟩
    intro c hc h0
    have hz := hh c hc h0
    rw [← e2, hz]
    rfl
  · rw [if_neg hs]
    dsimp only
    obtain ⟨ds, e, hne, hd, hh, hv⟩ := formatBits10_value n.natAbs (n.natAbs + 1) [] (by omega)
    rw [List.append_nil] at e
    rw [e]
    refine ⟨ds, ?_, hne, hd, ?_, hv⟩
    · by_cases hneg : n < 0
      · rw [if_pos hneg, if_pos hneg]
        rfl
      · rw [if_neg hneg, if_neg hneg]
        rfl
    · intro c hc h0
      have := hh c hc h0
      omega

/-- The text of `strconv.Itoa` is scanned as a number literal. -/
theorem Itoa_scan (n : Int) (R : GoString) (hR : Delim R) :
    scanNumber (Itoa n ++ R) = .ok (Itoa n, R) := by
  obtain ⟨ds, e, hne, hd, hh, _⟩ := Itoa_shape n
  obtain ⟨d, ds1, rfl⟩ := List.exists_cons_of_ne_nil hne
  have hdd : json.isDigit d = true := hd d (List.mem_cons_self _ _)
  have hdm : d ≠ ch '-' := fun e => by rw [e] at hdd; revert hdd; decide
  have hng : (if n < 0 then [ch '-'] else []) = [ch '-'] ∨
      ((if n < 0 then [ch '-'] else ([] : GoString)) = [] ∧
        ∀ c, (d :: ds1).head? = some c → c ≠ ch '-') := by
    by_cases hn : n < 0
    · left; rw [if_pos hn]
    · right
      rw [if_neg hn]
      refine ⟨rfl, fun c hc => ?_⟩
      simp only [List.head?_cons, Option.some.injEq] at hc
      rw [← hc]
      exact hdm
  have hint : scanInt (d :: ds1) = .ok (d :: ds1, []) := by
    unfold scanInt
    dsimp only
    by_cases h0 : d = ch '0'
    · rw [if_pos h0]
      have := hh d rfl h0
      simp only [List.cons.injEq] at this
      rw [this.2]
    · rw [if_neg h0, if_pos hdd]
      have := scanDigits_append ds1 [] (fun b hb => hd b (List.mem_cons_of_mem _ hb))
        (fun c hc => by simp at hc)
      rw [List.append_nil] at this
      rw [this]
  have h0 : scanNumber (Itoa n) = .ok (Itoa n, []) := by
    rw [e, scanNumber_eq _ _ hng, hint]
    dsimp only
    have e1 : scanFraction [] = .ok ([], []) := rfl
    have e2 : scanExponent [] = .ok ([], []) := rfl
    rw [e1]
    dsimp only
    rw [e2]
    simp only [List.append_nil]
  exact (scanNumber_spec _ _ _ h0).2.2 R hR

/-- The text of `strconv.Itoa` is parsed back to the number. -/
theorem Itoa_parse (n : Int)
    (h : -9223372036854775808 ≤ n ∧ n ≤ 9223372036854775807) :
    parseInt64 (Itoa n) = some n := by
  obtain ⟨ds, e, hne, hd, _, hv⟩ := Itoa_shape n
  obtain ⟨d, ds1, rfl⟩ := List.exists_cons_of_ne_nil hne
  have hdd : json.isDigit d = true := hd d (List.mem_cons_self _ _)
  have hdm : d ≠ ch '-' := fun e => by rw [e] at hdd; revert hdd; decide
  have hall : (d :: ds1).all json.isDigit = true := List.all_eq_true.mpr hd
  unfold parseInt64
  rw [e]
  by_cases hn : n < 0
  · rw [if_pos hn]
    simp only [List.singleton_append, List.head?_cons, if_true, List.tail_cons]
    rw [if_neg (by simp [hall])]
    rw [hv]
    have : -(n.natAbs : Int) = n := by omega
    rw [this, if_pos h]
  · rw [if_neg hn]
    simp only [List.nil_append, List.head?_cons, Option.some.injEq, hdm, if_false]
    rw [if_neg (by simp [hall])]
    rw [hv]
    have : (n.natAbs : Int) = n := by omega
    rw [this, if_pos h]

/-! ## Lemmas: what the scanner accepts is scanned again the same way -/

open json

theorem consumed_append (m rest : GoString) : consumed (m ++ rest) rest = m := by
  unfold consumed
  rw [List.length_append, Nat.add_sub_cancel, List.take_left]

theorem skipSpace_cons_of_not (c : Byte) (s : GoString) (h : isSpace c = false) :
    skipSpace (c :: s) = c :: s := by
  unfold skipSpace
  rw [List.dropWhile_cons_of_neg (by simp [h])]

/-- The white space the scanner skips, and the byte it stops at. -/
theorem skipSpace_spec (s : GoString) (d : Byte) (s1 : GoString) (h : skipSpace s = d :: s1) :
    ∃ ws, s = ws ++ d :: s1 ∧ isSpace d = false ∧ (∀ b ∈ ws, isSpace b = true) ∧
      ∀ t, skipSpace (ws ++ d :: t) = d :: t := by
  induction s with
  | nil => simp [skipSpace] at h
  | cons c s ih =>
    by_cases hc : isSpace c = true
    · have e : skipSpace (c :: s) = skipSpace s := by
        unfold skipSpace
        rw [List.dropWhile_cons_of_pos hc]
      rw [e] at h
      obtain ⟨ws, h1, h2, h3, h4⟩ := ih h
      refine ⟨c :: ws, by rw [h1]; rfl, h2, ?_, fun t => ?_⟩
      · intro b hb
        rcases List.mem_cons.mp hb with rfl | hb
        · exact hc
        · exact h3 b hb
      · have e1 : skipSpace (c :: (ws ++ d :: t)) = skipSpace (ws ++ d :: t) := by
          unfold skipSpace
          rw [List.dropWhile_cons_of_pos hc]
        rw [List.cons_append, e1, h4]
    · have hc1 : isSpace c = false := by simpa using hc
      rw [skipSpace_cons_of_not c s hc1] at h
      simp only [List.cons.injEq] at h
      obtain ⟨rfl, rfl⟩ := h
      exact ⟨[], rfl, hc1, by simp, fun t => skipSpace_cons_of_not _ _ hc1⟩

theorem skipSpace_nil_spec (s : GoString) (h : skipSpace s = []) :
    ∀ b ∈ s, isSpace b = true := by
  induction s with
  | nil => simp
  | cons c s ih =>
    by_cases hc : isSpace c = true
    · have e : skipSpace (c :: s) = skipSpace s := by
        unfold skipSpace
        rw [List.dropWhile_cons_of_pos hc]
      rw [e] at h
      intro b hb
      rcases List.mem_cons.mp hb with rfl | hb
      · exact hc
      · exact ih h b hb
    · have hc1 : isSpace c = false := by simpa using hc
      rw [skipSpace_cons_of_not c s hc1] at h
      simp at h

theorem isSpace_delim : ∀ c : Byte, isSpace c = true →
    json.isDigit c = false ∧ c ≠ ch '.' ∧ c ≠ ch 'e' ∧ c ≠ ch 'E' := by
  decide

/-- White space and a closing or separating byte end a number. -/
theorem delim_of_skipSpace (ws : GoString) (d : Byte) (t : GoString)
    (hws : ∀ b ∈ ws, isSpace b = true)
    (hd : json.isDigit d = false ∧ d ≠ ch '.' ∧ d ≠ ch 'e' ∧ d ≠ ch 'E') :
    Delim (ws ++ d :: t) := by
  intro c hc
  cases ws with
  | nil =>
    simp only [List.nil_append, List.head?_cons, Option.some.injEq] at hc
    rw [← hc]
    exact hd
  | cons w ws =>
    simp only [List.cons_append, List.head?_cons, Option.some.injEq] at hc
    rw [← hc]
    exact isSpace_delim w (hws w (List.mem_cons_self _ _))

theorem scanLiteral_spec : ∀ (lit s rest : GoString), scanLiteral lit s = .ok rest →
    s = lit ++ rest ∧ ∀ R, scanLiteral lit (lit ++ R) = .ok R := by
  intro lit
  induction lit with
  | nil =>
    intro s rest h
    rw [scanLiteral] at h
    simp only [Except.ok.injEq] at h
    subst h
    exact ⟨rfl, fun R => by rw [List.nil_append, scanLiteral]⟩
  | cons l lit ih =>
    intro s rest h
    cases s with
    | nil => rw [scanLiteral] at h; simp at h
    | cons c s =>
      rw [scanLiteral] at h
      by_cases hc : c = l
      · rw [if_pos hc] at h
        obtain ⟨h1, h2⟩ := ih s rest h
        subst hc
        refine ⟨by rw [h1]; rfl, fun R => ?_⟩
        rw [List.cons_append, scanLiteral, if_pos rfl]
        exact h2 R
      · rw [if_neg hc] at h
        simp at h

theorem scans_ne_nil (d : Nat) (m : GoString) (val : Value) (h : Scans d m val) : m ≠ [] := by
  intro e
  subst e
  have := h 0 [] (by simp) (by intro c hc; simp at hc)
  rw [scanValue] at this
  simp at this

theorem scanElems_succ (f d : Nat) (input : GoString) :
    scanElems (f + 1) d input =
      match scanValue f d input with
      | .error err => .error err
      | .ok (v, rest) =>
        match elemsTail f d rest with
        | .error err => .error err
        | .ok (es, rest1) => .ok ((consumed input rest, v) :: es, rest1) := by
  rw [scanElems]
  cases scanValue f d input with
  | error e => rfl
  | ok r =>
    obtain ⟨v, rest⟩ := r
    dsimp only
    unfold elemsTail
    cases skipSpace rest with
    | nil => rfl
    | cons c s1 =>
      dsimp only
      by_cases h1 : c = ch ']'
      · rw [if_pos h1, if_pos h1]
      · rw [if_neg h1, if_neg h1]
        by_cases h2 : c = ch ','
        · rw [if_pos h2, if_pos h2]
        · rw [if_neg h2, if_neg h2]

theorem scanMembers_succ (f d : Nat) (s : GoString) :
    scanMembers (f + 1) d (ch '"' :: s) =
      match scanString s with
      | .error err => .error err
      | .ok (key, rest0) =>
        match skipSpace rest0 with
        | [] => .error .eof
        | colon :: s1 =>
          if colon ≠ ch ':' then .error .syntaxError
          else
            match scanValue f d (skipSpace s1) with
            | .error err => .error err
            | .ok (v, rest) =>
              match membersTail f d rest with
              | .error err => .error err
              | .ok (ms, rest1) =>
                .ok ((unquote key, consumed (skipSpace s1) rest, v) :: ms, rest1) := by
  rw [scanMembers]
  rw [if_neg (by simp)]
  cases scanString s with
  | error e => rfl
  | ok r =>
    obtain ⟨key, rest0⟩ := r
    dsimp only
    cases skipSpace rest0 with
    | nil => rfl
    | cons colon s1 =>
      dsimp only
      by_cases hc : colon ≠ ch ':'
      · rw [if_pos hc, if_pos hc]
      · rw [if_neg hc, if_neg hc]
        cases scanValue f d (skipSpace s1) with
        | error e => rfl
        | ok r =>
          obtain ⟨v, rest⟩ := r
          dsimp only
          unfold membersTail
          cases skipSpace rest with
          | nil => rfl
          | cons c s2 =>
            dsimp only
            by_cases h1 : c = ch '}'
            · rw [if_pos h1, if_pos h1]
            · rw [if_neg h1, if_neg h1]
              by_cases h2 : c = ch ','
              · rw [if_pos h2, if_pos h2]
              · rw [if_neg h2, if_neg h2]

theorem scanMembers_head (f d : Nat) (input : GoString)
    (r : List (GoString × GoString × Value) × GoString) (h : scanMembers f d input = .ok r) :
    ∃ s, input = ch '"' :: s := by
  cases f with
  | zero => rw [scanMembers] at h; simp at h
  | succ f =>
    cases input with
    | nil => rw [scanMembers] at h; simp at h
    | cons q s =>
      rw [scanMembers] at h
      by_cases hq : q ≠ ch '"'
      · rw [if_pos hq] at h
        simp at h
      · exact ⟨s, by rw [not_not.mp hq]⟩

theorem elemsTail_stable (f : Nat) (hSE : ElemsStable f) : ElemsTailStable f := by
  intro d input es rest h
  unfold elemsTail at h
  cases hs : skipSpace input with
  | nil => rw [hs] at h; simp at h
  | cons c s1 =>
    rw [hs] at h
    dsimp only at h
    obtain ⟨ws, e, _, hws, hskip⟩ := skipSpace_spec input c s1 hs
    by_cases h1 : c = ch ']'
    · rw [if_pos h1] at h
      simp only [Except.ok.injEq, Prod.mk.injEq] at h
      obtain ⟨rfl, rfl⟩ := h
      subst h1
      refine ⟨ws ++ [ch ']'], by rw [e]; simp, ⟨by simp, fun f1 R _ => ?_⟩, fun R => ?_, trivial⟩
      · unfold elemsTail
        rw [List.append_assoc, List.singleton_append, hskip]
        rfl
      · rw [List.append_assoc, List.singleton_append]
        exact delim_of_skipSpace ws _ _ hws (by decide)
    · rw [if_neg h1] at h
      by_cases h2 : c = ch ','
      · rw [if_pos h2] at h
        subst h2
        obtain ⟨body, e2, ⟨hne, hst⟩, hdoc⟩ := hSE d _ es rest h
        obtain ⟨d2, b2, rfl⟩ := List.exists_cons_of_ne_nil hne
        obtain ⟨ws2, e3, _, _, hskip2⟩ := skipSpace_spec s1 d2 (b2 ++ rest) e2
        refine ⟨ws ++ ch ',' :: (ws2 ++ d2 :: b2), ?_, ⟨by simp, fun f1 R hf => ?_⟩, fun R => ?_,
          hdoc⟩
        · rw [e, e3]
          simp only [List.append_assoc, List.cons_append]
        · unfold elemsTail
          simp only [List.append_assoc, List.cons_append]
          rw [hskip]
          dsimp only
          rw [if_neg (by decide), if_pos rfl, hskip2]
          have := hst f1 R (by
            simp only [List.length_append, List.length_cons] at hf ⊢
            omega)
          rw [List.cons_append] at this
          exact this
        · simp only [List.append_assoc, List.cons_append]
          exact delim_of_skipSpace ws _ _ hws (by decide)
      · rw [if_neg h2] at h
        simp at h

theorem membersTail_stable (f : Nat) (hSM : MembersStable f) : MembersTailStable f := by
  intro d input ms rest h
  unfold membersTail at h
  cases hs : skipSpace input with
  | nil => rw [hs] at h; simp at h
  | cons c s1 =>
    rw [hs] at h
    dsimp only at h
    obtain ⟨ws, e, _, hws, hskip⟩ := skipSpace_spec input c s1 hs
    by_cases h1 : c = ch '}'
    · rw [if_pos h1] at h
      simp only [Except.ok.injEq, Prod.mk.injEq] at h
      obtain ⟨rfl, rfl⟩ := h
      subst h1
      refine ⟨ws ++ [ch '}'], by rw [e]; simp, ⟨by simp, fun f1 R _ => ?_⟩, fun R => ?_, trivial⟩
      · unfold membersTail
        rw [List.append_assoc, List.singleton_append, hskip]
        rfl
      · rw [List.append_assoc, List.singleton_append]
        exact delim_of_skipSpace ws _ _ hws (by decide)
    · rw [if_neg h1] at h
      by_cases h2 : c = ch ','
      · rw [if_pos h2] at h
        subst h2
        obtain ⟨body, e2, ⟨hne, hst⟩, hdoc⟩ := hSM d _ ms rest h
        obtain ⟨d2, b2, rfl⟩ := List.exists_cons_of_ne_nil hne
        obtain ⟨ws2, e3, _, _, hskip2⟩ := skipSpace_spec s1 d2 (b2 ++ rest) e2
        refine ⟨ws ++ ch ',' :: (ws2 ++ d2 :: b2), ?_, ⟨by simp, fun f1 R hf => ?_⟩, fun R => ?_,
          hdoc⟩
        · rw [e, e3]
          simp only [List.append_assoc, List.cons_append]
        · unfold membersTail
          simp only [List.append_assoc, List.cons_append]
          rw [hskip]
          dsimp only
          rw [if_neg (by decide), if_pos rfl, hskip2]
          have := hst f1 R (by
            simp only [List.length_append, List.length_cons] at hf ⊢
            omega)
          rw [List.cons_append] at this
          exact this
        · simp only [List.append_assoc, List.cons_append]
          exact delim_of_skipSpace ws _ _ hws (by decide)
      · rw [if_neg h2] at h
        simp at h

/-! ## Lemmas: the scanner is stable, by induction on its fuel -/

open json

theorem scanElems_stable (f : Nat) (hSV : ValueStable f) (hTE : ElemsTailStable f) :
    ElemsStable (f + 1) := by
  intro d input es rest h
  rw [scanElems_succ] at h
  cases hv : scanValue f d input with
  | error e => rw [hv] at h; simp at h
  | ok r =>
    obtain ⟨v, restv⟩ := r
    rw [hv] at h
    dsimp only at h
    obtain ⟨m, e1, hsc, hdoc⟩ := hSV d input v restv hv
    cases ht : elemsTail f d restv with
    | error e => rw [ht] at h; simp at h
    | ok r =>
      obtain ⟨es1, rest1⟩ := r
      rw [ht] at h
      simp only [Except.ok.injEq, Prod.mk.injEq] at h
      obtain ⟨rfl, rfl⟩ := h
      obtain ⟨t, e2, ⟨tne, tst⟩, hdel, hdocs⟩ := hTE d restv es1 rest1 ht
      have hm := scans_ne_nil d m v hsc
      have hml : 0 < m.length := List.length_pos.mpr hm
      have htl : 0 < t.length := List.length_pos.mpr tne
      have hcons : consumed input restv = m := by rw [e1, consumed_append]
      rw [hcons]
      refine ⟨m ++ t, by rw [e1, e2, List.append_assoc], ⟨by simp [hm], fun f1 R hf => ?_⟩, ?_⟩
      · rw [List.length_append] at hf
        obtain ⟨f2, rfl⟩ : ∃ k, f1 = k + 1 := ⟨f1 - 1, by omega⟩
        rw [scanElems_succ, List.append_assoc, hsc f2 (t ++ R) (by omega) (hdel R)]
        dsimp only
        rw [tst f2 R (by omega), consumed_append]
      · rw [Doc.docElems]
        exact ⟨hsc, hdoc, hdocs⟩

theorem scanMembers_stable (f : Nat) (hSV : ValueStable f) (hTM : MembersTailStable f) :
    MembersStable (f + 1) := by
  intro d input ms rest h
  obtain ⟨s, rfl⟩ := scanMembers_head _ _ _ _ h
  rw [scanMembers_succ] at h
  cases hk : scanString s with
  | error e => rw [hk] at h; simp at h
  | ok r =>
    obtain ⟨key, rest0⟩ := r
    rw [hk] at h
    dsimp only at h
    obtain ⟨e0, hkey⟩ := scanStringFrom_spec s .inString key rest0 hk
    cases hs : skipSpace rest0 with
    | nil => rw [hs] at h; simp at h
    | cons colon s1 =>
      rw [hs] at h
      dsimp only at h
      obtain ⟨ws, e1, _, _, hskip⟩ := skipSpace_spec rest0 colon s1 hs
      by_cases hc : colon ≠ ch ':'
      · rw [if_pos hc] at h
        simp at h
      rw [if_neg hc] at h
      have hc1 : colon = ch ':' := not_not.mp hc
      subst hc1
      cases hv : scanValue f d (skipSpace s1) with
      | error e => rw [hv] at h; simp at h
      | ok r =>
        obtain ⟨v, restv⟩ := r
        rw [hv] at h
        dsimp only at h
        obtain ⟨m, e2, hsc, hdoc⟩ := hSV d _ v restv hv
        have hm := scans_ne_nil d m v hsc
        obtain ⟨c2, m1, rfl⟩ := List.exists_cons_of_ne_nil hm
        obtain ⟨ws2, e3, _, _, hskip2⟩ := skipSpace_spec s1 c2 (m1 ++ restv) e2
        cases ht : membersTail f d restv with
        | error e => rw [ht] at h; simp at h
        | ok r =>
          obtain ⟨ms1, rest1⟩ := r
          rw [ht] at h
          simp only [Except.ok.injEq, Prod.mk.injEq] at h
          obtain ⟨rfl, rfl⟩ := h
          obtain ⟨t, e4, ⟨tne, tst⟩, hdel, hdocs⟩ := hTM d restv ms1 rest1 ht
          have htl : 0 < t.length := List.length_pos.mpr tne
          have hcons : consumed (skipSpace s1) restv = c2 :: m1 := by
            rw [e2, consumed_append]
          rw [hcons]
          refine ⟨ch '"' :: (key ++ ch '"' :: (ws ++ ch ':' :: (ws2 ++ (c2 :: m1 ++ t)))), ?_,
            ⟨by simp, fun f1 R hf => ?_⟩, ?_⟩
          · rw [e0, e1, e3, e4]
            simp only [List.append_assoc, List.cons_append]
          · simp only [List.length_append, List.length_cons] at hf
            obtain ⟨f2, rfl⟩ : ∃ k, f1 = k + 1 := ⟨f1 - 1, by omega⟩
            simp only [List.append_assoc, List.cons_append]
            rw [scanMembers_succ]
            have hk2 : scanString (key ++ ch '"' :: (ws ++ ch ':' :: (ws2 ++ c2 :: (m1 ++
                (t ++ R))))) = .ok (key, ws ++ ch ':' :: (ws2 ++ c2 :: (m1 ++ (t ++ R)))) :=
              hkey _
            rw [hk2]
            dsimp only
            rw [hskip]
            dsimp only
            rw [if_neg (by simp), hskip2]
            have hv2 := hsc f2 (t ++ R) (by simp only [List.length_cons]; omega) (hdel R)
            rw [List.cons_append] at hv2
            rw [hv2]
            dsimp only
            rw [tst f2 R (by omega)]
            dsimp only
            rw [← List.cons_append, consumed_append]
          · rw [Doc.docMembers]
            exact ⟨unquote_valid key hkey, hsc, hdoc, hdocs⟩

theorem scanValue_succ (f d : Nat) (c : Byte) (s : GoString) :
    scanValue (f + 1) d (c :: s) =
      if c = ch '{' then
        if d ≥ maxNestingDepth then .error .syntaxError
        else
          match skipSpace s with
          | [] => .error .eof
          | d1 :: s1 =>
            if d1 = ch '}' then .ok (.object [], s1)
            else
              match scanMembers f (d + 1) (d1 :: s1) with
              | .error err => .error err
              | .ok (ms, rest) => .ok (.object ms, rest)
      else if c = ch '[' then
        if d ≥ maxNestingDepth then .error .syntaxError
        else
          match skipSpace s with
          | [] => .error .eof
          | d1 :: s1 =>
            if d1 = ch ']' then .ok (.array [], s1)
            else
              match scanElems f (d + 1) (d1 :: s1) with
              | .error err => .error err
              | .ok (es, rest) => .ok (.array es, rest)
      else if c = ch '"' then
        match scanString s with
        | .error err => .error err
        | .ok (body, rest) => .ok (.string (unquote body), rest)
      else if c = ch '-' ∨ json.isDigit c then
        match scanNumber (c :: s) with
        | .error err => .error err
        | .ok (lit, rest) => .ok (.number lit, rest)
      else if c = ch 't' then
        match scanLiteral (utf8 "rue") s with
        | .error err => .error err
        | .ok rest => .ok (.bool true, rest)
      else if c = ch 'f' then
        match scanLiteral (utf8 "alse") s with
        | .error err => .error err
        | .ok rest => .ok (.bool false, rest)
      else if c = ch 'n' then
        match scanLiteral (utf8 "ull") s with
        | .error err => .error err
        | .ok rest => .ok (.null, rest)
      else .error .syntaxError := by
  rw [scanValue]

/-- A literal `true`, `false` or `null` is scanned again the same way. -/
theorem literal_stable (f d : Nat) (c : Byte) (s lit : GoString) (val0 val : Value)
    (rest : GoString)
    (hstep : ∀ f1 t, scanValue (f1 + 1) d (c :: t) =
      match scanLiteral lit t with
      | .error err => .error err
      | .ok rest => .ok (val0, rest))
    (hdoc : Doc d val0)
    (h : scanValue (f + 1) d (c :: s) = .ok (val, rest)) :
    ∃ m, c :: s = m ++ rest ∧ Scans d m val ∧ Doc d val := by
  rw [hstep] at h
  cases hl : scanLiteral lit s with
  | error e => rw [hl] at h; simp at h
  | ok r =>
    rw [hl] at h
    simp only [Except.ok.injEq, Prod.mk.injEq] at h
    obtain ⟨rfl, rfl⟩ := h
    obtain ⟨e, hst⟩ := scanLiteral_spec lit s r hl
    refine ⟨c :: lit, by rw [e]; rfl, fun f1 R hf _ => ?_, hdoc⟩
    obtain ⟨f2, rfl⟩ : ∃ k, f1 = k + 1 := ⟨f1 - 1, by simp at hf; omega⟩
    rw [List.cons_append, hstep, hst R]

theorem scanValue_stable (f : Nat) (hSE : ElemsStable f) (hSM : MembersStable f) :
    ValueStable (f + 1) := by
  intro d input val rest h
  cases input with
  | nil => rw [scanValue] at h; simp at h
  | cons c s =>
    by_cases h1 : c = ch '{'
    · subst h1
      rw [scanValue_succ, if_pos rfl] at h
      by_cases hd : d ≥ maxNestingDepth
      · rw [if_pos hd] at h
        simp at h
      rw [if_neg hd] at h
      cases hs : skipSpace s with
      | nil => rw [hs] at h; simp at h
      | cons d1 s1 =>
        rw [hs] at h
        dsimp only at h
        obtain ⟨ws, e, _, _, hskip⟩ := skipSpace_spec s d1 s1 hs
        by_cases h2 : d1 = ch '}'
        · rw [if_pos h2] at h
          simp only [Except.ok.injEq, Prod.mk.injEq] at h
          obtain ⟨rfl, rfl⟩ := h
          subst h2
          refine ⟨ch '{' :: (ws ++ [ch '}']), by rw [e]; simp, fun f1 R hf _ => ?_, ?_⟩
          · obtain ⟨f2, rfl⟩ : ∃ k, f1 = k + 1 := ⟨f1 - 1, by simp at hf; omega⟩
            simp only [List.append_assoc, List.cons_append, List.nil_append]
            rw [scanValue_succ, if_pos rfl, if_neg hd, hskip]
            rfl
          · rw [Doc]
            exact ⟨by omega, trivial⟩
        · rw [if_neg h2] at h
          cases hm : scanMembers f (d + 1) (d1 :: s1) with
          | error e => rw [hm] at h; simp at h
          | ok r =>
            obtain ⟨ms, rest1⟩ := r
            rw [hm] at h
            simp only [Except.ok.injEq, Prod.mk.injEq] at h
            obtain ⟨rfl, rfl⟩ := h
            obtain ⟨body, e2, ⟨hne, hst⟩, hdoc⟩ := hSM (d + 1) _ ms rest1 hm
            obtain ⟨b0, b1, rfl⟩ := List.exists_cons_of_ne_nil hne
            have hb0 : d1 = b0 := by
              simp only [List.cons_append, List.cons.injEq] at e2
              exact e2.1
            subst hb0
            refine ⟨ch '{' :: (ws ++ d1 :: b1), ?_, fun f1 R hf _ => ?_, ?_⟩
            · rw [e]
              simp only [List.cons_append, List.cons.injEq] at e2
              rw [e2.2]
              simp only [List.append_assoc, List.cons_append]
            · simp only [List.length_append, List.length_cons] at hf
              obtain ⟨f2, rfl⟩ : ∃ k, f1 = k + 1 := ⟨f1 - 1, by omega⟩
              simp only [List.append_assoc, List.cons_append]
              rw [scanValue_succ, if_pos rfl, if_neg hd, hskip]
              dsimp only
              rw [if_neg h2]
              have := hst f2 R (by simp only [List.length_cons]; omega)
              rw [List.cons_append] at this
              rw [this]
            · rw [Doc]
              exact ⟨by omega, hdoc⟩
    by_cases h2 : c = ch '['
    · subst h2
      rw [scanValue_succ, if_neg (by decide), if_pos rfl] at h
      by_cases hd : d ≥ maxNestingDepth
      · rw [if_pos hd] at h
        simp at h
      rw [if_neg hd] at h
      cases hs : skipSpace s with
      | nil => rw [hs] at h; simp at h
      | cons d1 s1 =>
        rw [hs] at h
        dsimp only at h
        obtain ⟨ws, e, _, _, hskip⟩ := skipSpace_spec s d1 s1 hs
        by_cases h2 : d1 = ch ']'
        · rw [if_pos h2] at h
          simp only [Except.ok.injEq, Prod.mk.injEq] at h
          obtain ⟨rfl, rfl⟩ := h
          subst h2
          refine ⟨ch '[' :: (ws ++ [ch ']']), by rw [e]; simp, fun f1 R hf _ => ?_, ?_⟩
          · obtain ⟨f2, rfl⟩ : ∃ k, f1 = k + 1 := ⟨f1 - 1, by simp at hf; omega⟩
            simp only [List.append_assoc, List.cons_append, List.nil_append]
            rw [scanValue_succ, if_neg (by decide), if_pos rfl, if_neg hd, hskip]
            rfl
          · rw [Doc]
            exact ⟨by omega, trivial⟩
        · rw [if_neg h2] at h
          cases hm : scanElems f (d + 1) (d1 :: s1) with
          | error e => rw [hm] at h; simp at h
          | ok r =>
            obtain ⟨es, rest1⟩ := r
            rw [hm] at h
            simp only [Except.ok.injEq, Prod.mk.injEq] at h
            obtain ⟨rfl, rfl⟩ := h
            obtain ⟨body, e2, ⟨hne, hst⟩, hdoc⟩ := hSE (d + 1) _ es rest1 hm
            obtain ⟨b0, b1, rfl⟩ := List.exists_cons_of_ne_nil hne
            have hb0 : d1 = b0 := by
              simp only [List.cons_append, List.cons.injEq] at e2
              exact e2.1
            subst hb0
            refine ⟨ch '[' :: (ws ++ d1 :: b1), ?_, fun f1 R hf _ => ?_, ?_⟩
            · rw [e]
              simp only [List.cons_append, List.cons.injEq] at e2
              rw [e2.2]
              simp only [List.append_assoc, List.cons_append]
            · simp only [List.length_append, List.length_cons] at hf
              obtain ⟨f2, rfl⟩ : ∃ k, f1 = k + 1 := ⟨f1 - 1, by omega⟩
              simp only [List.append_assoc, List.cons_append]
              rw [scanValue_succ, if_neg (by decide), if_pos rfl, if_neg hd, hskip]
              dsimp only
              rw [if_neg h2]
              have := hst f2 R (by simp only [List.length_cons]; omega)
              rw [List.cons_append] at this
              rw [this]
            · rw [Doc]
              exact ⟨by omega, hdoc⟩
    by_cases h3 : c = ch '"'
    · subst h3
      rw [scanValue_succ, if_neg (by decide), if_neg (by decide), if_pos rfl] at h
      cases hk : scanString s with
      | error e => rw [hk] at h; simp at h
      | ok r =>
        obtain ⟨body, rest0⟩ := r
        rw [hk] at h
        simp only [Except.ok.injEq, Prod.mk.injEq] at h
        obtain ⟨rfl, rfl⟩ := h
        obtain ⟨e0, hbody⟩ := scanStringFrom_spec s .inString body rest0 hk
        refine ⟨ch '"' :: (body ++ [ch '"']), by rw [e0]; simp, fun f1 R hf _ => ?_, ?_⟩
        · obtain ⟨f2, rfl⟩ : ∃ k, f1 = k + 1 := ⟨f1 - 1, by simp at hf; omega⟩
          simp only [List.append_assoc, List.cons_append, List.nil_append]
          rw [scanValue_succ, if_neg (by decide), if_neg (by decide), if_pos rfl]
          have : scanString (body ++ ch '"' :: R) = .ok (body, R) := hbody R
          rw [this]
        · rw [Doc]
          exact unquote_valid body hbody
    by_cases h4 : c = ch '-' ∨ json.isDigit c
    · rw [scanValue_succ, if_neg h1, if_neg h2, if_neg h3, if_pos h4] at h
      cases hn : scanNumber (c :: s) with
      | error e => rw [hn] at h; simp at h
      | ok r =>
        obtain ⟨lit, rest0⟩ := r
        rw [hn] at h
        simp only [Except.ok.injEq, Prod.mk.injEq] at h
        obtain ⟨rfl, rfl⟩ := h
        obtain ⟨e0, hne, hst⟩ := scanNumber_spec _ _ _ hn
        obtain ⟨l0, l1, rfl⟩ := List.exists_cons_of_ne_nil hne
        have hl0 : c = l0 := by
          simp only [List.cons_append, List.cons.injEq] at e0
          exact e0.1
        subst hl0
        refine ⟨c :: l1, e0, fun f1 R hf hR => ?_, ?_⟩
        · obtain ⟨f2, rfl⟩ : ∃ k, f1 = k + 1 := ⟨f1 - 1, by simp at hf; omega⟩
          rw [List.cons_append, scanValue_succ, if_neg h1, if_neg h2, if_neg h3, if_pos h4]
          have := hst R hR
          rw [List.cons_append] at this
          rw [this]
        · rw [Doc]
          exact trivial
    by_cases h5 : c = ch 't'
    · subst h5
      exact literal_stable f d _ s (utf8 "rue") (.bool true) val rest (fun f1 t => by
        rw [scanValue_succ, if_neg (by decide), if_neg (by decide), if_neg (by decide),
          if_neg (by decide), if_pos rfl]) (by rw [Doc]; exact trivial) h
    by_cases h6 : c = ch 'f'
    · subst h6
      exact literal_stable f d _ s (utf8 "alse") (.bool false) val rest (fun f1 t => by
        rw [scanValue_succ, if_neg (by decide), if_neg (by decide), if_neg (by decide),
          if_neg (by decide), if_neg (by decide), if_pos rfl]) (by rw [Doc]; exact trivial) h
    by_cases h7 : c = ch 'n'
    · subst h7
      exact literal_stable f d _ s (utf8 "ull") .null val rest (fun f1 t => by
        rw [scanValue_succ, if_neg (by decide), if_neg (by decide), if_neg (by decide),
          if_neg (by decide), if_neg (by decide), if_neg (by decide), if_pos rfl])
        (by rw [Doc]; exact trivial) h
    rw [scanValue_succ, if_neg h1, if_neg h2, if_neg h3, if_neg h4, if_neg h5, if_neg h6,
      if_neg h7] at h
    simp at h

/-- What the scanner accepts is scanned again the same way, with any fuel
of at least the length of the text and whatever follows the text. -/
theorem scan_stable : ∀ f, ValueStable f ∧ ElemsStable f ∧ MembersStable f := by
  intro f
  induction f with
  | zero =>
    refine ⟨?_, ?_, ?_⟩
    · intro d input val rest h
      rw [scanValue] at h
      simp at h
    · intro d input es rest h
      rw [scanElems] at h
      simp at h
    · intro d input ms rest h
      rw [scanMembers] at h
      simp at h
  | succ f ih =>
    obtain ⟨hV, hE, hM⟩ := ih
    exact ⟨scanValue_stable f hE hM, scanElems_stable f hV (elemsTail_stable f hE),
      scanMembers_stable f hV (membersTail_stable f hM)⟩

/-! ## Lemmas: rounding to a `float64` and the shortest digits -/

open json

theorem bitsLen_zero (fuel : Nat) : bitsLen fuel 0 = 0 := by
  cases fuel <;> simp [bitsLen]

/-- The number `n` has `bitsLen n` bits. -/
theorem bitsLen_spec : ∀ (fuel n : Nat), n ≤ fuel →
    n < 2 ^ bitsLen fuel n ∧ (n ≠ 0 → 2 ^ (bitsLen fuel n - 1) ≤ n)
  | 0, n, h => by
    have h0 : n = 0 := by omega
    subst h0
    simp [bitsLen]
  | fuel + 1, n, h => by
    rw [bitsLen]
    by_cases hn : n = 0
    · subst hn
      simp
    · rw [if_neg hn]
      obtain ⟨h1, h2⟩ := bitsLen_spec fuel (n / 2) (by omega)
      refine ⟨?_, fun _ => ?_⟩
      · rw [pow_succ]
        omega
      · rw [Nat.add_sub_cancel]
        by_cases h0 : n / 2 = 0
        · rw [h0, bitsLen_zero]
          simp
          omega
        · have h3 := h2 h0
          have hb : bitsLen fuel (n / 2) ≠ 0 := by
            intro e
            rw [e] at h1
            simp at h1
            exact h0 h1
          obtain ⟨c, hc⟩ : ∃ c, bitsLen fuel (n / 2) = c + 1 :=
            ⟨bitsLen fuel (n / 2) - 1, by omega⟩
          rw [hc] at h3 ⊢
          rw [Nat.add_sub_cancel] at h3
          rw [pow_succ]
          omega

theorem decimalLen_zero (fuel : Nat) : decimalLen fuel 0 = 0 := by
  cases fuel <;> simp [decimalLen]

/-- The number `n` has `decimalLen n` decimal digits. -/
theorem decimalLen_spec : ∀ (fuel n : Nat), n ≤ fuel →
    n < 10 ^ decimalLen fuel n ∧ (n ≠ 0 → 10 ^ (decimalLen fuel n - 1) ≤ n)
  | 0, n, h => by
    have h0 : n = 0 := by omega
    subst h0
    simp [decimalLen]
  | fuel + 1, n, h => by
    rw [decimalLen]
    by_cases hn : n = 0
    · subst hn
      simp
    · rw [if_neg hn]
      obtain ⟨h1, h2⟩ := decimalLen_spec fuel (n / 10) (by omega)
      refine ⟨?_, fun _ => ?_⟩
      · rw [pow_succ]
        omega
      · rw [Nat.add_sub_cancel]
        by_cases h0 : n / 10 = 0
        · rw [h0, decimalLen_zero]
          simp
          omega
        · have h3 := h2 h0
          have hb : decimalLen fuel (n / 10) ≠ 0 := by
            intro e
            rw [e] at h1
            simp at h1
            exact h0 h1
          obtain ⟨c, hc⟩ : ∃ c, decimalLen fuel (n / 10) = c + 1 :=
            ⟨decimalLen fuel (n / 10) - 1, by omega⟩
          rw [hc] at h3 ⊢
          rw [Nat.add_sub_cancel] at h3
          rw [pow_succ]
          omega

/-- The number of bits of a number between two powers of two. -/
theorem bitsLen_eq (n k : Nat) (h1 : 2 ^ k ≤ n) (h2 : n < 2 ^ (k + 1)) : bitsLen n n = k + 1 := by
  obtain ⟨a, b⟩ := bitsLen_spec n n le_rfl
  have hn : n ≠ 0 := by
    have := Nat.pos_pow_of_pos k (show 0 < 2 by decide)
    omega
  have b1 := b hn
  have c1 : k < bitsLen n n := by
    by_contra hc
    have : 2 ^ bitsLen n n ≤ 2 ^ k := Nat.pow_le_pow_right (by decide) (by omega)
    omega
  have c2 : bitsLen n n - 1 < k + 1 := by
    by_contra hc
    have : 2 ^ (k + 1) ≤ 2 ^ (bitsLen n n - 1) := Nat.pow_le_pow_right (by decide) (by omega)
    omega
  omega

/-- The number of bits of a number below a power of two. -/
theorem bitsLen_le (n k : Nat) (h : n < 2 ^ k) : bitsLen n n ≤ k := by
  obtain ⟨_, b⟩ := bitsLen_spec n n le_rfl
  by_cases hn : n = 0
  · rw [hn, bitsLen_zero]
    exact Nat.zero_le _
  · have b1 := b hn
    by_contra hc
    have : 2 ^ k ≤ 2 ^ (bitsLen n n - 1) := Nat.pow_le_pow_right (by decide) (by omega)
    omega

theorem roundHalfEven_bounds (a b : Nat) :
    a / b ≤ roundHalfEven a b ∧ roundHalfEven a b ≤ a / b + 1 := by
  unfold roundHalfEven
  split_ifs <;> omega

theorem roundHalfEven_exact (q b : Nat) (hb : 0 < b) : roundHalfEven (q * b) b = q := by
  unfold roundHalfEven
  rw [Nat.mul_mod_left, Nat.mul_div_cancel _ hb, if_pos (by omega)]

theorem roundHalfEven_mul (c a b : Nat) (hc : 0 < c) :
    roundHalfEven (c * a) (c * b) = roundHalfEven a b := by
  unfold roundHalfEven
  rw [Nat.mul_mod_mul_left, Nat.mul_div_mul_left _ _ hc]
  have e1 : (2 * (c * (a % b)) < c * b) ↔ (2 * (a % b) < b) := by
    rw [show 2 * (c * (a % b)) = c * (2 * (a % b)) by ring]
    exact Nat.mul_lt_mul_left hc
  have e2 : (c * b < 2 * (c * (a % b))) ↔ (b < 2 * (a % b)) := by
    rw [show 2 * (c * (a % b)) = c * (2 * (a % b)) by ring]
    exact Nat.mul_lt_mul_left hc
  simp only [e1, e2]

/-- The mantissa that `roundRatio` rounds to has at most 53 bits, or is
`2^53`, and has its top bit set above the denormal range. -/
theorem roundRatio_core (n den : Nat) :
    roundHalfEven n (den * 2 ^ (bitsLen (n / den) (n / den) - 53)) ≤ 2 ^ 53 ∧
      (bitsLen (n / den) (n / den) - 53 = 0 ∨
        2 ^ 52 ≤ roundHalfEven n (den * 2 ^ (bitsLen (n / den) (n / den) - 53))) := by
  obtain ⟨s1, s2⟩ := bitsLen_spec (n / den) (n / den) le_rfl
  obtain ⟨r1, r2⟩ := roundHalfEven_bounds n (den * 2 ^ (bitsLen (n / den) (n / den) - 53))
  rw [← Nat.div_div_eq_div_mul] at r1 r2
  generalize roundHalfEven n (den * 2 ^ (bitsLen (n / den) (n / den) - 53)) = m0 at r1 r2 ⊢
  generalize n / den = fl at s1 s2 r1 r2 ⊢
  by_cases hb : bitsLen fl fl ≤ 53
  · have e : bitsLen fl fl - 53 = 0 := by omega
    rw [e] at r1 r2 ⊢
    rw [pow_zero, Nat.div_one] at r1 r2
    have : 2 ^ bitsLen fl fl ≤ 2 ^ 53 := Nat.pow_le_pow_right (by decide) hb
    exact ⟨by omega, Or.inl rfl⟩
  · obtain ⟨ex, hex⟩ : ∃ ex, bitsLen fl fl = 53 + ex + 1 := ⟨bitsLen fl fl - 54, by omega⟩
    have e : bitsLen fl fl - 53 = ex + 1 := by omega
    have hfl : fl ≠ 0 := by
      intro e0
      rw [e0, bitsLen_zero] at hex
      omega
    have s3 := s2 hfl
    rw [hex] at s1 s3
    rw [e] at r1 r2 ⊢
    rw [Nat.add_sub_cancel] at s3
    have p1 : fl / 2 ^ (ex + 1) < 2 ^ 53 := by
      rw [Nat.div_lt_iff_lt_mul (Nat.pos_pow_of_pos _ (by decide)), ← pow_add]
      exact s1
    have p2 : 2 ^ 52 ≤ fl / 2 ^ (ex + 1) := by
      rw [Nat.le_div_iff_mul_le (Nat.pos_pow_of_pos _ (by decide)), ← pow_add]
      rw [show 52 + (ex + 1) = 53 + ex by omega]
      exact s3
    exact ⟨by omega, Or.inr (by omega)⟩

/-- What `roundRatio` gives is a `float64` value of the sign asked for. -/
theorem roundRatio_valid (neg : Bool) (num den : Nat) (x : Float64)
    (h : roundRatio neg num den = some x) : x.valid ∧ x.neg = neg := by
  unfold roundRatio at h
  dsimp only at h
  obtain ⟨c1, c2⟩ := roundRatio_core (num * 2 ^ 1074) den
  generalize roundHalfEven (num * 2 ^ 1074)
    (den * 2 ^ (bitsLen (num * 2 ^ 1074 / den) (num * 2 ^ 1074 / den) - 53)) = m0 at h c1 c2
  generalize bitsLen (num * 2 ^ 1074 / den) (num * 2 ^ 1074 / den) - 53 = ex at h c1 c2
  split_ifs at h with h1 h2 h2
  · cases h
    refine ⟨⟨?_, ?_, ?_⟩, rfl⟩
    · show (2 : Nat) ^ 52 < 2 ^ 53
      norm_num
    · show ex + 1 ≤ 2045
      omega
    · exact Or.inr le_rfl
  · cases h
    refine ⟨⟨?_, ?_, ?_⟩, rfl⟩
    · show m0 < 2 ^ 53
      omega
    · show ex ≤ 2045
      omega
    · rcases c2 with c2 | c2
      · exact Or.inl c2
      · exact Or.inr c2

/-- What `roundFloat` gives is a `float64` value of the sign asked for. -/
theorem roundFloat_valid (neg : Bool) (d : Nat) (e10 : Int) (x : Float64)
    (h : roundFloat neg d e10 = some x) : x.valid ∧ x.neg = neg := by
  unfold roundFloat at h
  split_ifs at h
  · exact roundRatio_valid neg _ 1 x h
  · exact roundRatio_valid neg _ _ x h

/-- A common factor of the numerator and the denominator does not change
the rounded number. -/
theorem roundRatio_mul (neg : Bool) (c num den : Nat) (hc : 0 < c) :
    roundRatio neg (c * num) (c * den) = roundRatio neg num den := by
  unfold roundRatio
  dsimp only
  rw [Nat.mul_assoc c num, Nat.mul_div_mul_left _ _ hc, Nat.mul_assoc c den,
    roundHalfEven_mul c _ _ hc]

/-- A `float64` value is the rounding of itself. -/
theorem roundRatio_exact (x : Float64) (hx : x.valid) (den : Nat) (hden : 0 < den) :
    roundRatio x.neg (x.mant * 2 ^ x.exp * den) (den * 2 ^ 1074) = some x := by
  obtain ⟨h1, h2, h3⟩ := hx
  have e1 : x.mant * 2 ^ x.exp * den * 2 ^ 1074 = (den * 2 ^ 1074) * (x.mant * 2 ^ x.exp) := by
    ring
  have hpos : 0 < den * 2 ^ 1074 := Nat.mul_pos hden (Nat.pos_pow_of_pos _ (by decide))
  have hex : bitsLen (x.mant * 2 ^ x.exp) (x.mant * 2 ^ x.exp) - 53 = x.exp := by
    rcases h3 with h3 | h3
    · rw [h3, pow_zero, Nat.mul_one]
      have := bitsLen_le x.mant 53 h1
      omega
    · have a1 : 2 ^ (52 + x.exp) ≤ x.mant * 2 ^ x.exp := by
        rw [pow_add]
        exact Nat.mul_le_mul_right _ h3
      have a2 : x.mant * 2 ^ x.exp < 2 ^ (52 + x.exp + 1) := by
        rw [show 52 + x.exp + 1 = 53 + x.exp by omega, pow_add]
        exact Nat.mul_lt_mul_of_pos_right h1 (Nat.pos_pow_of_pos _ (by decide))
      rw [bitsLen_eq _ _ a1 a2]
      omega
  unfold roundRatio
  dsimp only
  rw [e1, Nat.mul_div_cancel_left _ hpos, hex]
  rw [show den * 2 ^ 1074 * (x.mant * 2 ^ x.exp) = x.mant * (den * 2 ^ 1074 * 2 ^ x.exp) by ring,
    roundHalfEven_exact _ _ (Nat.mul_pos hpos (Nat.pos_pow_of_pos _ (by decide)))]
  have hne : ¬ x.mant = 2 ^ 53 := by omega
  simp only [if_neg hne, if_neg (show ¬ 2045 < x.exp by omega)]

/-- The digit `0` at the end of the digits can be moved into the exponent. -/
theorem roundFloat_scale (neg : Bool) (d : Nat) (k : Int) :
    roundFloat neg (10 * d) k = roundFloat neg d (k + 1) := by
  unfold roundFloat
  by_cases h0 : 0 ≤ k
  · rw [if_pos h0, if_pos (by omega)]
    obtain ⟨n, rfl⟩ := Int.eq_ofNat_of_zero_le h0
    rw [show ((n : Int) + 1).toNat = n + 1 by omega, Int.toNat_ofNat, pow_succ]
    congr 1
    ring
  · rw [if_neg h0]
    obtain ⟨n, hn⟩ : ∃ n : Nat, k = -((n : Int) + 1) := ⟨(-k - 1).toNat, by omega⟩
    subst hn
    rw [show (-(-((n : Int) + 1))).toNat = n + 1 by omega, pow_succ, Nat.mul_comm (10 ^ n) 10,
      roundRatio_mul neg 10 d (10 ^ n) (by decide)]
    cases n with
    | zero =>
      rw [if_pos (by omega)]
      simp
    | succ m =>
      rw [if_neg (by omega)]
      congr 2

/-- The step "trim zeros" does not change the number the digits stand for. -/
theorem trimZeros_round (neg : Bool) : ∀ (fuel d : Nat) (k : Int),
    roundFloat neg (trimZeros fuel d k).1 (trimZeros fuel d k).2 = roundFloat neg d k
  | 0, d, k => by rw [trimZeros]
  | fuel + 1, d, k => by
    rw [trimZeros]
    split_ifs with h
    · rw [trimZeros_round neg fuel (d / 10) (k + 1), ← roundFloat_scale,
        Nat.mul_div_cancel' (Nat.dvd_of_mod_eq_zero h.2)]
    · rfl

/-- The step "trim zeros" keeps the digits between the same powers of ten,
once the exponent is taken into account. -/
theorem trimZeros_bounds (lo hi : Nat) : ∀ (fuel d j : Nat), d ≠ 0 →
    lo ≤ d * 10 ^ j → d * 10 ^ j ≤ hi →
    ∃ j1 : Nat, (trimZeros fuel d ((j : Int) - 1074)).2 = (j1 : Int) - 1074 ∧
      (trimZeros fuel d ((j : Int) - 1074)).1 ≠ 0 ∧
      lo ≤ (trimZeros fuel d ((j : Int) - 1074)).1 * 10 ^ j1 ∧
      (trimZeros fuel d ((j : Int) - 1074)).1 * 10 ^ j1 ≤ hi
  | 0, d, j, hd, h1, h2 => by
    rw [trimZeros]
    exact ⟨j, rfl, hd, h1, h2⟩
  | fuel + 1, d, j, hd, h1, h2 => by
    rw [trimZeros]
    split_ifs with h
    · have e : d / 10 * 10 ^ (j + 1) = d * 10 ^ j := by
        rw [pow_succ, Nat.mul_comm (10 ^ j) 10, ← Nat.mul_assoc,
          Nat.div_mul_cancel (Nat.dvd_of_mod_eq_zero h.2)]
      have := trimZeros_bounds lo hi fuel (d / 10) (j + 1) (by omega) (by rw [e]; exact h1)
        (by rw [e]; exact h2)
      rw [show ((j + 1 : Nat) : Int) - 1074 = (j : Int) - 1074 + 1 by omega] at this
      exact this
    · exact ⟨j, rfl, hd, h1, h2⟩

/-- The two decimals of `n` digits next to `t` lie between the powers of
ten around `t`. -/
theorem candidate_bounds (t len n : Nat) (h1 : 10 ^ (len - 1) ≤ t) (h2 : t < 10 ^ len)
    (hn : 1 ≤ n) (hl : n < len) (c : Nat)
    (hc : t / 10 ^ (len - n) ≤ c ∧ c ≤ t / 10 ^ (len - n) + 1) :
    c ≠ 0 ∧ 10 ^ (len - 1) ≤ c * 10 ^ (len - n) ∧ c * 10 ^ (len - n) ≤ 10 ^ len := by
  have e1 : 10 ^ (len - 1) = 10 ^ (n - 1) * 10 ^ (len - n) := by
    rw [← pow_add]
    congr 1
    omega
  have e2 : 10 ^ len = 10 ^ n * 10 ^ (len - n) := by
    rw [← pow_add]
    congr 1
    omega
  have hp : 0 < 10 ^ (len - n) := Nat.pos_pow_of_pos _ (by decide)
  have hp1 : 0 < 10 ^ (n - 1) := Nat.pos_pow_of_pos _ (by decide)
  rw [e1] at h1 ⊢
  rw [e2] at h2 ⊢
  have a1 : 10 ^ (n - 1) ≤ t / 10 ^ (len - n) := (Nat.le_div_iff_mul_le hp).mpr h1
  have a2 : t / 10 ^ (len - n) < 10 ^ n := (Nat.div_lt_iff_lt_mul hp).mpr h2
  exact ⟨by omega, Nat.mul_le_mul_right _ (by omega), Nat.mul_le_mul_right _ (by omega)⟩

/-- The search of the shortest digits ends with digits that are read back
as the number, between the powers of ten around `t`. -/
theorem shortestLoop_spec (x : Float64) (t len : Nat)
    (hexact : roundFloat x.neg t (-1074) = some x)
    (h1 : 10 ^ (len - 1) ≤ t) (h2 : t < 10 ^ len) (ht : t ≠ 0) :
    ∀ (fuel n : Nat), 1 ≤ n →
      roundFloat x.neg (shortestLoop x t len fuel n).1 (shortestLoop x t len fuel n).2 = some x ∧
      ∃ j : Nat, (shortestLoop x t len fuel n).2 = (j : Int) - 1074 ∧
        (shortestLoop x t len fuel n).1 ≠ 0 ∧
        10 ^ (len - 1) ≤ (shortestLoop x t len fuel n).1 * 10 ^ j ∧
        (shortestLoop x t len fuel n).1 * 10 ^ j ≤ 10 ^ len := by
  have hend : roundFloat x.neg t (-1074) = some x ∧
      ∃ j : Nat, (-1074 : Int) = (j : Int) - 1074 ∧ t ≠ 0 ∧
        10 ^ (len - 1) ≤ t * 10 ^ j ∧ t * 10 ^ j ≤ 10 ^ len :=
    ⟨hexact, 0, by omega, ht, by rw [pow_zero, Nat.mul_one]; exact h1,
      by rw [pow_zero, Nat.mul_one]; exact Nat.le_of_lt h2⟩
  intro fuel
  induction fuel with
  | zero =>
    intro n _
    rw [shortestLoop]
    exact hend
  | succ fuel ih =>
    intro n hn
    rw [shortestLoop]
    by_cases hl : len ≤ n
    · rw [if_pos hl]
      exact hend
    · rw [if_neg hl]
      dsimp only
      obtain ⟨b1, b2⟩ := roundHalfEven_bounds t (10 ^ (len - n))
      by_cases c1 : roundFloat x.neg (roundHalfEven t (10 ^ (len - n)))
          (((len - n : Nat) : Int) - 1074) = some x
      · rw [if_pos c1]
        obtain ⟨q1, q2, q3⟩ := candidate_bounds t len n h1 h2 hn (by omega) _ ⟨b1, b2⟩
        exact ⟨c1, len - n, rfl, q1, q2, q3⟩
      · rw [if_neg c1]
        by_cases c2 : roundFloat x.neg
            (if roundHalfEven t (10 ^ (len - n)) = t / 10 ^ (len - n) then
              t / 10 ^ (len - n) + 1 else t / 10 ^ (len - n))
            (((len - n : Nat) : Int) - 1074) = some x
        · rw [if_pos c2]
          obtain ⟨q1, q2, q3⟩ := candidate_bounds t len n h1 h2 hn (by omega)
            (if roundHalfEven t (10 ^ (len - n)) = t / 10 ^ (len - n) then
              t / 10 ^ (len - n) + 1 else t / 10 ^ (len - n))
            (by split_ifs <;> omega)
          exact ⟨c2, len - n, rfl, q1, q2, q3⟩
        · rw [if_neg c2]
          exact ih (n + 1) (by omega)

theorem pow10_99_le : 10 ^ 99 ≤ 5 ^ 1074 := by
  have a : (10 : Nat) ^ 99 ≤ 5 ^ 142 := by norm_num
  exact le_trans a (Nat.pow_le_pow_right (by decide) (by decide))

theorem pow2_1024_le : 2 ^ 1024 ≤ 10 ^ 312 := by
  have a : (2 : Nat) ^ 128 ≤ 10 ^ 39 := by norm_num
  have b := Nat.pow_le_pow_left a 8
  rw [← pow_mul, ← pow_mul] at b
  exact b

/-- The digits and the exponent of `shortest`: they are read back as the
number, the digits are not zero, and with the exponent they lie between two
powers of ten that are within the range of a `float64`. -/
theorem shortest_spec (x : Float64) (hx : x.valid) (hm : x.mant ≠ 0) :
    roundFloat x.neg (shortest x).1 (shortest x).2 = some x ∧
    ∃ j len : Nat, (shortest x).2 = (j : Int) - 1074 ∧ (shortest x).1 ≠ 0 ∧
      100 ≤ len ∧ len ≤ 1386 ∧
      10 ^ (len - 1) ≤ (shortest x).1 * 10 ^ j ∧ (shortest x).1 * 10 ^ j ≤ 10 ^ len := by
  have e10 : (10 : Nat) ^ 1074 = 5 ^ 1074 * 2 ^ 1074 := by
    rw [← Nat.mul_pow]
  have hexact : roundFloat x.neg (x.mant * 2 ^ x.exp * 5 ^ 1074) (-1074) = some x := by
    unfold roundFloat
    rw [if_neg (by decide), show (-(-1074 : Int)).toNat = 1074 by decide, e10]
    exact roundRatio_exact x hx (5 ^ 1074) (Nat.pos_pow_of_pos _ (by decide))
  obtain ⟨m1, m2, m3⟩ := hx
  have hlow : 5 ^ 1074 ≤ x.mant * 2 ^ x.exp * 5 ^ 1074 :=
    Nat.le_mul_of_pos_left _ (Nat.mul_pos (by omega) (Nat.pos_pow_of_pos _ (by decide)))
  have hhigh : x.mant * 2 ^ x.exp * 5 ^ 1074 < 10 ^ 1386 := by
    have a1 : x.mant * 2 ^ x.exp < 2 ^ 53 * 2 ^ 2045 :=
      Nat.mul_lt_mul_of_lt_of_le m1 (Nat.pow_le_pow_right (by decide) m2)
        (Nat.pos_pow_of_pos _ (by decide))
    have a2 : (2 : Nat) ^ 53 * 2 ^ 2045 = 2 ^ 1024 * 2 ^ 1074 := by
      rw [← pow_add, ← pow_add]
    have a3 : x.mant * 2 ^ x.exp * 5 ^ 1074 < 2 ^ 1024 * 2 ^ 1074 * 5 ^ 1074 := by
      rw [← a2]
      exact Nat.mul_lt_mul_of_pos_right a1 (Nat.pos_pow_of_pos _ (by decide))
    have a4 : (2 : Nat) ^ 1024 * 2 ^ 1074 * 5 ^ 1074 ≤ 10 ^ 312 * 10 ^ 1074 := by
      rw [Nat.mul_assoc, e10, Nat.mul_comm (5 ^ 1074)]
      exact Nat.mul_le_mul_right _ pow2_1024_le
    rw [← pow_add] at a4
    exact lt_of_lt_of_le a3 a4
  generalize ht : x.mant * 2 ^ x.exp * 5 ^ 1074 = t at hexact hlow hhigh
  have ht0 : t ≠ 0 := by
    have := Nat.pos_pow_of_pos 1074 (show 0 < 5 by decide)
    omega
  obtain ⟨s1, s2⟩ := decimalLen_spec t t le_rfl
  have s3 := s2 ht0
  have l1 : 100 ≤ decimalLen t t := by
    by_contra hc
    have : 10 ^ decimalLen t t ≤ 10 ^ 99 := Nat.pow_le_pow_right (by decide) (by omega)
    have := pow10_99_le
    omega
  have l2 : decimalLen t t ≤ 1386 := by
    by_contra hc
    have : 10 ^ 1386 ≤ 10 ^ (decimalLen t t - 1) := Nat.pow_le_pow_right (by decide) (by omega)
    omega
  obtain ⟨r1, j, r2, r3, r4, r5⟩ :=
    shortestLoop_spec x t (decimalLen t t) hexact s3 s1 ht0 (decimalLen t t) 1 le_rfl
  unfold shortest
  dsimp only
  rw [ht, trimZeros_round]
  refine ⟨r1, ?_⟩
  rw [r2]
  obtain ⟨j1, t1, t2, t3, t4⟩ := trimZeros_bounds (10 ^ (decimalLen t t - 1))
    (10 ^ decimalLen t t) (shortestLoop x t (decimalLen t t) (decimalLen t t) 1).1
    (shortestLoop x t (decimalLen t t) (decimalLen t t) 1).1 j r3 r4 r5
  exact ⟨j1, decimalLen t t, t1, t2, l1, l2, t3, t4⟩

/-! ## Lemmas: the text of a `float64` is read back -/

open json

theorem isDigit_val : ∀ c : Byte, json.isDigit c = true → 48 ≤ c.val ∧ c.val ≤ 57 := by
  decide

theorem digit_val : ∀ a : Fin 10, (digit a.val).val = 48 + a.val := by
  decide

theorem decimalValue_foldl : ∀ (ds : GoString) (a : Nat),
    ds.foldl (fun a c => a * 10 + (c.val - 48)) a = a * 10 ^ ds.length + decimalValue ds
  | [], a => by simp [decimalValue]
  | c :: ds, a => by
    unfold decimalValue
    simp only [List.foldl_cons, List.length_cons]
    rw [decimalValue_foldl ds (a * 10 + (c.val - 48)),
      decimalValue_foldl ds (0 * 10 + (c.val - 48))]
    ring

theorem decimalValue_append (A B : GoString) :
    decimalValue (A ++ B) = decimalValue A * 10 ^ B.length + decimalValue B := by
  conv_lhs => unfold decimalValue
  rw [List.foldl_append, decimalValue_foldl B]
  rfl

theorem decimalValue_cons (c : Byte) (B : GoString) :
    decimalValue (c :: B) = (c.val - 48) * 10 ^ B.length + decimalValue B := by
  have := decimalValue_append [c] B
  rw [List.singleton_append] at this
  rw [this]
  simp [decimalValue]

theorem decimalValue_zeros : ∀ n : Nat, decimalValue (List.replicate n (ch '0')) = 0
  | 0 => rfl
  | n + 1 => by
    rw [List.replicate_succ, decimalValue_cons, decimalValue_zeros n,
      show (ch '0').val - 48 = 0 by decide]
    simp

theorem decimalValue_lt : ∀ ds : GoString, (∀ b ∈ ds, json.isDigit b = true) →
    decimalValue ds < 10 ^ ds.length
  | [], _ => by simp [decimalValue]
  | c :: ds, h => by
    have h1 := isDigit_val c (h c (List.mem_cons_self _ _))
    have h2 := decimalValue_lt ds (fun b hb => h b (List.mem_cons_of_mem _ hb))
    rw [decimalValue_cons, List.length_cons, pow_succ]
    have : (c.val - 48) * 10 ^ ds.length ≤ 9 * 10 ^ ds.length :=
      Nat.mul_le_mul_right _ (by omega)
    omega

theorem decimalValue_ge (c : Byte) (ds : GoString) (hc : json.isDigit c = true)
    (h0 : c ≠ ch '0') : 10 ^ ds.length ≤ decimalValue (c :: ds) := by
  have h1 := isDigit_val c hc
  have h2 : c.val ≠ 48 := by
    intro e
    apply h0
    apply Fin.ext
    rw [e]
    rfl
  rw [decimalValue_cons]
  have : 1 * 10 ^ ds.length ≤ (c.val - 48) * 10 ^ ds.length :=
    Nat.mul_le_mul_right _ (by omega)
  omega

theorem decimalValue_cast : ∀ (ds : GoString) (a : Nat), (∀ b ∈ ds, json.isDigit b = true) →
    ((ds.foldl (fun a c => a * 10 + (c.val - 48)) a : Nat) : Int) =
      ds.foldl (fun (a : Int) d => a * 10 + ((d.val : Int) - 48)) (a : Int)
  | [], a, _ => rfl
  | c :: ds, a, h => by
    have h1 := isDigit_val c (h c (List.mem_cons_self _ _))
    simp only [List.foldl_cons]
    rw [decimalValue_cast ds _ (fun b hb => h b (List.mem_cons_of_mem _ hb))]
    congr 1
    omega

/-- The digits of a number: digits, without a leading zero, whose value is
the number. -/
theorem decimalDigits_spec (d : Nat) :
    decimalDigits d ≠ [] ∧ (∀ b ∈ decimalDigits d, json.isDigit b = true) ∧
      (∀ c, (decimalDigits d).head? = some c → c = ch '0' → d = 0) ∧
      decimalValue (decimalDigits d) = d := by
  obtain ⟨ds, e, hne, hd, hh, hv⟩ := formatBits10_value d (d + 1) [] (by omega)
  rw [List.append_nil] at e
  unfold decimalDigits
  rw [e]
  refine ⟨hne, hd, hh, ?_⟩
  have := decimalValue_cast ds 0 hd
  rw [Nat.cast_zero, hv] at this
  exact Int.ofNat_inj.mp this

/-- The number of digits of a number that is not zero. -/
theorem decimalDigits_length (d : Nat) (hd : d ≠ 0) :
    10 ^ ((decimalDigits d).length - 1) ≤ d ∧ d < 10 ^ (decimalDigits d).length := by
  obtain ⟨hne, hdig, hh, hv⟩ := decimalDigits_spec d
  obtain ⟨c, ds, e⟩ := List.exists_cons_of_ne_nil hne
  rw [e] at hdig hh hv ⊢
  have h0 : c ≠ ch '0' := fun e0 => hd (hh c rfl e0)
  have a := decimalValue_ge c ds (hdig c (List.mem_cons_self _ _)) h0
  have b := decimalValue_lt (c :: ds) hdig
  rw [hv] at a b
  exact ⟨by simpa using a, b⟩

theorem takeWhile_digits (A B : GoString) (hA : ∀ b ∈ A, json.isDigit b = true)
    (hB : ∀ c, B.head? = some c → json.isDigit c = false) :
    (A ++ B).takeWhile json.isDigit = A ∧ (A ++ B).dropWhile json.isDigit = B := by
  induction A with
  | nil =>
    cases B with
    | nil => exact ⟨rfl, rfl⟩
    | cons c B =>
      have := hB c rfl
      simp [List.takeWhile, List.dropWhile, this]
  | cons a A ih =>
    have ha := hA a (List.mem_cons_self _ _)
    obtain ⟨i1, i2⟩ := ih (fun b hb => hA b (List.mem_cons_of_mem _ hb))
    rw [List.cons_append, List.takeWhile_cons, List.dropWhile_cons, if_pos ha, if_pos ha, i1, i2]
    exact ⟨rfl, rfl⟩

theorem isDecimal_eq : strconv.isDecimal = json.isDigit := rfl

/-- What `readFloat` reads from a number written as a sign, an integer part
`I`, a fraction `F` and an exponent `E`. -/
theorem readFloat_shape (neg : Bool) (I F E : GoString) (ex : Int)
    (hI0 : I ≠ []) (hI : ∀ b ∈ I, json.isDigit b = true) (hF : ∀ b ∈ F, json.isDigit b = true)
    (hE : (E = [] ∧ ex = 0) ∨ ∃ X, (∀ b ∈ X, json.isDigit b = true) ∧
      ((E = ch 'e' :: ch '-' :: X ∧ ex = -(readExponent X : Int)) ∨
       (E = ch 'e' :: ch '+' :: X ∧ ex = (readExponent X : Int)))) :
    readFloat ((if neg then [ch '-'] else []) ++
        (I ++ ((if F = [] then [] else ch '.' :: F) ++ E))) =
      (neg, decimalValue (I ++ F), ex - (F.length : Int)) := by
  obtain ⟨i0, I1, rfl⟩ := List.exists_cons_of_ne_nil hI0
  have hi0 : json.isDigit i0 = true := hI i0 (List.mem_cons_self _ _)
  have hi0m : i0 ≠ ch '-' := fun e => by rw [e] at hi0; revert hi0; decide
  have hEh : ∀ c, E.head? = some c → json.isDigit c = false ∧ c ≠ ch '.' := by
    intro c hc
    rcases hE with ⟨rfl, _⟩ | ⟨X, _, ⟨rfl, _⟩ | ⟨rfl, _⟩⟩
    · cases hc
    · cases hc
      decide
    · cases hc
      decide
  -- the sign
  have hs1 : (if (decide (((if neg then [ch '-'] else []) ++
        (i0 :: I1 ++ ((if F = [] then [] else ch '.' :: F) ++ E))).head? = some (ch '-')))
      then ((if neg then [ch '-'] else []) ++
        (i0 :: I1 ++ ((if F = [] then [] else ch '.' :: F) ++ E))).tail
      else ((if neg then [ch '-'] else []) ++
        (i0 :: I1 ++ ((if F = [] then [] else ch '.' :: F) ++ E)))) =
      i0 :: I1 ++ ((if F = [] then [] else ch '.' :: F) ++ E) := by
    cases neg
    · simp [hi0m]
    · simp
  have hs0 : decide (((if neg then [ch '-'] else []) ++
        (i0 :: I1 ++ ((if F = [] then [] else ch '.' :: F) ++ E))).head? = some (ch '-')) =
      neg := by
    cases neg
    · simp [hi0m]
    · simp
  -- the integer part
  have hFE : ∀ c, ((if F = [] then [] else ch '.' :: F) ++ E).head? = some c →
      json.isDigit c = false := by
    intro c hc
    by_cases hf : F = []
    · rw [if_pos hf, List.nil_append] at hc
      exact (hEh c hc).1
    · rw [if_neg hf] at hc
      cases hc
      decide
  obtain ⟨t1, t2⟩ := takeWhile_digits (i0 :: I1) _ hI hFE
  -- the fraction
  have hfrac : (if (decide (((if F = [] then [] else ch '.' :: F) ++ E).head? = some (ch '.')))
      then (((if F = [] then [] else ch '.' :: F) ++ E).tail.takeWhile json.isDigit)
      else []) = F := by
    by_cases hf : F = []
    · rw [if_pos hf, List.nil_append, hf]
      cases hE0 : E with
      | nil => rfl
      | cons c E1 =>
        have := (hEh c (by rw [hE0]; rfl)).2
        simp [this]
    · rw [if_neg hf]
      simp only [List.cons_append, List.head?_cons, decide_True, if_true, List.tail_cons]
      exact (takeWhile_digits F E hF (fun c hc => (hEh c hc).1)).1
  have hrest : (if (decide (((if F = [] then [] else ch '.' :: F) ++ E).head? = some (ch '.')))
      then (((if F = [] then [] else ch '.' :: F) ++ E).tail.dropWhile json.isDigit)
      else ((if F = [] then [] else ch '.' :: F) ++ E)) = E := by
    by_cases hf : F = []
    · rw [if_pos hf, List.nil_append]
      cases hE0 : E with
      | nil => rfl
      | cons c E1 =>
        have := (hEh c (by rw [hE0]; rfl)).2
        simp [this]
    · rw [if_neg hf]
      simp only [List.cons_append, List.head?_cons, decide_True, if_true, List.tail_cons]
      exact (takeWhile_digits F E hF (fun c hc => (hEh c hc).1)).2
  unfold readFloat
  dsimp only
  rw [isDecimal_eq, hs1, hs0, t1, t2, hfrac, hrest]
  congr 2
  rcases hE with ⟨rfl, rfl⟩ | ⟨X, hX, ⟨rfl, rfl⟩ | ⟨rfl, rfl⟩⟩
  · rfl
  · have := (takeWhile_digits X [] hX (fun c hc => by cases hc)).1
    rw [List.append_nil] at this
    simp [this]
  · have := (takeWhile_digits X [] hX (fun c hc => by cases hc)).1
    rw [List.append_nil] at this
    simp [this, show ¬ ch '+' = ch '-' by decide]

/-- A sign, an integer part without a leading zero, a fraction and an
exponent are scanned as one number literal. -/
theorem scanNumber_shape (neg : Bool) (I F E : GoString)
    (hI0 : I ≠ []) (hI : ∀ b ∈ I, json.isDigit b = true)
    (hlead : ∀ c, I.head? = some c → c = ch '0' → I = [ch '0'])
    (hF : ∀ b ∈ F, json.isDigit b = true)
    (hE : E = [] ∨ ∃ g X, X ≠ [] ∧ (∀ b ∈ X, json.isDigit b = true) ∧
      (g = ch '+' ∨ g = ch '-') ∧ E = ch 'e' :: g :: X)
    (R : GoString) (hR : Delim R) :
    scanNumber (((if neg then [ch '-'] else []) ++
        (I ++ ((if F = [] then [] else ch '.' :: F) ++ E))) ++ R) =
      .ok ((if neg then [ch '-'] else []) ++
        (I ++ ((if F = [] then [] else ch '.' :: F) ++ E)), R) := by
  obtain ⟨i0, I1, rfl⟩ := List.exists_cons_of_ne_nil hI0
  have hi0 : json.isDigit i0 = true := hI i0 (List.mem_cons_self _ _)
  have hi0m : i0 ≠ ch '-' := fun e => by rw [e] at hi0; revert hi0; decide
  have hEh : ∀ c, E.head? = some c → json.isDigit c = false ∧ c ≠ ch '.' := by
    intro c hc
    rcases hE with rfl | ⟨g, X, _, _, _, rfl⟩
    · cases hc
    · cases hc
      decide
  have hFE : ∀ c, ((if F = [] then [] else ch '.' :: F) ++ E).head? = some c →
      json.isDigit c = false := by
    intro c hc
    by_cases hf : F = []
    · rw [if_pos hf, List.nil_append] at hc
      exact (hEh c hc).1
    · rw [if_neg hf] at hc
      cases hc
      decide
  have hng : (if neg then [ch '-'] else []) = [ch '-'] ∨
      ((if neg then [ch '-'] else ([] : GoString)) = [] ∧
        ∀ c, (i0 :: I1 ++ ((if F = [] then [] else ch '.' :: F) ++ E)).head? = some c →
          c ≠ ch '-') := by
    cases neg
    · right
      refine ⟨rfl, fun c hc => ?_⟩
      simp only [List.cons_append, List.head?_cons, Option.some.injEq] at hc
      rw [← hc]
      exact hi0m
    · left
      rfl
  have hint : scanInt (i0 :: I1 ++ ((if F = [] then [] else ch '.' :: F) ++ E)) =
      .ok (i0 :: I1, (if F = [] then [] else ch '.' :: F) ++ E) := by
    unfold scanInt
    rw [List.cons_append]
    dsimp only
    by_cases h0 : i0 = ch '0'
    · rw [if_pos h0]
      have := hlead i0 rfl h0
      simp only [List.cons.injEq] at this
      rw [this.2]
      rfl
    · rw [if_neg h0, if_pos hi0,
        scanDigits_append I1 _ (fun b hb => hI b (List.mem_cons_of_mem _ hb)) hFE]
  have hfrac : scanFraction ((if F = [] then [] else ch '.' :: F) ++ E) =
      .ok ((if F = [] then [] else ch '.' :: F), E) := by
    by_cases hf : F = []
    · rw [if_pos hf, List.nil_append]
      cases hE0 : E with
      | nil => rfl
      | cons c E1 =>
        unfold scanFraction
        dsimp only
        rw [if_neg (hEh c (by rw [hE0]; rfl)).2]
    · rw [if_neg hf]
      obtain ⟨f0, F1, rfl⟩ := List.exists_cons_of_ne_nil hf
      unfold scanFraction
      rw [List.cons_append, List.cons_append]
      dsimp only
      rw [if_pos rfl, if_pos (hF f0 (List.mem_cons_self _ _))]
      have := scanDigits_append (f0 :: F1) E hF (fun c hc => (hEh c hc).1)
      rw [List.cons_append] at this
      rw [this]
  have hexp : scanExponent E = .ok (E, []) := by
    rcases hE with rfl | ⟨g, X, hX0, hX, hg, rfl⟩
    · rfl
    · obtain ⟨x0, X1, rfl⟩ := List.exists_cons_of_ne_nil hX0
      unfold scanExponent
      dsimp only
      rw [if_pos (Or.inl rfl), if_pos hg]
      dsimp only
      rw [if_pos (hX x0 (List.mem_cons_self _ _))]
      have := scanDigits_append (x0 :: X1) [] hX (fun c hc => by cases hc)
      rw [List.append_nil] at this
      rw [this]
      rfl
  have h0 : scanNumber ((if neg then [ch '-'] else []) ++
      (i0 :: I1 ++ ((if F = [] then [] else ch '.' :: F) ++ E))) =
      .ok ((if neg then [ch '-'] else []) ++
        (i0 :: I1 ++ ((if F = [] then [] else ch '.' :: F) ++ E)), []) := by
    rw [scanNumber_eq _ _ hng, hint]
    dsimp only
    rw [hfrac]
    dsimp only
    rw [hexp]
    simp only [List.append_assoc]
  exact (scanNumber_spec _ _ _ h0).2.2 R hR

/-- A number text of the shape the encoder writes is scanned as one literal
and read back as the `float64` its digits round to. -/
theorem floatText_of_shape (x : Float64) (I F E : GoString) (ex : Int)
    (hI0 : I ≠ []) (hI : ∀ b ∈ I, json.isDigit b = true)
    (hlead : ∀ c, I.head? = some c → c = ch '0' → I = [ch '0'])
    (hF : ∀ b ∈ F, json.isDigit b = true)
    (hE : (E = [] ∧ ex = 0) ∨ ∃ X, X ≠ [] ∧ (∀ b ∈ X, json.isDigit b = true) ∧
      ((E = ch 'e' :: ch '-' :: X ∧ ex = -(readExponent X : Int)) ∨
       (E = ch 'e' :: ch '+' :: X ∧ ex = (readExponent X : Int))))
    (hround : roundFloat x.neg (decimalValue (I ++ F)) (ex - (F.length : Int)) = some x) :
    FloatText ((if x.neg then [ch '-'] else []) ++
      (I ++ ((if F = [] then [] else ch '.' :: F) ++ E))) x := by
  have hE1 : E = [] ∨ ∃ g X, X ≠ [] ∧ (∀ b ∈ X, json.isDigit b = true) ∧
      (g = ch '+' ∨ g = ch '-') ∧ E = ch 'e' :: g :: X := by
    rcases hE with ⟨e, _⟩ | ⟨X, h1, h2, ⟨e, _⟩ | ⟨e, _⟩⟩
    · exact Or.inl e
    · exact Or.inr ⟨_, X, h1, h2, Or.inr rfl, e⟩
    · exact Or.inr ⟨_, X, h1, h2, Or.inl rfl, e⟩
  have hE2 : (E = [] ∧ ex = 0) ∨ ∃ X, (∀ b ∈ X, json.isDigit b = true) ∧
      ((E = ch 'e' :: ch '-' :: X ∧ ex = -(readExponent X : Int)) ∨
       (E = ch 'e' :: ch '+' :: X ∧ ex = (readExponent X : Int))) := by
    rcases hE with h | ⟨X, _, h2, h3⟩
    · exact Or.inl h
    · exact Or.inr ⟨X, h2, h3⟩
  refine ⟨fun R hR => scanNumber_shape x.neg I F E hI0 hI hlead hF hE1 R hR, ?_, ?_⟩
  · unfold ParseFloat
    rw [readFloat_shape x.neg I F E ex hI0 hI hF hE2]
    exact hround
  · obtain ⟨i0, I1, rfl⟩ := List.exists_cons_of_ne_nil hI0
    cases x.neg
    · exact ⟨i0, _, rfl, Or.inr (hI i0 (List.mem_cons_self _ _))⟩
    · exact ⟨ch '-', _, rfl, Or.inl rfl⟩

theorem roundFloat_zero (neg : Bool) : roundFloat neg 0 0 = some ⟨neg, 0, 0⟩ := by
  unfold roundFloat roundRatio
  rw [if_pos (le_refl _)]
  simp [bitsLen_zero, roundHalfEven]

/-- The text of a zero. -/
theorem floatText_zero (x : Float64) (hx : x.valid) (hm : x.mant = 0) :
    FloatText (fmtF x.neg [] 0) x := by
  have hx0 : x = ⟨x.neg, 0, 0⟩ := by
    obtain ⟨_, _, h3⟩ := hx
    obtain ⟨n, m, e⟩ := x
    simp only at hm h3 ⊢
    subst hm
    rcases h3 with h3 | h3
    · rw [h3]
    · simp at h3
  have := floatText_of_shape x [ch '0'] [] [] 0 (by simp) (by decide) (fun _ _ _ => rfl)
    (fun _ hb => by cases hb) (Or.inl ⟨rfl, rfl⟩)
    (by
      rw [show decimalValue ([ch '0'] ++ []) = 0 by rfl]
      simp only [List.length_nil, Nat.cast_zero, sub_zero]
      rw [roundFloat_zero]
      exact congrArg some hx0.symm)
  simpa [fmtF] using this

theorem roundFloat_shift (neg : Bool) (d z : Nat) :
    roundFloat neg (d * 10 ^ z) 0 = roundFloat neg d (z : Int) := by
  unfold roundFloat
  rw [if_pos (le_refl _), if_pos (Int.ofNat_nonneg z)]
  simp

/-- The text of the format `f`. -/
theorem floatText_fmtF (x : Float64) (d : Nat) (k : Int) (hd : d ≠ 0)
    (hround : roundFloat x.neg d k = some x) :
    FloatText (fmtF x.neg (decimalDigits d) (k + ((decimalDigits d).length : Int))) x := by
  obtain ⟨hne, hdig, hh, hv⟩ := decimalDigits_spec d
  generalize decimalDigits d = ds at hne hdig hh hv
  obtain ⟨c0, ds1, rfl⟩ := List.exists_cons_of_ne_nil hne
  have hc0 : c0 ≠ ch '0' := fun e => hd (hh c0 rfl e)
  unfold fmtF
  by_cases h1 : 0 < k + (((c0 :: ds1).length : Nat) : Int)
  · rw [if_pos h1]
    obtain ⟨p, hp⟩ : ∃ p : Nat, k + (((c0 :: ds1).length : Nat) : Int) = (p : Int) + 1 :=
      ⟨(k + (((c0 :: ds1).length : Nat) : Int) - 1).toNat, by omega⟩
    rw [hp, show ((p : Int) + 1).toNat = p + 1 by omega]
    by_cases h2 : (p : Int) + 1 < (((c0 :: ds1).length : Nat) : Int)
    · -- the decimal point stands inside the digits
      rw [if_pos h2]
      have hlen : p + 1 < (c0 :: ds1).length := by omega
      have e1 : List.replicate (p + 1 - (c0 :: ds1).length) (ch '0') = [] := by
        rw [show p + 1 - (c0 :: ds1).length = 0 by omega]
        rfl
      have e2 : (-((p : Int) + 1)).toNat = 0 := by omega
      have hdrop : (c0 :: ds1).drop (p + 1) ≠ [] := by
        intro e
        have := congrArg List.length e
        rw [List.length_drop] at this
        simp only [List.length_nil] at this
        omega
      have := floatText_of_shape x ((c0 :: ds1).take (p + 1)) ((c0 :: ds1).drop (p + 1)) [] 0
        (by simp)
        (fun b hb => hdig b (List.mem_of_mem_take hb))
        (fun c hc e => by
          rw [List.take_succ_cons] at hc
          cases hc
          exact absurd e hc0)
        (fun b hb => hdig b (List.mem_of_mem_drop hb))
        (Or.inl ⟨rfl, rfl⟩)
        (by
          rw [List.take_append_drop, hv, List.length_drop]
          have : (0 : Int) - (((c0 :: ds1).length - (p + 1) : Nat) : Int) = k := by omega
          rw [this]
          exact hround)
      rw [if_neg hdrop, List.append_nil] at this
      rw [e1, e2, List.append_nil]
      simpa using this
    · -- the digits, then zeros up to the decimal point
      rw [if_neg h2]
      have hlen : (c0 :: ds1).length ≤ p + 1 := by omega
      have e1 : (c0 :: ds1).take (p + 1) = c0 :: ds1 := List.take_of_length_le hlen
      have := floatText_of_shape x
        (c0 :: ds1 ++ List.replicate (p + 1 - (c0 :: ds1).length) (ch '0')) [] [] 0
        (by simp)
        (fun b hb => by
          rcases List.mem_append.mp hb with hb | hb
          · exact hdig b hb
          · rw [List.eq_of_mem_replicate hb]
            decide)
        (fun c hc e => by
          cases hc
          exact absurd e hc0)
        (fun b hb => by cases hb)
        (Or.inl ⟨rfl, rfl⟩)
        (by
          rw [List.append_nil, decimalValue_append, hv, decimalValue_zeros, List.length_replicate,
            Nat.add_zero]
          simp only [List.length_nil, Nat.cast_zero, sub_zero]
          rw [roundFloat_shift]
          have e3 : ((p + 1 - (c0 :: ds1).length : Nat) : Int) = k := by omega
          rw [e3]
          exact hround)
      rw [e1]
      simpa using this
  · -- the decimal point stands before the digits
    have hl : 1 ≤ (c0 :: ds1).length := by simp
    have h3 : k + (((c0 :: ds1).length : Nat) : Int) < (((c0 :: ds1).length : Nat) : Int) := by
      omega
    rw [if_neg h1, if_pos h3]
    obtain ⟨z, hz⟩ : ∃ z : Nat, k + (((c0 :: ds1).length : Nat) : Int) = -(z : Int) :=
      ⟨(-(k + (((c0 :: ds1).length : Nat) : Int))).toNat, by omega⟩
    rw [hz, show (-(-(z : Int))).toNat = z by omega, show (-(z : Int)).toNat = 0 by omega,
      List.drop_zero]
    have := floatText_of_shape x [ch '0'] (List.replicate z (ch '0') ++ c0 :: ds1) [] 0
      (by simp) (by decide) (fun _ _ _ => rfl)
      (fun b hb => by
        rcases List.mem_append.mp hb with hb | hb
        · rw [List.eq_of_mem_replicate hb]
          decide
        · exact hdig b hb)
      (Or.inl ⟨rfl, rfl⟩)
      (by
        rw [List.singleton_append, decimalValue_cons, decimalValue_append, decimalValue_zeros, hv,
          show (ch '0').val - 48 = 0 by decide, Nat.zero_mul, Nat.zero_mul, Nat.zero_add,
          Nat.zero_add, List.length_append, List.length_replicate]
        have : (0 : Int) - ((z + (c0 :: ds1).length : Nat) : Int) = k := by
          push_cast
          omega
        rw [this]
        exact hround)
    simpa using this

theorem digit_sub (b : Nat) (h : b < 10) : (digit b).val - 48 = b := by
  have := digit_val ⟨b, h⟩
  simp only at this
  omega

theorem readExponent_one (a : Nat) (h : a < 10) : readExponent [digit a] = a := by
  unfold readExponent
  simp only [List.foldl_cons, List.foldl_nil]
  rw [digit_sub a h]
  simp

theorem readExponent_two (a : Nat) (h : a < 100) :
    readExponent [digit (a / 10), digit (a % 10)] = a := by
  unfold readExponent
  simp only [List.foldl_cons, List.foldl_nil]
  rw [digit_sub (a / 10) (by omega), digit_sub (a % 10) (by omega)]
  rw [if_pos (show 0 < 10000 by decide)]
  simp only [Nat.zero_mul, Nat.zero_add]
  rw [if_pos (show a / 10 < 10000 by omega)]
  omega

theorem readExponent_three (a : Nat) (h : a < 1000) :
    readExponent [digit (a / 100), digit (a / 10 % 10), digit (a % 10)] = a := by
  unfold readExponent
  simp only [List.foldl_cons, List.foldl_nil]
  rw [digit_sub (a / 100) (by omega), digit_sub (a / 10 % 10) (by omega),
    digit_sub (a % 10) (by omega)]
  rw [if_pos (show 0 < 10000 by decide)]
  simp only [Nat.zero_mul, Nat.zero_add]
  rw [if_pos (show a / 100 < 10000 by omega),
    if_pos (show a / 100 * 10 + a / 10 % 10 < 10000 by omega)]
  omega

/-- The exponent of the format `e` after the step that takes out a leading
zero: a sign and one to three digits that are read as the exponent. -/
theorem cleanExponent_fmtE (P : GoString) (e : Int) (he : e.natAbs < 1000) :
    ∃ X, X ≠ [] ∧ (∀ b ∈ X, json.isDigit b = true) ∧ readExponent X = e.natAbs ∧
      cleanExponent (P ++ ch 'e' :: fmtExponent e) =
        P ++ ch 'e' :: (if e < 0 then ch '-' else ch '+') :: X := by
  have hg : (if e < 0 then ch '-' else ch '+') = ch '-' ∨
      (if e < 0 then ch '-' else ch '+') = ch '+' := by
    split_ifs
    · exact Or.inl rfl
    · exact Or.inr rfl
  have hge : (if e < 0 then ch '-' else ch '+') ≠ ch 'e' := by
    split_ifs <;> decide
  unfold fmtExponent
  dsimp only
  generalize (if e < 0 then ch '-' else ch '+') = g at hg hge ⊢
  generalize e.natAbs = a at he ⊢
  by_cases h1 : a < 10
  · rw [if_pos h1]
    refine ⟨[digit a], by simp, ?_, readExponent_one a h1, ?_⟩
    · intro b hb
      rw [List.mem_singleton.mp hb]
      exact (digit_lt a h1).1
    · unfold cleanExponent
      have hr : (P ++ ch 'e' :: g :: [ch '0', digit a]).reverse =
          digit a :: ch '0' :: g :: ch 'e' :: P.reverse := by simp
      rw [hr]
      dsimp only
      rw [if_pos ⟨rfl, hg, rfl⟩]
      simp
  · rw [if_neg h1]
    by_cases h2 : a < 100
    · rw [if_pos h2]
      refine ⟨[digit (a / 10), digit (a % 10)], by simp, ?_, readExponent_two a h2, ?_⟩
      · intro b hb
        simp only [List.mem_cons, List.mem_singleton, List.not_mem_nil, or_false] at hb
        rcases hb with rfl | rfl
        · exact (digit_lt _ (by omega)).1
        · exact (digit_lt _ (by omega)).1
      · unfold cleanExponent
        have hr : (P ++ ch 'e' :: g :: [digit (a / 10), digit (a % 10)]).reverse =
            digit (a % 10) :: digit (a / 10) :: g :: ch 'e' :: P.reverse := by simp
        rw [hr]
        dsimp only
        have hz : digit (a / 10) ≠ ch '0' := by
          intro e0
          have := (digit_lt (a / 10) (by omega)).2.2 e0
          omega
        rw [if_neg (fun h => hz h.2.2)]
    · rw [if_neg h2]
      refine ⟨[digit (a / 100), digit (a / 10 % 10), digit (a % 10)], by simp, ?_,
        readExponent_three a he, ?_⟩
      · intro b hb
        simp only [List.mem_cons, List.mem_singleton, List.not_mem_nil, or_false] at hb
        rcases hb with rfl | rfl | rfl
        · exact (digit_lt _ (by omega)).1
        · exact (digit_lt _ (by omega)).1
        · exact (digit_lt _ (by omega)).1
      · unfold cleanExponent
        have hr : (P ++ ch 'e' :: g :: [digit (a / 100), digit (a / 10 % 10),
            digit (a % 10)]).reverse =
            digit (a % 10) :: digit (a / 10 % 10) :: digit (a / 100) :: g :: ch 'e' ::
              P.reverse := by simp
        rw [hr]
        dsimp only
        rw [if_neg (fun h => hge h.1)]

/-- The text of the format `e`, once cleaned up. -/
theorem floatText_fmtE (x : Float64) (d : Nat) (k : Int) (hd : d ≠ 0)
    (hround : roundFloat x.neg d k = some x)
    (hb : (k + ((decimalDigits d).length : Int) - 1).natAbs < 1000) :
    FloatText
      (cleanExponent (fmtE x.neg (decimalDigits d) (k + ((decimalDigits d).length : Int)))) x := by
  obtain ⟨hne, hdig, hh, hv⟩ := decimalDigits_spec d
  generalize decimalDigits d = ds at hne hdig hh hv hb
  obtain ⟨c0, ds1, rfl⟩ := List.exists_cons_of_ne_nil hne
  have hc0 : c0 ≠ ch '0' := fun e => hd (hh c0 rfl e)
  have e1 : (if 1 < (c0 :: ds1).length then ch '.' :: (c0 :: ds1).drop 1 else []) =
      (if ds1 = [] then [] else ch '.' :: ds1) := by
    cases ds1 with
    | nil => rfl
    | cons a l => simp
  have e2 : fmtE x.neg (c0 :: ds1) (k + (((c0 :: ds1).length : Nat) : Int)) =
      ((if x.neg then [ch '-'] else []) ++ c0 :: (if ds1 = [] then [] else ch '.' :: ds1)) ++
        ch 'e' :: fmtExponent (k + (((c0 :: ds1).length : Nat) : Int) - 1) := by
    unfold fmtE
    rw [e1, if_neg hne]
    simp
  obtain ⟨X, hX0, hX, hXv, hc⟩ := cleanExponent_fmtE
    ((if x.neg then [ch '-'] else []) ++ c0 :: (if ds1 = [] then [] else ch '.' :: ds1))
    (k + (((c0 :: ds1).length : Nat) : Int) - 1) hb
  rw [e2, hc]
  have := floatText_of_shape x [c0] ds1
    (ch 'e' :: (if k + (((c0 :: ds1).length : Nat) : Int) - 1 < 0 then ch '-' else ch '+') :: X)
    (k + (((c0 :: ds1).length : Nat) : Int) - 1)
    (by simp)
    (fun b hb => hdig b (by rw [List.mem_singleton.mp hb]; exact List.mem_cons_self _ _))
    (fun c hc e => by
      cases hc
      exact absurd e hc0)
    (fun b hb => hdig b (List.mem_cons_of_mem _ hb))
    (Or.inr ⟨X, hX0, hX, by
      by_cases hs : k + (((c0 :: ds1).length : Nat) : Int) - 1 < 0
      · rw [if_pos hs, hXv]
        exact Or.inl ⟨rfl, by omega⟩
      · rw [if_neg hs, hXv]
        exact Or.inr ⟨rfl, by omega⟩⟩)
    (by
      rw [List.singleton_append, hv]
      have : k + (((c0 :: ds1).length : Nat) : Int) - 1 - (ds1.length : Int) = k := by
        rw [List.length_cons]
        push_cast
        omega
      rw [this]
      exact hround)
  simpa using this

/-- The text `floatEncoder.encode` writes for a `float64` value is scanned as
one number literal and read back by `ParseFloat` as the same value. -/
theorem encodeFloat_text (x : Float64) (hx : x.valid) : FloatText (encodeFloat x) x := by
  unfold encodeFloat FormatFloat shortestDigits
  by_cases hm : x.mant = 0
  · rw [if_neg (fun h => h.1 hm), if_neg (by decide), if_pos hm]
    exact floatText_zero x hx hm
  · obtain ⟨r1, j, len, r2, r3, l1, l2, r4, r5⟩ := shortest_spec x hx hm
    obtain ⟨n1, n2⟩ := decimalDigits_length (shortest x).1 r3
    have b1 : (decimalDigits (shortest x).1).length - 1 + j ≤ len := by
      have : 10 ^ ((decimalDigits (shortest x).1).length - 1 + j) ≤ 10 ^ len := by
        rw [pow_add]
        exact le_trans (Nat.mul_le_mul_right _ n1) r5
      exact (Nat.pow_le_pow_iff_right (by decide)).mp this
    have b2 : len - 1 < (decimalDigits (shortest x).1).length + j := by
      have : 10 ^ (len - 1) < 10 ^ ((decimalDigits (shortest x).1).length + j) := by
        rw [pow_add]
        exact lt_of_le_of_lt r4
          (Nat.mul_lt_mul_of_pos_right n2 (Nat.pos_pow_of_pos _ (by decide)))
      exact (Nat.pow_lt_pow_iff_right (by decide)).mp this
    rw [if_neg hm]
    dsimp only
    by_cases he : x.mant ≠ 0 ∧ (x.absLess float1e_6 = true ∨ ¬ x.absLess float1e21 = true)
    · rw [if_pos he, if_pos rfl]
      exact floatText_fmtE x _ _ r3 r1 (by rw [r2]; omega)
    · rw [if_neg he, if_neg (by decide)]
      exact floatText_fmtF x _ _ r3 r1

/-! ## Lemmas: the order of the keys of a map -/

open json

theorem strLess_irrefl : ∀ a : GoString, strLess a a = false := by
  intro a
  induction a with
  | nil => rfl
  | cons x a ih => simp [strLess, ih]

theorem strLess_trans : ∀ a b c : GoString, strLess a b = true → strLess b c = true →
    strLess a c = true := by
  intro a
  induction a with
  | nil =>
    intro b c h1 h2
    cases c with
    | nil => cases b <;> simp [strLess] at h2
    | cons z c => rfl
  | cons x a ih =>
    intro b c h1 h2
    cases b with
    | nil => simp [strLess] at h1
    | cons y b =>
      cases c with
      | nil => simp [strLess] at h2
      | cons z c =>
        simp only [strLess, Bool.or_eq_true, decide_eq_true_eq, Bool.and_eq_true] at h1 h2 ⊢
        rcases h1 with h1 | ⟨rfl, h1⟩
        · rcases h2 with h2 | ⟨rfl, _⟩
          · exact Or.inl (lt_trans h1 h2)
          · exact Or.inl h1
        · rcases h2 with h2 | ⟨rfl, h2⟩
          · exact Or.inl h2
          · exact Or.inr ⟨rfl, ih b c h1 h2⟩

theorem strLess_total : ∀ a b : GoString, strLess a b = false → a ≠ b → strLess b a = true := by
  intro a
  induction a with
  | nil =>
    intro b h hne
    cases b with
    | nil => exact absurd rfl hne
    | cons y b => simp [strLess] at h
  | cons x a ih =>
    intro b h hne
    cases b with
    | nil => rfl
    | cons y b =>
      simp only [strLess, Bool.or_eq_true, decide_eq_true_eq, Bool.and_eq_true]
      have hn : ¬ (x < y ∨ (x = y ∧ strLess a b = true)) := by
        intro hh
        have : strLess (x :: a) (y :: b) = true := by
          simp only [strLess, Bool.or_eq_true, decide_eq_true_eq, Bool.and_eq_true]
          exact hh
        rw [h] at this
        cases this
      have hle : y ≤ x := not_lt.mp (fun hlt => hn (Or.inl hlt))
      rcases lt_or_eq_of_le hle with hlt | heq
      · exact Or.inl hlt
      · subst heq
        refine Or.inr ⟨rfl, ih b ?_ ?_⟩
        · cases hs : strLess a b with
          | false => rfl
          | true => exact absurd (Or.inr ⟨rfl, hs⟩) hn
        · intro e
          exact hne (by rw [e])

theorem mem_setKey (key : GoString) (v : GoAny) :
    ∀ (m : List (GoString × GoAny)) (x : GoString × GoAny),
      x ∈ setKey m key v → x ∈ m ∨ x = (key, v) := by
  intro m
  induction m with
  | nil =>
    intro x hx
    simp only [setKey, List.mem_singleton] at hx
    exact Or.inr hx
  | cons e m ih =>
    intro x hx
    obtain ⟨k, w⟩ := e
    rw [setKey] at hx
    split_ifs at hx with h1 h2
    · rcases List.mem_cons.mp hx with h | h
      · exact Or.inr h
      · exact Or.inl (List.mem_cons_of_mem _ h)
    · rcases List.mem_cons.mp hx with h | h
      · exact Or.inr h
      · exact Or.inl h
    · rcases List.mem_cons.mp hx with h | h
      · exact Or.inl (by rw [h]; exact List.mem_cons_self _ _)
      · rcases ih x h with h | h
        · exact Or.inl (List.mem_cons_of_mem _ h)
        · exact Or.inr h

/-- Storing an entry keeps a map in strict key order. -/
theorem canonAnyMap_setKey (d : Nat) (key : GoString) (v : GoAny) (hk : ValidUTF8 key)
    (hv : canonAny d v) :
    ∀ m : List (GoString × GoAny), canonAny.canonAnyMap d m →
      canonAny.canonAnyMap d (setKey m key v) := by
  intro m
  induction m with
  | nil =>
    intro _
    rw [setKey, canonAny.canonAnyMap]
    exact ⟨hk, by simp, hv, by rw [canonAny.canonAnyMap]; exact trivial⟩
  | cons e m ih =>
    intro hm
    obtain ⟨k, w⟩ := e
    rw [canonAny.canonAnyMap] at hm
    obtain ⟨h1, h2, h3, h4⟩ := hm
    rw [setKey]
    by_cases e1 : k = key
    · rw [if_pos e1]
      subst e1
      rw [canonAny.canonAnyMap]
      exact ⟨hk, h2, hv, h4⟩
    · rw [if_neg e1]
      by_cases e2 : strLess key k = true
      · rw [if_pos e2, canonAny.canonAnyMap]
        refine ⟨hk, ?_, hv, ?_⟩
        · intro x hx
          rcases List.mem_cons.mp hx with rfl | hx
          · exact e2
          · exact strLess_trans _ _ _ e2 (h2 x hx)
        · rw [canonAny.canonAnyMap]
          exact ⟨h1, h2, h3, h4⟩
      · rw [if_neg e2, canonAny.canonAnyMap]
        refine ⟨h1, ?_, h3, ih h4⟩
        intro x hx
        rcases mem_setKey key v m x hx with hx | rfl
        · exact h2 x hx
        · exact strLess_total key k (by simpa using e2) (fun e => e1 e.symm)

/-! ## Lemmas: what the decoder stores is well formed -/

open json

theorem parseFloat_valid (lit : GoString) (f : strconv.Float64)
    (h : strconv.ParseFloat lit = some f) : f.valid := by
  unfold strconv.ParseFloat at h
  exact (roundFloat_valid _ _ _ f h).1

mutual

/-- An interface value the decoder builds from a scanned value is well formed. -/
theorem valueInterface_canon : ∀ (val : Value) (d : Nat), Doc d val →
    canonAny d (valueInterface val).1
  | .null, d, _ => by rw [valueInterface, canonAny]; exact trivial
  | .bool b, d, _ => by rw [valueInterface, canonAny]; exact trivial
  | .number lit, d, _ => by
    rw [valueInterface]
    cases hp : strconv.ParseFloat lit with
    | none =>
      dsimp only
      rw [canonAny]
      exact trivial
    | some f =>
      dsimp only
      rw [canonAny]
      exact parseFloat_valid lit f hp
  | .string s, d, h => by
    rw [Doc] at h
    rw [valueInterface, canonAny]
    exact h
  | .array es, d, h => by
    rw [Doc] at h
    rw [valueInterface, canonAny]
    exact ⟨h.1, arrayInterface_canon es (d + 1) h.2⟩
  | .object ms, d, h => by
    rw [Doc] at h
    rw [valueInterface, canonAny]
    exact ⟨h.1, objectInterface_canon ms (d + 1) [] h.2
      (by rw [canonAny.canonAnyMap]; exact trivial)⟩

theorem arrayInterface_canon : ∀ (es : List (GoString × Value)) (d : Nat),
    Doc.docElems d es → canonAny.canonAnyList d (valueInterface.arrayInterface es).1
  | [], d, _ => by
    rw [valueInterface.arrayInterface, canonAny.canonAnyList]
    exact trivial
  | (raw, v) :: es, d, h => by
    rw [Doc.docElems] at h
    rw [valueInterface.arrayInterface, canonAny.canonAnyList]
    exact ⟨valueInterface_canon v d h.2.1, arrayInterface_canon es d h.2.2⟩

theorem objectInterface_canon : ∀ (ms : List (GoString × GoString × Value)) (d : Nat)
    (acc : List (GoString × GoAny)),
    Doc.docMembers d ms → canonAny.canonAnyMap d acc →
      canonAny.canonAnyMap d (valueInterface.objectInterface ms acc).1
  | [], d, acc, _, hacc => by
    rw [valueInterface.objectInterface]
    exact hacc
  | (key, raw, v) :: ms, d, acc, h, hacc => by
    rw [Doc.docMembers] at h
    rw [valueInterface.objectInterface]
    exact objectInterface_canon ms d _ h.2.2.2
      (canonAnyMap_setKey d key _ h.1 (valueInterface_canon v d h.2.2.1) acc hacc)

end

mutual

/-- The zero value of a type that stays within the nesting limit is well formed. -/
theorem canon_zero : ∀ (ty : GoType) (d : Nat), goodType d ty = true → canon d ty (zero ty)
  | .string, d, _ => by
    rw [zero, canon]
    exact ValidUTF8.nil
  | .int, d, _ => by
    rw [zero, canon]
    exact ⟨by decide, by decide⟩
  | .any, d, _ => by
    rw [zero, canon, canonAny]
    exact trivial
  | .rawMessage, d, _ => by
    rw [zero, canon]
    exact trivial
  | .slice e, d, _ => by
    rw [zero, canon]
    exact trivial
  | .struct n fields, d, h => by
    rw [goodType] at h
    simp only [Bool.and_eq_true, decide_eq_true_eq] at h
    rw [zero, canon]
    exact ⟨h.1.1, canonFields_zeros fields (d + 1) h.2⟩

theorem canonFields_zeros : ∀ (fields : List (GoString × Bool × GoType)) (d : Nat),
    goodType.goodFields d fields = true → canon.canonFields d fields (zero.zeros fields)
  | [], d, _ => by
    rw [zero.zeros, canon.canonFields]
  | (k, o, t) :: fs, d, h => by
    rw [goodType.goodFields] at h
    simp only [Bool.and_eq_true] at h
    rw [zero.zeros, canon.canonFields]
    exact ⟨canon_zero t d h.1.2, canonFields_zeros fs d h.2⟩

end

theorem canonList_append (d : Nat) (e : GoType) :
    ∀ xs ys : List GoVal, canon.canonList d e xs → canon.canonList d e ys →
      canon.canonList d e (xs ++ ys) := by
  intro xs
  induction xs with
  | nil => intro ys _ h; exact h
  | cons x xs ih =>
    intro ys hx hy
    rw [canon.canonList] at hx
    rw [List.cons_append, canon.canonList]
    exact ⟨hx.1, ih ys hx.2 hy⟩

theorem canonFields_cons (d : Nat) (f : GoString × Bool × GoType)
    (fs : List (GoString × Bool × GoType)) (v : GoVal) (vs : List GoVal) :
    canon.canonFields d (f :: fs) (v :: vs) ↔ canon d f.2.2 v ∧ canon.canonFields d fs vs := by
  rw [canon.canonFields]

theorem canonFields_getD (d : Nat) :
    ∀ (fields : List (GoString × Bool × GoType)) (vals : List GoVal) (i : Nat)
      (f : GoString × Bool × GoType),
      canon.canonFields d fields vals → fields.get? i = some f →
        canon d f.2.2 (vals.getD i (zero f.2.2)) := by
  intro fields
  induction fields with
  | nil => intro vals i f _ hf; simp at hf
  | cons g fs ih =>
    intro vals i f h hf
    cases vals with
    | nil => rw [canon.canonFields] at h; cases h
    | cons v vs =>
      rw [canonFields_cons] at h
      cases i with
      | zero =>
        simp only [List.get?_cons_zero, Option.some.injEq] at hf
        subst hf
        exact h.1
      | succ j =>
        simp only [List.get?_cons_succ] at hf
        exact ih vs j f h.2 hf

theorem canonFields_set (d : Nat) :
    ∀ (fields : List (GoString × Bool × GoType)) (vals : List GoVal) (i : Nat)
      (f : GoString × Bool × GoType) (v : GoVal),
      canon.canonFields d fields vals → fields.get? i = some f → canon d f.2.2 v →
        canon.canonFields d fields (vals.set i v) := by
  intro fields
  induction fields with
  | nil => intro vals i f v _ hf; simp at hf
  | cons g fs ih =>
    intro vals i f v h hf hv
    cases vals with
    | nil => rw [canon.canonFields] at h; cases h
    | cons w ws =>
      rw [canonFields_cons] at h
      cases i with
      | zero =>
        simp only [List.get?_cons_zero, Option.some.injEq] at hf
        subst hf
        rw [List.set_cons_zero, canonFields_cons]
        exact ⟨hv, h.2⟩
      | succ j =>
        simp only [List.get?_cons_succ] at hf
        rw [List.set_cons_succ, canonFields_cons]
        exact ⟨h.1, ih ws j f v h.2 hf hv⟩

theorem goodFields_get (d : Nat) :
    ∀ (fields : List (GoString × Bool × GoType)) (i : Nat) (f : GoString × Bool × GoType),
      goodType.goodFields d fields = true → fields.get? i = some f →
        goodType d f.2.2 = true := by
  intro fields
  induction fields with
  | nil => intro i f _ hf; simp at hf
  | cons g fs ih =>
    intro i f h hf
    rw [goodType.goodFields] at h
    simp only [Bool.and_eq_true] at h
    cases i with
    | zero =>
      simp only [List.get?_cons_zero, Option.some.injEq] at hf
      subst hf
      exact h.1.2
    | succ j =>
      simp only [List.get?_cons_succ] at hf
      exact ih j f h.2 hf

theorem parseInt64_range (lit : GoString) (n : Int) (h : parseInt64 lit = some n) :
    -9223372036854775808 ≤ n ∧ n ≤ 9223372036854775807 := by
  unfold parseInt64 at h
  dsimp only at h
  split_ifs at h <;>
    (simp only [Option.some.injEq] at h
     rw [← h]
     assumption)

mutual

/-- The decoder keeps a well-formed destination well formed. -/
theorem decodeValue_canon : ∀ (val : Value) (ty : GoType) (raw : GoString) (dest : GoVal)
    (d : Nat), goodType d ty = true → Scans d raw val → Doc d val → canon d ty dest →
      canon d ty (decodeValue ty raw val dest).1
  | .null, ty, raw, dest, d, _, hs, _, hc => by
    cases ty <;> simp only [decodeValue] <;> first
      | exact hc
      | (rw [canon]; exact ⟨_, hs⟩)
      | (rw [canon, canonAny]; exact trivial)
      | (rw [canon]; exact trivial)
  | .bool b, ty, raw, dest, d, _, hs, _, hc => by
    cases ty <;> simp only [decodeValue] <;> first
      | exact hc
      | (rw [canon]; exact ⟨_, hs⟩)
      | (rw [canon, canonAny]; exact trivial)
  | .number lit, ty, raw, dest, d, _, hs, _, hc => by
    cases ty <;> simp only [decodeValue] <;> first
      | exact hc
      | (rw [canon]; exact ⟨_, hs⟩)
      | skip
    · cases hp : parseInt64 lit with
      | none => exact hc
      | some n =>
        dsimp only
        rw [canon]
        exact parseInt64_range lit n hp
    · cases hp : strconv.ParseFloat lit with
      | none => exact hc
      | some f =>
        dsimp only
        rw [canon, canonAny]
        exact parseFloat_valid lit f hp
  | .string s, ty, raw, dest, d, _, hs, hd, hc => by
    rw [Doc] at hd
    cases ty <;> simp only [decodeValue] <;> first
      | exact hc
      | (rw [canon]; exact ⟨_, hs⟩)
      | (rw [canon, canonAny]; exact hd)
      | (rw [canon]; exact hd)
  | .array es, ty, raw, dest, d, hg, hs, hd, hc => by
    have hany := valueInterface_canon (.array es) d hd
    rw [valueInterface] at hany
    rw [Doc] at hd
    cases ty <;> simp only [decodeValue] <;> first
      | exact hc
      | (rw [canon]; exact ⟨_, hs⟩)
      | (rw [canon]; exact hany)
      | skip
    rename_i elem
    rw [goodType] at hg
    simp only [Bool.and_eq_true] at hg
    replace hg := hg.2
    cases es with
    | nil =>
      dsimp only
      rw [canon]
      exact ⟨hd.1, by rw [canon.canonList]; exact trivial, by rw [canon.canonList]; exact trivial⟩
    | cons e es =>
      dsimp only
      have hnil : canon.canonList (d + 1) elem [] := by rw [canon.canonList]; exact trivial
      cases dest with
      | slice elems spare =>
        rw [canon] at hc
        dsimp only
        rw [canon]
        obtain ⟨h1, h2⟩ := decodeElems_canon (e :: es) elem elems spare (d + 1) hg hd.2 hc.2.1
          hc.2.2
        exact ⟨hd.1, h1, h2⟩
      | str _ =>
        obtain ⟨h1, h2⟩ := decodeElems_canon (e :: es) elem [] [] (d + 1) hg hd.2 hnil hnil
        rw [canon]
        exact ⟨hd.1, h1, h2⟩
      | int _ =>
        obtain ⟨h1, h2⟩ := decodeElems_canon (e :: es) elem [] [] (d + 1) hg hd.2 hnil hnil
        rw [canon]
        exact ⟨hd.1, h1, h2⟩
      | any _ =>
        obtain ⟨h1, h2⟩ := decodeElems_canon (e :: es) elem [] [] (d + 1) hg hd.2 hnil hnil
        rw [canon]
        exact ⟨hd.1, h1, h2⟩
      | raw _ =>
        obtain ⟨h1, h2⟩ := decodeElems_canon (e :: es) elem [] [] (d + 1) hg hd.2 hnil hnil
        rw [canon]
        exact ⟨hd.1, h1, h2⟩
      | nilSlice =>
        obtain ⟨h1, h2⟩ := decodeElems_canon (e :: es) elem [] [] (d + 1) hg hd.2 hnil hnil
        rw [canon]
        exact ⟨hd.1, h1, h2⟩
      | struct _ =>
        obtain ⟨h1, h2⟩ := decodeElems_canon (e :: es) elem [] [] (d + 1) hg hd.2 hnil hnil
        rw [canon]
        exact ⟨hd.1, h1, h2⟩
  | .object ms, ty, raw, dest, d, hg, hs, hd, hc => by
    have hany := valueInterface_canon (.object ms) d hd
    rw [valueInterface] at hany
    rw [Doc] at hd
    cases ty <;> simp only [decodeValue] <;> first
      | exact hc
      | (rw [canon]; exact ⟨_, hs⟩)
      | (rw [canon]; exact hany)
      | skip
    rename_i name fields
    rw [goodType] at hg
    simp only [Bool.and_eq_true, decide_eq_true_eq] at hg
    cases dest with
    | struct vals =>
      rw [canon] at hc
      dsimp only
      rw [canon]
      exact ⟨hd.1, decodeMembers_canon ms fields vals (d + 1) hg.2 hd.2 hc.2⟩
    | str _ => simp [canon] at hc
    | int _ => simp [canon] at hc
    | any _ => simp [canon] at hc
    | raw _ => simp [canon] at hc
    | nilSlice => simp [canon] at hc
    | slice _ _ => simp [canon] at hc

theorem decodeElems_canon : ∀ (es : List (GoString × Value)) (elem : GoType)
    (elems spare : List GoVal) (d : Nat), goodType d elem = true → Doc.docElems d es →
      canon.canonList d elem elems → canon.canonList d elem spare →
      canon.canonList d elem (decodeElems elem es elems spare).1 ∧
        canon.canonList d elem (decodeElems elem es elems spare).2.1
  | [], elem, elems, spare, d, _, _, h1, h2 => by
    simp only [decodeElems]
    exact ⟨by rw [canon.canonList]; exact trivial, canonList_append d elem _ _ h1 h2⟩
  | (raw, v) :: es, elem, elems, spare, d, hg, hd, h1, h2 => by
    rw [Doc.docElems] at hd
    simp only [decodeElems]
    have hnil : canon.canonList d elem [] := by rw [canon.canonList]; exact trivial
    cases elems with
    | cons x xs =>
      rw [canon.canonList] at h1
      dsimp only
      obtain ⟨i1, i2⟩ := decodeElems_canon es elem xs spare d hg hd.2.2 h1.2 h2
      rw [canon.canonList]
      exact ⟨⟨decodeValue_canon v elem raw x d hg hd.1 hd.2.1 h1.1, i1⟩, i2⟩
    | nil =>
      cases spare with
      | cons y ys =>
        rw [canon.canonList] at h2
        dsimp only
        obtain ⟨i1, i2⟩ := decodeElems_canon es elem [] ys d hg hd.2.2 hnil h2.2
        rw [canon.canonList]
        exact ⟨⟨decodeValue_canon v elem raw y d hg hd.1 hd.2.1 h2.1, i1⟩, i2⟩
      | nil =>
        dsimp only
        obtain ⟨i1, i2⟩ := decodeElems_canon es elem [] [] d hg hd.2.2 hnil hnil
        rw [canon.canonList]
        exact ⟨⟨decodeValue_canon v elem raw _ d hg hd.1 hd.2.1 (canon_zero elem d hg), i1⟩, i2⟩

theorem decodeMembers_canon : ∀ (ms : List (GoString × GoString × Value))
    (fields : List (GoString × Bool × GoType)) (vals : List GoVal) (d : Nat),
    goodType.goodFields d fields = true → Doc.docMembers d ms →
      canon.canonFields d fields vals →
      canon.canonFields d fields (decodeMembers fields ms vals).1
  | [], fields, vals, d, _, _, hc => by
    rw [decodeMembers]
    exact hc
  | (key, raw, v) :: ms, fields, vals, d, hg, hd, hc => by
    rw [Doc.docMembers] at hd
    rw [decodeMembers]
    cases fieldIndex fields key with
    | none => exact decodeMembers_canon ms fields vals d hg hd.2.2.2 hc
    | some i =>
      dsimp only
      cases hf : fields.get? i with
      | none => exact decodeMembers_canon ms fields vals d hg hd.2.2.2 hc
      | some f =>
        dsimp only
        refine decodeMembers_canon ms fields _ d hg hd.2.2.2
          (canonFields_set d fields vals i f _ hc hf ?_)
        exact decodeValue_canon v f.2.2 raw _ d (goodFields_get d fields i f hg hf) hd.2.1
          hd.2.2.1 (canonFields_getD d fields vals i f hc hf)

end

/-! ## Lemmas: how the scanner reads the text of an array and of an object -/

open json

theorem not_value_start : ∀ c : Byte, (isSpace c = true ∨ c = ch ']' ∨ c = ch '}' ∨ c = ch ',') →
    c ≠ ch '{' ∧ c ≠ ch '[' ∧ c ≠ ch '"' ∧ ¬ (c = ch '-' ∨ json.isDigit c = true) ∧
      c ≠ ch 't' ∧ c ≠ ch 'f' ∧ c ≠ ch 'n' := by
  decide

/-- The first byte of the text of a value is no white space and closes or
separates nothing. -/
theorem scans_head (d : Nat) (m : GoString) (val : Value) (h : Scans d m val) :
    ∃ c m1, m = c :: m1 ∧ isSpace c = false ∧ c ≠ ch ']' ∧ c ≠ ch '}' ∧ c ≠ ch ',' := by
  obtain ⟨c, m1, rfl⟩ := List.exists_cons_of_ne_nil (scans_ne_nil d m val h)
  have h1 := h (m1.length + 1) [] (by simp) (by intro x hx; simp at hx)
  rw [List.append_nil, scanValue_succ] at h1
  have key : ¬ (isSpace c = true ∨ c = ch ']' ∨ c = ch '}' ∨ c = ch ',') := by
    intro hc
    obtain ⟨a1, a2, a3, a4, a5, a6, a7⟩ := not_value_start c hc
    rw [if_neg a1, if_neg a2, if_neg a3, if_neg a4, if_neg a5, if_neg a6, if_neg a7] at h1
    simp at h1
  refine ⟨c, m1, rfl, ?_, fun e => key (Or.inr (Or.inl e)), fun e => key (Or.inr (Or.inr (Or.inl e))),
    fun e => key (Or.inr (Or.inr (Or.inr e)))⟩
  cases hs : isSpace c with
  | false => rfl
  | true => exact absurd (Or.inl hs) key

theorem delim_cons (c : Byte) (t : GoString)
    (hc : json.isDigit c = false ∧ c ≠ ch '.' ∧ c ≠ ch 'e' ∧ c ≠ ch 'E') : Delim (c :: t) := by
  intro x hx
  simp only [List.head?_cons, Option.some.injEq] at hx
  rw [← hx]
  exact hc

theorem delim_nil : Delim [] := by
  intro x hx
  simp at hx

/-- An element and what follows it are the elements of an array. -/
theorem elems_scan (d : Nat) (ta : GoString) (va : Value) (tail : GoString)
    (es : List (GoString × Value)) (hs : Scans d ta va) (ht : StableAt elemsTail 1 d tail es)
    (hdel : ∀ R, Delim (tail ++ R)) :
    StableAt scanElems 0 d (ta ++ tail) ((ta, va) :: es) := by
  have hm := scans_ne_nil d ta va hs
  have hml : 0 < ta.length := List.length_pos.mpr hm
  have htl : 0 < tail.length := List.length_pos.mpr ht.1
  refine ⟨by simp [hm], fun f1 R hf => ?_⟩
  rw [List.length_append] at hf
  obtain ⟨f2, rfl⟩ : ∃ k, f1 = k + 1 := ⟨f1 - 1, by omega⟩
  rw [scanElems_succ, List.append_assoc, hs f2 (tail ++ R) (by omega) (hdel R)]
  dsimp only
  rw [ht.2 f2 R (by omega), consumed_append]

theorem elemsTail_close (d : Nat) :
    StableAt elemsTail 1 d [ch ']'] [] ∧ ∀ R, Delim ([ch ']'] ++ R) := by
  refine ⟨⟨by simp, fun f R _ => ?_⟩, fun R => delim_cons _ _ (by decide)⟩
  unfold elemsTail
  rw [List.singleton_append, skipSpace_cons_of_not _ _ (by decide)]
  rfl

theorem elemsTail_comma (d : Nat) (body : GoString) (es : List (GoString × Value))
    (h : StableAt scanElems 0 d body es) (hb : ∃ c b, body = c :: b ∧ isSpace c = false) :
    StableAt elemsTail 1 d (ch ',' :: body) es ∧ ∀ R, Delim (ch ',' :: body ++ R) := by
  obtain ⟨c, b, rfl, hc⟩ := hb
  refine ⟨⟨by simp, fun f R hf => ?_⟩, fun R => delim_cons _ _ (by decide)⟩
  unfold elemsTail
  rw [List.cons_append, skipSpace_cons_of_not _ _ (by decide)]
  dsimp only
  rw [if_neg (by decide), if_pos rfl, List.cons_append, skipSpace_cons_of_not _ _ hc]
  have := h.2 f R (by simp only [List.length_cons] at hf ⊢; omega)
  rw [List.cons_append] at this
  exact this

theorem array_scan (d : Nat) (body : GoString) (es : List (GoString × Value))
    (hd : d < maxNestingDepth) (h : StableAt scanElems 0 (d + 1) body es)
    (hb : ∃ c b, body = c :: b ∧ isSpace c = false ∧ c ≠ ch ']') :
    Scans d (ch '[' :: body) (.array es) := by
  obtain ⟨c, b, rfl, hc, hc2⟩ := hb
  intro f R hf _
  obtain ⟨f2, rfl⟩ : ∃ k, f = k + 1 := ⟨f - 1, by simp at hf; omega⟩
  rw [List.cons_append, List.cons_append, scanValue_succ, if_neg (by decide), if_pos rfl,
    if_neg (by omega), skipSpace_cons_of_not _ _ hc]
  dsimp only
  rw [if_neg hc2]
  have := h.2 f2 R (by simp only [List.length_cons] at hf ⊢; omega)
  rw [List.cons_append] at this
  rw [this]

theorem array_empty (d : Nat) (hd : d < maxNestingDepth) :
    Scans d [ch '[', ch ']'] (.array []) := by
  intro f R hf _
  obtain ⟨f2, rfl⟩ : ∃ k, f = k + 1 := ⟨f - 1, by simp at hf; omega⟩
  rw [List.cons_append, List.cons_append, scanValue_succ, if_neg (by decide), if_pos rfl,
    if_neg (by omega), skipSpace_cons_of_not _ _ (by decide)]
  rfl

/-- A member and what follows it are the members of an object. -/
theorem member_scan (d : Nat) (kb tv : GoString) (v : Value) (tail : GoString)
    (ms : List (GoString × GoString × Value)) (hk : StrFrom .inString kb) (hs : Scans d tv v)
    (ht : StableAt membersTail 1 d tail ms) (hdel : ∀ R, Delim (tail ++ R)) :
    StableAt scanMembers 0 d (ch '"' :: (kb ++ ch '"' :: ch ':' :: (tv ++ tail)))
      ((unquote kb, tv, v) :: ms) := by
  obtain ⟨c, m1, rfl, hc, _⟩ := scans_head d tv v hs
  have htl : 0 < tail.length := List.length_pos.mpr ht.1
  refine ⟨by simp, fun f1 R hf => ?_⟩
  simp only [List.length_append, List.length_cons] at hf
  obtain ⟨f2, rfl⟩ : ∃ k, f1 = k + 1 := ⟨f1 - 1, by omega⟩
  simp only [List.append_assoc, List.cons_append]
  rw [scanMembers_succ]
  have hk2 : scanString (kb ++ ch '"' :: ch ':' :: c :: (m1 ++ (tail ++ R))) =
      .ok (kb, ch ':' :: c :: (m1 ++ (tail ++ R))) := hk _
  rw [hk2]
  dsimp only
  rw [skipSpace_cons_of_not _ _ (by decide)]
  dsimp only
  rw [if_neg (by simp), skipSpace_cons_of_not _ _ hc]
  have hv2 := hs f2 (tail ++ R) (by simp only [List.length_cons]; omega) (hdel R)
  rw [List.cons_append] at hv2
  rw [hv2]
  dsimp only
  rw [ht.2 f2 R (by omega)]
  dsimp only
  rw [← List.cons_append, consumed_append]

theorem membersTail_close (d : Nat) :
    StableAt membersTail 1 d [ch '}'] [] ∧ ∀ R, Delim ([ch '}'] ++ R) := by
  refine ⟨⟨by simp, fun f R _ => ?_⟩, fun R => delim_cons _ _ (by decide)⟩
  unfold membersTail
  rw [List.singleton_append, skipSpace_cons_of_not _ _ (by decide)]
  rfl

theorem membersTail_comma (d : Nat) (b : GoString) (ms : List (GoString × GoString × Value))
    (h : StableAt scanMembers 0 d (ch '"' :: b) ms) :
    StableAt membersTail 1 d (ch ',' :: ch '"' :: b) ms ∧
      ∀ R, Delim (ch ',' :: ch '"' :: b ++ R) := by
  refine ⟨⟨by simp, fun f R hf => ?_⟩, fun R => delim_cons _ _ (by decide)⟩
  unfold membersTail
  rw [List.cons_append, skipSpace_cons_of_not _ _ (by decide)]
  dsimp only
  rw [if_neg (by decide), if_pos rfl, List.cons_append, skipSpace_cons_of_not _ _ (by decide)]
  have := h.2 f R (by simp only [List.length_cons] at hf ⊢; omega)
  rw [List.cons_append] at this
  exact this

theorem object_scan (d : Nat) (b : GoString) (ms : List (GoString × GoString × Value))
    (hd : d < maxNestingDepth) (h : StableAt scanMembers 0 (d + 1) (ch '"' :: b) ms) :
    Scans d (ch '{' :: ch '"' :: b) (.object ms) := by
  intro f R hf _
  obtain ⟨f2, rfl⟩ : ∃ k, f = k + 1 := ⟨f - 1, by simp at hf; omega⟩
  rw [List.cons_append, List.cons_append, scanValue_succ, if_pos rfl, if_neg (by omega),
    skipSpace_cons_of_not _ _ (by decide)]
  dsimp only
  rw [if_neg (by decide)]
  have := h.2 f2 R (by simp only [List.length_cons] at hf ⊢; omega)
  rw [List.cons_append] at this
  rw [this]

theorem object_empty (d : Nat) (hd : d < maxNestingDepth) :
    Scans d [ch '{', ch '}'] (.object []) := by
  intro f R hf _
  obtain ⟨f2, rfl⟩ : ∃ k, f = k + 1 := ⟨f - 1, by simp at hf; omega⟩
  rw [List.cons_append, List.cons_append, scanValue_succ, if_pos rfl, if_neg (by omega),
    skipSpace_cons_of_not _ _ (by decide)]
  rfl

/-- A string literal written by `appendString` is scanned as the string. -/
theorem string_scan (d : Nat) (s : GoString) (hs : ValidUTF8 s) :
    Scans d (appendString s) (.string s) := by
  obtain ⟨h1, h2⟩ := appendStringLoop_roundtrip s hs (s.length + 1) (by omega)
  intro f R hf _
  unfold appendString at hf ⊢
  obtain ⟨f2, rfl⟩ : ∃ k, f = k + 1 := ⟨f - 1, by simp at hf; omega⟩
  rw [List.cons_append, List.append_assoc, List.singleton_append, scanValue_succ,
    if_neg (by decide), if_neg (by decide), if_pos rfl]
  have e1 : scanString (appendStringLoop (s.length + 1) s ++ ch '"' :: R) =
      .ok (appendStringLoop (s.length + 1) s, R) := h1 R
  rw [e1]
  dsimp only
  have e2 : unquote (appendStringLoop (s.length + 1) s) = s := h2 _ (by omega)
  rw [e2]

theorem literal_scan (d : Nat) (c : Byte) (lit : GoString) (val : Value)
    (hstep : ∀ f1 t, scanValue (f1 + 1) d (c :: t) =
      match scanLiteral lit t with
      | .error err => .error err
      | .ok rest => .ok (val, rest)) :
    Scans d (c :: lit) val := by
  intro f R hf _
  obtain ⟨f2, rfl⟩ : ∃ k, f = k + 1 := ⟨f - 1, by simp at hf; omega⟩
  have : ∀ (l R : GoString), scanLiteral l (l ++ R) = .ok R := by
    intro l
    induction l with
    | nil => intro R; rw [List.nil_append, scanLiteral]
    | cons x l ih => intro R; rw [List.cons_append, scanLiteral, if_pos rfl]; exact ih R
  rw [List.cons_append, hstep, this]

theorem null_scan (d : Nat) : Scans d (utf8 "null") .null :=
  literal_scan d (ch 'n') (utf8 "ull") .null (fun f1 t => by
    rw [scanValue_succ, if_neg (by decide), if_neg (by decide), if_neg (by decide),
      if_neg (by decide), if_neg (by decide), if_neg (by decide), if_pos rfl])

theorem true_scan (d : Nat) : Scans d (utf8 "true") (.bool true) :=
  literal_scan d (ch 't') (utf8 "rue") (.bool true) (fun f1 t => by
    rw [scanValue_succ, if_neg (by decide), if_neg (by decide), if_neg (by decide),
      if_neg (by decide), if_pos rfl])

theorem false_scan (d : Nat) : Scans d (utf8 "false") (.bool false) :=
  literal_scan d (ch 'f') (utf8 "alse") (.bool false) (fun f1 t => by
    rw [scanValue_succ, if_neg (by decide), if_neg (by decide), if_neg (by decide),
      if_neg (by decide), if_neg (by decide), if_pos rfl])

/-- The text of `strconv.Itoa` is scanned as a number. -/
theorem int_scan (d : Nat) (n : Int) : Scans d (Itoa n) (.number (Itoa n)) := by
  intro f R hf hR
  obtain ⟨ds, e, hne, hd, _, _⟩ := Itoa_shape n
  obtain ⟨c, l1, hl⟩ := List.exists_cons_of_ne_nil (Itoa_ne_nil n)
  have hc : c = ch '-' ∨ json.isDigit c = true := by
    obtain ⟨x, xs, rfl⟩ := List.exists_cons_of_ne_nil hne
    rw [hl] at e
    by_cases hn : n < 0
    · rw [if_pos hn] at e
      simp only [List.singleton_append, List.cons.injEq] at e
      exact Or.inl e.1
    · rw [if_neg hn] at e
      simp only [List.nil_append, List.cons.injEq] at e
      rw [e.1]
      exact Or.inr (hd x (List.mem_cons_self _ _))
  have h1 : c ≠ ch '{' ∧ c ≠ ch '[' ∧ c ≠ ch '"' := by
    rcases hc with rfl | hc
    · decide
    · refine ⟨?_, ?_, ?_⟩ <;> intro e <;> rw [e] at hc <;> revert hc <;> decide
  have hs := Itoa_scan n R hR
  rw [hl] at hf hs ⊢
  obtain ⟨f2, rfl⟩ : ∃ k, f = k + 1 := ⟨f - 1, by simp at hf; omega⟩
  rw [List.cons_append] at hs ⊢
  rw [scanValue_succ, if_neg h1.1, if_neg h1.2.1, if_neg h1.2.2, if_pos hc, hs]

/-! ## Lemmas: an interface value written by `Marshal` is read back -/

open json

theorem prepend_ok (p t : GoString) : (Marshaled.ok t).prepend p = .ok (p ++ t) := rfl

theorem andThen_ok (t : GoString) (next : Marshaled) :
    (Marshaled.ok t).andThen next = next.prepend t := rfl

theorem ne_of_prepend (A : Marshaled) (p : GoString) (h : A.prepend p ≠ .notModelled) :
    A ≠ .notModelled := by
  intro e
  rw [e] at h
  exact h rfl

theorem ne_of_andThen_left (A B : Marshaled) (p : GoString)
    (h : (A.prepend p).andThen B ≠ .notModelled) : A ≠ .notModelled := by
  intro e
  rw [e] at h
  exact h rfl

theorem ne_of_andThen_right (A B : Marshaled) (p ta : GoString) (hA : A = .ok ta)
    (h : (A.prepend p).andThen B ≠ .notModelled) : B ≠ .notModelled := by
  intro e
  rw [e, hA] at h
  exact h rfl

theorem andThen_modelled (A B : Marshaled) (p : GoString) (hA : A ≠ .notModelled)
    (hB : B ≠ .notModelled) : (A.prepend p).andThen B ≠ .notModelled := by
  cases A with
  | notModelled => exact absurd rfl hA
  | error e => simp [Marshaled.prepend, Marshaled.andThen]
  | ok t =>
    cases B with
    | notModelled => exact absurd rfl hB
    | error e => simp [Marshaled.prepend, Marshaled.andThen]
    | ok u => simp [Marshaled.prepend, Marshaled.andThen]

theorem prepend_modelled (A : Marshaled) (p : GoString) (h : A ≠ .notModelled) :
    A.prepend p ≠ .notModelled := by
  cases A with
  | notModelled => exact absurd rfl h
  | error e => simp [Marshaled.prepend]
  | ok t => simp [Marshaled.prepend]

theorem setKey_append (key : GoString) (v : GoAny) :
    ∀ acc : List (GoString × GoAny), (∀ x ∈ acc, strLess x.1 key = true) →
      setKey acc key v = acc ++ [(key, v)] := by
  intro acc
  induction acc with
  | nil => intro _; rfl
  | cons e acc ih =>
    intro h
    obtain ⟨k, w⟩ := e
    have hk : strLess k key = true := h (k, w) (List.mem_cons_self _ _)
    have h1 : k ≠ key := by
      intro e
      rw [e, strLess_irrefl] at hk
      cases hk
    have h2 : ¬ strLess key k = true := by
      intro e
      have := strLess_trans _ _ _ hk e
      rw [strLess_irrefl] at this
      cases this
    rw [setKey, if_neg h1, if_neg h2, ih (fun x hx => h x (List.mem_cons_of_mem _ hx))]
    rfl

theorem appendString_eq (s : GoString) :
    appendString s = ch '"' :: (appendStringLoop (s.length + 1) s ++ [ch '"']) := rfl

/-- The text of a `float64` value is scanned as a number. -/
theorem float_scan (d : Nat) (x : strconv.Float64) (hx : x.valid) :
    Scans d (encodeFloat x) (.number (encodeFloat x)) := by
  obtain ⟨hs, _, c, l, hl, hc⟩ := encodeFloat_text x hx
  intro f R hf hR
  have h1 : c ≠ ch '{' ∧ c ≠ ch '[' ∧ c ≠ ch '"' := by
    rcases hc with rfl | hc
    · decide
    · refine ⟨?_, ?_, ?_⟩ <;> intro e <;> rw [e] at hc <;> revert hc <;> decide
  have hs1 := hs R hR
  rw [hl] at hf hs1 ⊢
  obtain ⟨f2, rfl⟩ : ∃ k, f = k + 1 := ⟨f - 1, by simp at hf; omega⟩
  rw [List.cons_append] at hs1 ⊢
  rw [scanValue_succ, if_neg h1.1, if_neg h1.2.1, if_neg h1.2.2, if_pos hc, hs1]

mutual

/-- An interface value is written by `Marshal` as a text that is scanned and
read back as the value. -/
theorem encodeAny_roundtrip : ∀ (a : GoAny) (d : Nat), canonAny d a →
      ∃ text val, encodeAny a = .ok text ∧ Scans d text val ∧ valueInterface val = (a, none)
  | .nil, d, _ => ⟨_, .null, by rw [encodeAny], null_scan d, by rw [valueInterface]⟩
  | .bool true, d, _ => ⟨_, .bool true, by rw [encodeAny]; rfl, true_scan d,
      by rw [valueInterface]⟩
  | .bool false, d, _ => ⟨_, .bool false, by rw [encodeAny]; rfl, false_scan d,
      by rw [valueInterface]⟩
  | .number x, d, hc => by
    rw [canonAny] at hc
    refine ⟨_, .number (encodeFloat x), by rw [encodeAny], float_scan d x hc, ?_⟩
    rw [valueInterface, (encodeFloat_text x hc).2.1]
  | .string s, d, hc => by
    rw [canonAny] at hc
    exact ⟨_, .string s, by rw [encodeAny], string_scan d s hc, by rw [valueInterface]⟩
  | .array [], d, hc => by
    rw [canonAny] at hc
    refine ⟨_, .array [], by rw [encodeAny, encodeAny.encodeList]; rfl, array_empty d hc.1, ?_⟩
    rw [valueInterface, valueInterface.arrayInterface]
  | .array (a :: es), d, hc => by
    rw [canonAny, canonAny.canonAnyList] at hc
    rw [encodeAny, encodeAny.encodeList]
    obtain ⟨ta, va, e1, s1, i1⟩ := encodeAny_roundtrip a (d + 1) hc.2.1
    obtain ⟨tail, es1, e2, s2, dl, i2⟩ := encodeList_roundtrip es (d + 1) hc.2.2
    rw [e1, e2]
    obtain ⟨c, m1, hm, hsp, hcl, _⟩ := scans_head _ _ _ s1
    refine ⟨_, .array ((ta, va) :: es1), rfl, ?_, ?_⟩
    · have := array_scan d (ta ++ tail) _ hc.1 (elems_scan (d + 1) ta va tail es1 s1 s2 dl)
        ⟨c, m1 ++ tail, by rw [hm]; rfl, hsp, hcl⟩
      simpa [prepend_ok, andThen_ok] using this
    · rw [valueInterface, valueInterface.arrayInterface, i1, i2]
      rfl
  | .object [], d, hc => by
    rw [canonAny] at hc
    refine ⟨_, .object [], by rw [encodeAny, encodeAny.encodeMap]; rfl, object_empty d hc.1, ?_⟩
    rw [valueInterface, valueInterface.objectInterface]
  | .object ((k, a) :: ms), d, hc => by
    rw [canonAny, canonAny.canonAnyMap] at hc
    rw [encodeAny, encodeAny.encodeMap]
    obtain ⟨ta, va, e1, s1, i1⟩ := encodeAny_roundtrip a (d + 1) hc.2.2.2.1
    obtain ⟨tail, ms1, e2, s2, dl, i2⟩ := encodeMap_roundtrip ms (d + 1) hc.2.2.2.2
    rw [e1, e2]
    obtain ⟨hk1, hk2⟩ := appendStringLoop_roundtrip k hc.2.1 (k.length + 1) (by omega)
    have hk3 : unquote (appendStringLoop (k.length + 1) k) = k := hk2 _ (by omega)
    refine ⟨_, .object ((k, ta, va) :: ms1), rfl, ?_, ?_⟩
    · have := object_scan d _ _ hc.1 (member_scan (d + 1) _ ta va tail ms1 hk1 s1 s2 dl)
      rw [hk3] at this
      simpa [prepend_ok, andThen_ok, appendString_eq] using this
    · rw [valueInterface, valueInterface.objectInterface, i1, setKey]
      have := i2 [(k, a)] (fun x hx y hy => by
        simp only [List.mem_singleton] at hx
        rw [hx]
        exact hc.2.2.1 y hy)
      rw [this]
      rfl

theorem encodeList_roundtrip : ∀ (es : List GoAny) (d : Nat), canonAny.canonAnyList d es →
      ∃ text es1, encodeAny.encodeList es false = .ok text ∧ StableAt elemsTail 1 d text es1 ∧
        (∀ R, Delim (text ++ R)) ∧ valueInterface.arrayInterface es1 = (es, none)
  | [], d, _ => ⟨_, [], by rw [encodeAny.encodeList], (elemsTail_close d).1,
      (elemsTail_close d).2, by rw [valueInterface.arrayInterface]⟩
  | a :: es, d, hc => by
    rw [canonAny.canonAnyList] at hc
    rw [encodeAny.encodeList]
    obtain ⟨ta, va, e1, s1, i1⟩ := encodeAny_roundtrip a d hc.1
    obtain ⟨tail, es1, e2, s2, dl, i2⟩ := encodeList_roundtrip es d hc.2
    rw [e1, e2]
    obtain ⟨c, m1, hm, hsp, _, _⟩ := scans_head _ _ _ s1
    have := elemsTail_comma d (ta ++ tail) _ (elems_scan d ta va tail es1 s1 s2 dl)
      ⟨c, m1 ++ tail, by rw [hm]; rfl, hsp⟩
    refine ⟨_, (ta, va) :: es1, rfl, ?_, ?_, ?_⟩
    · simpa [prepend_ok, andThen_ok] using this.1
    · simpa [prepend_ok, andThen_ok] using this.2
    · rw [valueInterface.arrayInterface, i1, i2]
      rfl

theorem encodeMap_roundtrip : ∀ (ms : List (GoString × GoAny)) (d : Nat),
    canonAny.canonAnyMap d ms →
      ∃ text ms1, encodeAny.encodeMap ms false = .ok text ∧
        StableAt membersTail 1 d text ms1 ∧ (∀ R, Delim (text ++ R)) ∧
        ∀ acc, (∀ x ∈ acc, ∀ y ∈ ms, strLess x.1 y.1 = true) →
          valueInterface.objectInterface ms1 acc = (acc ++ ms, none)
  | [], d, _ => ⟨_, [], by rw [encodeAny.encodeMap], (membersTail_close d).1,
      (membersTail_close d).2, fun acc _ => by
        rw [valueInterface.objectInterface, List.append_nil]⟩
  | (k, a) :: ms, d, hc => by
    rw [canonAny.canonAnyMap] at hc
    rw [encodeAny.encodeMap]
    obtain ⟨ta, va, e1, s1, i1⟩ := encodeAny_roundtrip a d hc.2.2.1
    obtain ⟨tail, ms1, e2, s2, dl, i2⟩ := encodeMap_roundtrip ms d hc.2.2.2
    rw [e1, e2]
    obtain ⟨hk1, hk2⟩ := appendStringLoop_roundtrip k hc.1 (k.length + 1) (by omega)
    have hk3 : unquote (appendStringLoop (k.length + 1) k) = k := hk2 _ (by omega)
    have := membersTail_comma d _ _ (member_scan d _ ta va tail ms1 hk1 s1 s2 dl)
    rw [hk3] at this
    refine ⟨_, (k, ta, va) :: ms1, rfl, ?_, ?_, fun acc hacc => ?_⟩
    · simpa [prepend_ok, andThen_ok, appendString_eq] using this.1
    · simpa [prepend_ok, andThen_ok, appendString_eq] using this.2
    · rw [valueInterface.objectInterface, i1,
        setKey_append k a acc (fun x hx => hacc x hx (k, a) (List.mem_cons_self _ _))]
      rw [i2 (acc ++ [(k, a)]) (fun x hx y hy => by
        rcases List.mem_append.mp hx with hx | hx
        · exact hacc x hx y (List.mem_cons_of_mem _ hy)
        · simp only [List.mem_singleton] at hx
          rw [hx]
          exact hc.2.1 y hy)]
      simp [firstError]

end

/-! ## Lemmas: a value written by `Marshal` is read back -/

open json

theorem decodeValue_any (raw : GoString) (val : Value) (dest : GoVal) (a : GoAny)
    (h : valueInterface val = (a, none)) :
    decodeValue .any raw val dest = (.any a, none) := by
  cases val with
  | number lit =>
    simp only [decodeValue, valueInterface] at h ⊢
    cases hp : strconv.ParseFloat lit with
    | none => rw [hp] at h; cases h
    | some f =>
      rw [hp] at h
      cases h
      rfl
  | null => simp only [decodeValue, valueInterface] at h ⊢; cases h; rfl
  | bool b => simp only [decodeValue, valueInterface] at h ⊢; cases h; rfl
  | string s => simp only [decodeValue, valueInterface] at h ⊢; cases h; rfl
  | array es =>
    simp only [decodeValue, valueInterface, Prod.mk.injEq] at h ⊢
    exact ⟨congrArg GoVal.any h.1, h.2⟩
  | object ms =>
    simp only [decodeValue, valueInterface, Prod.mk.injEq] at h ⊢
    exact ⟨congrArg GoVal.any h.1, h.2⟩

theorem decodeValue_raw (raw : GoString) (val : Value) (dest : GoVal) :
    decodeValue .rawMessage raw val dest = (.raw (some raw), none) := by
  cases val <;> simp only [decodeValue]

theorem htmlSafe_facts : ∀ b : Byte, htmlSafe b = true →
    b < 0x80 ∧ b ≠ ch '"' ∧ b ≠ ch '\\' ∧ ¬ b < 0x20 := by
  decide

/-- A key of plain ASCII text is scanned as it is written. -/
theorem plainKey_scan : ∀ key : GoString, key.all htmlSafe = true →
    StrFrom .inString key ∧ ∀ g, key.length < g → unquoteLoop g key = key := by
  intro key
  induction key with
  | nil =>
    intro _
    exact ⟨(strFrom_nil _).mpr rfl, fun g _ => unquoteLoop_nil g⟩
  | cons b key ih =>
    intro h
    simp only [List.all_cons, Bool.and_eq_true] at h
    obtain ⟨i1, i2⟩ := ih h.2
    obtain ⟨a1, a2, a3, a4⟩ := htmlSafe_facts b h.1
    refine ⟨strBody_cons_safe b key a2 a3 a4 i1, fun g hg => ?_⟩
    obtain ⟨g, rfl⟩ : ∃ k, g = k + 1 := ⟨g - 1, by simp at hg; omega⟩
    rw [unquoteLoop_ascii g b key a3 a1, i2 g (by simp at hg; omega)]

theorem indexWhere_append (p : GoString × Bool × GoType → Bool) :
    ∀ (pre : List (GoString × Bool × GoType)) (f : GoString × Bool × GoType)
      (suf : List (GoString × Bool × GoType)),
      (∀ g ∈ pre, p g = false) → p f = true → indexWhere p (pre ++ f :: suf) = some pre.length := by
  intro pre
  induction pre with
  | nil =>
    intro f suf _ hf
    rw [List.nil_append, indexWhere, if_pos hf]
    rfl
  | cons g pre ih =>
    intro f suf hpre hf
    have hg : ¬ (p g = true) := by
      rw [hpre g (List.mem_cons_self _ _)]
      simp
    rw [List.cons_append, indexWhere, if_neg hg,
      ih f suf (fun x hx => hpre x (List.mem_cons_of_mem _ hx)) hf]
    rfl

theorem plainKeys_append :
    ∀ (pre : List (GoString × Bool × GoType)) (f : GoString × Bool × GoType)
      (suf : List (GoString × Bool × GoType)),
      plainKeys (pre ++ f :: suf) = true →
        (∀ g ∈ pre, g.1 ≠ f.1) ∧ f.1.all htmlSafe = true := by
  intro pre
  induction pre with
  | nil =>
    intro f suf h
    rw [List.nil_append, plainKeys] at h
    simp only [Bool.and_eq_true] at h
    exact ⟨by simp, h.1.1⟩
  | cons g pre ih =>
    intro f suf h
    rw [List.cons_append, plainKeys] at h
    simp only [Bool.and_eq_true, List.all_eq_true, decide_eq_true_eq] at h
    obtain ⟨h1, h2⟩ := ih f suf (by simpa using h.2)
    refine ⟨?_, h2⟩
    intro x hx
    rcases List.mem_cons.mp hx with rfl | hx
    · exact fun e => h.1.2 f (by simp) e.symm
    · exact h1 x hx

/-- In a struct with plain keys, the key of a field names that field. -/
theorem fieldIndex_plain (pre : List (GoString × Bool × GoType)) (f : GoString × Bool × GoType)
    (suf : List (GoString × Bool × GoType)) (h : plainKeys (pre ++ f :: suf) = true) :
    fieldIndex (pre ++ f :: suf) f.1 = some pre.length := by
  obtain ⟨h1, _⟩ := plainKeys_append pre f suf h
  unfold fieldIndex
  rw [indexWhere_append _ pre f suf (fun g hg => by simpa using h1 g hg) (by simp)]

/-- A value that `omitempty` leaves out is read back as the zero value. -/
theorem strip_of_empty (d : Nat) (ty : GoType) (v : GoVal) (hc : canon d ty v)
    (he : isEmptyValue v = true) (hl : noEmptyList v = true) : strip v = zero ty := by
  cases v with
  | str s =>
    cases ty <;> simp [canon] at hc
    simp only [isEmptyValue, decide_eq_true_eq, List.length_eq_zero] at he
    rw [he, strip, zero]
  | int n =>
    cases ty <;> simp [canon] at hc
    simp only [isEmptyValue, decide_eq_true_eq] at he
    rw [he, strip, zero]
  | any a =>
    cases ty <;> simp [canon] at hc
    cases a <;> simp [isEmptyValue] at he
    rw [strip, zero]
  | raw m =>
    cases ty <;> simp [canon] at hc
    cases m with
    | none => rw [strip, zero]
    | some text =>
      simp only [isEmptyValue, decide_eq_true_eq, List.length_eq_zero] at he
      subst he
      obtain ⟨val, hs⟩ := hc
      exact absurd rfl (scans_ne_nil d [] val hs)
  | nilSlice =>
    cases ty <;> simp [canon] at hc
    rw [strip, zero]
  | slice elems spare =>
    simp only [isEmptyValue, decide_eq_true_eq, List.length_eq_zero] at he
    subst he
    simp [noEmptyList] at hl
  | struct vals => simp [isEmptyValue] at he

theorem getD_append_cons (pre : List GoVal) (x : GoVal) (r : List GoVal) (dflt : GoVal) :
    (pre ++ x :: r).getD pre.length dflt = x := by
  induction pre with
  | nil => rfl
  | cons p pre ih => simpa using ih

theorem set_append_cons (pre : List GoVal) (x y : GoVal) (r : List GoVal) :
    (pre ++ x :: r).set pre.length y = pre ++ y :: r := by
  induction pre with
  | nil => rfl
  | cons p pre ih => simp [ih]

theorem get?_append_cons (pre : List (GoString × Bool × GoType)) (f : GoString × Bool × GoType)
    (suf : List (GoString × Bool × GoType)) : (pre ++ f :: suf).get? pre.length = some f := by
  induction pre with
  | nil => rfl
  | cons p pre ih => simpa using ih

theorem canon_raw_type (d : Nat) (ty : GoType) (m : Option GoString)
    (h : canon d ty (.raw m)) : ty = .rawMessage := by
  cases ty <;> simp [canon] at h
  rfl

/-- The text of the fields of a struct with and without a field written
before them: the same but for the leading comma. -/
theorem encodeFields_first : ∀ (vs : List GoVal) (fs : List (GoString × Bool × GoType))
    (t : GoString), encodeFields fs vs false = .ok t →
      (t = [ch '}'] ∧ encodeFields fs vs true = .ok t) ∨
        ∃ t1, t = ch ',' :: ch '"' :: t1 ∧ encodeFields fs vs true = .ok (ch '"' :: t1) := by
  intro vs
  induction vs with
  | nil =>
    intro fs t h
    rw [encodeFields] at h
    simp only [Marshaled.ok.injEq] at h
    subst h
    exact Or.inl ⟨rfl, by rw [encodeFields]⟩
  | cons v vs ih =>
    intro fs t h
    cases fs with
    | nil => rw [encodeFields] at h; cases h
    | cons f fs =>
      rw [encodeFields] at h ⊢
      by_cases ho : f.2.1 = true ∧ isEmptyValue v = true
      · rw [if_pos ho] at h ⊢
        exact ih fs t h
      · rw [if_neg ho] at h ⊢
        right
        cases hv : encodeValue f.2.2 v with
        | error e => rw [hv] at h; cases h
        | notModelled => rw [hv] at h; cases h
        | ok tv =>
          rw [hv] at h
          cases hr : encodeFields fs vs false with
          | error e => rw [hr] at h; cases h
          | notModelled => rw [hr] at h; cases h
          | ok tail =>
            rw [hr] at h
            simp only [prepend_ok, andThen_ok, Marshaled.ok.injEq] at h ⊢
            subst h
            exact ⟨f.1 ++ [ch '"', ch ':'] ++ tv ++ tail, by simp, by simp⟩

theorem encodeFields_first_ne : ∀ (vs : List GoVal) (fs : List (GoString × Bool × GoType)),
    encodeFields fs vs true ≠ .notModelled → encodeFields fs vs false ≠ .notModelled := by
  intro vs
  induction vs with
  | nil =>
    intro fs h
    rw [encodeFields]
    simp
  | cons v vs ih =>
    intro fs h
    cases fs with
    | nil => rw [encodeFields] at h; exact absurd rfl h
    | cons f fs =>
      rw [encodeFields] at h ⊢
      by_cases ho : f.2.1 = true ∧ isEmptyValue v = true
      · rw [if_pos ho] at h ⊢
        exact ih fs h
      · rw [if_neg ho] at h ⊢
        cases hv : encodeValue f.2.2 v with
        | error e => simp [Marshaled.prepend, Marshaled.andThen]
        | notModelled => rw [hv] at h; exact absurd rfl h
        | ok tv =>
          rw [hv] at h
          cases hr : encodeFields fs vs false with
          | error e => simp [Marshaled.prepend, Marshaled.andThen]
          | notModelled => rw [hr] at h; exact absurd rfl h
          | ok tail => simp [Marshaled.prepend, Marshaled.andThen]

/-- The members after a comma, read on their own. -/
theorem scanMembers_of_tail (d : Nat) (t1 : GoString) (ms : List (GoString × GoString × Value))
    (h : StableAt membersTail 1 d (ch ',' :: ch '"' :: t1) ms) :
    StableAt scanMembers 0 d (ch '"' :: t1) ms := by
  refine ⟨by simp, fun f R hf => ?_⟩
  have := h.2 f R (by simp only [List.length_cons] at hf ⊢; omega)
  unfold membersTail at this
  rw [List.cons_append, skipSpace_cons_of_not _ _ (by decide)] at this
  dsimp only at this
  rw [if_neg (by decide), if_pos rfl, List.cons_append,
    skipSpace_cons_of_not _ _ (by decide)] at this
  rw [List.cons_append]
  exact this

theorem membersTail_close_nil (d : Nat) (ms : List (GoString × GoString × Value))
    (h : StableAt membersTail 1 d [ch '}'] ms) : ms = [] := by
  have := h.2 0 [] (by simp)
  unfold membersTail at this
  rw [List.append_nil, skipSpace_cons_of_not _ _ (by decide)] at this
  dsimp only at this
  rw [if_pos rfl] at this
  simp only [Except.ok.injEq, Prod.mk.injEq, and_true] at this
  exact this.symm

/-! ## Lemmas: the round trip of a well-formed value -/

open json

theorem decodeElems_cons_fresh (e : GoType) (raw : GoString) (v : Value)
    (es : List (GoString × Value)) :
    decodeElems e ((raw, v) :: es) [] [] =
      ((decodeValue e raw v (zero e)).1 :: (decodeElems e es [] []).1,
        (decodeElems e es [] []).2.1,
        firstError (decodeValue e raw v (zero e)).2 (decodeElems e es [] []).2.2) := by
  simp only [decodeElems]

theorem decodeMembers_cons (fields : List (GoString × Bool × GoType)) (key raw : GoString)
    (v : Value) (ms : List (GoString × GoString × Value)) (vals : List GoVal) (i : Nat)
    (f : GoString × Bool × GoType) (hi : fieldIndex fields key = some i)
    (hf : fields.get? i = some f) :
    decodeMembers fields ((key, raw, v) :: ms) vals =
      ((decodeMembers fields ms
          (vals.set i (decodeValue f.2.2 raw v (vals.getD i (zero f.2.2))).1)).1,
        firstError (decodeValue f.2.2 raw v (vals.getD i (zero f.2.2))).2
          (decodeMembers fields ms
            (vals.set i (decodeValue f.2.2 raw v (vals.getD i (zero f.2.2))).1)).2) := by
  rw [decodeMembers, hi]
  dsimp only
  rw [hf]

mutual

/-- A well-formed value without an empty list, whose raw messages are
compact, is written by `Marshal` as a text that is scanned and decoded into
a fresh destination as the value itself. -/
theorem encodeValue_roundtrip : ∀ (v : GoVal) (ty : GoType) (d : Nat),
    goodType d ty = true → canon d ty v → noEmptyList v = true → rawCompact v = true →
    v ≠ .raw none → encodeValue ty v ≠ .notModelled →
      ∃ text val, encodeValue ty v = .ok text ∧ Scans d text val ∧
        decodeValue ty text val (zero ty) = (strip v, none)
  | .str s, ty, d, _, hc, _, _, _, _ => by
    cases ty <;> simp [canon] at hc
    exact ⟨_, .string s, by rw [encodeValue], string_scan d s hc,
      by simp only [decodeValue, strip]⟩
  | .int n, ty, d, _, hc, _, _, _, _ => by
    cases ty <;> simp [canon] at hc
    refine ⟨_, .number (Itoa n), by rw [encodeValue], int_scan d n, ?_⟩
    simp only [decodeValue, Itoa_parse n hc, strip]
  | .any a, ty, d, _, hc, _, _, _, hne => by
    cases ty <;> simp [canon] at hc
    rw [encodeValue] at hne ⊢
    obtain ⟨text, val, e, hs, hi⟩ := encodeAny_roundtrip a d hc
    exact ⟨text, val, e, hs, by rw [decodeValue_any _ _ _ _ hi, strip]⟩
  | .raw none, ty, d, _, _, _, _, hnr, _ => absurd rfl hnr
  | .raw (some m), ty, d, _, hc, _, hr, _, _ => by
    cases ty <;> simp [canon] at hc
    obtain ⟨val, hs⟩ := hc
    simp only [rawCompact, decide_eq_true_eq] at hr
    refine ⟨m, val, ?_, hs, by rw [decodeValue_raw, strip]⟩
    rw [encodeValue]
    simp only [Option.getD_some, hr]
  | .nilSlice, ty, d, _, hc, _, _, _, _ => by
    cases ty <;> simp [canon] at hc
    exact ⟨utf8 "null", .null, by rw [encodeValue], null_scan d,
      by simp only [decodeValue, strip]⟩
  | .slice [] spare, ty, d, _, _, hl, _, _, _ => by
    simp [noEmptyList] at hl
  | .slice (x :: xs) spare, ty, d, hg, hc, hl, hr, _, hne => by
    cases ty <;> simp [canon] at hc
    rename_i e
    obtain ⟨hd, hcs, _⟩ := hc
    rw [canon.canonList] at hcs
    rw [goodType] at hg
    simp only [Bool.and_eq_true] at hg
    simp only [noEmptyList, noEmptyList.allNoEmpty, Bool.and_eq_true] at hl
    simp only [rawCompact, rawCompact.allRawCompact, Bool.and_eq_true] at hr
    have hx : x ≠ .raw none := by
      intro e1
      rw [e1] at hcs
      have := canon_raw_type _ _ _ hcs.1
      rw [this] at hg
      simp [notRaw] at hg
    have hev : encodeValue (.slice e) (.slice (x :: xs) spare) =
        Marshaled.prepend [ch '[']
          (Marshaled.andThen (Marshaled.prepend [] (encodeValue e x))
            (encodeElems e xs false)) := by
      simp only [encodeValue, encodeElems]
      rfl
    rw [hev] at hne ⊢
    have h0 := ne_of_prepend _ _ hne
    obtain ⟨tx, vx, ex, sx, dx⟩ := encodeValue_roundtrip x e (d + 1) hg.2 hcs.1 hl.2.1 hr.1 hx
      (ne_of_andThen_left _ _ _ h0)
    obtain ⟨tail, es1, et, st, dl, de⟩ := encodeElems_roundtrip xs e (d + 1) hg.2 hg.1 hcs.2
      hl.2.2 hr.2 (ne_of_andThen_right _ _ _ tx ex h0)
    rw [ex, et]
    obtain ⟨c, m1, hm, hsp, hcl, _⟩ := scans_head _ _ _ sx
    have hsc := array_scan d (tx ++ tail) _ hd (elems_scan (d + 1) tx vx tail es1 sx st dl)
      ⟨c, m1 ++ tail, by rw [hm]; rfl, hsp, hcl⟩
    refine ⟨ch '[' :: (tx ++ tail), .array ((tx, vx) :: es1), by simp [prepend_ok, andThen_ok],
      hsc, ?_⟩
    simp only [decodeValue, zero]
    rw [decodeElems_cons_fresh, dx, de]
    simp only [strip, strip.stripAll, firstError]
  | .struct vals, ty, d, hg, hc, hl, hr, _, hne => by
    cases ty <;> simp [canon] at hc
    rename_i name fields
    obtain ⟨hd, hcs⟩ := hc
    rw [goodType] at hg
    simp only [Bool.and_eq_true, decide_eq_true_eq] at hg
    simp only [noEmptyList] at hl
    simp only [rawCompact] at hr
    have hev : encodeValue (.struct name fields) (.struct vals) =
        Marshaled.prepend [ch '{'] (encodeFields fields vals true) := by
      simp only [encodeValue]
    rw [hev] at hne ⊢
    have h0 := encodeFields_first_ne vals fields (ne_of_prepend _ _ hne)
    obtain ⟨t, ms1, et, st, dl, dm⟩ := encodeFields_roundtrip vals fields [] fields (d + 1) rfl
      hg.1.2 hg.2 hcs hl hr h0
    have hdec := dm [] rfl
    rw [List.nil_append, List.nil_append] at hdec
    rcases encodeFields_first vals fields t et with ⟨rfl, e1⟩ | ⟨t1, rfl, e1⟩
    · have hms := membersTail_close_nil _ _ st
      subst hms
      rw [e1]
      refine ⟨_, .object [], rfl, object_empty d hd, ?_⟩
      rw [zero, decodeValue_struct_object, hdec, strip]
    · rw [e1]
      refine ⟨_, .object ms1, rfl, object_scan d t1 ms1 hd (scanMembers_of_tail _ _ _ st), ?_⟩
      rw [zero, decodeValue_struct_object, hdec, strip]

/-- The elements of a slice after the first one, see `encodeValue_roundtrip`. -/
theorem encodeElems_roundtrip : ∀ (vs : List GoVal) (e : GoType) (d : Nat),
    goodType d e = true → notRaw e = true → canon.canonList d e vs →
    noEmptyList.allNoEmpty vs = true → rawCompact.allRawCompact vs = true →
    encodeElems e vs false ≠ .notModelled →
      ∃ text es1, encodeElems e vs false = .ok text ∧ StableAt elemsTail 1 d text es1 ∧
        (∀ R, Delim (text ++ R)) ∧ decodeElems e es1 [] [] = (strip.stripAll vs, [], none)
  | [], e, d, _, _, _, _, _, _ =>
    ⟨_, [], by rw [encodeElems], (elemsTail_close d).1, (elemsTail_close d).2,
      by simp only [decodeElems, strip.stripAll, List.append_nil]⟩
  | x :: xs, e, d, hg, hnr, hcs, hl, hr, hne => by
    rw [canon.canonList] at hcs
    simp only [noEmptyList.allNoEmpty, Bool.and_eq_true] at hl
    simp only [rawCompact.allRawCompact, Bool.and_eq_true] at hr
    have hx : x ≠ .raw none := by
      intro e1
      rw [e1] at hcs
      have := canon_raw_type _ _ _ hcs.1
      rw [this] at hnr
      simp [notRaw] at hnr
    have hev : encodeElems e (x :: xs) false =
        Marshaled.andThen (Marshaled.prepend [ch ','] (encodeValue e x))
          (encodeElems e xs false) := by
      simp only [encodeElems]
      rfl
    rw [hev] at hne ⊢
    obtain ⟨tx, vx, ex, sx, dx⟩ := encodeValue_roundtrip x e d hg hcs.1 hl.1 hr.1 hx
      (ne_of_andThen_left _ _ _ hne)
    obtain ⟨tail, es1, et, st, dl, de⟩ := encodeElems_roundtrip xs e d hg hnr hcs.2 hl.2 hr.2
      (ne_of_andThen_right _ _ _ tx ex hne)
    rw [ex, et]
    obtain ⟨c, m1, hm, hsp, _, _⟩ := scans_head _ _ _ sx
    have hcm := elemsTail_comma d (tx ++ tail) _ (elems_scan d tx vx tail es1 sx st dl)
      ⟨c, m1 ++ tail, by rw [hm]; rfl, hsp⟩
    refine ⟨ch ',' :: (tx ++ tail), (tx, vx) :: es1, by simp [prepend_ok, andThen_ok], hcm.1,
      ?_, ?_⟩
    · intro R
      have := hcm.2 R
      simpa using this
    · rw [decodeElems_cons_fresh, dx, de]
      simp only [strip.stripAll, firstError]

/-- The fields of a struct after the fields `pre`, see `encodeValue_roundtrip`. -/
theorem encodeFields_roundtrip : ∀ (vs : List GoVal)
    (fields pre suf : List (GoString × Bool × GoType)) (d : Nat),
    fields = pre ++ suf → plainKeys fields = true → goodType.goodFields d suf = true →
    canon.canonFields d suf vs → noEmptyList.allNoEmpty vs = true →
    rawCompact.allRawCompact vs = true → encodeFields suf vs false ≠ .notModelled →
      ∃ text ms1, encodeFields suf vs false = .ok text ∧ StableAt membersTail 1 d text ms1 ∧
        (∀ R, Delim (text ++ R)) ∧
        ∀ accPre : List GoVal, accPre.length = pre.length →
          decodeMembers fields ms1 (accPre ++ zero.zeros suf) =
            (accPre ++ strip.stripAll vs, none)
  | [], fields, pre, suf, d, _, _, _, hcs, _, _, _ => by
    rw [canon.canonFields] at hcs
    subst hcs
    exact ⟨_, [], by rw [encodeFields], (membersTail_close d).1, (membersTail_close d).2,
      fun accPre _ => by simp only [decodeMembers, zero.zeros, strip.stripAll]⟩
  | v :: vs, fields, pre, suf, d, hfs, hpk, hg, hcs, hl, hr, hne => by
    cases suf with
    | nil => rw [canon.canonFields] at hcs; cases hcs
    | cons f fs =>
      rw [canonFields_cons] at hcs
      rw [goodType.goodFields] at hg
      simp only [Bool.and_eq_true] at hg
      simp only [noEmptyList.allNoEmpty, Bool.and_eq_true] at hl
      simp only [rawCompact.allRawCompact, Bool.and_eq_true] at hr
      have hfs1 : fields = (pre ++ [f]) ++ fs := by
        rw [hfs, List.append_assoc, List.singleton_append]
      rw [encodeFields.eq_def] at hne ⊢
      dsimp only at hne ⊢
      by_cases ho : f.2.1 = true ∧ isEmptyValue v = true
      · rw [if_pos ho] at hne ⊢
        obtain ⟨t, ms1, et, st, dl, dm⟩ := encodeFields_roundtrip vs fields (pre ++ [f]) fs d
          hfs1 hpk hg.2 hcs.2 hl.2 hr.2 hne
        refine ⟨t, ms1, et, st, dl, fun accPre hlen => ?_⟩
        have := dm (accPre ++ [zero f.2.2]) (by simp [hlen])
        rw [zero.zeros, strip.stripAll, strip_of_empty d f.2.2 v hcs.1 ho.2 hl.1]
        simpa using this
      · rw [if_neg ho] at hne ⊢
        have hv : v ≠ .raw none := by
          intro e1
          subst e1
          have h1 := canon_raw_type _ _ _ hcs.1
          have h2 : f.2.1 = false := by
            cases hb : f.2.1 with
            | false => rfl
            | true => exact absurd ⟨hb, rfl⟩ ho
          rw [h1, h2] at hg
          simp [notRaw] at hg
        obtain ⟨tv, val, ev, sv, dv⟩ := encodeValue_roundtrip v f.2.2 d hg.1.2 hcs.1 hl.1 hr.1 hv
          (ne_of_andThen_left _ _ _ hne)
        obtain ⟨tail, ms1, et, st, dl, dm⟩ := encodeFields_roundtrip vs fields (pre ++ [f]) fs d
          hfs1 hpk hg.2 hcs.2 hl.2 hr.2 (ne_of_andThen_right _ _ _ tv ev hne)
        rw [ev, et]
        obtain ⟨hk0, hk1⟩ := plainKeys_append pre f fs (by rw [← hfs]; exact hpk)
        obtain ⟨hk2, hk3⟩ := plainKey_scan f.1 hk1
        have hk4 : unquote f.1 = f.1 := hk3 _ (by omega)
        have hmem := member_scan d f.1 tv val tail ms1 hk2 sv st dl
        rw [hk4] at hmem
        have hcm := membersTail_comma d _ _ hmem
        refine ⟨ch ',' :: ch '"' :: (f.1 ++ ch '"' :: ch ':' :: (tv ++ tail)),
          (f.1, tv, val) :: ms1, by simp [prepend_ok, andThen_ok], hcm.1, ?_,
          fun accPre hlen => ?_⟩
        · intro R
          have := hcm.2 R
          simpa using this
        · have hidx : fieldIndex fields f.1 = some accPre.length := by
            rw [hfs, hlen]
            exact fieldIndex_plain pre f fs (by rw [← hfs]; exact hpk)
          have hget : fields.get? accPre.length = some f := by
            rw [hfs, hlen]
            exact get?_append_cons pre f fs
          rw [decodeMembers_cons fields f.1 tv val ms1 _ accPre.length f hidx hget]
          rw [zero.zeros, getD_append_cons, dv, set_append_cons]
          have := dm (accPre ++ [strip v]) (by simp [hlen])
          rw [List.append_assoc, List.singleton_append] at this
          rw [this, strip.stripAll]
          simp [firstError]

end

mutual

/-- `Marshal` gives a text or an error for every interface value. -/
theorem encodeAny_modelled : ∀ a : GoAny, encodeAny a ≠ .notModelled
  | .nil => by rw [encodeAny]; simp
  | .bool b => by rw [encodeAny]; simp
  | .number x => by rw [encodeAny]; simp
  | .string s => by rw [encodeAny]; simp
  | .array es => by
    rw [encodeAny]
    exact prepend_modelled _ _ (encodeList_modelled es true)
  | .object ms => by
    rw [encodeAny]
    exact prepend_modelled _ _ (encodeMap_modelled ms true)

theorem encodeList_modelled : ∀ (es : List GoAny) (first : Bool),
    encodeAny.encodeList es first ≠ .notModelled
  | [], first => by rw [encodeAny.encodeList]; simp
  | a :: es, first => by
    rw [encodeAny.encodeList]
    exact andThen_modelled _ _ _ (encodeAny_modelled a) (encodeList_modelled es false)

theorem encodeMap_modelled : ∀ (ms : List (GoString × GoAny)) (first : Bool),
    encodeAny.encodeMap ms first ≠ .notModelled
  | [], first => by rw [encodeAny.encodeMap]; simp
  | (k, a) :: ms, first => by
    rw [encodeAny.encodeMap]
    exact andThen_modelled _ _ _ (encodeAny_modelled a) (encodeMap_modelled ms false)

end

mutual

/-- `Marshal` gives a text or an error for every value of the type it is
encoded at. -/
theorem canon_modelled : ∀ (v : GoVal) (ty : GoType) (d : Nat), canon d ty v →
    encodeValue ty v ≠ .notModelled
  | .str s, ty, d, hc => by
    cases ty <;> simp [canon] at hc
    rw [encodeValue]
    simp
  | .int n, ty, d, hc => by
    cases ty <;> simp [canon] at hc
    rw [encodeValue]
    simp
  | .any a, ty, d, hc => by
    cases ty <;> simp [canon] at hc
    rw [encodeValue]
    exact encodeAny_modelled a
  | .raw m, ty, d, hc => by
    cases ty <;> simp [canon] at hc
    rw [encodeValue]
    cases compact (m.getD (utf8 "null")) <;> simp
  | .nilSlice, ty, d, hc => by
    cases ty <;> simp [canon] at hc
    rw [encodeValue]
    simp
  | .slice elems spare, ty, d, hc => by
    cases ty <;> simp [canon] at hc
    rw [encodeValue]
    exact prepend_modelled _ _ (canonList_modelled elems _ (d + 1) true hc.2.1)
  | .struct vals, ty, d, hc => by
    cases ty <;> simp [canon] at hc
    rw [encodeValue]
    exact prepend_modelled _ _ (canonFields_modelled vals _ (d + 1) true hc.2)

theorem canonList_modelled : ∀ (vs : List GoVal) (e : GoType) (d : Nat) (first : Bool),
    canon.canonList d e vs → encodeElems e vs first ≠ .notModelled
  | [], e, d, first, _ => by rw [encodeElems]; simp
  | v :: vs, e, d, first, hc => by
    rw [canon.canonList] at hc
    rw [encodeElems]
    exact andThen_modelled _ _ _ (canon_modelled v e d hc.1) (canonList_modelled vs e d false hc.2)

theorem canonFields_modelled : ∀ (vs : List GoVal) (fs : List (GoString × Bool × GoType))
    (d : Nat) (first : Bool), canon.canonFields d fs vs → encodeFields fs vs first ≠ .notModelled
  | [], fs, d, first, _ => by rw [encodeFields]; simp
  | v :: vs, [], d, first, hc => by rw [canon.canonFields] at hc; cases hc
  | v :: vs, f :: fs, d, first, hc => by
    rw [canonFields_cons] at hc
    rw [encodeFields]
    by_cases ho : f.2.1 = true ∧ isEmptyValue v = true
    · rw [if_pos ho]
      exact canonFields_modelled vs fs d first hc.2
    · rw [if_neg ho]
      exact andThen_modelled _ _ _ (canon_modelled v f.2.2 d hc.1)
        (canonFields_modelled vs fs d false hc.2)

end

/-! ## Lemmas: the round trip of a decoded envelope -/

open json

mutual

theorem anyEqual_refl : ∀ a : GoAny, DeepEqual.anyEqual a a = true
  | .nil => by rw [DeepEqual.anyEqual]
  | .bool b => by simp [DeepEqual.anyEqual]
  | .number l => by simp [DeepEqual.anyEqual, strconv.Float64.eq]
  | .string s => by simp [DeepEqual.anyEqual]
  | .array es => by
    rw [DeepEqual.anyEqual]
    exact anyAll_refl es
  | .object ms => by
    rw [DeepEqual.anyEqual]
    exact anyEntries_refl ms

theorem anyAll_refl : ∀ es : List GoAny, DeepEqual.anyAll es es = true
  | [] => by rw [DeepEqual.anyAll]
  | a :: es => by
    rw [DeepEqual.anyAll, anyEqual_refl a, anyAll_refl es]
    rfl

theorem anyEntries_refl : ∀ ms : List (GoString × GoAny), DeepEqual.anyEntries ms ms = true
  | [] => by rw [DeepEqual.anyEntries]
  | (k, a) :: ms => by
    rw [DeepEqual.anyEntries, anyEqual_refl a, anyEntries_refl ms]
    simp

end

mutual

/-- A value without what its slices keep beyond their lengths is deeply
equal to the value. -/
theorem deepEqual_strip : ∀ v : GoVal, DeepEqual (strip v) v = true
  | .str s => by simp [strip, DeepEqual]
  | .int n => by simp [strip, DeepEqual]
  | .any a => by
    rw [strip, DeepEqual]
    exact anyEqual_refl a
  | .raw m => by simp [strip, DeepEqual]
  | .nilSlice => by simp [strip, DeepEqual]
  | .slice elems spare => by
    rw [strip, DeepEqual]
    exact allEqual_strip elems
  | .struct vals => by
    rw [strip, DeepEqual]
    exact allEqual_strip vals

theorem allEqual_strip : ∀ vs : List GoVal, DeepEqual.allEqual (strip.stripAll vs) vs = true
  | [] => by rw [strip.stripAll, DeepEqual.allEqual]
  | v :: vs => by
    rw [strip.stripAll, DeepEqual.allEqual, deepEqual_strip v, allEqual_strip vs]
    rfl

end

theorem envelope_good : ∀ T ∈ envelopeTypes, goodType 0 T = true := by
  decide

/-- What the decoder reads from a body is scanned again the same way. -/
theorem readValue_stable (data raw rest : GoString) (val : Value)
    (h : readValue data = .ok (raw, val, rest)) : Scans 0 raw val ∧ Doc 0 val := by
  unfold readValue at h
  cases hs : scanValue (data.length + 1) 0 (skipSpace data) with
  | error e => rw [hs] at h; simp at h
  | ok r =>
    obtain ⟨v, rest1⟩ := r
    rw [hs] at h
    simp only [Except.ok.injEq, Prod.mk.injEq] at h
    obtain ⟨rfl, rfl, rfl⟩ := h
    obtain ⟨m, e, hsc, hdoc⟩ := (scan_stable (data.length + 1)).1 0 _ _ _ hs
    rw [e, consumed_append]
    exact ⟨hsc, hdoc⟩

/-- The decoder keeps a well-formed destination well formed, whatever the
body holds. -/
theorem Decode_canon (ty : GoType) (body : http.Body) (dest : GoVal)
    (hg : goodType 0 ty = true) (hc : canon 0 ty dest) :
    canon 0 ty (Decode ty body dest).1 := by
  unfold Decode
  cases hr : readValue body.data with
  | error e =>
    cases e with
    | syntaxError => exact hc
    | eof =>
      dsimp only
      cases body.err <;> exact hc
  | ok r =>
    obtain ⟨raw, val, rest⟩ := r
    dsimp only
    obtain ⟨hs, hd⟩ := readValue_stable _ _ _ _ hr
    split_ifs
    · exact hc
    · exact decodeValue_canon val ty raw dest 0 hg hs hd hc

/-- A text that is scanned as one value is decoded as that value. -/
theorem Decode_scans (ty : GoType) (text : GoString) (val : Value) (dest : GoVal)
    (hs : Scans 0 text val) :
    Decode ty (bodyOf text) dest = decodeValue ty text val dest := by
  obtain ⟨c, m1, hm, hsp, _, _⟩ := scans_head 0 text val hs
  have h1 := hs (text.length + 1) [] (by omega) delim_nil
  rw [List.append_nil] at h1
  have h2 : readValue text = .ok (text, val, []) := by
    unfold readValue
    have hskip : skipSpace text = text := by
      rw [hm]
      exact skipSpace_cons_of_not c m1 hsp
    rw [hskip, h1]
    dsimp only
    have : consumed text [] = text := by
      have := consumed_append text []
      rw [List.append_nil] at this
      exact this
    rw [this]
  unfold Decode bodyOf
  dsimp only
  rw [h2]
  dsimp only
  rw [if_neg (by simp)]

theorem canon_struct (d : Nat) (name : GoString) (fields : List (GoString × Bool × GoType))
    (v : GoVal) (h : canon d (.struct name fields) v) : v ≠ .raw none := by
  intro e
  rw [e] at h
  simp [canon] at h

theorem envelope_struct : ∀ T ∈ envelopeTypes, ∃ name fields, T = .struct name fields := by
  intro T hT
  simp only [envelopeTypes, List.mem_cons, List.mem_singleton, List.not_mem_nil, or_false] at hT
  rcases hT with rfl | rfl | rfl | rfl | rfl | rfl | rfl | rfl | rfl | rfl <;> exact ⟨_, _, rfl⟩

/-! ## C20: the round trip of a decoded envelope -/

open json

/-- C20 (amended): for every envelope type and every JSON body, if the body
is decoded without error to a value `v` that holds no empty list and whose
raw messages are written by `Marshal` as they are, then `Marshal` writes `v`
as a text that is decoded again without error, to a value deeply equal to
`v`. -/
theorem roundtrip_without_empty_list (T : GoType) (hT : T ∈ envelopeTypes) (body : GoString)
    (v : GoVal) (hdec : Decode T (bodyOf body) (zero T) = (v, none))
    (hlist : noEmptyList v = true) (hraw : rawCompact v = true) :
    ∃ text v1, Marshal T v = .ok text ∧ Decode T (bodyOf text) (zero T) = (v1, none) ∧
      DeepEqual v1 v = true := by
  have hg := envelope_good T hT
  obtain ⟨name, fields, hs⟩ := envelope_struct T hT
  have hc : canon 0 T v := by
    have := Decode_canon T (bodyOf body) (zero T) hg (canon_zero T 0 hg)
    rw [hdec] at this
    exact this
  have hnr : v ≠ .raw none := by
    rw [hs] at hc
    exact canon_struct 0 name fields v hc
  obtain ⟨text, val, e1, e2, e3⟩ := encodeValue_roundtrip v T 0 hg hc hlist hraw hnr
    (canon_modelled v T 0 hc)
  refine ⟨text, strip v, e1, ?_, deepEqual_strip v⟩
  rw [Decode_scans T text val (zero T) e2, e3]

/-- The amended C20 at the downstreams body
`{"status":"ok","data":{"ipv4_downstreams":[{"asn":64512,"name":"N"}]}}`. -/
theorem roundtrip_without_empty_list_witness :
    Decode ASNDownstreamsInfo.goType (bodyOf oneDownstreamBody)
        (zero ASNDownstreamsInfo.goType) = (oneDownstream, none) ∧
      noEmptyList oneDownstream = true ∧ rawCompact oneDownstream = true ∧
      ∃ text v1, Marshal ASNDownstreamsInfo.goType oneDownstream = .ok text ∧
        Decode ASNDownstreamsInfo.goType (bodyOf text) (zero ASNDownstreamsInfo.goType) =
          (v1, none) ∧
        DeepEqual v1 oneDownstream = true :=
  ⟨rfl, rfl, rfl,
    roundtrip_without_empty_list ASNDownstreamsInfo.goType (by simp [envelopeTypes])
      oneDownstreamBody oneDownstream rfl rfl rfl⟩

/-- Counterexample to C20: the value decoded from the downstreams body
`{"status":"ok","data":{"ipv4_downstreams":[]}}` is encoded as
`{"status":"ok","data":{},"@meta":{}}` (the empty list is left out by
`omitempty`), which decodes without error to a value whose `IPv4Downstreams`
is nil, not equal to the first.  And the value decoded from the IX body
`{"data":{"url_stats":[1, 2]}}`, which holds no empty list, is encoded as
`{"data":{"url_stats":[1,2]},"@meta":{}}` (the raw message is compacted),
which decodes without error to a value whose `URLStats` differs from the
first. -/
theorem roundtrip_counterexample :
    ((Decode ASNDownstreamsInfo.goType (bodyOf downstreamsBody)
      (zero ASNDownstreamsInfo.goType)).2 = none ∧
    Marshal ASNDownstreamsInfo.goType
      (Decode ASNDownstreamsInfo.goType (bodyOf downstreamsBody)
        (zero ASNDownstreamsInfo.goType)).1 = .ok downstreamsAgain ∧
    (Decode ASNDownstreamsInfo.goType (bodyOf downstreamsAgain)
      (zero ASNDownstreamsInfo.goType)).2 = none ∧
    DeepEqual
      (Decode ASNDownstreamsInfo.goType (bodyOf downstreamsAgain)
        (zero ASNDownstreamsInfo.goType)).1
      (Decode ASNDownstreamsInfo.goType (bodyOf downstreamsBody)
        (zero ASNDownstreamsInfo.goType)).1 = false ∧
    field ASNDownstreamsData.goType (utf8 "ipv4_downstreams")
      (field ASNDownstreamsInfo.goType (utf8 "data")
        (Decode ASNDownstreamsInfo.goType (bodyOf downstreamsAgain)
          (zero ASNDownstreamsInfo.goType)).1) = .nilSlice) ∧
    ((Decode IXInfo.goType (bodyOf spacedStatsBody) (zero IXInfo.goType)).2 = none ∧
    noEmptyList (Decode IXInfo.goType (bodyOf spacedStatsBody) (zero IXInfo.goType)).1 = true ∧
    Marshal IXInfo.goType
      (Decode IXInfo.goType (bodyOf spacedStatsBody) (zero IXInfo.goType)).1 =
        .ok spacedStatsAgain ∧
    (Decode IXInfo.goType (bodyOf spacedStatsAgain) (zero IXInfo.goType)).2 = none ∧
    DeepEqual
      (Decode IXInfo.goType (bodyOf spacedStatsAgain) (zero IXInfo.goType)).1
      (Decode IXInfo.goType (bodyOf spacedStatsBody) (zero IXInfo.goType)).1 = false ∧
    field IXData.goType (utf8 "url_stats")
      (field IXInfo.goType (utf8 "data")
        (Decode IXInfo.goType (bodyOf spacedStatsBody) (zero IXInfo.goType)).1) =
          .raw (some (utf8 "[1, 2]")) ∧
    field IXData.goType (utf8 "url_stats")
      (field IXInfo.goType (utf8 "data")
        (Decode IXInfo.goType (bodyOf spacedStatsAgain) (zero IXInfo.goType)).1) =
          .raw (some (utf8 "[1,2]"))) := by
  refine ⟨⟨rfl, by decide, rfl, rfl, rfl⟩, ⟨rfl, rfl, by decide, rfl, rfl, rfl, rfl⟩⟩

/-! ## Examples: numbers held in the untyped field `city` -/

open json

/-- The numbers `1.5`, `0.1`, `1e-7`, `-1e21` and the least and the greatest
`float64` as `ParseFloat` reads them and as `floatEncoder.encode` writes
them; `1e999` is out of range. -/
theorem float_examples :
    ParseFloat (utf8 "1.5") = some ⟨false, 6755399441055744, 1022⟩ ∧
    encodeFloat ⟨false, 6755399441055744, 1022⟩ = utf8 "1.5" ∧
    ParseFloat (utf8 "0.1") = some ⟨false, 7205759403792794, 1018⟩ ∧
    encodeFloat ⟨false, 7205759403792794, 1018⟩ = utf8 "0.1" ∧
    ParseFloat (utf8 "1e-7") = some ⟨false, 7555786372591432, 998⟩ ∧
    encodeFloat ⟨false, 7555786372591432, 998⟩ = utf8 "1e-7" ∧
    ParseFloat (utf8 "-1e21") = some ⟨true, 7629394531250000, 1091⟩ ∧
    encodeFloat ⟨true, 7629394531250000, 1091⟩ = utf8 "-1e+21" ∧
    ParseFloat (utf8 "100000000000000000000") = some ⟨false, 6103515625000000, 1088⟩ ∧
    encodeFloat ⟨false, 6103515625000000, 1088⟩ = utf8 "100000000000000000000" ∧
    ParseFloat (utf8 "5e-324") = some ⟨false, 1, 0⟩ ∧
    encodeFloat ⟨false, 1, 0⟩ = utf8 "5e-324" ∧
    ParseFloat (utf8 "1.7976931348623157e308") = some ⟨false, 9007199254740991, 2045⟩ ∧
    encodeFloat ⟨false, 9007199254740991, 2045⟩ = utf8 "1.7976931348623157e+308" ∧
    ParseFloat (utf8 "9007199254740993") = some ⟨false, 4503599627370496, 1075⟩ ∧
    encodeFloat ⟨false, 4503599627370496, 1075⟩ = utf8 "9007199254740992" ∧
    ParseFloat (utf8 "-0") = some ⟨true, 0, 0⟩ ∧
    encodeFloat ⟨true, 0, 0⟩ = utf8 "-0" ∧
    ParseFloat (utf8 "1e999") = none := by
  decide!

/-- The body `cityNumbersBody` is decoded without error, `Marshal` writes
the value as `cityNumbersAgain`, which is decoded without error to a value
deeply equal to the first and written as the same text again; the body
`cityRangeBody` leaves the error of `convertNumber`. -/
theorem city_numbers_example :
    (Decode PrefixInfo.goType (bodyOf cityNumbersBody) (zero PrefixInfo.goType)).2 = none ∧
    Marshal PrefixInfo.goType
      (Decode PrefixInfo.goType (bodyOf cityNumbersBody) (zero PrefixInfo.goType)).1 =
        .ok cityNumbersAgain ∧
    (Decode PrefixInfo.goType (bodyOf cityNumbersAgain) (zero PrefixInfo.goType)).2 = none ∧
    DeepEqual
      (Decode PrefixInfo.goType (bodyOf cityNumbersAgain) (zero PrefixInfo.goType)).1
      (Decode PrefixInfo.goType (bodyOf cityNumbersBody) (zero PrefixInfo.goType)).1 = true ∧
    Marshal PrefixInfo.goType
      (Decode PrefixInfo.goType (bodyOf cityNumbersAgain) (zero PrefixInfo.goType)).1 =
        .ok cityNumbersAgain ∧
    (Decode PrefixInfo.goType (bodyOf cityRangeBody) (zero PrefixInfo.goType)).2 =
      some (floatError (utf8 "1e999")) := by
  decide!

/-! ## Lemmas: the field a member is decoded into, and the errors of the decoder -/

open json

theorem equalFold_refl : ∀ key : GoString, equalFold key key = true
  | [] => by simp [equalFold]
  | a :: key => by
    rw [equalFold, if_pos rfl]
    exact equalFold_refl key

theorem onlyMember_filter (fields : List (GoString × Bool × GoType)) (i : Nat) (key : GoString)
    (oe : Bool) (ty : GoType)
    (hidx : indexWhere (fun f => decide (f.1 = key)) fields = some i)
    (hf : fields.get? i = some (key, oe, ty))
    (m : GoString × GoString × Value) (ms : List (GoString × GoString × Value))
    (h : onlyMember key m ms) : ms.filter (goesTo fields i) = [m] := by
  obtain ⟨hkey, pre, post, rfl, hother⟩ := h
  have hnot : ∀ x ∈ pre ++ post, goesTo fields i x = false := by
    intro x hx
    by_contra hg
    have hidx2 : fieldIndex fields x.1 = some i := by simpa [goesTo] using hg
    obtain ⟨f, hf2, hm2⟩ := fieldIndex_some fields x.1 i hidx2
    rw [hf] at hf2
    cases hf2
    have := hother x hx
    rcases hm2 with h1 | h1
    · dsimp only at h1
      rw [← h1, equalFold_refl] at this
      exact absurd this (by simp)
    · dsimp only at h1
      rw [h1] at this
      exact absurd this (by simp)
  have hme : goesTo fields i m = true := by
    have : fieldIndex fields m.1 = some i := by
      rw [hkey]
      unfold fieldIndex
      rw [hidx]
    simp [goesTo, this]
  have hpre : pre.filter (goesTo fields i) = [] := by
    rw [List.filter_eq_nil_iff]
    intro x hx
    simp [hnot x (List.mem_append_left _ hx)]
  have hpost : post.filter (goesTo fields i) = [] := by
    rw [List.filter_eq_nil_iff]
    intro x hx
    simp [hnot x (List.mem_append_right _ hx)]
  rw [List.filter_append, List.filter_cons_of_pos hme, hpre, hpost]
  rfl

/-- In a struct decoded from its zero value, the field tagged `key` holds
what the only member of that key decodes to. -/
theorem field_single (name : GoString) (fields : List (GoString × Bool × GoType)) (i : Nat)
    (key : GoString) (oe : Bool) (ty : GoType)
    (hidx : indexWhere (fun f => decide (f.1 = key)) fields = some i)
    (hf : fields.get? i = some (key, oe, ty))
    (raw : GoString) (m : GoString × GoString × Value)
    (ms : List (GoString × GoString × Value)) (h : onlyMember key m ms) :
    field (.struct name fields) key
      (decodeValue (.struct name fields) raw (.object ms) (zero (.struct name fields))).1 =
        (decodeValue ty m.2.1 m.2.2 (zero ty)).1 := by
  have hfilter := onlyMember_filter fields i key oe ty hidx hf m ms h
  have hf1 : fields[i]? = some (key, oe, ty) := by
    rw [← List.get?_eq_getElem?]; exact hf
  have h1 := zeros_getElem? fields i
  rw [hf1] at h1
  have hi : i < (zero.zeros fields).length := by
    by_contra hge
    rw [List.getElem?_eq_none (by omega)] at h1
    simp at h1
  have hz : (zero.zeros fields).getD i (zero ty) = zero ty := by
    rw [List.getD_eq_getElem?_getD, h1]
    rfl
  have hres := decodeMembers_single fields i ms (zero.zeros fields) m _ hf hi hfilter
  dsimp only at hres
  rw [hz] at hres
  simp only [zero]
  rw [decodeValue_struct_object]
  simp only [field, hidx, List.getD_eq_getElem?_getD, hres]
  rfl

/-- A field tagged `key` that no member is decoded into is left at zero. -/
theorem field_absent (name : GoString) (fields : List (GoString × Bool × GoType)) (i : Nat)
    (key : GoString) (oe : Bool) (ty : GoType)
    (hidx : indexWhere (fun f => decide (f.1 = key)) fields = some i)
    (hf : fields.get? i = some (key, oe, ty))
    (raw : GoString) (ms : List (GoString × GoString × Value))
    (h : ∀ x ∈ ms, equalFold key x.1 = false) :
    field (.struct name fields) key
      (decodeValue (.struct name fields) raw (.object ms) (zero (.struct name fields))).1 =
        zero ty := by
  have hnot : ∀ x ∈ ms, fieldIndex fields x.1 ≠ some i := by
    intro x hx hidx2
    obtain ⟨f, hf2, hm2⟩ := fieldIndex_some fields x.1 i hidx2
    rw [hf] at hf2
    cases hf2
    have := h x hx
    rcases hm2 with h1 | h1
    · dsimp only at h1
      rw [← h1, equalFold_refl] at this
      exact absurd this (by simp)
    · dsimp only at h1
      rw [h1] at this
      exact absurd this (by simp)
  have hf1 : fields[i]? = some (key, oe, ty) := by
    rw [← List.get?_eq_getElem?]; exact hf
  have h1 := zeros_getElem? fields i
  rw [hf1] at h1
  have hres := decodeMembers_absent fields i ms (zero.zeros fields) hnot
  rw [h1] at hres
  simp only [zero]
  rw [decodeValue_struct_object]
  simp only [field, hidx, List.getD_eq_getElem?_getD, hres]
  rfl

theorem typeMismatch_first (a b : Option GoError)
    (ha : a = none ∨ TypeMismatch a) (hb : b = none ∨ TypeMismatch b) :
    firstError a b = none ∨ TypeMismatch (firstError a b) := by
  rcases ha with rfl | ⟨x, y, rfl⟩
  · exact hb
  · exact Or.inr ⟨x, y, rfl⟩

mutual

/-- An interface value is stored with no error or a type mismatch. -/
theorem valueInterface_mismatch : ∀ v : Value,
    (valueInterface v).2 = none ∨ TypeMismatch (valueInterface v).2
  | .null => Or.inl (by rw [valueInterface])
  | .bool b => Or.inl (by rw [valueInterface])
  | .number lit => by
    rw [valueInterface]
    cases strconv.ParseFloat lit with
    | none => exact Or.inr ⟨_, _, rfl⟩
    | some f => exact Or.inl rfl
  | .string s => Or.inl (by rw [valueInterface])
  | .array es => by
    rw [valueInterface]
    exact arrayInterface_mismatch es
  | .object ms => by
    rw [valueInterface]
    exact objectInterface_mismatch ms []

theorem arrayInterface_mismatch : ∀ es : List (GoString × Value),
    (valueInterface.arrayInterface es).2 = none ∨
      TypeMismatch (valueInterface.arrayInterface es).2
  | [] => Or.inl (by rw [valueInterface.arrayInterface])
  | (raw, v) :: es => by
    rw [valueInterface.arrayInterface]
    exact typeMismatch_first _ _ (valueInterface_mismatch v) (arrayInterface_mismatch es)

theorem objectInterface_mismatch : ∀ (ms : List (GoString × GoString × Value))
    (m : List (GoString × GoAny)),
    (valueInterface.objectInterface ms m).2 = none ∨
      TypeMismatch (valueInterface.objectInterface ms m).2
  | [], m => Or.inl (by rw [valueInterface.objectInterface])
  | (key, raw, v) :: ms, m => by
    rw [valueInterface.objectInterface]
    exact typeMismatch_first _ _ (valueInterface_mismatch v) (objectInterface_mismatch ms _)

end

mutual

/-- The decoder leaves no error or a type mismatch, nothing else. -/
theorem decodeValue_mismatch : ∀ (v : Value) (ty : GoType) (raw : GoString) (d : GoVal),
    (decodeValue ty raw v d).2 = none ∨ TypeMismatch (decodeValue ty raw v d).2
  | .null, ty, raw, d => by cases ty <;> exact Or.inl (by simp only [decodeValue])
  | .bool b, ty, raw, d => by
    cases ty <;> simp only [decodeValue] <;>
      first | exact Or.inl trivial | exact Or.inl rfl | exact Or.inr ⟨_, _, rfl⟩
  | .number lit, ty, raw, d => by
    cases ty <;> simp only [decodeValue]
    case int =>
      cases parseInt64 lit with
      | none => exact Or.inr ⟨_, _, rfl⟩
      | some n => exact Or.inl rfl
    case any =>
      cases strconv.ParseFloat lit with
      | none => exact Or.inr ⟨_, _, rfl⟩
      | some f => exact Or.inl rfl
    all_goals first | exact Or.inl trivial | exact Or.inl rfl | exact Or.inr ⟨_, _, rfl⟩
  | .string s, ty, raw, d => by
    cases ty <;> simp only [decodeValue] <;>
      first | exact Or.inl trivial | exact Or.inl rfl | exact Or.inr ⟨_, _, rfl⟩
  | .array es, ty, raw, d => by
    cases ty <;> simp only [decodeValue]
    case slice elem =>
      cases es with
      | nil => exact Or.inl rfl
      | cons e es =>
        dsimp only
        cases d <;> exact decodeElems_mismatch (e :: es) elem _ _
    case any => exact arrayInterface_mismatch es
    all_goals first | exact Or.inl trivial | exact Or.inl rfl | exact Or.inr ⟨_, _, rfl⟩
  | .object ms, ty, raw, d => by
    cases ty <;> simp only [decodeValue]
    case struct name fields => exact decodeMembers_mismatch ms fields _
    case any => exact objectInterface_mismatch ms []
    all_goals first | exact Or.inl trivial | exact Or.inl rfl | exact Or.inr ⟨_, _, rfl⟩

theorem decodeElems_mismatch : ∀ (es : List (GoString × Value)) (elem : GoType)
    (elems spare : List GoVal),
    (decodeElems elem es elems spare).2.2 = none ∨
      TypeMismatch (decodeElems elem es elems spare).2.2
  | [], elem, elems, spare => by exact Or.inl (by simp only [decodeElems])
  | (raw, v) :: es, elem, elems, spare => by
    simp only [decodeElems]
    exact typeMismatch_first _ _ (decodeValue_mismatch v elem raw _)
      (decodeElems_mismatch es elem _ _)

theorem decodeMembers_mismatch : ∀ (ms : List (GoString × GoString × Value))
    (fields : List (GoString × Bool × GoType)) (vals : List GoVal),
    (decodeMembers fields ms vals).2 = none ∨ TypeMismatch (decodeMembers fields ms vals).2
  | [], fields, vals => by exact Or.inl (by simp only [decodeMembers])
  | (key, raw, v) :: ms, fields, vals => by
    simp only [decodeMembers]
    cases fieldIndex fields key with
    | none => exact decodeMembers_mismatch ms fields vals
    | some i =>
      dsimp only
      cases fields.get? i with
      | none => exact decodeMembers_mismatch ms fields vals
      | some f =>
        dsimp only
        exact typeMismatch_first _ _ (decodeValue_mismatch v f.2.2 raw _)
          (decodeMembers_mismatch ms fields _)

end

theorem typeMismatch_of_ne (o : Option GoError) (h : o = none ∨ TypeMismatch o) (hne : o ≠ none) :
    TypeMismatch o := by
  rcases h with h | h
  · exact absurd h hne
  · exact h

/-- A member whose value does not fit its field leaves an error, whatever
the other members are. -/
theorem decodeMembers_mem_error (fields : List (GoString × Bool × GoType)) (i : Nat)
    (f : GoString × Bool × GoType) (m : GoString × GoString × Value)
    (hi : fieldIndex fields m.1 = some i) (hf : fields.get? i = some f)
    (he : (decodeValue f.2.2 m.2.1 m.2.2 (zero f.2.2)).2 ≠ none) :
    ∀ (ms : List (GoString × GoString × Value)) (vals : List GoVal), m ∈ ms →
      (decodeMembers fields ms vals).2 ≠ none := by
  intro ms
  induction ms with
  | nil => intro vals hm; simp at hm
  | cons x ms ih =>
    intro vals hm
    obtain ⟨key, raw, v⟩ := x
    rcases List.mem_cons.mp hm with rfl | hm
    · rw [decodeMembers_cons fields key raw v ms vals i f hi hf]
      dsimp only
      intro hn
      rw [firstError_none] at hn
      rw [decodeValue_error v f.2.2 raw _ (zero f.2.2)] at hn
      exact he hn.1
    · rw [decodeMembers]
      cases fieldIndex fields key with
      | none => exact ih vals hm
      | some j =>
        dsimp only
        cases fields.get? j with
        | none => exact ih vals hm
        | some g =>
          dsimp only
          intro hn
          rw [firstError_none] at hn
          exact ih _ hm hn.2

/-- An object with a member whose value does not fit its field is decoded
into a struct with a type mismatch. -/
theorem struct_mem_mismatch (name : GoString) (fields : List (GoString × Bool × GoType)) (i : Nat)
    (key : GoString) (oe : Bool) (ty : GoType)
    (hidx : indexWhere (fun f => decide (f.1 = key)) fields = some i)
    (hf : fields.get? i = some (key, oe, ty))
    (raw mraw : GoString) (v : Value) (ms : List (GoString × GoString × Value))
    (hm : (key, mraw, v) ∈ ms) (he : TypeMismatch (decodeValue ty mraw v (zero ty)).2)
    (dest : GoVal) :
    TypeMismatch (decodeValue (.struct name fields) raw (.object ms) dest).2 := by
  apply typeMismatch_of_ne _ (decodeValue_mismatch _ _ _ _)
  rw [decodeValue_error _ _ _ dest (.struct [])]
  rw [decodeValue_struct_object]
  dsimp only
  have hi : fieldIndex fields (key, mraw, v).1 = some i := by
    unfold fieldIndex
    rw [hidx]
  refine decodeMembers_mem_error fields i (key, oe, ty) (key, mraw, v) hi hf ?_ ms [] hm
  obtain ⟨a, b, hab⟩ := he
  dsimp only
  rw [hab]
  simp

/-! ## Lemmas: the raw text of a scanned value -/

open json

/-- What is scanned as `null` is the text `null`. -/
theorem scanValue_null_inv (f d : Nat) (input rest : GoString)
    (h : scanValue f d input = .ok (.null, rest)) : input = utf8 "null" ++ rest := by
  cases f with
  | zero => rw [scanValue] at h; cases h
  | succ f =>
    cases input with
    | nil => rw [scanValue] at h; cases h
    | cons c s =>
      rw [scanValue_succ] at h
      by_cases c1 : c = ch '{'
      · rw [if_pos c1] at h
        exfalso
        by_cases hd : d ≥ maxNestingDepth
        · rw [if_pos hd] at h; cases h
        · rw [if_neg hd] at h
          cases hsk : skipSpace s with
          | nil => rw [hsk] at h; cases h
          | cons d1 s1 =>
            rw [hsk] at h
            dsimp only at h
            by_cases hb : d1 = ch '}'
            · rw [if_pos hb] at h; cases h
            · rw [if_neg hb] at h
              cases hm : scanMembers f (d + 1) (d1 :: s1) with
              | error e => rw [hm] at h; cases h
              | ok r => rw [hm] at h; cases h
      · rw [if_neg c1] at h
        by_cases c2 : c = ch '['
        · rw [if_pos c2] at h
          exfalso
          by_cases hd : d ≥ maxNestingDepth
          · rw [if_pos hd] at h; cases h
          · rw [if_neg hd] at h
            cases hsk : skipSpace s with
            | nil => rw [hsk] at h; cases h
            | cons d1 s1 =>
              rw [hsk] at h
              dsimp only at h
              by_cases hb : d1 = ch ']'
              · rw [if_pos hb] at h; cases h
              · rw [if_neg hb] at h
                cases hm : scanElems f (d + 1) (d1 :: s1) with
                | error e => rw [hm] at h; cases h
                | ok r => rw [hm] at h; cases h
        · rw [if_neg c2] at h
          by_cases c3 : c = ch '"'
          · rw [if_pos c3] at h
            exfalso
            cases hm : scanString s with
            | error e => rw [hm] at h; cases h
            | ok r => rw [hm] at h; cases h
          · rw [if_neg c3] at h
            by_cases c4 : c = ch '-' ∨ json.isDigit c = true
            · rw [if_pos c4] at h
              exfalso
              cases hm : scanNumber (c :: s) with
              | error e => rw [hm] at h; cases h
              | ok r => rw [hm] at h; cases h
            · rw [if_neg c4] at h
              by_cases c5 : c = ch 't'
              · rw [if_pos c5] at h
                exfalso
                cases hm : scanLiteral (utf8 "rue") s with
                | error e => rw [hm] at h; cases h
                | ok r => rw [hm] at h; cases h
              · rw [if_neg c5] at h
                by_cases c6 : c = ch 'f'
                · rw [if_pos c6] at h
                  exfalso
                  cases hm : scanLiteral (utf8 "alse") s with
                  | error e => rw [hm] at h; cases h
                  | ok r => rw [hm] at h; cases h
                · rw [if_neg c6] at h
                  by_cases c7 : c = ch 'n'
                  · rw [if_pos c7] at h
                    cases hm : scanLiteral (utf8 "ull") s with
                    | error e => rw [hm] at h; cases h
                    | ok r =>
                      rw [hm] at h
                      simp only [Except.ok.injEq, Prod.mk.injEq, true_and] at h
                      subst h
                      rw [(scanLiteral_spec _ _ _ hm).1, c7]
                      rfl
                  · rw [if_neg c7] at h; cases h

/-- What is scanned as a string is a quoted text: an opening quote, the
bytes that are unquoted to the string, and a closing quote. -/
theorem scanValue_string_inv (f d : Nat) (input rest : GoString) (str : GoString)
    (h : scanValue f d input = .ok (.string str, rest)) :
    ∃ body, input = ch '"' :: (body ++ ch '"' :: rest) ∧ unquote body = str := by
  cases f with
  | zero => rw [scanValue] at h; cases h
  | succ f =>
    cases input with
    | nil => rw [scanValue] at h; cases h
    | cons c s =>
      rw [scanValue_succ] at h
      by_cases c1 : c = ch '{'
      · rw [if_pos c1] at h
        exfalso
        by_cases hd : d ≥ maxNestingDepth
        · rw [if_pos hd] at h; cases h
        · rw [if_neg hd] at h
          cases hsk : skipSpace s with
          | nil => rw [hsk] at h; cases h
          | cons d1 s1 =>
            rw [hsk] at h
            dsimp only at h
            by_cases hb : d1 = ch '}'
            · rw [if_pos hb] at h; cases h
            · rw [if_neg hb] at h
              cases hm : scanMembers f (d + 1) (d1 :: s1) with
              | error e => rw [hm] at h; cases h
              | ok r => rw [hm] at h; cases h
      · rw [if_neg c1] at h
        by_cases c2 : c = ch '['
        · rw [if_pos c2] at h
          exfalso
          by_cases hd : d ≥ maxNestingDepth
          · rw [if_pos hd] at h; cases h
          · rw [if_neg hd] at h
            cases hsk : skipSpace s with
            | nil => rw [hsk] at h; cases h
            | cons d1 s1 =>
              rw [hsk] at h
              dsimp only at h
              by_cases hb : d1 = ch ']'
              · rw [if_pos hb] at h; cases h
              · rw [if_neg hb] at h
                cases hm : scanElems f (d + 1) (d1 :: s1) with
                | error e => rw [hm] at h; cases h
                | ok r => rw [hm] at h; cases h
        · rw [if_neg c2] at h
          by_cases c3 : c = ch '"'
          · rw [if_pos c3] at h
            cases hm : scanString s with
            | error e => rw [hm] at h; cases h
            | ok r =>
              obtain ⟨body, rest1⟩ := r
              rw [hm] at h
              simp only [Except.ok.injEq, Prod.mk.injEq, Value.string.injEq] at h
              obtain ⟨h1, h2⟩ := h
              subst h2
              refine ⟨body, ?_, h1⟩
              rw [(scanStringFrom_spec _ _ _ _ hm).1, c3]
          · rw [if_neg c3] at h
            exfalso
            by_cases c4 : c = ch '-' ∨ json.isDigit c = true
            · rw [if_pos c4] at h
              cases hm : scanNumber (c :: s) with
              | error e => rw [hm] at h; cases h
              | ok r => rw [hm] at h; cases h
            · rw [if_neg c4] at h
              by_cases c5 : c = ch 't'
              · rw [if_pos c5] at h
                cases hm : scanLiteral (utf8 "rue") s with
                | error e => rw [hm] at h; cases h
                | ok r => rw [hm] at h; cases h
              · rw [if_neg c5] at h
                by_cases c6 : c = ch 'f'
                · rw [if_pos c6] at h
                  cases hm : scanLiteral (utf8 "alse") s with
                  | error e => rw [hm] at h; cases h
                  | ok r => rw [hm] at h; cases h
                · rw [if_neg c6] at h
                  by_cases c7 : c = ch 'n'
                  · rw [if_pos c7] at h
                    cases hm : scanLiteral (utf8 "ull") s with
                    | error e => rw [hm] at h; cases h
                    | ok r => rw [hm] at h; cases h
                  · rw [if_neg c7] at h; cases h

/-- The raw text of a `null` is the four bytes `null`. -/
theorem scans_null_inv (d : Nat) (r : GoString) (h : Scans d r .null) : r = utf8 "null" := by
  have h1 := h r.length [] (le_refl _) delim_nil
  have h2 := scanValue_null_inv _ _ _ _ h1
  simpa using h2

/-- The raw text of a string is the string literal with its quotes. -/
theorem scans_string_inv (d : Nat) (r str : GoString) (h : Scans d r (.string str)) :
    ∃ body, r = ch '"' :: (body ++ [ch '"']) ∧ unquote body = str := by
  have h1 := h r.length [] (le_refl _) delim_nil
  obtain ⟨body, h2, h3⟩ := scanValue_string_inv _ _ _ _ _ h1
  exact ⟨body, by simpa using h2, h3⟩

theorem docMembers_mem (d : Nat) (m : GoString × GoString × Value) :
    ∀ ms : List (GoString × GoString × Value), Doc.docMembers d ms → m ∈ ms →
      ValidUTF8 m.1 ∧ Scans d m.2.1 m.2.2 ∧ Doc d m.2.2 := by
  intro ms
  induction ms with
  | nil => intro _ hm; simp at hm
  | cons x ms ih =>
    intro hd hm
    rw [Doc.docMembers] at hd
    rcases List.mem_cons.mp hm with rfl | hm
    · exact ⟨hd.1, hd.2.1, hd.2.2.1⟩
    · exact ih hd.2.2.2 hm

theorem onlyMember_mem (key : GoString) (m : GoString × GoString × Value)
    (l : List (GoString × GoString × Value)) (h : onlyMember key m l) : m ∈ l := by
  obtain ⟨_, pre, post, rfl, _⟩ := h
  simp

/-- An object with a single member of a plain key, written without white
space, is scanned as that object. -/
theorem single_member_scan (d : Nat) (key r : GoString) (val : Value)
    (hd : d < maxNestingDepth) (hkey : key.all htmlSafe = true) (hs : Scans (d + 1) r val) :
    Scans d (ch '{' :: ch '"' :: (key ++ ch '"' :: ch ':' :: (r ++ [ch '}'])))
      (.object [(key, r, val)]) := by
  obtain ⟨k1, k2⟩ := plainKey_scan key hkey
  have hm := member_scan (d + 1) key r val [ch '}'] [] k1 hs (membersTail_close (d + 1)).1
    (membersTail_close (d + 1)).2
  have hu : unquote key = key := k2 _ (by omega)
  rw [hu] at hm
  exact object_scan d _ _ hd hm

/-- The body `{"data":{"url_stats":r}}` is scanned as the document with the
raw text `r` under `url_stats`. -/
theorem statsBody_scans (r : GoString) (val : Value) (hs : Scans 2 r val) :
    Scans 0 (statsBody r) (statsDoc r val) := by
  have h1 := single_member_scan 1 (utf8 "url_stats") r val (by decide) (by decide) hs
  have h2 := single_member_scan 0 (utf8 "data") _ _ (by decide) (by decide) h1
  have e : statsBody r = ch '{' :: ch '"' :: (utf8 "data" ++ ch '"' :: ch ':' ::
      ((ch '{' :: ch '"' :: (utf8 "url_stats" ++ ch '"' :: ch ':' :: (r ++ [ch '}']))) ++
        [ch '}'])) := by
    have e1 : r ++ utf8 "\x7d\x7d" = (r ++ [ch '}']) ++ [ch '}'] := by
      rw [List.append_assoc]
      rfl
    unfold statsBody
    rw [e1]
    rfl
  rw [e]
  exact h2

/-! ## The raw statistics URL of an IX -/

open json

theorem statsDoc_decode (text r : GoString) (val : Value) :
    decodeValue IXInfo.goType text (statsDoc r val) (zero IXInfo.goType) =
      (statsOnly (some r), none) := by
  have h : decodeValue IXInfo.goType text (statsDoc r val) (zero IXInfo.goType) =
      (.struct [.str [], .str [],
        .struct [.str [], .str [], .str [], .str [], .str [], .str [], .str [], .str [],
          .str [], (decodeValue .rawMessage r val (.raw none)).1, .int 0, .nilSlice],
        .struct [.str [], .int 0, .str []]],
       firstError (firstError (decodeValue .rawMessage r val (.raw none)).2 none) none) := by
    rfl
  rw [h, decodeValue_raw]
  rfl

/-- C21: the decoder keeps the statistics URL of an IX as the bytes it is
written with.  For every text `r` of a JSON value, the body
`{"data":{"url_stats":r}}` decodes without error to `URLStats = r`.  In every
body read as an object whose only `data` member is an object whose only
`url_stats` member has the raw text `r`, `URLStats` is `r`; `r` is not empty
and is a text of that value; a `null` is stored as the four bytes `null`, a
string as its literal between its quotes.  When no member is decoded into
`data`, or none into `url_stats`, `URLStats` is nil, which differs from the
stored `null` (`reflect.DeepEqual` tells them apart, and `omitempty` omits
the nil value only). -/
theorem stats_url_kept_raw :
    (∀ (r : GoString) (val : Value), Scans 2 r val →
      Decode IXInfo.goType (bodyOf (statsBody r)) (zero IXInfo.goType) =
        (statsOnly (some r), none) ∧
      statsURL (statsOnly (some r)) = .raw (some r)) ∧
    (∀ (body : http.Body) (raw rest draw r : GoString) (val : Value)
      (ms dms : List (GoString × GoString × Value)),
      readValue body.data = .ok (raw, .object ms, rest) →
      onlyMember (utf8 "data") (utf8 "data", draw, .object dms) ms →
      onlyMember (utf8 "url_stats") (utf8 "url_stats", r, val) dms →
      statsURL (Decode IXInfo.goType body (zero IXInfo.goType)).1 = .raw (some r) ∧
      r ≠ [] ∧ Scans 2 r val ∧
      (val = .null → r = utf8 "null") ∧
      (∀ s, val = .string s → ∃ b, r = ch '"' :: (b ++ [ch '"']) ∧ unquote b = s)) ∧
    (∀ (body : http.Body) (raw rest : GoString) (ms : List (GoString × GoString × Value)),
      readValue body.data = .ok (raw, .object ms, rest) →
      ((∀ x ∈ ms, equalFold (utf8 "data") x.1 = false) ∨
        ∃ draw dms, onlyMember (utf8 "data") (utf8 "data", draw, .object dms) ms ∧
          ∀ x ∈ dms, equalFold (utf8 "url_stats") x.1 = false) →
      statsURL (Decode IXInfo.goType body (zero IXInfo.goType)).1 = .raw none) ∧
    GoVal.raw none ≠ .raw (some (utf8 "null")) ∧
    DeepEqual (.raw none) (.raw (some (utf8 "null"))) = false ∧
    isEmptyValue (.raw none) = true ∧ isEmptyValue (.raw (some (utf8 "null"))) = false ∧
    utf8 "null" = [0x6e, 0x75, 0x6c, 0x6c] ∧
    Decode IXInfo.goType (bodyOf (statsBody (utf8 "null"))) (zero IXInfo.goType) =
      (statsOnly (some (utf8 "null")), none) ∧
    Decode IXInfo.goType (bodyOf (statsBody (utf8 "\"http://stats/\""))) (zero IXInfo.goType) =
      (statsOnly (some (utf8 "\"http://stats/\"")), none) ∧
    Decode IXInfo.goType (bodyOf (utf8 "\x7b\"data\":\x7b\x7d\x7d")) (zero IXInfo.goType) =
      (statsOnly none, none) ∧
    statsURL (statsOnly none) = .raw none := by
  refine ⟨?_, ?_, ?_, by simp, by rfl, by rfl, by rfl, by rfl, by rfl, by rfl, by rfl, by rfl⟩
  · intro r val hs
    refine ⟨?_, by rfl⟩
    rw [Decode_scans _ _ _ _ (statsBody_scans r val hs)]
    exact statsDoc_decode _ r val
  · intro body raw rest draw r val ms dms hread hdata hstats
    have hval : statsURL (Decode IXInfo.goType body (zero IXInfo.goType)).1 =
        .raw (some r) := by
      unfold statsURL
      rw [Decode_container _ body _ raw rest (.object ms) rfl hread]
      have h1 : field IXInfo.goType (utf8 "data")
          (decodeValue IXInfo.goType raw (.object ms) (zero IXInfo.goType)).1 =
          (decodeValue IXData.goType draw (.object dms) (zero IXData.goType)).1 :=
        field_single _ _ 2 (utf8 "data") true IXData.goType (by decide) (by rfl) raw _ ms hdata
      have h2 : field IXData.goType (utf8 "url_stats")
          (decodeValue IXData.goType draw (.object dms) (zero IXData.goType)).1 =
          (decodeValue .rawMessage r val (zero .rawMessage)).1 :=
        field_single _ _ 9 (utf8 "url_stats") true .rawMessage (by decide) (by rfl) draw _ dms
          hstats
      rw [h1, h2, decodeValue_raw]
    have hdoc := (readValue_stable _ _ _ _ hread).2
    rw [Doc] at hdoc
    have hd1 := (docMembers_mem 1 _ ms hdoc.2 (onlyMember_mem _ _ _ hdata)).2.2
    dsimp only at hd1
    rw [Doc] at hd1
    have hsc : Scans 2 r val := (docMembers_mem 2 _ dms hd1.2 (onlyMember_mem _ _ _ hstats)).2.1
    refine ⟨hval, scans_ne_nil 2 r val hsc, hsc, ?_, ?_⟩
    · intro hn
      subst hn
      exact scans_null_inv 2 r hsc
    · intro s hstr
      subst hstr
      exact scans_string_inv 2 r s hsc
  · intro body raw rest ms hread h
    unfold statsURL
    rw [Decode_container _ body _ raw rest (.object ms) rfl hread]
    rcases h with h | ⟨draw, dms, hdata, h⟩
    · have h1 : field IXInfo.goType (utf8 "data")
          (decodeValue IXInfo.goType raw (.object ms) (zero IXInfo.goType)).1 =
          zero IXData.goType :=
        field_absent _ _ 2 (utf8 "data") true IXData.goType (by decide) (by rfl) raw ms h
      rw [h1]
      rfl
    · have h1 : field IXInfo.goType (utf8 "data")
          (decodeValue IXInfo.goType raw (.object ms) (zero IXInfo.goType)).1 =
          (decodeValue IXData.goType draw (.object dms) (zero IXData.goType)).1 :=
        field_single _ _ 2 (utf8 "data") true IXData.goType (by decide) (by rfl) raw _ ms hdata
      have h2 : field IXData.goType (utf8 "url_stats")
          (decodeValue IXData.goType draw (.object dms) (zero IXData.goType)).1 =
          zero .rawMessage :=
        field_absent _ _ 9 (utf8 "url_stats") true .rawMessage (by decide) (by rfl) draw dms h
      rw [h1, h2]
      rfl

/-! ## Lemmas: what `Marshal` writes for an `IXInfo` -/

open json

theorem andThen_ok_inv (A B : Marshaled) (p t : GoString)
    (h : (A.prepend p).andThen B = .ok t) :
    ∃ ta tb, A = .ok ta ∧ B = .ok tb ∧ t = p ++ ta ++ tb := by
  cases A with
  | notModelled => simp [Marshaled.prepend, Marshaled.andThen] at h
  | error e => simp [Marshaled.prepend, Marshaled.andThen] at h
  | ok ta =>
    cases B with
    | notModelled => simp [Marshaled.prepend, Marshaled.andThen] at h
    | error e => simp [Marshaled.prepend, Marshaled.andThen] at h
    | ok tb =>
      simp only [Marshaled.prepend, Marshaled.andThen, Marshaled.ok.injEq] at h
      exact ⟨ta, tb, rfl, rfl, h.symm⟩

theorem prepend_ok_inv (A : Marshaled) (p t : GoString) (h : A.prepend p = .ok t) :
    ∃ ta, A = .ok ta ∧ t = p ++ ta := by
  cases A with
  | notModelled => simp [Marshaled.prepend] at h
  | error e => simp [Marshaled.prepend] at h
  | ok ta =>
    simp only [Marshaled.prepend, Marshaled.ok.injEq] at h
    exact ⟨ta, rfl, h.symm⟩

mutual

/-- A value of strings and integers has no list and no raw message, and
`Marshal` gives its text. -/
theorem scalar_facts : ∀ (v : GoVal) (ty : GoType) (d : Nat), canon d ty v →
    scalarType ty = true →
      noEmptyList v = true ∧ rawCompact v = true ∧ encodeValue ty v ≠ .notModelled
  | .str s, ty, d, hc, _ => by
    cases ty <;> simp [canon] at hc
    exact ⟨rfl, rfl, by simp [encodeValue]⟩
  | .int n, ty, d, hc, _ => by
    cases ty <;> simp [canon] at hc
    exact ⟨rfl, rfl, by simp [encodeValue]⟩
  | .any a, ty, d, hc, hs => by
    cases ty <;> simp [canon] at hc
    simp [scalarType] at hs
  | .raw m, ty, d, hc, hs => by
    cases ty <;> simp [canon] at hc
    simp [scalarType] at hs
  | .nilSlice, ty, d, hc, hs => by
    cases ty <;> simp [canon] at hc
    simp [scalarType] at hs
  | .slice elems spare, ty, d, hc, hs => by
    cases ty <;> simp [canon] at hc
    simp [scalarType] at hs
  | .struct vals, ty, d, hc, hs => by
    cases ty <;> simp [canon] at hc
    rename_i name fields
    rw [scalarType] at hs
    obtain ⟨h1, h2, h3⟩ := scalarFields_facts vals fields (d + 1) hc.2 hs
    refine ⟨by rw [noEmptyList]; exact h1, by rw [rawCompact]; exact h2, ?_⟩
    have hev : encodeValue (.struct name fields) (.struct vals) =
        Marshaled.prepend [ch '{'] (encodeFields fields vals true) := by
      simp only [encodeValue]
    rw [hev]
    intro hn
    cases he : encodeFields fields vals true with
    | notModelled => exact h3 true he
    | error e => rw [he] at hn; simp [Marshaled.prepend] at hn
    | ok t => rw [he] at hn; simp [Marshaled.prepend] at hn

theorem scalarFields_facts : ∀ (vs : List GoVal) (fields : List (GoString × Bool × GoType))
    (d : Nat), canon.canonFields d fields vs → scalarType.scalarFields fields = true →
      noEmptyList.allNoEmpty vs = true ∧ rawCompact.allRawCompact vs = true ∧
        ∀ first, encodeFields fields vs first ≠ .notModelled
  | [], fields, d, _, _ => by
    refine ⟨rfl, rfl, fun first => ?_⟩
    rw [encodeFields]
    simp
  | v :: vs, fields, d, hc, hs => by
    cases fields with
    | nil => simp [canon.canonFields] at hc
    | cons f fs =>
      rw [canonFields_cons] at hc
      rw [scalarType.scalarFields] at hs
      simp only [Bool.and_eq_true] at hs
      obtain ⟨a1, a2, a3⟩ := scalar_facts v f.2.2 d hc.1 hs.1
      obtain ⟨b1, b2, b3⟩ := scalarFields_facts vs fs d hc.2 hs.2
      refine ⟨by rw [noEmptyList.allNoEmpty, a1, b1]; rfl,
        by rw [rawCompact.allRawCompact, a2, b2]; rfl, fun first => ?_⟩
      rw [encodeFields]
      by_cases ho : f.2.1 = true ∧ isEmptyValue v = true
      · rw [if_pos ho]
        exact b3 first
      · rw [if_neg ho]
        exact andThen_modelled _ _ _ a3 (b3 false)

end

/-- The elements of a list of such values, see `scalar_facts`. -/
theorem scalarElems_facts (e : GoType) (d : Nat) (hs : scalarType e = true) :
    ∀ vs : List GoVal, canon.canonList d e vs →
      noEmptyList.allNoEmpty vs = true ∧ rawCompact.allRawCompact vs = true ∧
        ∀ first, encodeElems e vs first ≠ .notModelled := by
  intro vs
  induction vs with
  | nil =>
    intro _
    refine ⟨rfl, rfl, fun first => ?_⟩
    rw [encodeElems]
    simp
  | cons v vs ih =>
    intro hc
    rw [canon.canonList] at hc
    obtain ⟨a1, a2, a3⟩ := scalar_facts v e d hc.1 hs
    obtain ⟨b1, b2, b3⟩ := ih hc.2
    refine ⟨by rw [noEmptyList.allNoEmpty, a1, b1]; rfl,
      by rw [rawCompact.allRawCompact, a2, b2]; rfl, fun first => ?_⟩
    rw [encodeElems]
    exact andThen_modelled _ _ _ a3 (b3 false)

theorem canon_struct_inv (d : Nat) (name : GoString) (fields : List (GoString × Bool × GoType))
    (v : GoVal) (h : canon d (.struct name fields) v) :
    ∃ vals, v = .struct vals ∧ d < maxNestingDepth ∧ canon.canonFields (d + 1) fields vals := by
  cases v <;> simp [canon] at h
  exact ⟨_, rfl, h.1, h.2⟩

theorem canonFields_cons_inv (d : Nat) (f : GoString × Bool × GoType)
    (fs : List (GoString × Bool × GoType)) (vals : List GoVal)
    (h : canon.canonFields d (f :: fs) vals) :
    ∃ x xs, vals = x :: xs ∧ canon d f.2.2 x ∧ canon.canonFields d fs xs := by
  cases vals with
  | nil => simp [canon.canonFields] at h
  | cons x xs => exact ⟨x, xs, rfl, (canonFields_cons d f fs x xs).mp h⟩

theorem canonFields_nil_inv (d : Nat) (vals : List GoVal) (h : canon.canonFields d [] vals) :
    vals = [] := by
  cases vals with
  | nil => rfl
  | cons x xs => simp [canon.canonFields] at h

/-- The text of the fields of a struct holds, for a field that is written,
its key in quotes, a colon and the text of its value. -/
theorem encodeFields_carries : ∀ (fs : List (GoString × Bool × GoType)) (vs : List GoVal)
    (first : Bool) (i : Nat) (f : GoString × Bool × GoType) (v : GoVal) (t : GoString),
    fs.get? i = some f → vs.get? i = some v → ¬ (f.2.1 = true ∧ isEmptyValue v = true) →
    encodeFields fs vs first = .ok t →
      ∃ tv pre post, encodeValue f.2.2 v = .ok tv ∧
        t = pre ++ (ch '"' :: (f.1 ++ ch '"' :: ch ':' :: tv)) ++ post := by
  intro fs
  induction fs with
  | nil => intro vs first i f v t hf; simp at hf
  | cons g fs ih =>
    intro vs first i f v t hf hv ho he
    cases vs with
    | nil => simp at hv
    | cons w vs =>
      rw [encodeFields] at he
      cases i with
      | zero =>
        simp only [List.get?_cons_zero, Option.some.injEq] at hf hv
        subst hf hv
        rw [if_neg ho] at he
        obtain ⟨ta, tb, e1, _, e3⟩ := andThen_ok_inv _ _ _ _ he
        refine ⟨ta, if first = true then [] else [ch ','], tb, e1, ?_⟩
        rw [e3]
        simp
      | succ i =>
        simp only [List.get?_cons_succ] at hf hv
        by_cases hg : g.2.1 = true ∧ isEmptyValue w = true
        · rw [if_pos hg] at he
          exact ih vs first i f v t hf hv ho he
        · rw [if_neg hg] at he
          obtain ⟨ta, tb, _, e2, e3⟩ := andThen_ok_inv _ _ _ _ he
          obtain ⟨tv, pre, post, h1, h2⟩ := ih vs false i f v tb hf hv ho e2
          refine ⟨tv, ((if first = true then [] else [ch ',']) ++ [ch '"'] ++ g.1 ++
            [ch '"', ch ':']) ++ ta ++ pre, post, h1, ?_⟩
          rw [e3, h2]
          simp

/-- A struct whose fields all have a text has a text. -/
theorem encodeFields_modelled : ∀ (fs : List (GoString × Bool × GoType)) (vs : List GoVal)
    (first : Bool), List.Forall₂ (fun f v => encodeValue f.2.2 v ≠ .notModelled) fs vs →
      encodeFields fs vs first ≠ .notModelled := by
  intro fs vs first h
  induction h generalizing first with
  | nil => rw [encodeFields]; simp
  | @cons f v fs1 vs1 hfv _ ih =>
    rw [encodeFields]
    by_cases ho : f.2.1 = true ∧ isEmptyValue v = true
    · rw [if_pos ho]
      exact ih first
    · rw [if_neg ho]
      exact andThen_modelled _ _ _ hfv (ih false)

theorem encodeStruct_eq (name : GoString) (fields : List (GoString × Bool × GoType))
    (vals : List GoVal) :
    encodeValue (.struct name fields) (.struct vals) =
      Marshaled.prepend [ch '{'] (encodeFields fields vals true) := by
  simp only [encodeValue]

theorem encodeStruct_modelled (name : GoString) (fields : List (GoString × Bool × GoType))
    (vals : List GoVal)
    (h : List.Forall₂ (fun f v => encodeValue f.2.2 v ≠ .notModelled) fields vals) :
    encodeValue (.struct name fields) (.struct vals) ≠ .notModelled := by
  rw [encodeStruct_eq]
  exact prepend_modelled _ _ (encodeFields_modelled _ _ _ h)

/-- The text of a struct holds, for a field that is written, its key in
quotes, a colon and the text of its value. -/
theorem encodeStruct_carries (name : GoString) (fields : List (GoString × Bool × GoType))
    (vals : List GoVal) (i : Nat) (f : GoString × Bool × GoType) (v : GoVal) (t : GoString)
    (hf : fields.get? i = some f) (hv : vals.get? i = some v)
    (ho : ¬ (f.2.1 = true ∧ isEmptyValue v = true))
    (he : encodeValue (.struct name fields) (.struct vals) = .ok t) :
    ∃ tv pre post, encodeValue f.2.2 v = .ok tv ∧
      t = pre ++ (ch '"' :: (f.1 ++ ch '"' :: ch ':' :: tv)) ++ post := by
  rw [encodeStruct_eq] at he
  obtain ⟨t1, h1, h2⟩ := prepend_ok_inv _ _ _ he
  obtain ⟨tv, pre, post, h3, h4⟩ := encodeFields_carries fields vals true i f v t1 hf hv ho h1
  refine ⟨tv, ch '{' :: pre, post, h3, ?_⟩
  rw [h2, h4]
  rfl

/-! ## Lemmas: the round trip of an `IXInfo` -/

open json

/-- An `IXInfo` whose list of members is nil or not empty, and whose raw
statistics URL is compact, is written by `Marshal` as a text that decodes to
the value, and the text holds the statistics URL as it is. -/
theorem ixInfo_roundtrip (a b d0 d1 d2 d3 d4 d5 d6 d7 d8 d10 d11 m : GoVal) (r : GoString)
    (ca : canon 1 .string a) (cb : canon 1 .string b)
    (c0 : canon 2 .string d0) (c1 : canon 2 .string d1) (c2 : canon 2 .string d2)
    (c3 : canon 2 .string d3) (c4 : canon 2 .string d4) (c5 : canon 2 .string d5)
    (c6 : canon 2 .string d6) (c7 : canon 2 .string d7) (c8 : canon 2 .string d8)
    (c9 : canon 2 .rawMessage (.raw (some r))) (c10 : canon 2 .int d10)
    (c11 : canon 2 (.slice MemberData.goType) d11) (cm : canon 1 Meta.goType m)
    (hcompact : compact r = .ok r)
    (l11 : noEmptyList d11 = true) (r11 : rawCompact d11 = true)
    (n11 : encodeValue (.slice MemberData.goType) d11 ≠ .notModelled) :
    ∃ text v1,
      Marshal IXInfo.goType
        (.struct [a, b, .struct [d0, d1, d2, d3, d4, d5, d6, d7, d8, .raw (some r), d10, d11],
          m]) = .ok text ∧
      Decode IXInfo.goType (bodyOf text) (zero IXInfo.goType) = (v1, none) ∧
      statsURL v1 = .raw (some r) ∧
      ∃ pre post, text = pre ++ (utf8 "\"url_stats\":" ++ r) ++ post := by
  have hg : goodType 0 IXInfo.goType = true := by decide
  have sa := scalar_facts a .string 1 ca rfl
  have sb := scalar_facts b .string 1 cb rfl
  have s0 := scalar_facts d0 .string 2 c0 rfl
  have s1 := scalar_facts d1 .string 2 c1 rfl
  have s2 := scalar_facts d2 .string 2 c2 rfl
  have s3 := scalar_facts d3 .string 2 c3 rfl
  have s4 := scalar_facts d4 .string 2 c4 rfl
  have s5 := scalar_facts d5 .string 2 c5 rfl
  have s6 := scalar_facts d6 .string 2 c6 rfl
  have s7 := scalar_facts d7 .string 2 c7 rfl
  have s8 := scalar_facts d8 .string 2 c8 rfl
  have s10 := scalar_facts d10 .int 2 c10 rfl
  have sm := scalar_facts m Meta.goType 1 cm (by decide)
  have e9 : encodeValue .rawMessage (.raw (some r)) = .ok r := by
    rw [encodeValue]
    simp only [Option.getD_some, hcompact]
  have hcd : canon 1 IXData.goType
      (.struct [d0, d1, d2, d3, d4, d5, d6, d7, d8, .raw (some r), d10, d11]) := by
    unfold IXData.goType
    rw [canon]
    refine ⟨by decide, ?_⟩
    refine (canonFields_cons _ _ _ _ _).mpr ⟨c0, ?_⟩
    refine (canonFields_cons _ _ _ _ _).mpr ⟨c1, ?_⟩
    refine (canonFields_cons _ _ _ _ _).mpr ⟨c2, ?_⟩
    refine (canonFields_cons _ _ _ _ _).mpr ⟨c3, ?_⟩
    refine (canonFields_cons _ _ _ _ _).mpr ⟨c4, ?_⟩
    refine (canonFields_cons _ _ _ _ _).mpr ⟨c5, ?_⟩
    refine (canonFields_cons _ _ _ _ _).mpr ⟨c6, ?_⟩
    refine (canonFields_cons _ _ _ _ _).mpr ⟨c7, ?_⟩
    refine (canonFields_cons _ _ _ _ _).mpr ⟨c8, ?_⟩
    refine (canonFields_cons _ _ _ _ _).mpr ⟨c9, ?_⟩
    refine (canonFields_cons _ _ _ _ _).mpr ⟨c10, ?_⟩
    refine (canonFields_cons _ _ _ _ _).mpr ⟨c11, ?_⟩
    rw [canon.canonFields]
  have hcw : canon 0 IXInfo.goType
      (.struct [a, b, .struct [d0, d1, d2, d3, d4, d5, d6, d7, d8, .raw (some r), d10, d11],
        m]) := by
    unfold IXInfo.goType
    rw [canon]
    refine ⟨by decide, ?_⟩
    refine (canonFields_cons _ _ _ _ _).mpr ⟨ca, ?_⟩
    refine (canonFields_cons _ _ _ _ _).mpr ⟨cb, ?_⟩
    refine (canonFields_cons _ _ _ _ _).mpr ⟨hcd, ?_⟩
    refine (canonFields_cons _ _ _ _ _).mpr ⟨cm, ?_⟩
    rw [canon.canonFields]
  have hl : noEmptyList
      (.struct [a, b, .struct [d0, d1, d2, d3, d4, d5, d6, d7, d8, .raw (some r), d10, d11],
        m]) = true := by
    simp only [noEmptyList, noEmptyList.allNoEmpty, sa.1, sb.1, s0.1, s1.1, s2.1, s3.1, s4.1,
      s5.1, s6.1, s7.1, s8.1, s10.1, sm.1, l11, Bool.and_self]
  have hrc : rawCompact
      (.struct [a, b, .struct [d0, d1, d2, d3, d4, d5, d6, d7, d8, .raw (some r), d10, d11],
        m]) = true := by
    simp only [rawCompact, rawCompact.allRawCompact, sa.2.1, sb.2.1, s0.2.1, s1.2.1, s2.2.1,
      s3.2.1, s4.2.1, s5.2.1, s6.2.1, s7.2.1, s8.2.1, s10.2.1, sm.2.1, r11, hcompact,
      decide_True, Bool.and_self]
  have hnd : encodeValue IXData.goType
      (.struct [d0, d1, d2, d3, d4, d5, d6, d7, d8, .raw (some r), d10, d11]) ≠
        .notModelled :=
    encodeStruct_modelled _ _ _
      (List.Forall₂.cons s0.2.2 (List.Forall₂.cons s1.2.2 (List.Forall₂.cons s2.2.2
      (List.Forall₂.cons s3.2.2 (List.Forall₂.cons s4.2.2 (List.Forall₂.cons s5.2.2
      (List.Forall₂.cons s6.2.2 (List.Forall₂.cons s7.2.2 (List.Forall₂.cons s8.2.2
      (List.Forall₂.cons (by rw [e9]; simp) (List.Forall₂.cons s10.2.2
      (List.Forall₂.cons n11 List.Forall₂.nil))))))))))))
  have hnw : encodeValue IXInfo.goType
      (.struct [a, b, .struct [d0, d1, d2, d3, d4, d5, d6, d7, d8, .raw (some r), d10, d11],
        m]) ≠ .notModelled :=
    encodeStruct_modelled _ _ _
      (List.Forall₂.cons sa.2.2 (List.Forall₂.cons sb.2.2 (List.Forall₂.cons hnd
      (List.Forall₂.cons sm.2.2 List.Forall₂.nil))))
  obtain ⟨text, val, he, hs, hd⟩ := encodeValue_roundtrip _ IXInfo.goType 0 hg hcw hl hrc
    (by simp) hnw
  refine ⟨text, strip (.struct [a, b,
    .struct [d0, d1, d2, d3, d4, d5, d6, d7, d8, .raw (some r), d10, d11], m]), he, ?_, ?_, ?_⟩
  · rw [Decode_scans _ _ _ _ hs]
    exact hd
  · rfl
  · obtain ⟨tv, pre, post, h1, h2⟩ := encodeStruct_carries _ _ _ 2
      (utf8 "data", true, IXData.goType)
      (.struct [d0, d1, d2, d3, d4, d5, d6, d7, d8, .raw (some r), d10, d11]) text (by rfl)
      (by rfl)
      (by simp [isEmptyValue]) he
    have hne : r ≠ [] := by
      rw [canon] at c9
      obtain ⟨val9, hs9⟩ := c9
      exact scans_ne_nil 2 r val9 hs9
    obtain ⟨tv2, pre2, post2, h3, h4⟩ := encodeStruct_carries _ _ _ 9
      (utf8 "url_stats", true, .rawMessage) (.raw (some r)) tv (by rfl) (by rfl)
      (by simp [isEmptyValue, hne]) h1
    rw [e9] at h3
    simp only [Marshaled.ok.injEq] at h3
    subst h3
    refine ⟨pre ++ ch '"' :: (utf8 "data" ++ ch '"' :: ch ':' :: pre2), post2 ++ post, ?_⟩
    rw [h2, h4]
    have e : utf8 "\"url_stats\":" ++ r = ch '"' :: (utf8 "url_stats" ++ ch '"' :: ch ':' :: r) :=
      rfl
    rw [e]
    simp only [List.append_assoc, List.cons_append]

/-! ## The round trip of the raw statistics URL -/

open json

/-- C22 (amended): the statistics URL of an IX is kept byte for byte on a
round trip when it is text that the encoder writes unchanged.  For every IX
body that decodes without error to a value `v` whose `URLStats` is a text `r`
that is compact JSON (no white space between its tokens and none of the bytes
`<`, `>`, `&`, U+2028, U+2029 that `Marshal` escapes), `Marshal` writes `v`
as a text that holds `"url_stats":r`, and that text decodes without error to
a value whose `URLStats` is `r` again. -/
theorem raw_stats_roundtrip (body : GoString) (v : GoVal) (r : GoString)
    (hdec : Decode IXInfo.goType (bodyOf body) (zero IXInfo.goType) = (v, none))
    (hr : statsURL v = .raw (some r)) (hcompact : compact r = .ok r) :
    ∃ text v1, Marshal IXInfo.goType v = .ok text ∧
      Decode IXInfo.goType (bodyOf text) (zero IXInfo.goType) = (v1, none) ∧
      statsURL v1 = .raw (some r) ∧
      ∃ pre post, text = pre ++ (utf8 "\"url_stats\":" ++ r) ++ post := by
  have hg : goodType 0 IXInfo.goType = true := by decide
  have hc := Decode_canon IXInfo.goType (bodyOf body) (zero IXInfo.goType) hg
    (canon_zero _ 0 hg)
  rw [hdec] at hc
  dsimp only at hc
  obtain ⟨vals, rfl, _, hf⟩ := canon_struct_inv 0 _ _ v hc
  obtain ⟨a, l1, rfl, ca, hf⟩ := canonFields_cons_inv _ _ _ _ hf
  obtain ⟨b, l2, rfl, cb, hf⟩ := canonFields_cons_inv _ _ _ _ hf
  obtain ⟨dv, l3, rfl, cd, hf⟩ := canonFields_cons_inv _ _ _ _ hf
  obtain ⟨m, l4, rfl, cm, hf⟩ := canonFields_cons_inv _ _ _ _ hf
  have hnil := canonFields_nil_inv _ _ hf
  subst hnil
  dsimp only at ca cb cd cm
  obtain ⟨dvals, rfl, _, hdf⟩ := canon_struct_inv 1 _ _ dv cd
  obtain ⟨d0, k0, rfl, c0, hdf⟩ := canonFields_cons_inv _ _ _ _ hdf
  obtain ⟨d1, k1, rfl, c1, hdf⟩ := canonFields_cons_inv _ _ _ _ hdf
  obtain ⟨d2, k2, rfl, c2, hdf⟩ := canonFields_cons_inv _ _ _ _ hdf
  obtain ⟨d3, k3, rfl, c3, hdf⟩ := canonFields_cons_inv _ _ _ _ hdf
  obtain ⟨d4, k4, rfl, c4, hdf⟩ := canonFields_cons_inv _ _ _ _ hdf
  obtain ⟨d5, k5, rfl, c5, hdf⟩ := canonFields_cons_inv _ _ _ _ hdf
  obtain ⟨d6, k6, rfl, c6, hdf⟩ := canonFields_cons_inv _ _ _ _ hdf
  obtain ⟨d7, k7, rfl, c7, hdf⟩ := canonFields_cons_inv _ _ _ _ hdf
  obtain ⟨d8, k8, rfl, c8, hdf⟩ := canonFields_cons_inv _ _ _ _ hdf
  obtain ⟨d9, k9, rfl, c9, hdf⟩ := canonFields_cons_inv _ _ _ _ hdf
  obtain ⟨d10, k10, rfl, c10, hdf⟩ := canonFields_cons_inv _ _ _ _ hdf
  obtain ⟨d11, k11, rfl, c11, hdf⟩ := canonFields_cons_inv _ _ _ _ hdf
  have hnil := canonFields_nil_inv _ _ hdf
  subst hnil
  dsimp only at c0 c1 c2 c3 c4 c5 c6 c7 c8 c9 c10 c11
  have h9 : d9 = .raw (some r) := hr
  subst h9
  cases d11 with
  | str s => simp [canon] at c11
  | int n => simp [canon] at c11
  | any x => simp [canon] at c11
  | raw x => simp [canon] at c11
  | struct x => simp [canon] at c11
  | nilSlice =>
    exact ixInfo_roundtrip a b d0 d1 d2 d3 d4 d5 d6 d7 d8 d10 .nilSlice m r ca cb c0 c1 c2 c3
      c4 c5 c6 c7 c8 c9 c10 c11 cm hcompact rfl rfl (by simp [encodeValue])
  | slice elems spare =>
    cases elems with
    | nil =>
      have hcn : canon 2 (.slice MemberData.goType) .nilSlice := by simp [canon]
      obtain ⟨text, v1, h1, h2, h3, h4⟩ := ixInfo_roundtrip a b d0 d1 d2 d3 d4 d5 d6 d7 d8 d10
        .nilSlice m r ca cb c0 c1 c2 c3 c4 c5 c6 c7 c8 c9 c10 hcn cm hcompact rfl rfl
        (by simp [encodeValue])
      refine ⟨text, v1, ?_, h2, h3, h4⟩
      rw [← h1]
      unfold Marshal IXInfo.goType IXData.goType
      simp only [encodeValue, encodeFields, isEmptyValue, List.length_nil, decide_True,
        and_self, if_true]
    | cons x xs =>
      rw [canon] at c11
      obtain ⟨e1, e2, e3⟩ := scalarElems_facts MemberData.goType 3 (by decide) (x :: xs)
        c11.2.1
      refine ixInfo_roundtrip a b d0 d1 d2 d3 d4 d5 d6 d7 d8 d10 (.slice (x :: xs) spare) m r
        ca cb c0 c1 c2 c3 c4 c5 c6 c7 c8 c9 c10 (by rw [canon]; exact c11) cm hcompact ?_ ?_ ?_
      · rw [noEmptyList, e1]
        rfl
      · rw [rawCompact, e2]
      · have hev : encodeValue (.slice MemberData.goType) (.slice (x :: xs) spare) =
            Marshaled.prepend [ch '['] (encodeElems MemberData.goType (x :: xs) true) := by
          simp only [encodeValue]
        rw [hev]
        exact prepend_modelled _ _ (e3 true)

/-- Witness of C22 (amended): the body `{"data":{"url_stats":null}}` decodes
to an `IXInfo` whose `URLStats` is the text `null`, which is compact;
`Marshal` writes a text that holds `"url_stats":null` and decodes to
`URLStats = null` again. -/
theorem raw_stats_roundtrip_witness :
    Decode IXInfo.goType (bodyOf (statsBody (utf8 "null"))) (zero IXInfo.goType) =
      (statsOnly (some (utf8 "null")), none) ∧
    statsURL (statsOnly (some (utf8 "null"))) = .raw (some (utf8 "null")) ∧
    compact (utf8 "null") = .ok (utf8 "null") ∧
    ∃ text v1, Marshal IXInfo.goType (statsOnly (some (utf8 "null"))) = .ok text ∧
      Decode IXInfo.goType (bodyOf text) (zero IXInfo.goType) = (v1, none) ∧
      statsURL v1 = .raw (some (utf8 "null")) ∧
      ∃ pre post, text = pre ++ (utf8 "\"url_stats\":" ++ utf8 "null") ++ post :=
  ⟨by rfl, by rfl, by decide,
    raw_stats_roundtrip (statsBody (utf8 "null")) (statsOnly (some (utf8 "null"))) (utf8 "null")
      (by rfl) (by rfl) (by decide)⟩

/-- Counterexample to C22: the statistics URL `"a<b"`, a valid JSON string,
decodes to the bytes `"a<b"`; `Marshal` writes
`{"data":{"url_stats":"a<b"},"@meta":{}}`, in which the bytes `"a<b"` do
not occur, and that text decodes to `URLStats = "a<b"`, which differs.
And the statistics value `{"k": 1}`, valid JSON with a space inside, is
written as `{"k":1}` and comes back as `{"k":1}`. -/
theorem raw_stats_counterexample :
    (validJSON htmlStats = true ∧
      Decode IXInfo.goType (bodyOf (statsBody htmlStats)) (zero IXInfo.goType) =
        (statsOnly (some htmlStats), none) ∧
      statsURL (statsOnly (some htmlStats)) = .raw (some htmlStats) ∧
      Marshal IXInfo.goType (statsOnly (some htmlStats)) = .ok (statsText htmlStatsAgain) ∧
      ¬ htmlStats <:+: statsText htmlStatsAgain ∧
      Decode IXInfo.goType (bodyOf (statsText htmlStatsAgain)) (zero IXInfo.goType) =
        (statsOnly (some htmlStatsAgain), none) ∧
      statsURL (statsOnly (some htmlStatsAgain)) = .raw (some htmlStatsAgain) ∧
      htmlStatsAgain ≠ htmlStats) ∧
    (validJSON spacedStats = true ∧
      Decode IXInfo.goType (bodyOf (statsBody spacedStats)) (zero IXInfo.goType) =
        (statsOnly (some spacedStats), none) ∧
      statsURL (statsOnly (some spacedStats)) = .raw (some spacedStats) ∧
      Marshal IXInfo.goType (statsOnly (some spacedStats)) =
        .ok (statsText spacedStatsCompact) ∧
      ¬ spacedStats <:+: statsText spacedStatsCompact ∧
      Decode IXInfo.goType (bodyOf (statsText spacedStatsCompact)) (zero IXInfo.goType) =
        (statsOnly (some spacedStatsCompact), none) ∧
      statsURL (statsOnly (some spacedStatsCompact)) = .raw (some spacedStatsCompact) ∧
      spacedStatsCompact ≠ spacedStats) :=
  ⟨⟨by decide, by rfl, by rfl, by decide, by decide, by rfl, by rfl, by decide⟩,
    ⟨by decide, by rfl, by rfl, by decide, by decide, by rfl, by rfl, by decide⟩⟩

/-! ## The allocation CIDR: a string in the IP record, a number elsewhere -/

open json

/-- C23: take a body whose first JSON value is an object in which the
member `data` is an object, whose member `rir_allocation` is an object with a
member `cidr` of value `c` (each the only member of its key).  Decoded as an
`IPInfo`, a string `c` is stored as that string in `RIRAllocation.CIDR`, and
a number `c` leaves the field empty and makes `Decode` return a
`*json.UnmarshalTypeError`.  Decoded as a `PrefixInfo` or an `ASNInfo`, a
number `c` whose literal is an integer `n` of 64 bits is stored as `n`, and a
string `c` makes `Decode` return a `*json.UnmarshalTypeError`.  On the values
of the fixtures: `"cidr":"29"` gives `"29"` in an `IPInfo` and the error
`cannot unmarshal string into ... int` in a `PrefixInfo`; `"cidr":23` gives
`23` in a `PrefixInfo` and an `ASNInfo` and the error
`cannot unmarshal number into ... string` in an `IPInfo`. -/
theorem cidr_asymmetry (body : http.Body) (raw rest draw araw craw : GoString)
    (ms dms ams : List (GoString × GoString × Value)) (c : Value)
    (hread : readValue body.data = .ok (raw, .object ms, rest))
    (hdata : onlyMember (utf8 "data") (utf8 "data", draw, .object dms) ms)
    (halloc : onlyMember (utf8 "rir_allocation") (utf8 "rir_allocation", araw, .object ams) dms)
    (hcidr : onlyMember (utf8 "cidr") (utf8 "cidr", craw, c) ams) :
    (∀ s, c = .string s →
      field IPAllocationData.goType (utf8 "cidr")
        (field IPData.goType (utf8 "rir_allocation")
          (field IPInfo.goType (utf8 "data")
            (Decode IPInfo.goType body (zero IPInfo.goType)).1)) = .str s ∧
      TypeMismatch (Decode PrefixInfo.goType body (zero PrefixInfo.goType)).2 ∧
      TypeMismatch (Decode ASNInfo.goType body (zero ASNInfo.goType)).2) ∧
    (∀ lit, c = .number lit →
      TypeMismatch (Decode IPInfo.goType body (zero IPInfo.goType)).2 ∧
      field IPAllocationData.goType (utf8 "cidr")
        (field IPData.goType (utf8 "rir_allocation")
          (field IPInfo.goType (utf8 "data")
            (Decode IPInfo.goType body (zero IPInfo.goType)).1)) = .str [] ∧
      ∀ n, parseInt64 lit = some n →
        field AllocationData.goType (utf8 "cidr")
          (field PrefixData.goType (utf8 "rir_allocation")
            (field PrefixInfo.goType (utf8 "data")
              (Decode PrefixInfo.goType body (zero PrefixInfo.goType)).1)) = .int n ∧
        field AllocationData.goType (utf8 "cidr")
          (field ASNData.goType (utf8 "rir_allocation")
            (field ASNInfo.goType (utf8 "data")
              (Decode ASNInfo.goType body (zero ASNInfo.goType)).1)) = .int n) ∧
    Decode IPInfo.goType (bodyOf numericCIDRBody) (zero IPInfo.goType) =
      (zero IPInfo.goType, some (typeError (utf8 "number") .string)) ∧
    Decode PrefixInfo.goType (bodyOf quotedCIDRBody) (zero PrefixInfo.goType) =
      (zero PrefixInfo.goType, some (typeError (utf8 "string") .int)) ∧
    Decode ASNInfo.goType (bodyOf quotedCIDRBody) (zero ASNInfo.goType) =
      (zero ASNInfo.goType, some (typeError (utf8 "string") .int)) ∧
    parseInt64 (utf8 "23") = some 23 := by
  have hIP : field IPAllocationData.goType (utf8 "cidr")
      (field IPData.goType (utf8 "rir_allocation")
        (field IPInfo.goType (utf8 "data")
          (Decode IPInfo.goType body (zero IPInfo.goType)).1)) =
      (decodeValue .string craw c (zero .string)).1 := by
    rw [Decode_container _ body _ raw rest (.object ms) rfl hread]
    have h1 : field IPInfo.goType (utf8 "data")
        (decodeValue IPInfo.goType raw (.object ms) (zero IPInfo.goType)).1 =
        (decodeValue IPData.goType draw (.object dms) (zero IPData.goType)).1 :=
      field_single _ _ 2 (utf8 "data") true IPData.goType (by decide) (by rfl) raw _ ms hdata
    have h2 : field IPData.goType (utf8 "rir_allocation")
        (decodeValue IPData.goType draw (.object dms) (zero IPData.goType)).1 =
        (decodeValue IPAllocationData.goType araw (.object ams)
          (zero IPAllocationData.goType)).1 :=
      field_single _ _ 1 (utf8 "rir_allocation") true IPAllocationData.goType (by decide)
        (by rfl) draw _ dms halloc
    have h3 : field IPAllocationData.goType (utf8 "cidr")
        (decodeValue IPAllocationData.goType araw (.object ams)
          (zero IPAllocationData.goType)).1 =
        (decodeValue .string craw c (zero .string)).1 :=
      field_single _ _ 3 (utf8 "cidr") true .string (by decide) (by rfl) araw _ ams hcidr
    rw [h1, h2, h3]
  have hPrefix : field AllocationData.goType (utf8 "cidr")
      (field PrefixData.goType (utf8 "rir_allocation")
        (field PrefixInfo.goType (utf8 "data")
          (Decode PrefixInfo.goType body (zero PrefixInfo.goType)).1)) =
      (decodeValue .int craw c (zero .int)).1 := by
    rw [Decode_container _ body _ raw rest (.object ms) rfl hread]
    have h1 : field PrefixInfo.goType (utf8 "data")
        (decodeValue PrefixInfo.goType raw (.object ms) (zero PrefixInfo.goType)).1 =
        (decodeValue PrefixData.goType draw (.object dms) (zero PrefixData.goType)).1 :=
      field_single _ _ 2 (utf8 "data") true PrefixData.goType (by decide) (by rfl) raw _ ms
        hdata
    have h2 : field PrefixData.goType (utf8 "rir_allocation")
        (decodeValue PrefixData.goType draw (.object dms) (zero PrefixData.goType)).1 =
        (decodeValue AllocationData.goType araw (.object ams)
          (zero AllocationData.goType)).1 :=
      field_single _ _ 11 (utf8 "rir_allocation") true AllocationData.goType (by decide)
        (by rfl) draw _ dms halloc
    have h3 : field AllocationData.goType (utf8 "cidr")
        (decodeValue AllocationData.goType araw (.object ams)
          (zero AllocationData.goType)).1 =
        (decodeValue .int craw c (zero .int)).1 :=
      field_single _ _ 3 (utf8 "cidr") true .int (by decide) (by rfl) araw _ ams hcidr
    rw [h1, h2, h3]
  have hASN : field AllocationData.goType (utf8 "cidr")
      (field ASNData.goType (utf8 "rir_allocation")
        (field ASNInfo.goType (utf8 "data")
          (Decode ASNInfo.goType body (zero ASNInfo.goType)).1)) =
      (decodeValue .int craw c (zero .int)).1 := by
    rw [Decode_container _ body _ raw rest (.object ms) rfl hread]
    have h1 : field ASNInfo.goType (utf8 "data")
        (decodeValue ASNInfo.goType raw (.object ms) (zero ASNInfo.goType)).1 =
        (decodeValue ASNData.goType draw (.object dms) (zero ASNData.goType)).1 :=
      field_single _ _ 2 (utf8 "data") true ASNData.goType (by decide) (by rfl) raw _ ms hdata
    have h2 : field ASNData.goType (utf8 "rir_allocation")
        (decodeValue ASNData.goType draw (.object dms) (zero ASNData.goType)).1 =
        (decodeValue AllocationData.goType araw (.object ams)
          (zero AllocationData.goType)).1 :=
      field_single _ _ 12 (utf8 "rir_allocation") true AllocationData.goType (by decide)
        (by rfl) draw _ dms halloc
    have h3 : field AllocationData.goType (utf8 "cidr")
        (decodeValue AllocationData.goType araw (.object ams)
          (zero AllocationData.goType)).1 =
        (decodeValue .int craw c (zero .int)).1 :=
      field_single _ _ 3 (utf8 "cidr") true .int (by decide) (by rfl) araw _ ams hcidr
    rw [h1, h2, h3]
  have mem_of : ∀ (key : GoString) (m : GoString × GoString × Value)
      (l : List (GoString × GoString × Value)), onlyMember key m l → m ∈ l := by
    intro key m l h
    obtain ⟨_, pre, post, rfl, _⟩ := h
    simp
  -- the error of a value of the wrong kind, seen from the top of the document
  have herr : ∀ (T D A : GoType) (tn dn an : GoString)
      (tf df af : List (GoString × Bool × GoType)) (i j : Nat) (cty : GoType),
      T = .struct tn tf → D = .struct dn df → A = .struct an af →
      indexWhere (fun f => decide (f.1 = utf8 "data")) tf = some 2 →
      tf.get? 2 = some (utf8 "data", true, D) →
      indexWhere (fun f => decide (f.1 = utf8 "rir_allocation")) df = some i →
      df.get? i = some (utf8 "rir_allocation", true, A) →
      indexWhere (fun f => decide (f.1 = utf8 "cidr")) af = some j →
      af.get? j = some (utf8 "cidr", true, cty) →
      TypeMismatch (decodeValue cty craw c (zero cty)).2 →
      TypeMismatch (Decode T body (zero T)).2 := by
    intro T D A tn dn an tf df af i j cty hT hD hA i1 g1 i2 g2 i3 g3 he
    rw [Decode_container _ body _ raw rest (.object ms) rfl hread]
    subst hT hD hA
    refine struct_mem_mismatch tn tf 2 (utf8 "data") true _ i1 g1 raw draw (.object dms) ms
      (mem_of _ _ _ hdata) ?_ _
    refine struct_mem_mismatch dn df i (utf8 "rir_allocation") true _ i2 g2 draw araw
      (.object ams) dms (mem_of _ _ _ halloc) ?_ _
    exact struct_mem_mismatch an af j (utf8 "cidr") true _ i3 g3 araw craw c ams
      (mem_of _ _ _ hcidr) he _
  refine ⟨?_, ?_, by rfl, by rfl, by rfl, by decide⟩
  · intro s hs
    subst hs
    refine ⟨?_, ?_, ?_⟩
    · rw [hIP]
      simp only [decodeValue]
    · exact herr PrefixInfo.goType PrefixData.goType AllocationData.goType _ _ _ _ _ _ 11 3 .int
        rfl rfl rfl (by decide) (by rfl) (by decide) (by rfl) (by decide) (by rfl)
        ⟨_, _, by simp only [decodeValue]; rfl⟩
    · exact herr ASNInfo.goType ASNData.goType AllocationData.goType _ _ _ _ _ _ 12 3 .int
        rfl rfl rfl (by decide) (by rfl) (by decide) (by rfl) (by decide) (by rfl)
        ⟨_, _, by simp only [decodeValue]; rfl⟩
  · intro lit hl
    subst hl
    refine ⟨?_, ?_, ?_⟩
    · exact herr IPInfo.goType IPData.goType IPAllocationData.goType _ _ _ _ _ _ 1 3 .string
        rfl rfl rfl (by decide) (by rfl) (by decide) (by rfl) (by decide) (by rfl)
        ⟨_, _, by simp only [decodeValue]; rfl⟩
    · rw [hIP]
      simp only [decodeValue, zero]
    · intro n hn
      rw [hPrefix, hASN]
      have hv : (decodeValue .int craw (.number lit) (zero .int)).1 = .int n := by
        simp only [decodeValue, hn]
      exact ⟨hv, hv⟩

/-- Witness of C23: the body `{"data":{"rir_allocation":{"cidr":"29"}}}`
decodes into an `IPInfo` whose allocation CIDR is the string `29`, and the
body `{"data":{"rir_allocation":{"cidr":23}}}` into a `PrefixInfo` whose
allocation CIDR is the integer 23. -/
theorem cidr_asymmetry_witness :
    field IPAllocationData.goType (utf8 "cidr")
      (field IPData.goType (utf8 "rir_allocation")
        (field IPInfo.goType (utf8 "data")
          (Decode IPInfo.goType (bodyOf quotedCIDRBody) (zero IPInfo.goType)).1)) =
        .str (utf8 "29") ∧
    field AllocationData.goType (utf8 "cidr")
      (field PrefixData.goType (utf8 "rir_allocation")
        (field PrefixInfo.goType (utf8 "data")
          (Decode PrefixInfo.goType (bodyOf numericCIDRBody) (zero PrefixInfo.goType)).1)) =
        .int 23 :=
  ⟨((cidr_asymmetry (bodyOf quotedCIDRBody) quotedCIDRBody []
      (utf8 "\x7b\"rir_allocation\":\x7b\"cidr\":\"29\"\x7d\x7d") (utf8 "\x7b\"cidr\":\"29\"\x7d")
      (utf8 "\"29\"")
      [(utf8 "data", utf8 "\x7b\"rir_allocation\":\x7b\"cidr\":\"29\"\x7d\x7d",
        .object [(utf8 "rir_allocation", utf8 "\x7b\"cidr\":\"29\"\x7d",
          .object [(utf8 "cidr", utf8 "\"29\"", .string (utf8 "29"))])])]
      [(utf8 "rir_allocation", utf8 "\x7b\"cidr\":\"29\"\x7d",
          .object [(utf8 "cidr", utf8 "\"29\"", .string (utf8 "29"))])]
      [(utf8 "cidr", utf8 "\"29\"", .string (utf8 "29"))] (.string (utf8 "29"))
      (by rfl) ⟨rfl, [], [], rfl, by simp⟩ ⟨rfl, [], [], rfl, by simp⟩
      ⟨rfl, [], [], rfl, by simp⟩).1 (utf8 "29") rfl).1,
   (((cidr_asymmetry (bodyOf numericCIDRBody) numericCIDRBody []
      (utf8 "\x7b\"rir_allocation\":\x7b\"cidr\":23\x7d\x7d") (utf8 "\x7b\"cidr\":23\x7d")
      (utf8 "23")
      [(utf8 "data", utf8 "\x7b\"rir_allocation\":\x7b\"cidr\":23\x7d\x7d",
        .object [(utf8 "rir_allocation", utf8 "\x7b\"cidr\":23\x7d",
          .object [(utf8 "cidr", utf8 "23", .number (utf8 "23"))])])]
      [(utf8 "rir_allocation", utf8 "\x7b\"cidr\":23\x7d",
          .object [(utf8 "cidr", utf8 "23", .number (utf8 "23"))])]
      [(utf8 "cidr", utf8 "23", .number (utf8 "23"))] (.number (utf8 "23"))
      (by rfl) ⟨rfl, [], [], rfl, by simp⟩ ⟨rfl, [], [], rfl, by simp⟩
      ⟨rfl, [], [], rfl, by simp⟩).2.1 (utf8 "23") rfl).2.2 23 (by decide)).1⟩

/-! ## An endpoint that cannot be built -/

theorem ip_escape_fails : (testClient 200 []).endpointGetIP (utf8 "%zz") =
    .error (escapeErrorAt (utf8 "ip/%zz")) := by
  decide

theorem prefix_escape_fails : (testClient 200 []).endpointGetPrefix (utf8 "%zz") 24 =
    .error (escapeErrorAt (utf8 "prefix/%zz/24")) := by
  decide

/-- C24: when the path joined from the base path, the route and the caller's
`ipAddress` is not parsed as a URL reference, `GetIP` and `GetPrefix` return a
nil value with the error of the parse and hand no request to the transport,
whatever the transport, the context and the decoder are.  The address `%zz`
(an invalid percent escape) is such a value: with the default base address
both calls fail with `parse "ip/%zz": invalid URL escape "%zz"` (for
`GetPrefix`, `parse "prefix/%zz/24"`) and the transport is not called. -/
theorem url_failure_before_transport (c : Client) (ctx : http.Context) (ipAddress : GoString)
    (cidr : Int) (decIP : Decoder IPInfo) (decPrefix : Decoder PrefixInfo) :
    (∀ err, c.baseURL.Parse (path.Join [c.baseURL.Path, utf8 "ip", ipAddress]) = .error err →
      ∀ t : http.Client,
        Client.GetIP { c with HTTPClient := t } ctx ipAddress decIP = (none, some err) ∧
        Client.GetIP_traced { c with HTTPClient := t } ctx ipAddress decIP =
          ((none, some err), [])) ∧
    (∀ err, c.baseURL.Parse (path.Join [c.baseURL.Path, utf8 "prefix", ipAddress, Itoa cidr]) =
        .error err →
      ∀ t : http.Client,
        Client.GetPrefix { c with HTTPClient := t } ctx ipAddress cidr decPrefix =
          (none, some err) ∧
        Client.GetPrefix_traced { c with HTTPClient := t } ctx ipAddress cidr decPrefix =
          ((none, some err), [])) ∧
    (∀ t : http.Client,
      (NewClient t).GetIP_traced ctx (utf8 "%zz") decIP =
        ((none, some (escapeErrorAt (utf8 "ip/%zz"))), []) ∧
      (NewClient t).GetPrefix_traced ctx (utf8 "%zz") 24 decPrefix =
        ((none, some (escapeErrorAt (utf8 "prefix/%zz/24"))), [])) := by
  refine ⟨?_, ?_, ?_⟩
  · intro err h t
    have he : Client.endpointGetIP { c with HTTPClient := t } ipAddress = .error err := h
    constructor
    · unfold Client.GetIP
      rw [he]
    · unfold Client.GetIP_traced
      rw [he]
  · intro err h t
    have he : Client.endpointGetPrefix { c with HTTPClient := t } ipAddress cidr = .error err := h
    constructor
    · unfold Client.GetPrefix
      rw [he]
    · unfold Client.GetPrefix_traced
      rw [he]
  · intro t
    have h1 : (NewClient t).endpointGetIP (utf8 "%zz") =
        .error (escapeErrorAt (utf8 "ip/%zz")) := ip_escape_fails
    have h2 : (NewClient t).endpointGetPrefix (utf8 "%zz") 24 =
        .error (escapeErrorAt (utf8 "prefix/%zz/24")) := prefix_escape_fails
    constructor
    · unfold Client.GetIP_traced
      rw [h1]
    · unfold Client.GetPrefix_traced
      rw [h2]

/-! ## Lemmas: the client on a store of objects -/

theorem get?_append_two (l : List URL) (a b : URL) :
    (l ++ [a, b]).get? (l.length + 1) = some b := by
  induction l with
  | nil => rfl
  | cons x l ih => simpa using ih

theorem set_append_two (l : List URL) (a b b1 : URL) :
    (l ++ [a, b]).set (l.length + 1) b1 = l ++ [a, b1] := by
  induction l with
  | nil => rfl
  | cons x l ih => simp [ih]

theorem get?_append_some (l fresh : List URL) (i : Nat) (u : URL) (h : l.get? i = some u) :
    (l ++ fresh).get? i = some u := by
  rw [List.get?_eq_getElem?] at h ⊢
  have hi : i < l.length := by
    by_contra hge
    rw [List.getElem?_eq_none (by omega)] at h
    cases h
  rw [List.getElem?_append_left hi]
  exact h

theorem keptIn_refl (s : heap.Store) : keptIn s s := ⟨⟨[], by simp⟩, rfl⟩

theorem keptIn_url (s s1 : heap.Store) (p : heap.Ptr) (u : URL) (h : keptIn s s1)
    (hu : s.url p = some u) : s1.url p = some u := by
  obtain ⟨⟨fresh, hf⟩, _⟩ := h
  cases p with
  | none => cases hu
  | some a =>
    unfold heap.Store.url at hu ⊢
    dsimp only at hu ⊢
    rw [hf]
    exact get?_append_some _ _ _ _ hu

theorem keptIn_client (s s1 : heap.Store) (p : heap.Ptr) (h : keptIn s s1) :
    s1.client p = s.client p := by
  unfold heap.Store.client
  rw [h.2]

/-- The endpoint built through the pointer to the base URL is the endpoint
of the pure model, in a new object; the objects of the store are kept. -/
theorem heap_Parse (s : heap.Store) (p : heap.Ptr) (base : URL) (ref : GoString)
    (hb : s.url p = some base) :
    (∀ e, base.Parse ref = .error e → heap.URL.Parse s p ref = some (.error e, s)) ∧
    (∀ ep, base.Parse ref = .ok ep →
      ∃ refURL, heap.URL.Parse s p ref =
        some (.ok (some (s.urls.length + 1)),
          { urls := s.urls ++ [refURL, ep], clients := s.clients })) := by
  unfold URL.Parse heap.URL.Parse
  cases hp : url.Parse ref with
  | error e0 =>
    refine ⟨fun e he => ?_, fun ep he => ?_⟩
    · cases he
      rfl
    · cases he
  | ok refURL =>
    have h1 : (s.newURL refURL).2.url p = some base :=
      keptIn_url s _ p base ⟨⟨[refURL], rfl⟩, rfl⟩ hb
    refine ⟨fun e he => ?_, fun ep he => ?_⟩
    · cases he
    · simp only [Except.ok.injEq] at he
      subst he
      refine ⟨refURL, ?_⟩
      dsimp only
      rw [h1]
      simp [heap.Store.newURL]

/-- The request executor on the store is the one of the pure model. -/
theorem heap_do {D : Type} (c : heap.Client) (s : heap.Store) (ctx : http.Context)
    (endpoint : heap.Ptr) (decode : Decoder D) (data : D) (u base : URL) (hcl : http.Client)
    (hu : s.url endpoint = some u) (hc : s.client c.HTTPClient = some hcl) :
    c.do_ s ctx endpoint decode data =
      some (Client.do_traced { baseURL := base, HTTPClient := hcl } ctx u decode data) := by
  unfold heap.Client.do_ Client.do_traced
  rw [hu]
  dsimp only
  cases http.NewRequestWithContext ctx http.MethodGet u.String http.NoBody with
  | error e => rfl
  | ok req =>
    dsimp only
    rw [hc]
    dsimp only
    cases hcl.Do { req with Header := req.Header.Set (utf8 "accept") (utf8 "application/json") } with
    | error e => rfl
    | ok resp =>
      dsimp only
      by_cases hs : resp.StatusCode ≠ http.StatusOK
      · rw [if_pos hs, if_pos hs]
      · rw [if_neg hs, if_neg hs]

/-- An accessor that gives the outcome `out` on every store that holds the
client, and keeps the objects of the store, leaves the client as it was. -/
theorem leavesClient_of {R : Type} (c : heap.Client) (base : URL) (hcl : http.Client)
    (call : heap.Store → Option (R × heap.Store)) (out : R)
    (h : ∀ s : heap.Store, s.url c.baseURL = some base → s.client c.HTTPClient = some hcl →
      ∃ s1, call s = some (out, s1) ∧ keptIn s s1)
    (s : heap.Store) (hb : s.url c.baseURL = some base)
    (hc : s.client c.HTTPClient = some hcl) : LeavesClient c s call out := by
  obtain ⟨s1, h1, k1⟩ := h s hb hc
  have hb1 : s1.url c.baseURL = some base := keptIn_url s s1 _ _ k1 hb
  have hc1 : s1.client c.HTTPClient = some hcl := by rw [keptIn_client s s1 _ k1]; exact hc
  obtain ⟨s2, h2, k2⟩ := h s1 hb1 hc1
  refine ⟨s1, h1, k1, by rw [hb1, hb], by rw [hc1, hc], ?_, s2, h2, k2⟩
  unfold clientIn
  rw [hb1, hb, hc1, hc]

/-- Writing the query of the URL made last changes that object only. -/
theorem setRawQuery_fresh (l : List URL) (cl : List http.Client) (a b : URL) (q : GoString) :
    heap.Store.setRawQuery { urls := l ++ [a, b], clients := cl } (some (l.length + 1)) q =
      some { urls := l ++ [a, ({ b with RawQuery := q } : URL)], clients := cl } := by
  unfold heap.Store.setRawQuery
  dsimp only
  rw [get?_append_two]
  dsimp only
  rw [set_append_two]

/-! ## Lemmas: every accessor on a store is the accessor of the pure model -/

theorem heap_GetASN (c : heap.Client) (base : URL) (hcl : http.Client) (ctx : http.Context)
    (asNumber : Int) (decode : Decoder ASNInfo) (s : heap.Store)
    (hb : s.url c.baseURL = some base) (hc : s.client c.HTTPClient = some hcl) :
    ∃ s1, c.GetASN s ctx asNumber decode =
      some (Client.GetASN_traced { baseURL := base, HTTPClient := hcl } ctx asNumber decode,
        s1) ∧ keptIn s s1 := by
  obtain ⟨pe, po⟩ := heap_Parse s c.baseURL base
    (path.Join [base.Path, utf8 "asn", strconv.Itoa asNumber]) hb
  unfold heap.Client.GetASN Client.GetASN_traced Client.endpointGetASN
  rw [hb]
  dsimp only
  cases hp : base.Parse (path.Join [base.Path, utf8 "asn", strconv.Itoa asNumber]) with
  | error e =>
    rw [pe e hp]
    exact ⟨s, rfl, keptIn_refl s⟩
  | ok ep =>
    obtain ⟨refURL, hh⟩ := po ep hp
    rw [hh]
    dsimp only
    have hu : heap.Store.url { urls := s.urls ++ [refURL, ep], clients := s.clients }
        (some (s.urls.length + 1)) = some ep := get?_append_two _ _ _
    have hc1 : heap.Store.client { urls := s.urls ++ [refURL, ep], clients := s.clients }
        c.HTTPClient = some hcl := hc
    rw [heap_do c _ ctx _ decode default ep base hcl hu hc1]
    refine ⟨{ urls := s.urls ++ [refURL, ep], clients := s.clients }, ?_,
      ⟨⟨[refURL, ep], rfl⟩, rfl⟩⟩
    cases hr : Client.do_traced { baseURL := base, HTTPClient := hcl } ctx ep decode default with
    | mk r calls =>
      obtain ⟨v, err⟩ := r
      cases err <;> rfl

theorem heap_GetASNPrefixes (c : heap.Client) (base : URL) (hcl : http.Client) (ctx : http.Context)
    (asNumber : Int) (decode : Decoder ASNPrefixesInfo) (s : heap.Store)
    (hb : s.url c.baseURL = some base) (hc : s.client c.HTTPClient = some hcl) :
    ∃ s1, c.GetASNPrefixes s ctx asNumber decode =
      some (Client.GetASNPrefixes_traced { baseURL := base, HTTPClient := hcl } ctx asNumber decode,
        s1) ∧ keptIn s s1 := by
  obtain ⟨pe, po⟩ := heap_Parse s c.baseURL base
    (path.Join [base.Path, utf8 "asn", strconv.Itoa asNumber, utf8 "prefixes"]) hb
  unfold heap.Client.GetASNPrefixes Client.GetASNPrefixes_traced Client.endpointGetASNPrefixes
  rw [hb]
  dsimp only
  cases hp : base.Parse (path.Join [base.Path, utf8 "asn", strconv.Itoa asNumber, utf8 "prefixes"]) with
  | error e =>
    rw [pe e hp]
    exact ⟨s, rfl, keptIn_refl s⟩
  | ok ep =>
    obtain ⟨refURL, hh⟩ := po ep hp
    rw [hh]
    dsimp only
    have hu : heap.Store.url { urls := s.urls ++ [refURL, ep], clients := s.clients }
        (some (s.urls.length + 1)) = some ep := get?_append_two _ _ _
    have hc1 : heap.Store.client { urls := s.urls ++ [refURL, ep], clients := s.clients }
        c.HTTPClient = some hcl := hc
    rw [heap_do c _ ctx _ decode default ep base hcl hu hc1]
    refine ⟨{ urls := s.urls ++ [refURL, ep], clients := s.clients }, ?_,
      ⟨⟨[refURL, ep], rfl⟩, rfl⟩⟩
    cases hr : Client.do_traced { baseURL := base, HTTPClient := hcl } ctx ep decode default with
    | mk r calls =>
      obtain ⟨v, err⟩ := r
      cases err <;> rfl

theorem heap_GetASNPeers (c : heap.Client) (base : URL) (hcl : http.Client) (ctx : http.Context)
    (asNumber : Int) (decode : Decoder ASNPeersInfo) (s : heap.Store)
    (hb : s.url c.baseURL = some base) (hc : s.client c.HTTPClient = some hcl) :
    ∃ s1, c.GetASNPeers s ctx asNumber decode =
      some (Client.GetASNPeers_traced { baseURL := base, HTTPClient := hcl } ctx asNumber decode,
        s1) ∧ keptIn s s1 := by
  obtain ⟨pe, po⟩ := heap_Parse s c.baseURL base
    (path.Join [base.Path, utf8 "asn", strconv.Itoa asNumber, utf8 "peers"]) hb
  unfold heap.Client.GetASNPeers Client.GetASNPeers_traced Client.endpointGetASNPeers
  rw [hb]
  dsimp only
  cases hp : base.Parse (path.Join [base.Path, utf8 "asn", strconv.Itoa asNumber, utf8 "peers"]) with
  | error e =>
    rw [pe e hp]
    exact ⟨s, rfl, keptIn_refl s⟩
  | ok ep =>
    obtain ⟨refURL, hh⟩ := po ep hp
    rw [hh]
    dsimp only
    have hu : heap.Store.url { urls := s.urls ++ [refURL, ep], clients := s.clients }
        (some (s.urls.length + 1)) = some ep := get?_append_two _ _ _
    have hc1 : heap.Store.client { urls := s.urls ++ [refURL, ep], clients := s.clients }
        c.HTTPClient = some hcl := hc
    rw [heap_do c _ ctx _ decode default ep base hcl hu hc1]
    refine ⟨{ urls := s.urls ++ [refURL, ep], clients := s.clients }, ?_,
      ⟨⟨[refURL, ep], rfl⟩, rfl⟩⟩
    cases hr : Client.do_traced { baseURL := base, HTTPClient := hcl } ctx ep decode default with
    | mk r calls =>
      obtain ⟨v, err⟩ := r
      cases err <;> rfl

theorem heap_GetASNUpstreams (c : heap.Client) (base : URL) (hcl : http.Client) (ctx : http.Context)
    (asNumber : Int) (decode : Decoder ASNUpstreamsInfo) (s : heap.Store)
    (hb : s.url c.baseURL = some base) (hc : s.client c.HTTPClient = some hcl) :
    ∃ s1, c.GetASNUpstreams s ctx asNumber decode =
      some (Client.GetASNUpstreams_traced { baseURL := base, HTTPClient := hcl } ctx asNumber decode,
        s1) ∧ keptIn s s1 := by
  obtain ⟨pe, po⟩ := heap_Parse s c.baseURL base
    (path.Join [base.Path, utf8 "asn", strconv.Itoa asNumber, utf8 "upstreams"]) hb
  unfold heap.Client.GetASNUpstreams Client.GetASNUpstreams_traced Client.endpointGetASNUpstreams
  rw [hb]
  dsimp only
  cases hp : base.Parse (path.Join [base.Path, utf8 "asn", strconv.Itoa asNumber, utf8 "upstreams"]) with
  | error e =>
    rw [pe e hp]
    exact ⟨s, rfl, keptIn_refl s⟩
  | ok ep =>
    obtain ⟨refURL, hh⟩ := po ep hp
    rw [hh]
    dsimp only
    have hu : heap.Store.url { urls := s.urls ++ [refURL, ep], clients := s.clients }
        (some (s.urls.length + 1)) = some ep := get?_append_two _ _ _
    have hc1 : heap.Store.client { urls := s.urls ++ [refURL, ep], clients := s.clients }
        c.HTTPClient = some hcl := hc
    rw [heap_do c _ ctx _ decode default ep base hcl hu hc1]
    refine ⟨{ urls := s.urls ++ [refURL, ep], clients := s.clients }, ?_,
      ⟨⟨[refURL, ep], rfl⟩, rfl⟩⟩
    cases hr : Client.do_traced { baseURL := base, HTTPClient := hcl } ctx ep decode default with
    | mk r calls =>
      obtain ⟨v, err⟩ := r
      cases err <;> rfl

theorem heap_GetASNDownstreams (c : heap.Client) (base : URL) (hcl : http.Client) (ctx : http.Context)
    (asNumber : Int) (decode : Decoder ASNDownstreamsInfo) (s : heap.Store)
    (hb : s.url c.baseURL = some base) (hc : s.client c.HTTPClient = some hcl) :
    ∃ s1, c.GetASNDownstreams s ctx asNumber decode =
      some (Client.GetASNDownstreams_traced { baseURL := base, HTTPClient := hcl } ctx asNumber decode,
        s1) ∧ keptIn s s1 := by
  obtain ⟨pe, po⟩ := heap_Parse s c.baseURL base
    (path.Join [base.Path, utf8 "asn", strconv.Itoa asNumber, utf8 "downstreams"]) hb
  unfold heap.Client.GetASNDownstreams Client.GetASNDownstreams_traced Client.endpointGetASNDownstreams
  rw [hb]
  dsimp only
  cases hp : base.Parse (path.Join [base.Path, utf8 "asn", strconv.Itoa asNumber, utf8 "downstreams"]) with
  | error e =>
    rw [pe e hp]
    exact ⟨s, rfl, keptIn_refl s⟩
  | ok ep =>
    obtain ⟨refURL, hh⟩ := po ep hp
    rw [hh]
    dsimp only
    have hu : heap.Store.url { urls := s.urls ++ [refURL, ep], clients := s.clients }
        (some (s.urls.length + 1)) = some ep := get?_append_two _ _ _
    have hc1 : heap.Store.client { urls := s.urls ++ [refURL, ep], clients := s.clients }
        c.HTTPClient = some hcl := hc
    rw [heap_do c _ ctx _ decode default ep base hcl hu hc1]
    refine ⟨{ urls := s.urls ++ [refURL, ep], clients := s.clients }, ?_,
      ⟨⟨[refURL, ep], rfl⟩, rfl⟩⟩
    cases hr : Client.do_traced { baseURL := base, HTTPClient := hcl } ctx ep decode default with
    | mk r calls =>
      obtain ⟨v, err⟩ := r
      cases err <;> rfl

theorem heap_GetASNIxs (c : heap.Client) (base : URL) (hcl : http.Client) (ctx : http.Context)
    (asNumber : Int) (decode : Decoder ASNIxsInfo) (s : heap.Store)
    (hb : s.url c.baseURL = some base) (hc : s.client c.HTTPClient = some hcl) :
    ∃ s1, c.GetASNIxs s ctx asNumber decode =
      some (Client.GetASNIxs_traced { baseURL := base, HTTPClient := hcl } ctx asNumber decode,
        s1) ∧ keptIn s s1 := by
  obtain ⟨pe, po⟩ := heap_Parse s c.baseURL base
    (path.Join [base.Path, utf8 "asn", strconv.Itoa asNumber, utf8 "ixs"]) hb
  unfold heap.Client.GetASNIxs Client.GetASNIxs_traced Client.endpointGetASNIxs
  rw [hb]
  dsimp only
  cases hp : base.Parse (path.Join [base.Path, utf8 "asn", strconv.Itoa asNumber, utf8 "ixs"]) with
  | error e =>
    rw [pe e hp]
    exact ⟨s, rfl, keptIn_refl s⟩
  | ok ep =>
    obtain ⟨refURL, hh⟩ := po ep hp
    rw [hh]
    dsimp only
    have hu : heap.Store.url { urls := s.urls ++ [refURL, ep], clients := s.clients }
        (some (s.urls.length + 1)) = some ep := get?_append_two _ _ _
    have hc1 : heap.Store.client { urls := s.urls ++ [refURL, ep], clients := s.clients }
        c.HTTPClient = some hcl := hc
    rw [heap_do c _ ctx _ decode default ep base hcl hu hc1]
    refine ⟨{ urls := s.urls ++ [refURL, ep], clients := s.clients }, ?_,
      ⟨⟨[refURL, ep], rfl⟩, rfl⟩⟩
    cases hr : Client.do_traced { baseURL := base, HTTPClient := hcl } ctx ep decode default with
    | mk r calls =>
      obtain ⟨v, err⟩ := r
      cases err <;> rfl

theorem heap_GetPrefix (c : heap.Client) (base : URL) (hcl : http.Client) (ctx : http.Context)
    (ipAddress : GoString) (cidr : Int) (decode : Decoder PrefixInfo) (s : heap.Store)
    (hb : s.url c.baseURL = some base) (hc : s.client c.HTTPClient = some hcl) :
    ∃ s1, c.GetPrefix s ctx ipAddress cidr decode =
      some (Client.GetPrefix_traced { baseURL := base, HTTPClient := hcl } ctx ipAddress cidr decode,
        s1) ∧ keptIn s s1 := by
  obtain ⟨pe, po⟩ := heap_Parse s c.baseURL base
    (path.Join [base.Path, utf8 "prefix", ipAddress, strconv.Itoa cidr]) hb
  unfold heap.Client.GetPrefix Client.GetPrefix_traced Client.endpointGetPrefix
  rw [hb]
  dsimp only
  cases hp : base.Parse (path.Join [base.Path, utf8 "prefix", ipAddress, strconv.Itoa cidr]) with
  | error e =>
    rw [pe e hp]
    exact ⟨s, rfl, keptIn_refl s⟩
  | ok ep =>
    obtain ⟨refURL, hh⟩ := po ep hp
    rw [hh]
    dsimp only
    have hu : heap.Store.url { urls := s.urls ++ [refURL, ep], clients := s.clients }
        (some (s.urls.length + 1)) = some ep := get?_append_two _ _ _
    have hc1 : heap.Store.client { urls := s.urls ++ [refURL, ep], clients := s.clients }
        c.HTTPClient = some hcl := hc
    rw [heap_do c _ ctx _ decode default ep base hcl hu hc1]
    refine ⟨{ urls := s.urls ++ [refURL, ep], clients := s.clients }, ?_,
      ⟨⟨[refURL, ep], rfl⟩, rfl⟩⟩
    cases hr : Client.do_traced { baseURL := base, HTTPClient := hcl } ctx ep decode default with
    | mk r calls =>
      obtain ⟨v, err⟩ := r
      cases err <;> rfl

theorem heap_GetIP (c : heap.Client) (base : URL) (hcl : http.Client) (ctx : http.Context)
    (ipAddress : GoString) (decode : Decoder IPInfo) (s : heap.Store)
    (hb : s.url c.baseURL = some base) (hc : s.client c.HTTPClient = some hcl) :
    ∃ s1, c.GetIP s ctx ipAddress decode =
      some (Client.GetIP_traced { baseURL := base, HTTPClient := hcl } ctx ipAddress decode,
        s1) ∧ keptIn s s1 := by
  obtain ⟨pe, po⟩ := heap_Parse s c.baseURL base
    (path.Join [base.Path, utf8 "ip", ipAddress]) hb
  unfold heap.Client.GetIP Client.GetIP_traced Client.endpointGetIP
  rw [hb]
  dsimp only
  cases hp : base.Parse (path.Join [base.Path, utf8 "ip", ipAddress]) with
  | error e =>
    rw [pe e hp]
    exact ⟨s, rfl, keptIn_refl s⟩
  | ok ep =>
    obtain ⟨refURL, hh⟩ := po ep hp
    rw [hh]
    dsimp only
    have hu : heap.Store.url { urls := s.urls ++ [refURL, ep], clients := s.clients }
        (some (s.urls.length + 1)) = some ep := get?_append_two _ _ _
    have hc1 : heap.Store.client { urls := s.urls ++ [refURL, ep], clients := s.clients }
        c.HTTPClient = some hcl := hc
    rw [heap_do c _ ctx _ decode default ep base hcl hu hc1]
    refine ⟨{ urls := s.urls ++ [refURL, ep], clients := s.clients }, ?_,
      ⟨⟨[refURL, ep], rfl⟩, rfl⟩⟩
    cases hr : Client.do_traced { baseURL := base, HTTPClient := hcl } ctx ep decode default with
    | mk r calls =>
      obtain ⟨v, err⟩ := r
      cases err <;> rfl

theorem heap_GetIX (c : heap.Client) (base : URL) (hcl : http.Client) (ctx : http.Context)
    (ixID : Int) (decode : Decoder IXInfo) (s : heap.Store)
    (hb : s.url c.baseURL = some base) (hc : s.client c.HTTPClient = some hcl) :
    ∃ s1, c.GetIX s ctx ixID decode =
      some (Client.GetIX_traced { baseURL := base, HTTPClient := hcl } ctx ixID decode,
        s1) ∧ keptIn s s1 := by
  obtain ⟨pe, po⟩ := heap_Parse s c.baseURL base
    (path.Join [base.Path, utf8 "ix", strconv.Itoa ixID]) hb
  unfold heap.Client.GetIX Client.GetIX_traced Client.endpointGetIX
  rw [hb]
  dsimp only
  cases hp : base.Parse (path.Join [base.Path, utf8 "ix", strconv.Itoa ixID]) with
  | error e =>
    rw [pe e hp]
    exact ⟨s, rfl, keptIn_refl s⟩
  | ok ep =>
    obtain ⟨refURL, hh⟩ := po ep hp
    rw [hh]
    dsimp only
    have hu : heap.Store.url { urls := s.urls ++ [refURL, ep], clients := s.clients }
        (some (s.urls.length + 1)) = some ep := get?_append_two _ _ _
    have hc1 : heap.Store.client { urls := s.urls ++ [refURL, ep], clients := s.clients }
        c.HTTPClient = some hcl := hc
    rw [heap_do c _ ctx _ decode default ep base hcl hu hc1]
    refine ⟨{ urls := s.urls ++ [refURL, ep], clients := s.clients }, ?_,
      ⟨⟨[refURL, ep], rfl⟩, rfl⟩⟩
    cases hr : Client.do_traced { baseURL := base, HTTPClient := hcl } ctx ep decode default with
    | mk r calls =>
      obtain ⟨v, err⟩ := r
      cases err <;> rfl

theorem heap_GetSearch (c : heap.Client) (base : URL) (hcl : http.Client) (ctx : http.Context)
    (term : GoString) (decode : Decoder SearchInfo) (s : heap.Store)
    (hb : s.url c.baseURL = some base) (hc : s.client c.HTTPClient = some hcl) :
    ∃ s1, c.GetSearch s ctx term decode =
      some (Client.GetSearch_traced { baseURL := base, HTTPClient := hcl } ctx term decode,
        s1) ∧ keptIn s s1 := by
  obtain ⟨pe, po⟩ := heap_Parse s c.baseURL base (path.Join [base.Path, utf8 "search"]) hb
  unfold heap.Client.GetSearch Client.GetSearch_traced Client.endpointGetSearch
  rw [hb]
  dsimp only
  cases hp : base.Parse (path.Join [base.Path, utf8 "search"]) with
  | error e =>
    rw [pe e hp]
    exact ⟨s, rfl, keptIn_refl s⟩
  | ok ep =>
    obtain ⟨refURL, hh⟩ := po ep hp
    rw [hh]
    dsimp only
    have hu : heap.Store.url { urls := s.urls ++ [refURL, ep], clients := s.clients }
        (some (s.urls.length + 1)) = some ep := get?_append_two _ _ _
    rw [hu]
    dsimp only
    rw [setRawQuery_fresh]
    dsimp only
    have hu2 : heap.Store.url
        { urls := s.urls ++
            [refURL, ({ ep with RawQuery := (ep.Query.Set (utf8 "query_term") term).Encode } : URL)],
          clients := s.clients }
        (some (s.urls.length + 1)) =
        some { ep with RawQuery := (ep.Query.Set (utf8 "query_term") term).Encode } :=
      get?_append_two _ _ _
    have hc1 : heap.Store.client
        { urls := s.urls ++
            [refURL, ({ ep with RawQuery := (ep.Query.Set (utf8 "query_term") term).Encode } : URL)],
          clients := s.clients }
        c.HTTPClient = some hcl := hc
    rw [heap_do c _ ctx _ decode default _ base hcl hu2 hc1]
    refine ⟨heap.Store.mk (s.urls ++
        [refURL, ({ ep with RawQuery := (ep.Query.Set (utf8 "query_term") term).Encode } : URL)])
      s.clients, ?_, ⟨⟨[refURL, _], rfl⟩, rfl⟩⟩
    cases hr : Client.do_traced { baseURL := base, HTTPClient := hcl } ctx
        { ep with RawQuery := (ep.Query.Set (utf8 "query_term") term).Encode } decode
        default with
    | mk r calls =>
      obtain ⟨v, err⟩ := r
      cases err <;> rfl

theorem newClient_base (t : http.Client) :
    (heap.NewClient { urls := [], clients := [] } t).2.url
        (heap.NewClient { urls := [], clients := [] } t).1.baseURL =
      some (testClient 200 (utf8 "\x7b\x7d")).baseURL := by
  have h : url.Parse defaultBaseURL = .ok (testClient 200 (utf8 "\x7b\x7d")).baseURL := by
    rw [testClient_base]
    decide
  unfold heap.NewClient
  rw [h]
  rfl

/-! ## No accessor changes the client -/

/-- C25: take a store of objects in which the pointers of the client point
to the base URL `base` and to the HTTP client `hcl`.  Every accessor, called
with any arguments, returns on that store what the accessor of the pure
model returns for the client of these two values (the same value or error,
after the same requests), and leaves every object of the store at its
address with the value it had; what it builds, `GetSearch` and the query
string it sets included, lies in new objects.  The pointers of the client
point to the same base URL (scheme, host, path, raw query and the rest) and
the same HTTP client after the call, and a second call with the same
arguments, made on the store the first one left, returns the same again,
hence builds the request of the same URL. -/
theorem accessors_leave_client (c : heap.Client) (s : heap.Store) (base : URL)
    (hcl : http.Client) (ctx : http.Context)
    (hb : s.url c.baseURL = some base) (hc : s.client c.HTTPClient = some hcl) :
    (∀ (asNumber : Int) (decode : Decoder ASNInfo),
      LeavesClient c s (fun s0 => c.GetASN s0 ctx asNumber decode)
        (Client.GetASN_traced { baseURL := base, HTTPClient := hcl } ctx asNumber decode)) ∧
    (∀ (asNumber : Int) (decode : Decoder ASNPrefixesInfo),
      LeavesClient c s (fun s0 => c.GetASNPrefixes s0 ctx asNumber decode)
        (Client.GetASNPrefixes_traced { baseURL := base, HTTPClient := hcl } ctx asNumber decode)) ∧
    (∀ (asNumber : Int) (decode : Decoder ASNPeersInfo),
      LeavesClient c s (fun s0 => c.GetASNPeers s0 ctx asNumber decode)
        (Client.GetASNPeers_traced { baseURL := base, HTTPClient := hcl } ctx asNumber decode)) ∧
    (∀ (asNumber : Int) (decode : Decoder ASNUpstreamsInfo),
      LeavesClient c s (fun s0 => c.GetASNUpstreams s0 ctx asNumber decode)
        (Client.GetASNUpstreams_traced { baseURL := base, HTTPClient := hcl } ctx asNumber decode)) ∧
    (∀ (asNumber : Int) (decode : Decoder ASNDownstreamsInfo),
      LeavesClient c s (fun s0 => c.GetASNDownstreams s0 ctx asNumber decode)
        (Client.GetASNDownstreams_traced { baseURL := base, HTTPClient := hcl } ctx asNumber decode)) ∧
    (∀ (asNumber : Int) (decode : Decoder ASNIxsInfo),
      LeavesClient c s (fun s0 => c.GetASNIxs s0 ctx asNumber decode)
        (Client.GetASNIxs_traced { baseURL := base, HTTPClient := hcl } ctx asNumber decode)) ∧
    (∀ (ipAddress : GoString) (cidr : Int) (decode : Decoder PrefixInfo),
      LeavesClient c s (fun s0 => c.GetPrefix s0 ctx ipAddress cidr decode)
        (Client.GetPrefix_traced { baseURL := base, HTTPClient := hcl } ctx ipAddress cidr decode)) ∧
    (∀ (ipAddress : GoString) (decode : Decoder IPInfo),
      LeavesClient c s (fun s0 => c.GetIP s0 ctx ipAddress decode)
        (Client.GetIP_traced { baseURL := base, HTTPClient := hcl } ctx ipAddress decode)) ∧
    (∀ (ixID : Int) (decode : Decoder IXInfo),
      LeavesClient c s (fun s0 => c.GetIX s0 ctx ixID decode)
        (Client.GetIX_traced { baseURL := base, HTTPClient := hcl } ctx ixID decode)) ∧
    (∀ (term : GoString) (decode : Decoder SearchInfo),
      LeavesClient c s (fun s0 => c.GetSearch s0 ctx term decode)
        (Client.GetSearch_traced { baseURL := base, HTTPClient := hcl } ctx term decode)) := by
  refine ⟨?_, ?_, ?_, ?_, ?_, ?_, ?_, ?_, ?_, ?_⟩
  · intro asNumber decode
    exact leavesClient_of c base hcl _ _
      (fun s0 h0 h1 => heap_GetASN c base hcl ctx asNumber decode s0 h0 h1) s hb hc
  · intro asNumber decode
    exact leavesClient_of c base hcl _ _
      (fun s0 h0 h1 => heap_GetASNPrefixes c base hcl ctx asNumber decode s0 h0 h1) s hb hc
  · intro asNumber decode
    exact leavesClient_of c base hcl _ _
      (fun s0 h0 h1 => heap_GetASNPeers c base hcl ctx asNumber decode s0 h0 h1) s hb hc
  · intro asNumber decode
    exact leavesClient_of c base hcl _ _
      (fun s0 h0 h1 => heap_GetASNUpstreams c base hcl ctx asNumber decode s0 h0 h1) s hb hc
  · intro asNumber decode
    exact leavesClient_of c base hcl _ _
      (fun s0 h0 h1 => heap_GetASNDownstreams c base hcl ctx asNumber decode s0 h0 h1) s hb hc
  · intro asNumber decode
    exact leavesClient_of c base hcl _ _
      (fun s0 h0 h1 => heap_GetASNIxs c base hcl ctx asNumber decode s0 h0 h1) s hb hc
  · intro ipAddress cidr decode
    exact leavesClient_of c base hcl _ _
      (fun s0 h0 h1 => heap_GetPrefix c base hcl ctx ipAddress cidr decode s0 h0 h1) s hb hc
  · intro ipAddress decode
    exact leavesClient_of c base hcl _ _
      (fun s0 h0 h1 => heap_GetIP c base hcl ctx ipAddress decode s0 h0 h1) s hb hc
  · intro ixID decode
    exact leavesClient_of c base hcl _ _
      (fun s0 h0 h1 => heap_GetIX c base hcl ctx ixID decode s0 h0 h1) s hb hc
  · intro term decode
    exact leavesClient_of c base hcl _ _
      (fun s0 h0 h1 => heap_GetSearch c base hcl ctx term decode s0 h0 h1) s hb hc

/-- Witness of C25: on the store that holds nothing but the client made by
`NewClient`, `GetSearch` returns what the pure model returns, leaves the base
URL `https://api.bgpview.io` and the HTTP client in place, and returns the
same when called again. -/
theorem accessors_leave_client_witness :
    (heap.NewClient { urls := [], clients := [] } (cannedTransport 200 (utf8 "\x7b\x7d"))).2.url
        (heap.NewClient { urls := [], clients := [] }
          (cannedTransport 200 (utf8 "\x7b\x7d"))).1.baseURL =
      some (testClient 200 (utf8 "\x7b\x7d")).baseURL ∧
    LeavesClient
      (heap.NewClient { urls := [], clients := [] } (cannedTransport 200 (utf8 "\x7b\x7d"))).1
      (heap.NewClient { urls := [], clients := [] } (cannedTransport 200 (utf8 "\x7b\x7d"))).2
      (fun s0 => (heap.NewClient { urls := [], clients := [] }
        (cannedTransport 200 (utf8 "\x7b\x7d"))).1.GetSearch s0 (http.Context.live 0)
          (utf8 "cloudflare") (fun (_ : http.Body) (d : SearchInfo) => (d, none)))
      (Client.GetSearch_traced (testClient 200 (utf8 "\x7b\x7d")) (http.Context.live 0)
        (utf8 "cloudflare") (fun (_ : http.Body) (d : SearchInfo) => (d, none))) :=
  ⟨newClient_base _, (accessors_leave_client _ _ (testClient 200 (utf8 "\x7b\x7d")).baseURL
    (cannedTransport 200 (utf8 "\x7b\x7d")) (http.Context.live 0) (newClient_base _)
    rfl).2.2.2.2.2.2.2.2.2 (utf8 "cloudflare") _⟩
